import Mathlib

/-!
# TimerScheduler

A shallow embedding of `src/Timer/TimerScheduler/TimerScheduler.{h,cpp}`.

* A time point is the count of `steady_clock` ticks (nanoseconds) since the
  epoch of the clock; an interval or a start delay is a count of microseconds,
  as in `std::chrono::microseconds`. Both are signed 64-bit integers. The sum
  of a time point and a number of microseconds converts the latter to
  nanoseconds (`nanoseconds`); the result of a conversion, a sum or a
  difference is the exact result reduced to the 64-bit range (`wrap64`).
* A `std::function<void()>` is `Option Nat`: `none` is the empty function,
  `some c` holds the callable `c`.
* A `RepeatFunc` carries the address of its heap object (`addr`), so that the
  raw pointers of `functionsMap_` and `currentFunction_` are addresses.
* The scheduler thread is part of the state (`SchedThread`): it is either
  between two iterations of `run()`, or inside `runOneFunction` with the mutex
  released while the callback runs, holding the local `func`.
* `std::make_heap`, `std::push_heap` and `std::pop_heap` are library code; the
  model takes them as a parameter `HeapAlgo` that carries their contract.
* A call that terminates the program (`start()` when `thread_` is joinable) or
  whose behaviour is undefined (`cancelFunction` on a task that waits in the
  heap, which uses the iterator to a node it has erased) has the result
  `none`.
* `intervalDescr` and the `std::cout` lines only produce log text and are left
  out.

The function `quickSort` of `src/Timer/TimerCnt/TimerCnt_UnitTest.cpp` is
embedded as well: its vector is a `List Int`, its `int` indices are integers
whose overflow and whose use outside the vector are undefined behaviour
(`none`), and its loops and its recursion are bounded by fuel.
-/

set_option autoImplicit false

/-! ## Definitions -/

/-- The largest value of the signed 64-bit integer that holds the tick count
of a `std::chrono` duration or time point. -/
def INT64_MAX : Int := 9223372036854775807

/-- The smallest such value. -/
def INT64_MIN : Int := -9223372036854775808

/-- The value a signed 64-bit integer holds after an arithmetic operation with
the exact result `x`: the number congruent to `x` modulo `2^64` between
`INT64_MIN` and `INT64_MAX`, which is `x` itself when `x` is in that range. (An
overflow is undefined behaviour in C++; this is what the machine instruction
computes.) -/
def wrap64 (x : Int) : Int :=
  (x + 9223372036854775808) % 18446744073709551616 - 9223372036854775808

/-- The conversion of a `std::chrono::microseconds` value to the duration type
of `steady_clock`, whose tick is the nanosecond: the count is multiplied by
1000. It takes place where a number of microseconds is added to a time
point. -/
def nanoseconds (us : Int) : Int :=
  wrap64 (us * 1000)

/-- The task record `RepeatFunc` of `TimerScheduler.h`. The interval function
handed to the constructor is always a `ConstIntervalFunctor`, so the closure
`nextRunTimeFunc` is determined by the constant `interval` it captures. -/
structure RepeatFunc where
  cb : Option Nat
  interval : Int
  nextRunTime : Int
  name : String
  startDelay : Int
  runOnce : Bool
  addr : Nat
deriving DecidableEq, Repr

namespace RepeatFunc

/-- The constructor: `nextRunTime` is value-initialised (the clock epoch). -/
def new (cback : Option Nat) (intervalFn : Int) (nameID : String) (delay : Int)
    (once : Bool) (addr : Nat) : RepeatFunc :=
  { cb := cback, interval := intervalFn, nextRunTime := 0, name := nameID,
    startDelay := delay, runOnce := once, addr := addr }

/-- The closure built by `getNextRunTimeFunc`: `curTime + intervalFn()`, a
time point plus a number of microseconds. -/
def nextRunTimeFunc (f : RepeatFunc) (curTime : Int) : Int :=
  wrap64 (curTime + nanoseconds f.interval)

def getNextRunTime (f : RepeatFunc) : Int :=
  f.nextRunTime

def setNextRunTimeSteady (f : RepeatFunc) : RepeatFunc :=
  { f with nextRunTime := f.nextRunTimeFunc f.nextRunTime }

def setNextRunTimeStrict (f : RepeatFunc) (curTime : Int) : RepeatFunc :=
  { f with nextRunTime := f.nextRunTimeFunc curTime }

/-- The assignment `nextRunTime = curTime + startDelay`, a time point plus a
number of microseconds. -/
def resetNextRunTime (f : RepeatFunc) (curTime : Int) : RepeatFunc :=
  { f with nextRunTime := wrap64 (curTime + nanoseconds f.startDelay) }

def cancel (f : RepeatFunc) : RepeatFunc :=
  { f with cb := none }

def isValid (f : RepeatFunc) : Bool :=
  f.cb.isSome

end RepeatFunc

/-- The comparator `TimerScheduler::RunTimeOrder`. -/
def RunTimeOrder (f1 f2 : RepeatFunc) : Bool :=
  decide (f1.getNextRunTime > f2.getNextRunTime)

/-- The range is a heap with respect to `RunTimeOrder` (as `std::is_heap`): no
element is ordered before its parent, the parent of index `i` being
`(i - 1) / 2`. -/
def IsHeap (l : List RepeatFunc) : Prop :=
  ∀ i, ∀ h : i < l.length,
    RunTimeOrder (l.get ⟨(i - 1) / 2, by omega⟩) (l.get ⟨i, h⟩) = false

instance (l : List RepeatFunc) : Decidable (IsHeap l) := by
  unfold IsHeap
  infer_instance

/-- The three heap primitives of `<algorithm>`, used with `fnCmp_`, with the
contract the C++ standard gives them: each only rearranges the range;
`make_heap` yields a heap; `push_heap` yields a heap when all but the last
element formed one; `pop_heap` moves the first element to the back and, on a
heap, leaves a heap in front of it. -/
structure HeapAlgo where
  make_heap : List RepeatFunc → List RepeatFunc
  push_heap : List RepeatFunc → List RepeatFunc
  pop_heap : List RepeatFunc → List RepeatFunc
  make_heap_perm : ∀ l, (make_heap l).Perm l
  make_heap_heap : ∀ l, IsHeap (make_heap l)
  push_heap_perm : ∀ l, (push_heap l).Perm l
  push_heap_heap : ∀ l, IsHeap l.dropLast → IsHeap (push_heap l)
  pop_heap_perm : ∀ l, (pop_heap l).Perm l
  pop_heap_back : ∀ l, (pop_heap l).getLast? = l.head?
  pop_heap_heap : ∀ l, IsHeap l → IsHeap (pop_heap l).dropLast

/-- The `std::invalid_argument` exceptions the scheduler throws, by message:
"time interval must be non-negative", "Scheduled function must be set",
"start delay must be non-negative", "a function named ... already exists". -/
inductive InvalidArgument where
  | intervalNegative
  | functionNotSet
  | startDelayNegative
  | alreadyExists (nameID : String)
deriving DecidableEq, Repr

/-- The constructor of `ConstIntervalFunctor`: throws on a negative interval,
otherwise the functor returns `interval` on every call. -/
def ConstIntervalFunctor (interval : Int) : Except InvalidArgument Int :=
  if interval < 0 then .error .intervalNegative else .ok interval

/-- State of `thread_` and of the scheduler thread behind it. -/
inductive SchedThread where
  /-- No joinable thread: never started, or joined by `shutdown()`. -/
  | notJoinable
  /-- Inside `run()`, at the head of the loop or blocked in one of its waits. -/
  | atLoop
  /-- Inside `runOneFunction`, between `lock.unlock()` and `lock.lock()`: the
  callback is running and the local `func` owns the task. -/
  | inCallback (func : RepeatFunc)
  /-- The function `run()` has returned; the thread has not been joined yet. -/
  | returned
deriving DecidableEq, Repr

/-- The local `func` of `runOneFunction`, when the thread is there. -/
def SchedThread.locals : SchedThread → List RepeatFunc
  | .inCallback func => [func]
  | _ => []

/-- How the call `func->cb()` in `runOneFunction` ends. -/
inductive CallOutcome where
  | returned
  /-- The callback threw an object of a type derived from `std::exception`. -/
  | threwStdException
  /-- The callback threw an object of any other type. -/
  | threwOther
deriving DecidableEq, Repr

/-- The handler `catch (const std::exception &)` around the call: whether
control reaches `lock.lock()` after it. An exception no handler matches leaves
`runOneFunction`. -/
def CallOutcome.reachesLock : CallOutcome → Bool
  | .returned => true
  | .threwStdException => true
  | .threwOther => false

/-- The map `FunctionMap`, from a name to the address of a task. -/
abbrev FunctionMap := List (String × Nat)

namespace FunctionMap

def find (m : FunctionMap) (k : String) : Option Nat :=
  List.lookup k m

def erase (m : FunctionMap) (k : String) : FunctionMap :=
  m.filter (fun e => e.1 != k)

/-- The assignment `m[k] = v`. -/
def assign (m : FunctionMap) (k : String) (v : Nat) : FunctionMap :=
  (k, v) :: erase m k

/-- The read `it->second` through an iterator `it` to the node of the key `k`,
in the map `m` as it is at the time of the read: the iterator is valid while
`m` has the node. `none` is the read through an invalidated iterator, which is
undefined behaviour. -/
def second (m : FunctionMap) (k : String) : Option Nat :=
  m.find k

end FunctionMap

/-- The data members of `TimerScheduler` (the mutex and the condition variable
are represented by the atomicity of the operations below). -/
structure TimerScheduler where
  thread_ : SchedThread
  running_ : Bool
  functions_ : List RepeatFunc
  functionsMap_ : FunctionMap
  currentFunction_ : Option Nat
  steady_ : Bool
  cancellingCurrentFunction_ : Bool
deriving DecidableEq, Repr

/-- The thread that makes a call: the scheduler thread itself, from within a
callback, or any other thread. -/
inductive Caller where
  | schedulerThread
  | otherThread
deriving DecidableEq, Repr

/-- What a call of `std::thread::join` on `thread_` does. -/
inductive JoinResult where
  /-- The thread has ended: the call returns and `thread_` is not joinable any
  more. -/
  | joined (s : TimerScheduler)
  /-- The thread still runs: the caller waits. -/
  | waits
  /-- The call throws `std::system_error`. -/
  | systemError
deriving DecidableEq, Repr

namespace TimerScheduler

/-- The default-constructed scheduler. -/
def init : TimerScheduler :=
  { thread_ := .notJoinable, running_ := false, functions_ := [],
    functionsMap_ := [], currentFunction_ := none, steady_ := false,
    cancellingCurrentFunction_ := false }

/-- Every live `RepeatFunc` object: those owned by `functions_` and the one
owned by the scheduler thread during a callback. -/
def objects (s : TimerScheduler) : List RepeatFunc :=
  s.functions_ ++ s.thread_.locals

/-- Dereference of a `RepeatFunc*`: the live object at the address. In the
states the scheduler reaches every pointer it holds designates a live object
(see `WF`); the tests below read a pointer to no live object as a failed
test. -/
def deref (s : TimerScheduler) (p : Nat) : Option RepeatFunc :=
  s.objects.find? (fun f => f.addr == p)

/-- Apply `g` to the object at address `p`, wherever it is owned. -/
def mutate (s : TimerScheduler) (p : Nat) (g : RepeatFunc → RepeatFunc) :
    TimerScheduler :=
  { s with
    functions_ := s.functions_.map (fun f => if f.addr = p then g f else f)
    thread_ := match s.thread_ with
      | .inCallback func => .inCallback (if func.addr = p then g func else func)
      | t => t }

/-- The test `it != functionsMap_.end() && it->second->isValid()` for
`it = functionsMap_.find(nameID)`; yields the object `*it->second`. -/
def findValid (s : TimerScheduler) (nameID : String) : Option RepeatFunc :=
  match s.functionsMap_.find nameID with
  | none => none
  | some p =>
    match s.deref p with
    | some f => if f.isValid then some f else none
    | none => none

/-- The test `currentFunction_ && currentFunction_->name == nameID`; yields
the object `*currentFunction_`. -/
def currentNamed (s : TimerScheduler) (nameID : String) : Option RepeatFunc :=
  match s.currentFunction_ with
  | none => none
  | some p =>
    match s.deref p with
    | some f => if f.name = nameID then some f else none
    | none => none

/-- The object `*currentFunction_`, when the pointer is set. -/
def currentTask (s : TimerScheduler) : Option RepeatFunc :=
  match s.currentFunction_ with
  | none => none
  | some p => s.deref p

/-- The method `start()`; `now` is the reading of `steady_clock::now()`. The
new thread begins at the head of the loop of `run()`. The result is `none`
when the call terminates the program: the assignment
`thread_ = std::thread(...)` to a `thread_` that is still joinable calls
`std::terminate`. -/
def start (H : HeapAlgo) (s : TimerScheduler) (now : Int) :
    Option (Bool × TimerScheduler) :=
  if s.running_ then some (false, s)
  else if s.thread_ = .notJoinable then
    some (true, { s with
      functions_ := H.make_heap (s.functions_.map (fun f => f.resetNextRunTime now))
      thread_ := .atLoop
      running_ := true })
  else none

/-- The locked block of `shutdown()`; the call then blocks in `thread_.join()`
(see `join`) before it returns the same result. -/
def shutdown (s : TimerScheduler) : Bool × TimerScheduler :=
  if !s.running_ then (false, s)
  else (true, { s with running_ := false })

/-- The call `thread_.join()` that ends `shutdown()`, by the thread that makes
it. From another thread it returns once `run()` has returned and waits until
then. From the scheduler thread itself, that is from a callback, it throws
`std::system_error` (`resource_deadlock_would_occur`), as it does on a
`thread_` that is not joinable (`invalid_argument`). -/
def join (s : TimerScheduler) (caller : Caller) : JoinResult :=
  match s.thread_ with
  | .notJoinable => .systemError
  | .returned => .joined { s with thread_ := .notJoinable }
  | .atLoop => .waits
  | .inCallback _ =>
    match caller with
    | .schedulerThread => .systemError
    | .otherThread => .waits

def setSteady (s : TimerScheduler) (steady : Bool) : TimerScheduler :=
  { s with steady_ := steady }

/-- The method `addFunctionToHeapChecked`. `now` is the reading of the clock
taken when the scheduler is running, `addr` the address `std::make_unique`
returns. The first component is the exception thrown, if any. -/
def addFunctionToHeapChecked (H : HeapAlgo) (s : TimerScheduler) (cb : Option Nat)
    (fn : Int) (nameID : String) (startDelay : Int) (runOnce : Bool)
    (now : Int) (addr : Nat) : Option InvalidArgument × TimerScheduler :=
  if cb.isNone then (some .functionNotSet, s)
  else if startDelay < 0 then (some .startDelayNegative, s)
  else if (s.findValid nameID).isSome then (some (.alreadyExists nameID), s)
  else if (s.currentNamed nameID).isSome then (some (.alreadyExists nameID), s)
  else
    let func := RepeatFunc.new cb fn nameID startDelay runOnce addr
    let s1 := { s with
      functions_ := s.functions_ ++ [func]
      functionsMap_ := s.functionsMap_.assign func.name func.addr }
    if s1.running_ then
      (none, { s1 with
        functions_ := H.push_heap (s.functions_ ++ [func.resetNextRunTime now]) })
    else (none, s1)

/-- The method `addFunction`: the `ConstIntervalFunctor` argument is built
first and may throw. -/
def addFunction (H : HeapAlgo) (s : TimerScheduler) (cb : Option Nat)
    (interval : Int) (nameID : String) (startDelay : Int)
    (now : Int) (addr : Nat) : Option InvalidArgument × TimerScheduler :=
  match ConstIntervalFunctor interval with
  | .error e => (some e, s)
  | .ok fn => s.addFunctionToHeapChecked H cb fn nameID startDelay false now addr

/-- The method `addFunctionOnce`. -/
def addFunctionOnce (H : HeapAlgo) (s : TimerScheduler) (cb : Option Nat)
    (nameID : String) (startDelay : Int)
    (now : Int) (addr : Nat) : Option InvalidArgument × TimerScheduler :=
  match ConstIntervalFunctor 0 with
  | .error e => (some e, s)
  | .ok fn => s.addFunctionToHeapChecked H cb fn nameID startDelay true now addr

/-- The state in the second branch of `cancelFunction` after
`functionsMap_.erase(it->second->name)`, with `func` the task `*it->second`. -/
def cancelFunctionErased (s : TimerScheduler) (func : RepeatFunc) : TimerScheduler :=
  { s with functionsMap_ := s.functionsMap_.erase func.name }

/-- The method `cancelFunction`. The result is `none` when the behaviour of
the call is undefined: the second branch executes
`functionsMap_.erase(it->second->name)` and then `it->second->cancel()`, with
`it` the iterator that `find(nameID)` returned; the iterator is invalid by
then when the erased node is its own. -/
def cancelFunction (s : TimerScheduler) (nameID : String) :
    Option (Bool × TimerScheduler) :=
  match s.currentNamed nameID with
  | some cur =>
    some (true, { s with
      functionsMap_ := s.functionsMap_.erase cur.name
      currentFunction_ := none
      cancellingCurrentFunction_ := true })
  | none =>
    match s.findValid nameID with
    | some func =>
      match (s.cancelFunctionErased func).functionsMap_.second nameID with
      | some p => some (true, (s.cancelFunctionErased func).mutate p RepeatFunc.cancel)
      | none => none
    | none => some (false, s)

/-- The method `cancelFunctionAndWait` up to the point where it either returns
or blocks in `runningCondvar_.wait`: the same statements as `cancelFunction`
up to there. When the current task was the target, the call returns only in a
state that satisfies `waitOver`. -/
def cancelFunctionAndWait (s : TimerScheduler) (nameID : String) :
    Option (Bool × TimerScheduler) :=
  match s.currentNamed nameID with
  | some cur =>
    some (true, { s with
      functionsMap_ := s.functionsMap_.erase cur.name
      currentFunction_ := none
      cancellingCurrentFunction_ := true })
  | none =>
    match s.findValid nameID with
    | some func =>
      match (s.cancelFunctionErased func).functionsMap_.second nameID with
      | some p => some (true, (s.cancelFunctionErased func).mutate p RepeatFunc.cancel)
      | none => none
    | none => some (false, s)

/-- What a call of `cancelFunction` does in a run in which the read of
`it->second` from the erased node still yields the pointer the node held (its
memory is freed, not yet reused): the queued object is cancelled and the call
returns true. Where the behaviour of `cancelFunction` is defined this is its
result; the executions of the model continue with it where it is not. -/
def cancelFunctionStale (s : TimerScheduler) (nameID : String) : Bool × TimerScheduler :=
  match s.currentNamed nameID with
  | some cur =>
    (true, { s with
      functionsMap_ := s.functionsMap_.erase cur.name
      currentFunction_ := none
      cancellingCurrentFunction_ := true })
  | none =>
    match s.findValid nameID with
    | some f =>
      (true, { s with functionsMap_ := s.functionsMap_.erase f.name }.mutate
        f.addr RepeatFunc.cancel)
    | none => (false, s)

/-- The same for `cancelFunctionAndWait`. -/
def cancelFunctionAndWaitStale (s : TimerScheduler) (nameID : String) :
    Bool × TimerScheduler :=
  match s.currentNamed nameID with
  | some cur =>
    (true, { s with
      functionsMap_ := s.functionsMap_.erase cur.name
      currentFunction_ := none
      cancellingCurrentFunction_ := true })
  | none =>
    match s.findValid nameID with
    | some f =>
      (true, { s with functionsMap_ := s.functionsMap_.erase f.name }.mutate
        f.addr RepeatFunc.cancel)
    | none => (false, s)

/-- The predicate of the wait in `cancelFunctionAndWait`. -/
def waitOver (s : TimerScheduler) : Bool :=
  !s.cancellingCurrentFunction_

/-- The first part of `runOneFunction`, down to `lock.unlock()`: the task at
the back of `functions_` moves into the local `func`, becomes the current
function and gets its next run time; the thread then calls `func->cb()`. -/
def runOneFunctionInvoke (s : TimerScheduler) (now : Int) : TimerScheduler :=
  match s.functions_.getLast? with
  | none => s
  | some func =>
    let s1 := { s with functions_ := s.functions_.dropLast }
    if func.cb.isNone then s1
    else
      { s1 with
        currentFunction_ := some func.addr
        thread_ := .inCallback
          (if s.steady_ then func.setNextRunTimeSteady
           else func.setNextRunTimeStrict now) }

/-- The second part of `runOneFunction`, from `lock.lock()` on, after the
callback returned or its `std::exception` was caught. The source reads
`runOnce` and `name` through `currentFunction_`, which points to the local
`func` whenever it is set. -/
def runOneFunctionResume (H : HeapAlgo) (s : TimerScheduler) : TimerScheduler :=
  match s.thread_ with
  | .inCallback func =>
    match s.currentFunction_ with
    | none =>
      { s with cancellingCurrentFunction_ := false, thread_ := .atLoop }
    | some p =>
      match s.deref p with
      | none => s
      | some cur =>
        if cur.runOnce then
          { s with
            functionsMap_ := s.functionsMap_.erase cur.name
            currentFunction_ := none
            thread_ := .atLoop }
        else
          let fs := s.functions_ ++ [func]
          { s with
            functions_ := if s.running_ then H.push_heap fs else fs
            currentFunction_ := none
            thread_ := .atLoop }
  | _ => s

/-- The whole of `runOneFunction`: `outcome` is how the callback ends, `during`
what the other threads do to the scheduler while the mutex is released. The
result is `none` when an exception leaves the function. -/
def runOneFunction (H : HeapAlgo) (s : TimerScheduler) (now : Int) (outcome : CallOutcome)
    (during : TimerScheduler → TimerScheduler) : Option TimerScheduler :=
  match s.functions_.getLast? with
  | none => some s
  | some func =>
    if func.cb.isNone then some (s.runOneFunctionInvoke now)
    else if outcome.reachesLock then
      some ((during (s.runOneFunctionInvoke now)).runOneFunctionResume H)
    else none

/-- What one pass through the body of the `while` loop of `run()` did. -/
inductive LoopAction where
  /-- The flag `running_` was false: `run()` returns. -/
  | exit
  /-- The heap was empty: wait on the condition variable. -/
  | waitEmpty
  /-- The popped task was invalid: it was dropped (`continue`). -/
  | dropped (func : RepeatFunc)
  /-- The popped task is due: `runOneFunction` starts and invokes it. -/
  | invoked (func : RepeatFunc)
  /-- The popped task is not due: pushed back, timed wait. -/
  | sleep (sleepTime : Int)
deriving DecidableEq, Repr

/-- One pass of the scheduler thread through the `while (running_)` loop of
`run()`, from the loop test to the next point where the thread waits, invokes
a callback, continues or returns. `now` is the reading of the clock the pass
takes. (After `pop_heap` the range is as long as before, so `back()` exists.) -/
def runIteration (H : HeapAlgo) (s : TimerScheduler) (now : Int) :
    LoopAction × TimerScheduler :=
  if !s.running_ then (.exit, { s with thread_ := .returned })
  else if s.functions_.isEmpty then (.waitEmpty, s)
  else
    let fs := H.pop_heap s.functions_
    match fs.getLast? with
    | none => (.waitEmpty, s)
    | some back =>
      if !back.isValid then
        (.dropped back, { s with functions_ := fs.dropLast })
      else
        let sleepTime := wrap64 (back.getNextRunTime - now)
        if sleepTime < 0 then
          (.invoked back, { s with functions_ := fs }.runOneFunctionInvoke now)
        else
          (.sleep sleepTime, { s with functions_ := H.push_heap fs })

end TimerScheduler

/-- The order the heap is kept in: earlier `nextRunTime` first. -/
def byRunTime (a b : RepeatFunc) : Prop :=
  a.nextRunTime ≤ b.nextRunTime

instance : DecidableRel byRunTime :=
  fun a b => inferInstanceAs (Decidable (a.nextRunTime ≤ b.nextRunTime))

instance : IsTotal RepeatFunc byRunTime :=
  ⟨fun a b => Int.le_total a.nextRunTime b.nextRunTime⟩

instance : IsTrans RepeatFunc byRunTime :=
  ⟨fun _ _ _ hab hbc => Int.le_trans hab hbc⟩

instance : IsRefl RepeatFunc byRunTime :=
  ⟨fun a => Int.le_refl a.nextRunTime⟩

def sortByRunTime (l : List RepeatFunc) : List RepeatFunc :=
  List.insertionSort byRunTime l

def popSorted : List RepeatFunc → List RepeatFunc
  | [] => []
  | x :: xs => sortByRunTime xs ++ [x]

/-- A heap implementation that meets the contract of `HeapAlgo`, used to
evaluate the model on concrete inputs. It keeps the range sorted by
`nextRunTime`; a sorted range is a heap. -/
def sortingHeap : HeapAlgo :=
  have sorted_heap : ∀ l : List RepeatFunc, l.Sorted byRunTime → IsHeap l := by
    intro l h i hi
    have hle : (⟨(i - 1) / 2, by omega⟩ : Fin l.length) ≤ ⟨i, hi⟩ := by
      show (i - 1) / 2 ≤ i
      omega
    have := List.Sorted.rel_get_of_le h hle
    simp only [RunTimeOrder, RepeatFunc.getNextRunTime, decide_eq_false_iff_not, gt_iff_lt,
      not_lt]
    exact this
  { make_heap := sortByRunTime
    push_heap := sortByRunTime
    pop_heap := popSorted
    make_heap_perm := List.perm_insertionSort byRunTime
    make_heap_heap := fun l => sorted_heap _ (List.sorted_insertionSort byRunTime l)
    push_heap_perm := List.perm_insertionSort byRunTime
    push_heap_heap := fun l _ => sorted_heap _ (List.sorted_insertionSort byRunTime l)
    pop_heap_perm := fun l => by
      cases l with
      | nil => exact List.Perm.refl _
      | cons x xs =>
        have h1 : (sortByRunTime xs ++ [x]).Perm (x :: sortByRunTime xs) :=
          (List.perm_append_comm).trans (List.Perm.refl _)
        exact h1.trans ((List.perm_insertionSort byRunTime xs).cons x)
    pop_heap_back := fun l => by
      cases l with
      | nil => rfl
      | cons x xs => simp [popSorted]
    pop_heap_heap := fun l _ => by
      cases l with
      | nil => intro i hi; simp [popSorted] at hi
      | cons x xs =>
        have : (popSorted (x :: xs)).dropLast = sortByRunTime xs := by simp [popSorted]
        rw [this]
        exact sorted_heap _ (List.sorted_insertionSort byRunTime xs) }

/-- One invocation of a callback by the scheduler thread. -/
structure Call where
  /-- The task as it was popped, before its next run time is advanced. -/
  func : RepeatFunc
  /-- The reading `now` of the loop iteration that invoked it. -/
  now : Int
  /-- The last activation of the task before this invocation. -/
  activatedAt : Option Int
deriving DecidableEq, Repr

structure World where
  sched : TimerScheduler
  /-- The current reading of `steady_clock`. -/
  clock : Int
  /-- The allocator: every address below is in use or was used. -/
  nextAddr : Nat
  /-- History of the invocations, most recent first. -/
  calls : List Call
  /-- History of the activations (address, time), most recent first: a task is
  activated by a `start()` that returns true, or by its registration while
  the scheduler is running. -/
  activations : List (Nat × Int)
deriving DecidableEq, Repr

inductive Event where
  /-- Time passes: `d` ticks of the clock (nanoseconds). -/
  | tick (d : Nat)
  | start
  /-- The locked block of `shutdown()`. -/
  | shutdown
  /-- The end of `thread_.join()` in `shutdown()`. -/
  | join
  | setSteady (steady : Bool)
  | addFunction (cb : Option Nat) (interval : Int) (nameID : String) (startDelay : Int)
  | addFunctionOnce (cb : Option Nat) (nameID : String) (startDelay : Int)
  | cancelFunction (nameID : String)
  | cancelFunctionAndWait (nameID : String)
  /-- The scheduler thread makes one pass through the loop of `run()`. -/
  | loop
  /-- The running callback returns, or throws a `std::exception`, and
  `runOneFunction` goes on. -/
  | callbackEnds
deriving DecidableEq, Repr

namespace World

def init : World :=
  { sched := TimerScheduler.init, clock := 0, nextAddr := 0, calls := [], activations := [] }

/-- The effect of `addFunction` / `addFunctionOnce` on the world: the object is
allocated at the next address, and is activated when the scheduler runs. -/
def added (w : World) (r : Option InvalidArgument × TimerScheduler) : World :=
  match r.1 with
  | some _ => { w with sched := r.2 }
  | none =>
    { w with
      sched := r.2
      nextAddr := w.nextAddr + 1
      activations :=
        if w.sched.running_ then (w.nextAddr, w.clock) :: w.activations
        else w.activations }

/-- One atomic event. An event that cannot take place in the state leaves it
unchanged: the clock does not pass the largest time point, a pass of the loop
needs the thread at the loop, the end of a callback needs a running callback,
and `join` (by the thread that called `shutdown()`) needs `run()` to have
returned. The executions contain no `start()` that terminates the program: in
a state in which it would, the event leaves the state unchanged as well. A
cancellation whose behaviour is undefined in the source continues as
`cancelFunctionStale` describes. -/
def step (H : HeapAlgo) (w : World) : Event → World
  | .tick d =>
    { w with clock := if w.clock + d ≤ INT64_MAX then w.clock + d else w.clock }
  | .start =>
    match w.sched.start H w.clock with
    | some (true, s) =>
      { w with
        sched := s
        activations := w.sched.functions_.map (fun f => (f.addr, w.clock)) ++ w.activations }
    | _ => w
  | .shutdown => { w with sched := w.sched.shutdown.2 }
  | .join =>
    match w.sched.join .otherThread with
    | .joined s => { w with sched := s }
    | _ => w
  | .setSteady b => { w with sched := w.sched.setSteady b }
  | .addFunction cb interval nameID startDelay =>
    w.added (w.sched.addFunction H cb interval nameID startDelay w.clock w.nextAddr)
  | .addFunctionOnce cb nameID startDelay =>
    w.added (w.sched.addFunctionOnce H cb nameID startDelay w.clock w.nextAddr)
  | .cancelFunction nameID => { w with sched := (w.sched.cancelFunctionStale nameID).2 }
  | .cancelFunctionAndWait nameID =>
    { w with sched := (w.sched.cancelFunctionAndWaitStale nameID).2 }
  | .loop =>
    match w.sched.thread_ with
    | .atLoop =>
      match w.sched.runIteration H w.clock with
      | (.invoked func, s) =>
        { w with
          sched := s
          calls := { func := func, now := w.clock,
                     activatedAt := List.lookup func.addr w.activations } :: w.calls }
      | (_, s) => { w with sched := s }
    | _ => w
  | .callbackEnds => { w with sched := w.sched.runOneFunctionResume H }

/-- The world after a sequence of events. -/
def exec (H : HeapAlgo) (w : World) (es : List Event) : World :=
  es.foldl (step H) w

end World

/-- The states an execution from the default-constructed scheduler reaches. -/
inductive Reachable (H : HeapAlgo) : World → Prop where
  | init : Reachable H World.init
  | step (w : World) (e : Event) : Reachable H w → Reachable H (w.step H e)

namespace TimerScheduler

/-- Representation invariant of the scheduler: live objects have distinct
addresses; every map entry designates a valid task of `functions_` under its
own name, or the current function; every valid task of `functions_` is in the
map; the current function is the valid task the thread is running, and the
map holds it. -/
structure WF (s : TimerScheduler) : Prop where
  nodup : (s.objects.map (fun f => f.addr)).Nodup
  map_sound : ∀ k p, (k, p) ∈ s.functionsMap_ →
    (∃ f ∈ s.functions_, f.addr = p ∧ f.name = k ∧ f.isValid = true) ∨
    (∃ F, s.thread_ = .inCallback F ∧ s.currentFunction_ = some p ∧ F.addr = p ∧ F.name = k)
  map_complete : ∀ f ∈ s.functions_, f.isValid = true →
    s.functionsMap_.find f.name = some f.addr
  current : ∀ p, s.currentFunction_ = some p →
    ∃ F, s.thread_ = .inCallback F ∧ F.addr = p ∧ F.isValid = true ∧
      s.functionsMap_.find F.name = some p

/-- The task a due iteration hands to the callback: the popped task with its
next run time advanced by the policy in force. -/
def advanced (s : TimerScheduler) (back : RepeatFunc) (now : Int) : RepeatFunc :=
  if s.steady_ then back.setNextRunTimeSteady else back.setNextRunTimeStrict now

end TimerScheduler

/-- The object `f2` is the object `f1` at a later time: same address and
registration data, and the callback kept or cleared. -/
def RepeatFunc.sameTask (f2 f1 : RepeatFunc) : Prop :=
  f2.addr = f1.addr ∧ f2.name = f1.name ∧ f2.startDelay = f1.startDelay ∧
  f2.interval = f1.interval ∧ f2.runOnce = f1.runOnce ∧ (f2.cb = f1.cb ∨ f2.cb = none)

namespace World

/-- A registration event: the two ways to add a task, with their arguments. -/
def isAdd (e : Event) (cb : Option Nat) (interval : Int) (nameID : String)
    (startDelay : Int) (once : Bool) : Prop :=
  (e = .addFunction cb interval nameID startDelay ∧ once = false) ∨
  (e = .addFunctionOnce cb nameID startDelay ∧ once = true ∧ interval = 0)

/-- The world after a successful registration of the task `g`, the new
`functions_` being `l`. -/
def withTask (w : World) (g : RepeatFunc) (l : List RepeatFunc) : World :=
  { w with
    sched := { w.sched with
      functions_ := l
      functionsMap_ := w.sched.functionsMap_.assign g.name g.addr }
    nextAddr := w.nextAddr + 1
    activations :=
      if w.sched.running_ then (w.nextAddr, w.clock) :: w.activations else w.activations }

/-- The invocation an iteration records. -/
def callOf (w : World) (back : RepeatFunc) : Call :=
  { func := back, now := w.clock, activatedAt := List.lookup back.addr w.activations }

/-- Invariant of the executions: the scheduler invariant; all addresses in use
are below the allocator mark; intervals and start delays of registered tasks
are non-negative; a running scheduler has a live thread. -/
structure Inv (w : World) : Prop where
  wf : w.sched.WF
  addr_lt : ∀ f ∈ w.sched.objects, f.addr < w.nextAddr
  nonneg : ∀ f ∈ w.sched.objects, 0 ≤ f.interval ∧ 0 ≤ f.startDelay
  thread_running : w.sched.running_ = true →
    w.sched.thread_ ≠ .notJoinable ∧ w.sched.thread_ ≠ .returned

end World

/-- The events that keep the task at address `a` registered under the name
`n`: every event but a cancellation of `n`, and but the end of the callback
of the task `a` when it runs once only. -/
def keepsName (n : String) (a : Nat) (w : World) : Event → Bool
  | .cancelFunction m => m != n
  | .cancelFunctionAndWait m => m != n
  | .callbackEnds =>
    match w.sched.thread_ with
    | .inCallback F => !(F.addr == a && F.runOnce)
    | _ => true
  | _ => true

/-- Every event of the sequence keeps the registration, in the state it
occurs in. -/
def keepsNameAlong (H : HeapAlgo) (n : String) (a : Nat) : World → List Event → Bool
  | _, [] => true
  | w, e :: es => keepsName n a w e && keepsNameAlong H n a (w.step H e) es

/-- Every registration under the name `n` throws, with the duplicate-name
exception when its other arguments are valid. -/
def RejectsName (H : HeapAlgo) (n : String) (s : TimerScheduler) : Prop :=
  ∀ (cb : Option Nat) (interval startDelay now : Int) (addr : Nat),
    (s.addFunction H cb interval n startDelay now addr).1.isSome = true ∧
    (s.addFunctionOnce H cb n startDelay now addr).1.isSome = true ∧
    (cb.isSome = true → 0 ≤ interval → 0 ≤ startDelay →
      (s.addFunction H cb interval n startDelay now addr).1 = some (.alreadyExists n)) ∧
    (cb.isSome = true → 0 ≤ startDelay →
      (s.addFunctionOnce H cb n startDelay now addr).1 = some (.alreadyExists n))

namespace World

/-- How a step changes one object: the registration data stay, the callback
stays or is cleared, and the next run time stays unless the step is a
`start()` that takes effect (reset) or the pass of the loop that invokes the
task (advance). -/
structure Evolves (H : HeapAlgo) (w : World) (e : Event) (f2 f1 : RepeatFunc) : Prop where
  same : f2.sameTask f1
  time : f2.nextRunTime = f1.nextRunTime ∨
    (e = .start ∧ w.sched.running_ = false ∧
      f2.nextRunTime = wrap64 (w.clock + nanoseconds f1.startDelay)) ∨
    (e = .loop ∧ w.sched.running_ = true ∧ wrap64 (f1.nextRunTime - w.clock) < 0 ∧
      f2 = w.sched.advanced f1 w.clock ∧
      (w.step H e).sched.thread_ = .inCallback f2)

/-- The invocations recorded in `w1` that were not yet recorded in `w0`, for
`w1` a state reached from `w0`. -/
def callsSince (w0 w1 : World) : List Call :=
  w1.calls.take (w1.calls.length - w0.calls.length)

/-- No live object at the address `a` has a callback any more, and `a` will
not be allocated again. -/
def Dead (a : Nat) (w : World) : Prop :=
  a < w.nextAddr ∧ ∀ f ∈ w.sched.objects, f.addr = a → f.cb = none

end World

/-- The task "tick" waits in the heap of a running scheduler. -/
def idleWorld : World :=
  World.init.exec sortingHeap [.addFunction (some 7) 100 "tick" 0, .start]

/-- The task "tick" is being executed. -/
def busyWorld : World :=
  World.init.exec sortingHeap [.addFunction (some 7) 100 "tick" 0, .start, .tick 1000, .loop]

namespace World

/-- The task at address `a` was cancelled while its callback runs, and the
callback has not ended yet. -/
def Cancelling (a : Nat) (w : World) : Prop :=
  a < w.nextAddr ∧ w.sched.currentFunction_ = none ∧
  w.sched.cancellingCurrentFunction_ = true ∧
  ∃ F, w.sched.thread_ = .inCallback F ∧ F.addr = a

end World

/-- The task "tick" as the thread holds it in `busyWorld`. -/
def tickInFlight : RepeatFunc :=
  { cb := some 7, interval := 100, nextRunTime := 101000, name := "tick",
    startDelay := 0, runOnce := false, addr := 0 }

namespace World

/-- Timing invariant. The clock is between the epoch and the largest time
point, no next run time is beyond the largest time point, and no activation
was before the epoch. While the scheduler runs, every task has been
activated; when its last activation plus its start delay (in nanoseconds) is a
time point, the next run time of the task is not before that time, or that
time has passed. Every invocation of a task whose last activation plus its
start delay was a time point happened after that time. -/
structure TimeInv (w : World) : Prop where
  clock : 0 ≤ w.clock ∧ w.clock ≤ INT64_MAX
  range : ∀ f ∈ w.sched.objects, f.nextRunTime ≤ INT64_MAX
  epoch : ∀ p ∈ w.activations, 0 ≤ p.2
  activated : w.sched.running_ = true → ∀ f ∈ w.sched.objects,
    ∃ t, List.lookup f.addr w.activations = some t ∧
      (t + f.startDelay * 1000 ≤ INT64_MAX →
        t + f.startDelay * 1000 ≤ f.nextRunTime ∨ t + f.startDelay * 1000 < w.clock)
  calls : ∀ c ∈ w.calls, ∃ t, c.activatedAt = some t ∧
    (t + c.func.startDelay * 1000 ≤ INT64_MAX → t + c.func.startDelay * 1000 < c.now)

end World

/-- Three tasks with start delays, a start, and a fourth task added while the
scheduler runs (the scenario of the test `MultipleFunctions`). -/
def multipleFunctionsRun : List Event :=
  [.addFunction (some 1) 100 "increment1" 50, .addFunction (some 2) 200 "increment2" 100,
   .addFunction (some 3) 150 "increment3" 150, .start, .tick 51000, .loop, .callbackEnds,
   .tick 50000, .loop, .callbackEnds, .loop, .tick 50000, .loop, .callbackEnds, .loop, .callbackEnds,
   .addFunction (some 3) 200 "increment4" 150, .tick 149000, .loop, .callbackEnds, .tick 2000,
   .loop, .callbackEnds, .loop, .callbackEnds, .loop]

/-- The last invocation of `multipleFunctionsRun`: the fourth task, added 151
microseconds after the epoch with a start delay of 150 microseconds, invoked
302 microseconds after the epoch. -/
def fourthTaskCall : Call :=
  { func := { cb := some 3, interval := 200, nextRunTime := 301000, name := "increment4",
              startDelay := 150, runOnce := false, addr := 3 },
    now := 302000, activatedAt := some 151000 }

namespace World

/-- The number of invocations of the task at address `a` among `cs`. -/
def invocations (a : Nat) (cs : List Call) : Nat :=
  cs.countP (fun c => c.func.addr == a)

/-- State of a task `g` that runs once only, since its registration in a
state with the invocation history `old`: every live object at its address is
the task; the invocations since are invocations of the task; and there is
none yet, or there is one and the task is no longer in `functions_`. -/
structure OneShot (g : RepeatFunc) (old : List Call) (w : World) : Prop where
  addr_lt : g.addr < w.nextAddr
  objects : ∀ f ∈ w.sched.objects, f.addr = g.addr → f.sameTask g
  history : ∃ new, w.calls = new ++ old ∧
    (∀ c ∈ new, c.func.addr = g.addr → c.func.sameTask g ∧ c.func.isValid = true) ∧
    (invocations g.addr new = 0 ∨
      (invocations g.addr new = 1 ∧ ∀ f ∈ w.sched.functions_, f.addr ≠ g.addr))

end World

/-- The one-shot task of the test `SingleRunFunction` waits for its delay and
is invoked. -/
def singleRunBefore : List Event :=
  [.start, .tick 50000, .loop, .tick 51000, .loop]

/-- The run goes on after the callback has ended. -/
def singleRunAfter : List Event :=
  singleRunBefore ++ [.callbackEnds, .tick 100000, .loop, .loop]

/-- The one-shot task as the thread holds it during its invocation. -/
def onceInFlight : RepeatFunc :=
  { cb := some 7, interval := 0, nextRunTime := 101000, name := "incrementOnce",
    startDelay := 100, runOnce := true, addr := 0 }

namespace World

/-- Every invocation of the task at address `a` in the history (most recent
first), at a time from which the interval of `T` microseconds can be added
within the range of the time points, happened later than `t0` plus the
interval for each earlier invocation of the task. -/
def spaced (a : Nat) (t0 T : Int) : List Call → Prop
  | [] => True
  | c :: rest =>
    (c.func.addr = a → c.now + T * 1000 ≤ INT64_MAX →
      t0 + (invocations a rest : Int) * (T * 1000) < c.now) ∧ spaced a t0 T rest

/-- The invocations of the task at address `a` among `cs` with a loop time of
at most `tmax`. -/
def invocationsUntil (a : Nat) (tmax : Int) (cs : List Call) : Nat :=
  cs.countP (fun c => c.func.addr == a && decide (c.now ≤ tmax))

/-- State of the task at address `a` with an interval of `T` microseconds in
a run that started at `t0` in a state with the history `old`: the scheduler
still runs, the invocations since are spaced, and, as long as the interval can
be added to the time of the clock within the range of the time points, the
next run time of the task is at least `t0` plus the interval for each
invocation since. -/
structure Paced (a : Nat) (t0 T : Int) (old : List Call) (w : World) : Prop where
  running : w.sched.running_ = true
  addr_lt : a < w.nextAddr
  epoch : 0 ≤ t0
  history : ∃ new, w.calls = new ++ old ∧ spaced a t0 T new ∧
    ∀ f ∈ w.sched.objects, f.addr = a →
      f.interval = T ∧
      (w.clock + T * 1000 ≤ INT64_MAX →
        t0 + (invocations a new : Int) * (T * 1000) ≤ f.nextRunTime)

end World

/-- The task of the test `SingleFunction`, registered on a stopped
scheduler. -/
def singleFunctionWorld : World :=
  World.init.exec sortingHeap [.addFunction (some 7) 100 "increment" 0]

/-- The same with the catch-up policy switched on. -/
def steadyFunctionWorld : World :=
  World.init.exec sortingHeap [.setSteady true, .addFunction (some 7) 100 "increment" 0]

/-- The task "increment" as registered. -/
def incrementTask : RepeatFunc :=
  { cb := some 7, interval := 100, nextRunTime := 0, name := "increment",
    startDelay := 0, runOnce := false, addr := 0 }

/-- A run of 350 microseconds after `start()` with four invocations. -/
def singleFunctionRun : List Event :=
  [.tick 1000, .loop, .callbackEnds, .tick 100000, .loop, .tick 1000, .loop, .callbackEnds,
   .tick 101000, .loop, .callbackEnds, .tick 101000, .loop, .callbackEnds, .tick 46000, .loop]

/-- The event is a registration under the name `n`. -/
def registers (n : String) : Event → Bool
  | .addFunction _ _ m _ => m == n
  | .addFunctionOnce _ m _ => m == n
  | _ => false

/-- A run in which "tick" is executed twice, another task is added and
cancelled, and the scheduler is stopped and started again. -/
def busyRun : List Event :=
  [.start, .tick 1000, .loop, .addFunction (some 8) 30 "tock" 0, .callbackEnds, .tick 200000,
   .loop, .cancelFunction "tock", .shutdown, .callbackEnds, .loop, .join, .start]

/-- While the cancelled callback still runs: time passes, the name is taken
again, the loop is idle. -/
def duringCallbackRun : List Event :=
  [.tick 5000, .addFunction (some 9) 10 "tick" 0, .loop, .cancelFunction "other", .tick 50000]

/-- After the cancelled callback has ended: the new task "tick" is invoked
twice. -/
def afterCallbackRun : List Event :=
  [.loop, .callbackEnds, .tick 30000, .loop, .callbackEnds, .shutdown, .loop, .join, .start]

/-- The task "tick" is due: one microsecond has passed since `start()`. -/
def dueWorld : World :=
  World.init.exec sortingHeap [.addFunction (some 7) 100 "tick" 0, .start, .tick 1000]

/-- The task "tick" as it waits in the heap after `start()` at time 0. -/
def tickQueued : RepeatFunc :=
  { cb := some 7, interval := 100, nextRunTime := 0, name := "tick",
    startDelay := 0, runOnce := false, addr := 0 }

/-- Two tasks on a running scheduler, "tick" cancelled while it waits in the
heap; one microsecond has passed since `start()`. -/
def cancelledWorld : World :=
  World.init.exec sortingHeap [.addFunction (some 7) 100 "tick" 0,
    .addFunction (some 8) 30 "tock" 10, .start, .cancelFunction "tick", .tick 1000]

/-- The cancelled task "tick" of `cancelledWorld`. -/
def tickCancelled : RepeatFunc :=
  { cb := none, interval := 100, nextRunTime := 0, name := "tick",
    startDelay := 0, runOnce := false, addr := 0 }

/-- The task "tock" of `cancelledWorld`. -/
def tockQueued : RepeatFunc :=
  { cb := some 8, interval := 30, nextRunTime := 10000, name := "tock",
    startDelay := 10, runOnce := false, addr := 1 }

/-- A stopped scheduler with two tasks that have run before: their next run
times are left from the earlier run. -/
def stoppedWorld : World :=
  World.init.exec sortingHeap [.addFunction (some 7) 100 "tick" 20,
    .addFunction (some 8) 30 "tock" 10, .start, .tick 21000, .loop, .callbackEnds, .loop,
    .callbackEnds, .shutdown, .loop, .join, .tick 500000]

/-- The state `dueWorld` with the catch-up policy switched on, eleven
microseconds after `start()`. -/
def steadyDueWorld : World :=
  World.init.exec sortingHeap
    [.addFunction (some 7) 100 "tick" 0, .setSteady true, .start, .tick 11000]

/-- What happens while the callback of "tick" runs: time passes and a second
task is registered. -/
def duringTickRun : List Event :=
  [.tick 5000, .addFunction (some 8) 30 "tock" 0, .loop, .tick 2000]

namespace World

/-- State of the task at address `a` with an interval of `T` and a start delay
of `D` microseconds, activated at the time `t0` in a state with the
invocation history `old`, under the catch-up policy: `steady_` is set, and the
next run time of the task is `t0` plus the start delay plus the interval for
each invocation since, in nanoseconds, reduced to the 64-bit range. -/
structure SteadyPaced (a : Nat) (t0 D T : Int) (old : List Call) (w : World) : Prop where
  steady : w.sched.steady_ = true
  addr_lt : a < w.nextAddr
  history : ∃ new, w.calls = new ++ old ∧
    ∀ f ∈ w.sched.objects, f.addr = a →
      f.interval = T ∧ f.startDelay = D ∧
      f.nextRunTime = wrap64 (t0 + D * 1000 + (invocations a new : Int) * (T * 1000))

/-- The event `e` activates, in the state `w`, the task at address `a` with
name `n`, interval `T` and start delay `D`: a `start()` that takes effect,
the task being a valid task of `functions_`; or a successful
`addFunction(cb, T, n, D)` on a running scheduler, which allocates the task at
the next address. -/
def activates (H : HeapAlgo) (w : World) (e : Event) (a : Nat) (n : String) (T D : Int) :
    Prop :=
  (e = .start ∧ w.sched.running_ = false ∧ w.sched.thread_ = .notJoinable ∧
    ∃ f ∈ w.sched.functions_, f.addr = a ∧ f.name = n ∧ f.isValid = true ∧
      f.interval = T ∧ f.startDelay = D) ∨
  (∃ cb, e = .addFunction cb T n D ∧ w.sched.running_ = true ∧ a = w.nextAddr ∧
    (w.sched.addFunction H cb T n D w.clock w.nextAddr).1 = none)

end World

/-- A number of microseconds whose count of nanoseconds, 9223372036854776000,
is beyond `INT64_MAX`. -/
def longSpan : Int := 9223372036854776

/-- A one-shot task with the start delay `longSpan` is registered, the
scheduler is started at the epoch and the loop makes a pass at once. -/
def longDelayOnceRun : List Event :=
  [.addFunctionOnce (some 7) "once" longSpan, .start, .loop]

/-- The same with a periodic task. -/
def longDelayRun : List Event :=
  [.addFunction (some 7) 100 "tick" longSpan, .start, .loop]

/-- A task with the interval `longSpan` and no start delay is registered, the
scheduler is started at the epoch, and one microsecond later the loop makes
four passes, the callback ending after each. -/
def longIntervalRun : List Event :=
  [.tick 1000, .loop, .callbackEnds, .loop, .callbackEnds, .loop, .callbackEnds, .loop,
   .callbackEnds]

/-- A one-shot task is cancelled while its callback runs, and its name is
registered anew before the callback ends. -/
def recycledNameRun : List Event :=
  [.addFunctionOnce (some 7) "once" 0, .start, .tick 1000, .loop, .cancelFunction "once",
   .addFunction (some 8) 100 "once" 0]

/-- The largest value of the type `int` (32 bits). -/
def INT_MAX : Int := 2147483647

/-- The smallest value of the type `int`. -/
def INT_MIN : Int := -2147483648

/-- The value of an `int` expression whose mathematical value is `x`: signed
overflow is undefined behaviour, rendered as `none`. -/
def intOf (x : Int) : Option Int :=
  if INT_MIN ≤ x ∧ x ≤ INT_MAX then some x else none

/-- The read `v[k]` of a `std::vector<int>` with an `int` index: an index
outside the vector is undefined behaviour, rendered as `none`. -/
def vecGet (v : List Int) (k : Int) : Option Int :=
  if 0 ≤ k then v[k.toNat]? else none

/-- The write `v[k] = x`. -/
def vecSet (v : List Int) (k : Int) (x : Int) : Option (List Int) :=
  if 0 ≤ k ∧ k < v.length then some (v.set k.toNat x) else none

/-- The loop `while (i < j && v[j] >= pivot) --j;` of `quickSort`; yields the
final `j`. The fuel bounds the number of evaluations of the loop test. (The
decrement cannot overflow: it is made when `i < j`.) -/
def scanDown (v : List Int) (pivot i : Int) : Nat → Int → Option Int
  | 0, _ => none
  | fuel + 1, j =>
    if i < j then
      match vecGet v j with
      | none => none
      | some x => if x ≥ pivot then scanDown v pivot i fuel (j - 1) else some j
    else some j

/-- The loop `while (i < j && v[i] <= pivot) ++i;` of `quickSort`; yields the
final `i`. (The increment cannot overflow: it is made when `i < j`.) -/
def scanUp (v : List Int) (pivot j : Int) : Nat → Int → Option Int
  | 0, _ => none
  | fuel + 1, i =>
    if i < j then
      match vecGet v i with
      | none => none
      | some x => if x ≤ pivot then scanUp v pivot j fuel (i + 1) else some i
    else some i

/-- The loop `while (i < j) { ... }` of `quickSort`; yields the vector and the
common final value of `i` and `j`. -/
def partitionLoop (pivot : Int) : Nat → List Int → Int → Int → Option (List Int × Int)
  | 0, _, _, _ => none
  | fuel + 1, v, i, j =>
    if i < j then
      match scanDown v pivot i (fuel + 1) j with
      | none => none
      | some j1 =>
        match vecGet v j1 with
        | none => none
        | some x =>
          match vecSet v i x with
          | none => none
          | some v1 =>
            match scanUp v1 pivot j1 (fuel + 1) i with
            | none => none
            | some i1 =>
              match vecGet v1 i1 with
              | none => none
              | some y =>
                match vecSet v1 j1 y with
                | none => none
                | some v2 => partitionLoop pivot fuel v2 i1 j1
    else some (v, i)

/-- The function `quickSort` of `TimerCnt_UnitTest.cpp`, on the vector `v` and
the `int` indices `l` and `r`; yields the vector the call leaves. The fuel
bounds the depth of the recursion and the iterations of each loop; the result
is `none` when the fuel runs out or the behaviour is undefined. -/
def quickSort : Nat → List Int → Int → Int → Option (List Int)
  | 0, _, _, _ => none
  | fuel + 1, v, l, r =>
    if l ≥ r then some v
    else
      match vecGet v l with
      | none => none
      | some pivot =>
        match partitionLoop pivot (fuel + 1) v l r with
        | none => none
        | some (v1, i) =>
          match vecSet v1 i pivot with
          | none => none
          | some v2 =>
            match intOf (i - 1) with
            | none => none
            | some r1 =>
              match quickSort fuel v2 l r1 with
              | none => none
              | some v3 =>
                match intOf (i + 1) with
                | none => none
                | some l1 => quickSort fuel v3 l1 r

/-- The element of `v` at the index `k`, and 0 outside the vector; used in the
statements about `quickSort`. -/
def valAt (v : List Int) (k : Int) : Int :=
  v.getD k.toNat 0

/-- Invariant of the loop `while (i < j)` of `quickSort(v0, l, r)` with the
pivot `pivot`, for the vector `v` and the indices `i ≤ j` at the loop test:
the place `i` is free (putting the pivot there gives a rearrangement of `v0`),
the elements before `i` are at most the pivot and those after `j` at least the
pivot, nothing changed outside `l..r`, and every element within `l..r` is one
of the elements `v0` has there. -/
structure PartInv (v0 : List Int) (l r pivot : Int) (v : List Int) (i j : Int) : Prop where
  len : v.length = v0.length
  lo : l ≤ i
  mid : i ≤ j
  hi : j ≤ r
  perm : (v.set i.toNat pivot).Perm v0
  left : ∀ k, l ≤ k → k < i → valAt v k ≤ pivot
  right : ∀ k, j < k → k ≤ r → pivot ≤ valAt v k
  outside : ∀ k, 0 ≤ k → (k < l ∨ r < k) → valAt v k = valAt v0 k
  origin : ∀ k, l ≤ k → k ≤ r → ∃ k2, l ≤ k2 ∧ k2 ≤ r ∧ valAt v k = valAt v0 k2

/-- What `quickSort(v0, l, r)` achieves, `v` being the vector it leaves: a
rearrangement of `v0` that is unchanged outside `l..r`, has within `l..r`
only elements `v0` has there, and is sorted on `l..r`. -/
structure SortedSeg (v0 : List Int) (l r : Int) (v : List Int) : Prop where
  len : v.length = v0.length
  perm : v.Perm v0
  outside : ∀ k, 0 ≤ k → (k < l ∨ r < k) → valAt v k = valAt v0 k
  origin : ∀ k, l ≤ k → k ≤ r → ∃ k2, l ≤ k2 ∧ k2 ≤ r ∧ valAt v k = valAt v0 k2
  sorted : ∀ a b, l ≤ a → a ≤ b → b ≤ r → valAt v a ≤ valAt v b

/-! ## Lemmas -/

theorem wrap64_eq (x : Int) (h1 : INT64_MIN ≤ x) (h2 : x ≤ INT64_MAX) : wrap64 x = x := by
  unfold INT64_MIN at h1
  unfold INT64_MAX at h2
  unfold wrap64
  omega

theorem wrap64_range (x : Int) : INT64_MIN ≤ wrap64 x ∧ wrap64 x ≤ INT64_MAX := by
  unfold INT64_MIN INT64_MAX wrap64
  omega

/-- Converting a summand first does not change the sum. -/
theorem wrap64_add_wrap64 (a b : Int) : wrap64 (a + wrap64 b) = wrap64 (a + b) := by
  unfold wrap64
  omega

theorem nanoseconds_eq (d : Int) (h0 : 0 ≤ d) (h : d * 1000 ≤ INT64_MAX) :
    nanoseconds d = d * 1000 := by
  unfold nanoseconds
  exact wrap64_eq _ (by unfold INT64_MIN; omega) h

/-- Adding a number of microseconds to a reduced sum. -/
theorem wrap64_step (x d : Int) :
    wrap64 (wrap64 x + nanoseconds d) = wrap64 (x + d * 1000) := by
  unfold nanoseconds wrap64
  omega

/-- The sum of a time point and a number of microseconds is exact when it is
representable. -/
theorem wrap64_add_nanoseconds (t d : Int) (ht : 0 ≤ t) (hd : 0 ≤ d)
    (h : t + d * 1000 ≤ INT64_MAX) : wrap64 (t + nanoseconds d) = t + d * 1000 := by
  rw [nanoseconds_eq d hd (by omega)]
  exact wrap64_eq _ (by unfold INT64_MIN; omega) h

namespace FunctionMap

theorem find_cons_self (m : FunctionMap) (k : String) (v : Nat) :
    find ((k, v) :: m) k = some v := by
  simp [find]

theorem find_cons_ne (m : FunctionMap) (k k2 : String) (v : Nat) (hne : k2 ≠ k) :
    find ((k, v) :: m) k2 = find m k2 := by
  have h2 : (k2 == k) = false := by simpa using hne
  simp [find, List.lookup_cons, h2]

theorem find_erase_self (m : FunctionMap) (k : String) : find (erase m k) k = none := by
  induction m with
  | nil => rfl
  | cons e m ih =>
    obtain ⟨ek, ev⟩ := e
    by_cases h : ek = k
    · have : erase ((ek, ev) :: m) k = erase m k := by simp [erase, h]
      rw [this]; exact ih
    · have : erase ((ek, ev) :: m) k = (ek, ev) :: erase m k := by simp [erase, h]
      rw [this, find_cons_ne _ _ _ _ (fun h3 => h h3.symm)]; exact ih

theorem find_erase_ne (m : FunctionMap) (k k2 : String) (hne : k2 ≠ k) :
    find (erase m k) k2 = find m k2 := by
  induction m with
  | nil => rfl
  | cons e m ih =>
    obtain ⟨ek, ev⟩ := e
    by_cases h : ek = k
    · have : erase ((ek, ev) :: m) k = erase m k := by simp [erase, h]
      rw [this, ih, find_cons_ne _ _ _ _ (h ▸ hne)]
    · have : erase ((ek, ev) :: m) k = (ek, ev) :: erase m k := by simp [erase, h]
      rw [this]
      by_cases h3 : k2 = ek
      · subst h3; rw [find_cons_self, find_cons_self]
      · rw [find_cons_ne _ _ _ _ h3, find_cons_ne _ _ _ _ h3]; exact ih

theorem mem_erase (m : FunctionMap) (k : String) (e : String × Nat) :
    e ∈ erase m k ↔ e ∈ m ∧ e.1 ≠ k := by
  simp [erase]

theorem mem_of_find (m : FunctionMap) (k : String) (p : Nat) (h : find m k = some p) :
    (k, p) ∈ m := by
  induction m with
  | nil => simp [find] at h
  | cons e m ih =>
    obtain ⟨ek, ev⟩ := e
    by_cases h3 : k = ek
    · subst h3
      rw [find_cons_self] at h
      cases h
      exact List.mem_cons_self _ _
    · rw [find_cons_ne _ _ _ _ h3] at h
      exact List.mem_cons_of_mem _ (ih h)

theorem find_assign_self (m : FunctionMap) (k : String) (v : Nat) :
    find (assign m k v) k = some v := by
  simp [assign, find]

theorem find_assign_ne (m : FunctionMap) (k k2 : String) (v : Nat) (hne : k2 ≠ k) :
    find (assign m k v) k2 = find m k2 := by
  unfold assign
  rw [find_cons_ne _ _ _ _ hne, find_erase_ne _ _ _ hne]

theorem mem_assign (m : FunctionMap) (k : String) (v : Nat) (e : String × Nat) :
    e ∈ assign m k v ↔ e = (k, v) ∨ (e ∈ m ∧ e.1 ≠ k) := by
  simp [assign, erase]

end FunctionMap

namespace TimerScheduler

theorem deref_mem (s : TimerScheduler) (p : Nat) (f : RepeatFunc) (h : s.deref p = some f) :
    f ∈ s.objects ∧ f.addr = p := by
  refine ⟨List.mem_of_find?_eq_some h, ?_⟩
  have := List.find?_some h
  simpa using this

theorem find?_addr_of_nodup (l : List RepeatFunc) (hnd : (l.map (fun f => f.addr)).Nodup)
    (f : RepeatFunc) (hf : f ∈ l) : l.find? (fun g => g.addr == f.addr) = some f := by
  induction l with
  | nil => cases hf
  | cons x xs ih =>
    rw [List.map_cons, List.nodup_cons] at hnd
    rcases List.mem_cons.mp hf with rfl | hmem
    · simp [List.find?_cons]
    · have hne : x.addr ≠ f.addr := by
        intro heq
        exact hnd.1 (heq ▸ List.mem_map_of_mem _ hmem)
      have : (x.addr == f.addr) = false := by simpa using hne
      simp only [List.find?_cons, this]
      exact ih hnd.2 hmem

theorem deref_of_mem (s : TimerScheduler) (hnd : (s.objects.map (fun f => f.addr)).Nodup)
    (f : RepeatFunc) (hf : f ∈ s.objects) : s.deref f.addr = some f :=
  find?_addr_of_nodup _ hnd f hf

theorem deref_eq_none (s : TimerScheduler) (p : Nat) :
    s.deref p = none ↔ ∀ f ∈ s.objects, f.addr ≠ p := by
  simp [deref]

theorem eq_of_addr_eq (l : List RepeatFunc) (hnd : (l.map (fun f => f.addr)).Nodup)
    (f g : RepeatFunc) (hf : f ∈ l) (hg : g ∈ l) (h : f.addr = g.addr) : f = g :=
  List.inj_on_of_nodup_map hnd hf hg h

theorem wf_init : WF init := by
  refine ⟨?_, ?_, ?_, ?_⟩
  · simp [init, objects, SchedThread.locals]
  · intro k p h; simp [init] at h
  · intro f h; simp [init] at h
  · intro p h; simp [init] at h

/-- What a successful registration does. -/
theorem addChecked_ok (H : HeapAlgo) (s : TimerScheduler) (cb : Option Nat) (fn : Int)
    (nameID : String) (startDelay : Int) (runOnce : Bool) (now : Int) (addr : Nat)
    (h : (s.addFunctionToHeapChecked H cb fn nameID startDelay runOnce now addr).1 = none) :
    cb.isSome = true ∧ 0 ≤ startDelay ∧ s.findValid nameID = none ∧
    s.currentNamed nameID = none ∧
    ∃ g l, g.addr = addr ∧ g.name = nameID ∧ g.cb = cb ∧ g.startDelay = startDelay ∧
      g.runOnce = runOnce ∧ g.interval = fn ∧
      g.nextRunTime = (if s.running_ then wrap64 (now + nanoseconds startDelay) else 0) ∧
      l.Perm (s.functions_ ++ [g]) ∧ (s.running_ = false → l = s.functions_ ++ [g]) ∧
      (s.addFunctionToHeapChecked H cb fn nameID startDelay runOnce now addr).2 =
        { s with functions_ := l, functionsMap_ := s.functionsMap_.assign nameID addr } := by
  unfold addFunctionToHeapChecked at h ⊢
  by_cases h1 : cb.isNone = true
  · simp [h1] at h
  by_cases h2 : startDelay < 0
  · simp [h1, h2] at h
  by_cases h3 : (s.findValid nameID).isSome = true
  · simp [h1, h2, h3] at h
  by_cases h4 : (s.currentNamed nameID).isSome = true
  · simp [h1, h2, h3, h4] at h
  have h1' : cb.isSome = true := by
    cases cb <;> simp_all
  have h3' : s.findValid nameID = none := by
    cases hh : s.findValid nameID <;> simp_all
  have h4' : s.currentNamed nameID = none := by
    cases hh : s.currentNamed nameID <;> simp_all
  refine ⟨h1', by omega, h3', h4', ?_⟩
  simp only [h1, h2, h3, h4]
  cases hr : s.running_
  · refine ⟨RepeatFunc.new cb fn nameID startDelay runOnce addr, _, rfl, rfl, rfl, rfl, rfl,
      rfl, ?_, List.Perm.refl _, fun _ => rfl, ?_⟩
    · simp [RepeatFunc.new]
    · simp [hr, RepeatFunc.new]
  · refine ⟨(RepeatFunc.new cb fn nameID startDelay runOnce addr).resetNextRunTime now, _,
      rfl, rfl, rfl, rfl, rfl, rfl, ?_, H.push_heap_perm _, fun h => Bool.noConfusion h, ?_⟩
    · simp [RepeatFunc.new, RepeatFunc.resetNextRunTime]
    · simp [hr, RepeatFunc.new, RepeatFunc.resetNextRunTime]

/-- A registration that throws leaves the scheduler as it was. -/
theorem addChecked_error (H : HeapAlgo) (s : TimerScheduler) (cb : Option Nat) (fn : Int)
    (nameID : String) (startDelay : Int) (runOnce : Bool) (now : Int) (addr : Nat)
    (e : InvalidArgument)
    (h : (s.addFunctionToHeapChecked H cb fn nameID startDelay runOnce now addr).1 = some e) :
    (s.addFunctionToHeapChecked H cb fn nameID startDelay runOnce now addr).2 = s := by
  unfold addFunctionToHeapChecked at h ⊢
  by_cases h1 : cb.isNone = true
  · simp [h1]
  by_cases h2 : startDelay < 0
  · simp [h1, h2]
  by_cases h3 : (s.findValid nameID).isSome = true
  · simp [h1, h2, h3]
  by_cases h4 : (s.currentNamed nameID).isSome = true
  · simp [h1, h2, h3, h4]
  rw [if_neg h1, if_neg h2, if_neg h3, if_neg h4] at h
  dsimp only at h
  split at h <;> simp at h

theorem findValid_of (s : TimerScheduler) (n : String) (p : Nat) (f : RepeatFunc)
    (h1 : s.functionsMap_.find n = some p) (h2 : s.deref p = some f)
    (h3 : f.isValid = true) : s.findValid n = some f := by
  simp [findValid, h1, h2, h3]

theorem currentNamed_of (s : TimerScheduler) (n : String) (p : Nat) (f : RepeatFunc)
    (h1 : s.currentFunction_ = some p) (h2 : s.deref p = some f)
    (h3 : f.name = n) : s.currentNamed n = some f := by
  simp [currentNamed, h1, h2, h3]

theorem findValid_some (s : TimerScheduler) (n : String) (f : RepeatFunc)
    (h : s.findValid n = some f) :
    s.functionsMap_.find n = some f.addr ∧ s.deref f.addr = some f ∧ f.isValid = true := by
  unfold findValid at h
  cases h1 : s.functionsMap_.find n with
  | none => simp [h1] at h
  | some p =>
    cases h2 : s.deref p with
    | none => simp [h1, h2] at h
    | some g =>
      simp only [h1, h2] at h
      by_cases h3 : g.isValid = true
      · simp only [h3, if_true, Option.some.injEq] at h
        subst h
        have := (s.deref_mem p g h2).2
        subst this
        exact ⟨rfl, h2, h3⟩
      · simp [h3] at h

theorem currentNamed_some (s : TimerScheduler) (n : String) (f : RepeatFunc)
    (h : s.currentNamed n = some f) :
    s.currentFunction_ = some f.addr ∧ s.deref f.addr = some f ∧ f.name = n := by
  unfold currentNamed at h
  cases h1 : s.currentFunction_ with
  | none => simp [h1] at h
  | some p =>
    cases h2 : s.deref p with
    | none => simp [h1, h2] at h
    | some g =>
      simp only [h1, h2] at h
      by_cases h3 : g.name = n
      · simp only [h3, if_true, Option.some.injEq] at h
        subst h
        have := (s.deref_mem p g h2).2
        subst this
        exact ⟨rfl, h2, h3⟩
      · simp [h3] at h

theorem mem_objects_of_mem (s : TimerScheduler) (f : RepeatFunc) (h : f ∈ s.functions_) :
    f ∈ s.objects :=
  List.mem_append_left _ h

theorem mem_objects_of_thread (s : TimerScheduler) (F : RepeatFunc)
    (h : s.thread_ = .inCallback F) : F ∈ s.objects := by
  simp [objects, h, SchedThread.locals]

/-- The object the thread runs is not in `functions_`. -/
theorem WF.thread_not_mem (s : TimerScheduler) (hwf : WF s) (F : RepeatFunc)
    (h : s.thread_ = .inCallback F) : ∀ f ∈ s.functions_, f.addr ≠ F.addr := by
  intro f hf heq
  have hnd := hwf.nodup
  simp only [objects, h, SchedThread.locals, List.map_append, List.map_cons, List.map_nil] at hnd
  rw [List.nodup_append] at hnd
  exact hnd.2.2 (List.mem_map_of_mem _ hf) (by simp [heq])

theorem WF.current_deref (s : TimerScheduler) (hwf : WF s) (p : Nat)
    (h : s.currentFunction_ = some p) :
    ∃ F, s.thread_ = .inCallback F ∧ F.addr = p ∧ F.isValid = true ∧
      s.functionsMap_.find F.name = some p ∧ s.deref p = some F := by
  obtain ⟨F, h1, h2, h3, h4⟩ := hwf.current p h
  refine ⟨F, h1, h2, h3, h4, ?_⟩
  rw [← h2]
  exact s.deref_of_mem hwf.nodup F (s.mem_objects_of_thread F h1)

/-- Rearranging `functions_` keeps the invariant. -/
theorem WF.perm (s : TimerScheduler) (hwf : WF s) (l : List RepeatFunc)
    (hl : l.Perm s.functions_) : WF { s with functions_ := l } := by
  refine ⟨?_, ?_, ?_, ?_⟩
  · have : (({ s with functions_ := l } : TimerScheduler).objects.map (fun f => f.addr)).Perm
        (s.objects.map (fun f => f.addr)) :=
      (hl.append_right _).map _
    exact this.nodup_iff.mpr hwf.nodup
  · intro k p h
    rcases hwf.map_sound k p h with ⟨f, hf, h1⟩ | h2
    · exact Or.inl ⟨f, hl.mem_iff.mpr hf, h1⟩
    · exact Or.inr h2
  · intro f hf hv
    exact hwf.map_complete f (hl.mem_iff.mp hf) hv
  · exact hwf.current

theorem wf_add_core (s : TimerScheduler) (hwf : WF s) (g : RepeatFunc)
    (hfresh : ∀ f ∈ s.objects, f.addr ≠ g.addr) (hvalid : g.isValid = true)
    (hfv : s.findValid g.name = none) (hcn : s.currentNamed g.name = none) :
    WF { s with functions_ := s.functions_ ++ [g],
                functionsMap_ := s.functionsMap_.assign g.name g.addr } := by
  refine ⟨?_, ?_, ?_, ?_⟩
  · show (List.map (fun f => f.addr) ((s.functions_ ++ [g]) ++ s.thread_.locals)).Nodup
    have hp0 : ((s.functions_ ++ [g]) ++ s.thread_.locals).Perm (g :: s.objects) := by
      simp only [objects, List.append_assoc, List.singleton_append]
      exact List.perm_middle
    have hp := hp0.map (fun f => f.addr)
    refine hp.nodup_iff.mpr (List.nodup_cons.mpr ⟨?_, hwf.nodup⟩)
    intro hmem
    obtain ⟨f, hf, heq⟩ := List.mem_map.mp hmem
    exact hfresh f hf heq
  · intro k p h
    rcases (FunctionMap.mem_assign _ _ _ _).mp h with heq | ⟨hm, hne⟩
    · cases heq
      exact Or.inl ⟨g, by simp, rfl, rfl, hvalid⟩
    · rcases hwf.map_sound k p hm with ⟨f, hf, h1⟩ | h2
      · exact Or.inl ⟨f, List.mem_append_left _ hf, h1⟩
      · exact Or.inr h2
  · intro f hf hv
    rcases List.mem_append.mp hf with hf | hf
    · have hold := hwf.map_complete f hf hv
      have hne : f.name ≠ g.name := by
        intro heq
        have := s.findValid_of f.name f.addr f hold
          (s.deref_of_mem hwf.nodup f (s.mem_objects_of_mem f hf)) hv
        rw [heq, hfv] at this
        cases this
      show FunctionMap.find (FunctionMap.assign s.functionsMap_ g.name g.addr) f.name = _
      rw [FunctionMap.find_assign_ne _ _ _ _ hne]
      exact hold
    · have : f = g := by simpa using hf
      subst this
      exact FunctionMap.find_assign_self _ _ _
  · intro p h
    obtain ⟨F, h1, h2, h3, h4, h5⟩ := hwf.current_deref s p h
    refine ⟨F, h1, h2, h3, ?_⟩
    have hne : F.name ≠ g.name := by
      intro heq
      have := s.currentNamed_of g.name p F h h5 heq
      rw [hcn] at this
      cases this
    show FunctionMap.find (FunctionMap.assign s.functionsMap_ g.name g.addr) F.name = _
    rw [FunctionMap.find_assign_ne _ _ _ _ hne]
    exact h4

theorem wf_addChecked (H : HeapAlgo) (s : TimerScheduler) (hwf : WF s) (cb : Option Nat)
    (fn : Int) (nameID : String) (startDelay : Int) (runOnce : Bool) (now : Int) (addr : Nat)
    (hfresh : ∀ f ∈ s.objects, f.addr ≠ addr) :
    WF (s.addFunctionToHeapChecked H cb fn nameID startDelay runOnce now addr).2 := by
  cases hr : (s.addFunctionToHeapChecked H cb fn nameID startDelay runOnce now addr).1 with
  | some e => rw [addChecked_error H s cb fn nameID startDelay runOnce now addr e hr]; exact hwf
  | none =>
    obtain ⟨hcb, _, hfv, hcn, g, l, ha, hn, hc, _, _, _, _, hl, _, heq⟩ :=
      addChecked_ok H s cb fn nameID startDelay runOnce now addr hr
    rw [heq]
    subst ha hn
    have hv : g.isValid = true := by simp [RepeatFunc.isValid, hc, hcb]
    have := (wf_add_core s hwf g hfresh hv hfv hcn).perm _ l hl
    exact this

theorem cancelFunctionAndWait_eq (s : TimerScheduler) (n : String) :
    s.cancelFunctionAndWaitStale n = s.cancelFunctionStale n := rfl

theorem cancelFunctionAndWait_same (s : TimerScheduler) (n : String) :
    s.cancelFunctionAndWait n = s.cancelFunction n := rfl

/-- The current function is named `n`: the call is defined and returns true. -/
theorem cancelFunction_current (s : TimerScheduler) (n : String) (F : RepeatFunc)
    (h : s.currentNamed n = some F) :
    s.cancelFunction n = some (true, { s with
      functionsMap_ := s.functionsMap_.erase F.name
      currentFunction_ := none
      cancellingCurrentFunction_ := true }) := by
  simp [cancelFunction, h]

/-- A valid task named `n` waits in the heap, registered under its own name:
the call reads `it->second` after the node was erased. -/
theorem cancelFunction_idle (s : TimerScheduler) (n : String) (f : RepeatFunc)
    (h1 : s.currentNamed n = none) (h2 : s.findValid n = some f) (hn : f.name = n) :
    s.cancelFunction n = none := by
  simp [cancelFunction, cancelFunctionErased, h1, h2, hn, FunctionMap.second,
    FunctionMap.find_erase_self]

/-- No task is named `n`: the call returns false and changes nothing. -/
theorem cancelFunction_absent (s : TimerScheduler) (n : String)
    (h1 : s.currentNamed n = none) (h2 : s.findValid n = none) :
    s.cancelFunction n = some (false, s) := by
  simp [cancelFunction, h1, h2]

/-- Where the behaviour of `cancelFunction` is defined, its result is the one
of `cancelFunctionStale`. -/
theorem cancelFunction_some (s : TimerScheduler) (n : String) (r : Bool × TimerScheduler)
    (h : s.cancelFunction n = some r) : r = s.cancelFunctionStale n := by
  unfold cancelFunction at h
  unfold cancelFunctionStale
  cases h1 : s.currentNamed n with
  | some F =>
    simp only [h1] at h ⊢
    exact (Option.some.inj h).symm
  | none =>
    cases h2 : s.findValid n with
    | none =>
      simp only [h1, h2] at h ⊢
      exact (Option.some.inj h).symm
    | some f =>
      simp only [h1, h2] at h ⊢
      obtain ⟨hfind, _, _⟩ := s.findValid_some n f h2
      by_cases hn : f.name = n
      · have h3 : (s.cancelFunctionErased f).functionsMap_.second n = none := by
          rw [← hn]
          exact FunctionMap.find_erase_self _ _
        rw [h3] at h
        cases h
      · have h3 : (s.cancelFunctionErased f).functionsMap_.second n = some f.addr := by
          show FunctionMap.find (FunctionMap.erase s.functionsMap_ f.name) n = _
          rw [FunctionMap.find_erase_ne _ _ _ (fun h4 => hn h4.symm)]
          exact hfind
        rw [h3] at h
        exact (Option.some.inj h).symm

theorem cancel_current (s : TimerScheduler) (n : String) (F : RepeatFunc)
    (h : s.currentNamed n = some F) :
    s.cancelFunctionStale n = (true, { s with
      functionsMap_ := s.functionsMap_.erase F.name
      currentFunction_ := none
      cancellingCurrentFunction_ := true }) := by
  simp [cancelFunctionStale, h]

theorem cancel_idle (s : TimerScheduler) (n : String) (f : RepeatFunc)
    (h1 : s.currentNamed n = none) (h2 : s.findValid n = some f) :
    s.cancelFunctionStale n =
      (true, { s with functionsMap_ := s.functionsMap_.erase f.name }.mutate
        f.addr RepeatFunc.cancel) := by
  simp [cancelFunctionStale, h1, h2]

theorem cancel_none (s : TimerScheduler) (n : String)
    (h1 : s.currentNamed n = none) (h2 : s.findValid n = none) :
    s.cancelFunctionStale n = (false, s) := by
  simp [cancelFunctionStale, h1, h2]

theorem mutate_thread (s : TimerScheduler) (p : Nat) (g : RepeatFunc → RepeatFunc)
    (h : ∀ F, s.thread_ = .inCallback F → F.addr ≠ p) : (s.mutate p g).thread_ = s.thread_ := by
  unfold mutate
  cases ht : s.thread_ with
  | inCallback F => simp [h F ht]
  | notJoinable => rfl
  | atLoop => rfl
  | returned => rfl

/-- Under the invariant, what the map holds valid under a name is a task of
`functions_` with that name, unless it is the current function. -/
theorem WF.findValid_mem (s : TimerScheduler) (hwf : WF s) (n : String) (f : RepeatFunc)
    (h1 : s.currentNamed n = none) (h2 : s.findValid n = some f) :
    f ∈ s.functions_ ∧ f.name = n := by
  obtain ⟨hfind, hderef, _⟩ := s.findValid_some n f h2
  rcases hwf.map_sound n f.addr (FunctionMap.mem_of_find _ _ _ hfind) with
    ⟨f2, hf2, ha, hn, _⟩ | ⟨F, ht, hc, ha, hn⟩
  · have := s.deref_of_mem hwf.nodup f2 (s.mem_objects_of_mem f2 hf2)
    rw [ha, hderef] at this
    cases this
    exact ⟨hf2, hn⟩
  · have := s.deref_of_mem hwf.nodup F (s.mem_objects_of_thread F ht)
    rw [ha] at this
    have := s.currentNamed_of n f.addr F hc this hn
    rw [h1] at this
    cases this

theorem wf_cancel_current (s : TimerScheduler) (hwf : WF s) (n : String) (F : RepeatFunc)
    (h : s.currentNamed n = some F) :
    WF { s with
      functionsMap_ := s.functionsMap_.erase F.name
      currentFunction_ := none
      cancellingCurrentFunction_ := true } := by
  obtain ⟨hc, hd, _⟩ := s.currentNamed_some n F h
  obtain ⟨F2, ht, ha, _, hfind, hd2⟩ := hwf.current_deref s F.addr hc
  rw [hd] at hd2
  cases hd2
  refine ⟨hwf.nodup, ?_, ?_, ?_⟩
  · intro k p hm
    obtain ⟨hm1, hne⟩ : (k, p) ∈ s.functionsMap_ ∧ k ≠ _ := (FunctionMap.mem_erase _ _ _).mp hm
    rcases hwf.map_sound k p hm1 with h1 | ⟨F3, ht3, _, _, hn3⟩
    · exact Or.inl h1
    · rw [ht] at ht3
      cases ht3
      exact absurd hn3.symm hne
  · intro f hf hv
    have hold := hwf.map_complete f hf hv
    have hne : f.name ≠ F.name := by
      intro heq
      rw [heq, hfind] at hold
      exact hwf.thread_not_mem s F ht f hf (Option.some.inj hold).symm
    show FunctionMap.find (FunctionMap.erase s.functionsMap_ F.name) f.name = _
    rw [FunctionMap.find_erase_ne _ _ _ hne]
    exact hold
  · intro p hp
    cases hp

theorem wf_cancel_idle (s : TimerScheduler) (hwf : WF s) (n : String) (f : RepeatFunc)
    (h1 : s.currentNamed n = none) (h2 : s.findValid n = some f) :
    WF ({ s with functionsMap_ := s.functionsMap_.erase f.name }.mutate
        f.addr RepeatFunc.cancel) := by
  obtain ⟨hfm, hfn⟩ := hwf.findValid_mem s n f h1 h2
  obtain ⟨hfind, _, _⟩ := s.findValid_some n f h2
  have hthr : ∀ F, s.thread_ = .inCallback F → F.addr ≠ f.addr := by
    intro F ht heq
    exact hwf.thread_not_mem s F ht f hfm heq.symm
  have hT : ({ s with functionsMap_ := s.functionsMap_.erase f.name }.mutate
        f.addr RepeatFunc.cancel).thread_ = s.thread_ :=
    mutate_thread _ _ _ hthr
  have hmapaddr : (s.functions_.map (fun x => if x.addr = f.addr then x.cancel else x)).map
      (fun x => x.addr) = s.functions_.map (fun x => x.addr) := by
    rw [List.map_map]
    apply List.map_congr_left
    intro x _
    by_cases hx : x.addr = f.addr <;> simp [hx, RepeatFunc.cancel]
  refine ⟨?_, ?_, ?_, ?_⟩
  · have hnd := hwf.nodup
    simp only [objects, List.map_append] at hnd ⊢
    rw [hT]
    show ((s.functions_.map (fun x => if x.addr = f.addr then x.cancel else x)).map
      (fun x => x.addr) ++ _).Nodup
    rw [hmapaddr]
    exact hnd
  · intro k p hm
    obtain ⟨hm1, hne⟩ : (k, p) ∈ s.functionsMap_ ∧ k ≠ _ := (FunctionMap.mem_erase _ _ _).mp hm
    rcases hwf.map_sound k p hm1 with ⟨f2, hf2, ha, hn, hv⟩ | ⟨F, ht, hc, ha, hn⟩
    · left
      refine ⟨f2, ?_, ha, hn, hv⟩
      have hne2 : f2.addr ≠ f.addr := by
        intro heq
        have := eq_of_addr_eq s.objects hwf.nodup f2 f (s.mem_objects_of_mem f2 hf2)
          (s.mem_objects_of_mem f hfm) heq
        subst this
        exact hne hn.symm
      show f2 ∈ s.functions_.map (fun x => if x.addr = f.addr then x.cancel else x)
      exact List.mem_map.mpr ⟨f2, hf2, by simp [hne2]⟩
    · right
      exact ⟨F, hT.trans ht, hc, ha, hn⟩
  · intro f2 hf2 hv
    have hf2' : f2 ∈ s.functions_.map (fun x => if x.addr = f.addr then x.cancel else x) := hf2
    obtain ⟨f0, hf0, heq⟩ := List.mem_map.mp hf2'
    by_cases hx : f0.addr = f.addr
    · simp only [hx, if_true] at heq
      subst heq
      simp [RepeatFunc.cancel, RepeatFunc.isValid] at hv
    · simp only [hx, if_false] at heq
      subst heq
      have hold := hwf.map_complete f0 hf0 hv
      have hne : f0.name ≠ f.name := by
        intro heq
        rw [heq, hfn, hfind] at hold
        exact hx (Option.some.inj hold).symm
      show FunctionMap.find (FunctionMap.erase s.functionsMap_ f.name) f0.name = _
      rw [FunctionMap.find_erase_ne _ _ _ hne]
      exact hold
  · intro p hp
    obtain ⟨F, ht, ha, hv, hfd, hd⟩ := hwf.current_deref s p hp
    refine ⟨F, hT.trans ht, ha, hv, ?_⟩
    have hne : F.name ≠ f.name := by
      intro heq
      have := s.currentNamed_of n p F hp hd (heq.trans hfn)
      rw [h1] at this
      cases this
    show FunctionMap.find (FunctionMap.erase s.functionsMap_ f.name) F.name = _
    rw [FunctionMap.find_erase_ne _ _ _ hne]
    exact hfd

theorem wf_cancelFunction (s : TimerScheduler) (hwf : WF s) (n : String) :
    WF (s.cancelFunctionStale n).2 := by
  cases h1 : s.currentNamed n with
  | some F => rw [cancel_current s n F h1]; exact wf_cancel_current s hwf n F h1
  | none =>
    cases h2 : s.findValid n with
    | some f => rw [cancel_idle s n f h1 h2]; exact wf_cancel_idle s hwf n f h1 h2
    | none => rw [cancel_none s n h1 h2]; exact hwf

/-- The five ways through one iteration of `run()`. -/
theorem runIteration_cases (H : HeapAlgo) (s : TimerScheduler) (now : Int) :
    (s.running_ = false ∧ s.runIteration H now = (.exit, { s with thread_ := .returned })) ∨
    (s.running_ = true ∧ s.functions_ = [] ∧ s.runIteration H now = (.waitEmpty, s)) ∨
    ∃ front back, s.running_ = true ∧ H.pop_heap s.functions_ = front ++ [back] ∧
      ((back.isValid = false ∧
          s.runIteration H now = (.dropped back, { s with functions_ := front })) ∨
       (back.isValid = true ∧ wrap64 (back.nextRunTime - now) < 0 ∧
          s.runIteration H now = (.invoked back, { s with
            functions_ := front
            currentFunction_ := some back.addr
            thread_ := .inCallback (s.advanced back now) })) ∨
       (back.isValid = true ∧ 0 ≤ wrap64 (back.nextRunTime - now) ∧
          s.runIteration H now = (.sleep (wrap64 (back.nextRunTime - now)), { s with
            functions_ := H.push_heap (front ++ [back]) }))) := by
  by_cases hr : s.running_ = true
  swap
  · left
    have hr2 : s.running_ = false := by simpa using hr
    exact ⟨hr2, by simp [runIteration, hr2]⟩
  right
  by_cases hfs : s.functions_ = []
  · left
    exact ⟨hr, hfs, by simp [runIteration, hr, hfs]⟩
  right
  have hne : H.pop_heap s.functions_ ≠ [] := by
    intro h
    have := (H.pop_heap_perm s.functions_).length_eq
    rw [h] at this
    exact hfs (List.length_eq_zero.mp this.symm)
  have hemp : s.functions_.isEmpty = false := by
    cases hl : s.functions_ with
    | nil => exact absurd hl hfs
    | cons x xs => rfl
  refine ⟨(H.pop_heap s.functions_).dropLast, (H.pop_heap s.functions_).getLast hne, hr,
    (List.dropLast_append_getLast hne).symm, ?_⟩
  have hlast : (H.pop_heap s.functions_).getLast? =
      some ((H.pop_heap s.functions_).getLast hne) :=
    List.getLast?_eq_getLast _ hne
  generalize (H.pop_heap s.functions_).getLast hne = back at hlast ⊢
  have hrun : s.runIteration H now =
      if !back.isValid then
        (.dropped back, { s with functions_ := (H.pop_heap s.functions_).dropLast })
      else if wrap64 (back.getNextRunTime - now) < 0 then
        (.invoked back,
          { s with functions_ := H.pop_heap s.functions_ }.runOneFunctionInvoke now)
      else
        (.sleep (wrap64 (back.getNextRunTime - now)),
          { s with functions_ := H.push_heap (H.pop_heap s.functions_) }) := by
    simp [runIteration, hr, hemp, hlast]
  rw [hrun]
  by_cases hv : back.isValid = true
  swap
  · left
    have hv2 : back.isValid = false := by simpa using hv
    exact ⟨hv2, by simp [hv2]⟩
  right
  by_cases hd : wrap64 (back.nextRunTime - now) < 0
  · left
    refine ⟨hv, hd, ?_⟩
    have hd2 : wrap64 (back.getNextRunTime - now) < 0 := hd
    have hcb : back.cb.isNone = false := by
      simp only [RepeatFunc.isValid] at hv
      cases hc : back.cb <;> simp_all
    simp [hv, hd2, runOneFunctionInvoke, hlast, hcb, advanced]
  · right
    refine ⟨hv, Int.not_lt.mp hd, ?_⟩
    have hd2 : ¬ wrap64 (back.getNextRunTime - now) < 0 := hd
    have hrec : (H.pop_heap s.functions_).dropLast ++ [back] = H.pop_heap s.functions_ :=
      List.dropLast_append_getLast? back hlast
    rw [hrec]
    rw [if_neg (by simp [hv]), if_neg hd2]
    rfl

/-- The ways through the second part of `runOneFunction`, under the
invariant. -/
theorem resume_cases (H : HeapAlgo) (s : TimerScheduler) (hwf : WF s) (F : RepeatFunc)
    (ht : s.thread_ = .inCallback F) :
    (s.currentFunction_ = none ∧ s.runOneFunctionResume H =
      { s with cancellingCurrentFunction_ := false, thread_ := .atLoop }) ∨
    (s.currentFunction_ = some F.addr ∧ F.runOnce = true ∧ s.runOneFunctionResume H =
      { s with functionsMap_ := s.functionsMap_.erase F.name
               currentFunction_ := none
               thread_ := .atLoop }) ∨
    (s.currentFunction_ = some F.addr ∧ F.runOnce = false ∧ s.runOneFunctionResume H =
      { s with functions_ := if s.running_ then H.push_heap (s.functions_ ++ [F])
                             else s.functions_ ++ [F]
               currentFunction_ := none
               thread_ := .atLoop }) := by
  cases hc : s.currentFunction_ with
  | none => left; exact ⟨rfl, by simp [runOneFunctionResume, ht, hc]⟩
  | some p =>
    right
    obtain ⟨F2, ht2, ha, _, _, hd⟩ := hwf.current_deref s p hc
    rw [ht] at ht2
    cases ht2
    subst ha
    by_cases hro : F.runOnce = true
    · left; exact ⟨rfl, hro, by simp [runOneFunctionResume, ht, hc, hd, hro]⟩
    · right
      have hro2 : F.runOnce = false := by simpa using hro
      exact ⟨rfl, hro2, by simp [runOneFunctionResume, ht, hc, hd, hro2]⟩

theorem resume_idle (H : HeapAlgo) (s : TimerScheduler)
    (ht : ∀ F, s.thread_ ≠ .inCallback F) : s.runOneFunctionResume H = s := by
  unfold runOneFunctionResume
  cases h : s.thread_ with
  | inCallback F => exact absurd h (ht F)
  | notJoinable => rfl
  | atLoop => rfl
  | returned => rfl

theorem WF.no_current (s : TimerScheduler) (hwf : WF s)
    (ht : ∀ F, s.thread_ ≠ .inCallback F) : s.currentFunction_ = none := by
  cases hc : s.currentFunction_ with
  | none => rfl
  | some p =>
    obtain ⟨F, h1, _⟩ := hwf.current p hc
    exact absurd h1 (ht F)

theorem advanced_addr (s : TimerScheduler) (back : RepeatFunc) (now : Int) :
    (s.advanced back now).addr = back.addr := by
  unfold advanced; split <;> rfl

theorem advanced_name (s : TimerScheduler) (back : RepeatFunc) (now : Int) :
    (s.advanced back now).name = back.name := by
  unfold advanced; split <;> rfl

theorem advanced_cb (s : TimerScheduler) (back : RepeatFunc) (now : Int) :
    (s.advanced back now).cb = back.cb := by
  unfold advanced; split <;> rfl

theorem advanced_runOnce (s : TimerScheduler) (back : RepeatFunc) (now : Int) :
    (s.advanced back now).runOnce = back.runOnce := by
  unfold advanced; split <;> rfl

theorem advanced_startDelay (s : TimerScheduler) (back : RepeatFunc) (now : Int) :
    (s.advanced back now).startDelay = back.startDelay := by
  unfold advanced; split <;> rfl

theorem advanced_interval (s : TimerScheduler) (back : RepeatFunc) (now : Int) :
    (s.advanced back now).interval = back.interval := by
  unfold advanced; split <;> rfl

theorem start_running (H : HeapAlgo) (s : TimerScheduler) (now : Int)
    (hr : s.running_ = true) : s.start H now = some (false, s) := by
  simp [start, hr]

theorem start_stopped (H : HeapAlgo) (s : TimerScheduler) (now : Int)
    (hr : s.running_ = false) (ht : s.thread_ = .notJoinable) :
    s.start H now = some (true, { s with
      functions_ := H.make_heap (s.functions_.map (fun f => f.resetNextRunTime now))
      thread_ := .atLoop
      running_ := true }) := by
  simp [start, hr, ht]

theorem start_terminates (H : HeapAlgo) (s : TimerScheduler) (now : Int)
    (hr : s.running_ = false) (ht : s.thread_ ≠ .notJoinable) :
    s.start H now = none := by
  simp [start, hr, ht]

theorem shutdown_running (s : TimerScheduler) (hr : s.running_ = true) :
    s.shutdown = (true, { s with running_ := false }) := by
  simp [shutdown, hr]

theorem shutdown_stopped (s : TimerScheduler) (hr : s.running_ = false) :
    s.shutdown = (false, s) := by
  simp [shutdown, hr]

theorem wf_start (H : HeapAlgo) (s : TimerScheduler) (hwf : WF s)
    (ht : s.thread_ = .notJoinable) (now : Int) :
    WF { s with
      functions_ := H.make_heap (s.functions_.map (fun f => f.resetNextRunTime now))
      thread_ := .atLoop
      running_ := true } := by
  have hcur := hwf.no_current s (fun F h => by rw [ht] at h; cases h)
  have hperm := H.make_heap_perm (s.functions_.map (fun f => f.resetNextRunTime now))
  refine ⟨?_, ?_, ?_, ?_⟩
  · have hnd := hwf.nodup
    simp only [objects, ht, SchedThread.locals, List.append_nil] at hnd ⊢
    refine ((hperm.map _).nodup_iff).mpr ?_
    rw [List.map_map]
    exact hnd
  · intro k p hm
    rcases hwf.map_sound k p hm with ⟨f, hf, ha, hn, hv⟩ | ⟨F, ht2, _⟩
    · left
      exact ⟨f.resetNextRunTime now, hperm.mem_iff.mpr (List.mem_map_of_mem _ hf), ha, hn, hv⟩
    · rw [ht] at ht2; cases ht2
  · intro f hf hv
    obtain ⟨f0, hf0, rfl⟩ := List.mem_map.mp (hperm.mem_iff.mp hf)
    exact hwf.map_complete f0 hf0 hv
  · intro p hp
    have hp2 : s.currentFunction_ = some p := hp
    rw [hcur] at hp2
    cases hp2

theorem wf_shutdown (s : TimerScheduler) (hwf : WF s) : WF s.shutdown.2 := by
  by_cases hr : s.running_ = true
  · rw [shutdown_running s hr]
    exact ⟨hwf.nodup, hwf.map_sound, hwf.map_complete, hwf.current⟩
  · rw [shutdown_stopped s (by simpa using hr)]; exact hwf

theorem wf_setSteady (s : TimerScheduler) (hwf : WF s) (b : Bool) : WF (s.setSteady b) :=
  ⟨hwf.nodup, hwf.map_sound, hwf.map_complete, hwf.current⟩

theorem join_some (s s2 : TimerScheduler) (h : s.join .otherThread = .joined s2) :
    s.thread_ = .returned ∧ s2 = { s with thread_ := .notJoinable } := by
  unfold join at h
  cases ht : s.thread_ <;> simp [ht] at h
  exact ⟨rfl, h.symm⟩

theorem wf_join (s s2 : TimerScheduler) (hwf : WF s) (h : s.join .otherThread = .joined s2) :
    WF s2 := by
  obtain ⟨ht, rfl⟩ := join_some s s2 h
  have hcur := hwf.no_current s (fun F h => by rw [ht] at h; cases h)
  refine ⟨?_, ?_, ?_, ?_⟩
  · have hnd := hwf.nodup
    simp only [objects, ht, SchedThread.locals, List.append_nil] at hnd ⊢
    exact hnd
  · intro k p hm
    rcases hwf.map_sound k p hm with h1 | ⟨F, ht2, _⟩
    · exact Or.inl h1
    · rw [ht] at ht2; cases ht2
  · exact hwf.map_complete
  · intro p hp
    have hp2 : s.currentFunction_ = some p := hp
    rw [hcur] at hp2
    cases hp2

theorem wf_runIteration (H : HeapAlgo) (s : TimerScheduler) (hwf : WF s)
    (ht : s.thread_ = .atLoop) (now : Int) : WF (s.runIteration H now).2 := by
  have hcur := hwf.no_current s (fun F h => by rw [ht] at h; cases h)
  have hnd := hwf.nodup
  simp only [objects, ht, SchedThread.locals, List.append_nil] at hnd
  have hnoT : ∀ k p, (k, p) ∈ s.functionsMap_ →
      ∃ f ∈ s.functions_, f.addr = p ∧ f.name = k ∧ f.isValid = true := by
    intro k p hm
    rcases hwf.map_sound k p hm with h1 | ⟨F, ht2, _⟩
    · exact h1
    · rw [ht] at ht2; cases ht2
  rcases runIteration_cases H s now with ⟨_, h⟩ | ⟨_, _, h⟩ |
      ⟨front, back, _, hpop, ⟨hv, h⟩ | ⟨hv, _, h⟩ | ⟨_, _, h⟩⟩
  · rw [h]
    refine ⟨?_, fun k p hm => Or.inl (hnoT k p hm), hwf.map_complete, ?_⟩
    · simpa only [objects, SchedThread.locals, List.append_nil] using hnd
    · intro p hp
      have hp2 : s.currentFunction_ = some p := hp
      rw [hcur] at hp2
      cases hp2
  · rw [h]; exact hwf
  · rw [h]
    have hperm : (front ++ [back]).Perm s.functions_ := hpop ▸ H.pop_heap_perm _
    have hsub : ∀ f ∈ front, f ∈ s.functions_ :=
      fun f hf => hperm.mem_iff.mp (List.mem_append_left _ hf)
    refine ⟨?_, ?_, fun f hf hv2 => hwf.map_complete f (hsub f hf) hv2, ?_⟩
    · have hnd2 := ((hperm.map (fun f => f.addr)).nodup_iff).mpr hnd
      simp only [objects, ht, SchedThread.locals, List.append_nil]
      rw [List.map_append] at hnd2
      exact (List.nodup_append.mp hnd2).1
    · intro k p hm
      obtain ⟨f, hf, ha, hn, hv2⟩ := hnoT k p hm
      rcases List.mem_append.mp (hperm.mem_iff.mpr hf) with hf2 | hf2
      · exact Or.inl ⟨f, hf2, ha, hn, hv2⟩
      · have : f = back := by simpa using hf2
        subst this
        rw [hv] at hv2
        cases hv2
    · intro p hp
      have hp2 : s.currentFunction_ = some p := hp
      rw [hcur] at hp2
      cases hp2
  · rw [h]
    have hperm : (front ++ [back]).Perm s.functions_ := hpop ▸ H.pop_heap_perm _
    have hsub : ∀ f ∈ front, f ∈ s.functions_ :=
      fun f hf => hperm.mem_iff.mp (List.mem_append_left _ hf)
    have hback : back ∈ s.functions_ := hperm.mem_iff.mp (by simp)
    refine ⟨?_, ?_, fun f hf hv2 => hwf.map_complete f (hsub f hf) hv2, ?_⟩
    · have hnd2 := ((hperm.map (fun f => f.addr)).nodup_iff).mpr hnd
      simp only [objects, SchedThread.locals, List.map_append, List.map_cons, List.map_nil,
        advanced_addr]
      simpa only [List.map_append, List.map_cons, List.map_nil] using hnd2
    · intro k p hm
      obtain ⟨f, hf, ha, hn, hv2⟩ := hnoT k p hm
      rcases List.mem_append.mp (hperm.mem_iff.mpr hf) with hf2 | hf2
      · exact Or.inl ⟨f, hf2, ha, hn, hv2⟩
      · have : f = back := by simpa using hf2
        subst this
        exact Or.inr ⟨s.advanced f now, rfl, by rw [← ha], (advanced_addr _ _ _).trans ha,
          (advanced_name _ _ _).trans hn⟩
    · intro p hp
      have hp2 : some back.addr = some p := hp
      cases hp2
      refine ⟨s.advanced back now, rfl, advanced_addr _ _ _, ?_, ?_⟩
      · simpa [RepeatFunc.isValid, advanced_cb] using hv
      · rw [advanced_name]
        exact hwf.map_complete back hback hv
  · rw [h]
    refine hwf.perm s _ ?_
    exact (H.push_heap_perm _).trans (hpop ▸ H.pop_heap_perm _)

theorem wf_resume (H : HeapAlgo) (s : TimerScheduler) (hwf : WF s) :
    WF (s.runOneFunctionResume H) := by
  by_cases hT : ∃ F, s.thread_ = .inCallback F
  swap
  · rw [resume_idle H s (fun F h => hT ⟨F, h⟩)]; exact hwf
  obtain ⟨F, ht⟩ := hT
  have hnd := hwf.nodup
  simp only [objects, ht, SchedThread.locals] at hnd
  have hndf : (s.functions_.map (fun f => f.addr)).Nodup := by
    rw [List.map_append] at hnd
    exact (List.nodup_append.mp hnd).1
  rcases resume_cases H s hwf F ht with ⟨hc, h⟩ | ⟨hc, _, h⟩ | ⟨hc, _, h⟩
  · rw [h]
    refine ⟨?_, ?_, hwf.map_complete, ?_⟩
    · simpa only [objects, SchedThread.locals, List.append_nil] using hndf
    · intro k p hm
      rcases hwf.map_sound k p hm with h1 | ⟨F2, _, hc2, _⟩
      · exact Or.inl h1
      · rw [hc] at hc2; cases hc2
    · intro p hp
      have hp2 : s.currentFunction_ = some p := hp
      rw [hc] at hp2
      cases hp2
  · rw [h]
    obtain ⟨F2, ht2, _, _, hfind⟩ := hwf.current F.addr hc
    rw [ht] at ht2
    cases ht2
    refine ⟨?_, ?_, ?_, ?_⟩
    · simpa only [objects, SchedThread.locals, List.append_nil] using hndf
    · intro k p hm
      obtain ⟨hm1, hne⟩ : (k, p) ∈ s.functionsMap_ ∧ k ≠ _ :=
        (FunctionMap.mem_erase _ _ _).mp hm
      rcases hwf.map_sound k p hm1 with h1 | ⟨F3, ht3, _, _, hn3⟩
      · exact Or.inl h1
      · rw [ht] at ht3
        cases ht3
        exact absurd hn3.symm hne
    · intro f hf hv
      have hold := hwf.map_complete f hf hv
      have hne : f.name ≠ F.name := by
        intro heq
        rw [heq, hfind] at hold
        exact hwf.thread_not_mem s F ht f hf (Option.some.inj hold).symm
      show FunctionMap.find (FunctionMap.erase s.functionsMap_ F.name) f.name = _
      rw [FunctionMap.find_erase_ne _ _ _ hne]
      exact hold
    · intro p hp
      cases hp
  · rw [h]
    obtain ⟨F2, ht2, _, hv, hfind⟩ := hwf.current F.addr hc
    rw [ht] at ht2
    cases ht2
    have hperm : (if s.running_ then H.push_heap (s.functions_ ++ [F])
        else s.functions_ ++ [F]).Perm (s.functions_ ++ [F]) := by
      split
      · exact H.push_heap_perm _
      · exact List.Perm.refl _
    refine ⟨?_, ?_, ?_, ?_⟩
    · simp only [objects, SchedThread.locals, List.append_nil]
      exact ((hperm.map _).nodup_iff).mpr hnd
    · intro k p hm
      rcases hwf.map_sound k p hm with ⟨f, hf, h1⟩ | ⟨F3, ht3, _, ha3, hn3⟩
      · exact Or.inl ⟨f, hperm.mem_iff.mpr (List.mem_append_left _ hf), h1⟩
      · rw [ht] at ht3
        cases ht3
        exact Or.inl ⟨F, hperm.mem_iff.mpr (by simp), ha3, hn3, hv⟩
    · intro f hf hv2
      rcases List.mem_append.mp (hperm.mem_iff.mp hf) with hf2 | hf2
      · exact hwf.map_complete f hf2 hv2
      · have : f = F := by simpa using hf2
        subst this
        exact hfind
    · intro p hp
      cases hp

end TimerScheduler

theorem RepeatFunc.sameTask_refl (f : RepeatFunc) : f.sameTask f :=
  ⟨rfl, rfl, rfl, rfl, rfl, Or.inl rfl⟩

namespace TimerScheduler

theorem sameTask_advanced (s : TimerScheduler) (f : RepeatFunc) (now : Int) :
    (s.advanced f now).sameTask f :=
  ⟨advanced_addr _ _ _, advanced_name _ _ _, advanced_startDelay _ _ _,
    advanced_interval _ _ _, advanced_runOnce _ _ _, Or.inl (advanced_cb _ _ _)⟩

theorem start_objects (H : HeapAlgo) (s : TimerScheduler) (now : Int)
    (hr2 : s.running_ = false) (f2 : RepeatFunc)
    (h : f2 ∈ ({ s with
      functions_ := H.make_heap (s.functions_.map (fun f => f.resetNextRunTime now))
      thread_ := .atLoop
      running_ := true } : TimerScheduler).objects) :
    ∃ f1 ∈ s.functions_, f2.sameTask f1 ∧
      (f2 = f1 ∨ (s.running_ = false ∧ f2 = f1.resetNextRunTime now)) := by
  simp only [objects, SchedThread.locals, List.append_nil] at h
  obtain ⟨f1, hf1, rfl⟩ := List.mem_map.mp ((H.make_heap_perm _).mem_iff.mp h)
  exact ⟨f1, hf1, ⟨rfl, rfl, rfl, rfl, rfl, Or.inl rfl⟩, Or.inr ⟨hr2, rfl⟩⟩

theorem cancel_functions (s : TimerScheduler) (n : String) (f2 : RepeatFunc)
    (h : f2 ∈ (s.cancelFunctionStale n).2.functions_) :
    ∃ f1 ∈ s.functions_, f2 = f1 ∨ f2 = f1.cancel := by
  cases h1 : s.currentNamed n with
  | some F => rw [cancel_current s n F h1] at h; exact ⟨f2, h, Or.inl rfl⟩
  | none =>
    cases h2 : s.findValid n with
    | none => rw [cancel_none s n h1 h2] at h; exact ⟨f2, h, Or.inl rfl⟩
    | some f =>
      rw [cancel_idle s n f h1 h2] at h
      have h' : f2 ∈ s.functions_.map (fun x => if x.addr = f.addr then x.cancel else x) := h
      obtain ⟨f1, hf1, heq⟩ := List.mem_map.mp h'
      refine ⟨f1, hf1, ?_⟩
      by_cases hx : f1.addr = f.addr
      · right; simpa [hx] using heq.symm
      · left; simpa [hx] using heq.symm

theorem cancel_thread (s : TimerScheduler) (n : String) (F2 : RepeatFunc)
    (h : (s.cancelFunctionStale n).2.thread_ = .inCallback F2) :
    ∃ F1, s.thread_ = .inCallback F1 ∧ (F2 = F1 ∨ F2 = F1.cancel) := by
  cases h1 : s.currentNamed n with
  | some F => rw [cancel_current s n F h1] at h; exact ⟨F2, h, Or.inl rfl⟩
  | none =>
    cases h2 : s.findValid n with
    | none => rw [cancel_none s n h1 h2] at h; exact ⟨F2, h, Or.inl rfl⟩
    | some f =>
      rw [cancel_idle s n f h1 h2] at h
      unfold mutate at h
      cases ht : s.thread_ with
      | inCallback F1 =>
        simp only [ht, SchedThread.inCallback.injEq] at h
        refine ⟨F1, rfl, ?_⟩
        by_cases hx : F1.addr = f.addr
        · right; simpa [hx] using h.symm
        · left; simpa [hx] using h.symm
      | notJoinable => simp [ht] at h
      | atLoop => simp [ht] at h
      | returned => simp [ht] at h

/-- Cancelling changes neither the kind of state the thread is in, nor the
running flag, nor the policy. -/
theorem cancel_thread_kind (s : TimerScheduler) (n : String) :
    ((s.cancelFunctionStale n).2.thread_ = s.thread_ ∨
      ∃ F1, s.thread_ = .inCallback F1 ∧
        (s.cancelFunctionStale n).2.thread_ = .inCallback F1.cancel) ∧
    (s.cancelFunctionStale n).2.running_ = s.running_ ∧
    (s.cancelFunctionStale n).2.steady_ = s.steady_ := by
  cases h1 : s.currentNamed n with
  | some F => rw [cancel_current s n F h1]; exact ⟨Or.inl rfl, rfl, rfl⟩
  | none =>
    cases h2 : s.findValid n with
    | none => rw [cancel_none s n h1 h2]; exact ⟨Or.inl rfl, rfl, rfl⟩
    | some f =>
      rw [cancel_idle s n f h1 h2]
      refine ⟨?_, rfl, rfl⟩
      unfold mutate
      cases ht : s.thread_ with
      | inCallback F1 =>
        by_cases hx : F1.addr = f.addr
        · right; exact ⟨F1, rfl, by simp [hx]⟩
        · left; simp [hx]
      | notJoinable => left; rfl
      | atLoop => left; rfl
      | returned => left; rfl

theorem sameTask_cancel (f : RepeatFunc) : f.cancel.sameTask f :=
  ⟨rfl, rfl, rfl, rfl, rfl, Or.inr rfl⟩

theorem cancel_objects (s : TimerScheduler) (n : String) (f2 : RepeatFunc)
    (h : f2 ∈ (s.cancelFunctionStale n).2.objects) :
    ∃ f1 ∈ s.objects, f2 = f1 ∨ f2 = f1.cancel := by
  rcases List.mem_append.mp h with h | h
  · obtain ⟨f1, hf1, h3⟩ := cancel_functions s n f2 h
    exact ⟨f1, s.mem_objects_of_mem f1 hf1, h3⟩
  · cases ht : (s.cancelFunctionStale n).2.thread_ with
    | inCallback F2 =>
      rw [ht] at h
      have : f2 = F2 := by simpa [SchedThread.locals] using h
      subst this
      obtain ⟨F1, hF1, h3⟩ := cancel_thread s n f2 ht
      exact ⟨F1, s.mem_objects_of_thread F1 hF1, h3⟩
    | notJoinable => rw [ht] at h; simp [SchedThread.locals] at h
    | atLoop => rw [ht] at h; simp [SchedThread.locals] at h
    | returned => rw [ht] at h; simp [SchedThread.locals] at h

theorem runIteration_objects (H : HeapAlgo) (s : TimerScheduler) (now : Int)
    (ht : s.thread_ = .atLoop) (f2 : RepeatFunc)
    (h : f2 ∈ (s.runIteration H now).2.objects) :
    ∃ f1 ∈ s.functions_, f2 = f1 ∨
      (f2 = s.advanced f1 now ∧ f1.isValid = true ∧ wrap64 (f1.nextRunTime - now) < 0 ∧
        s.running_ = true ∧ (s.runIteration H now).2.thread_ = .inCallback f2) := by
  rcases runIteration_cases H s now with ⟨_, hc⟩ | ⟨_, _, hc⟩ |
      ⟨front, back, hr, hpop, ⟨_, hc⟩ | ⟨hv, hd, hc⟩ | ⟨_, _, hc⟩⟩
  · rw [hc] at h
    simp only [objects, SchedThread.locals, List.append_nil] at h
    exact ⟨f2, h, Or.inl rfl⟩
  · rw [hc] at h
    simp only [objects, ht, SchedThread.locals, List.append_nil] at h
    exact ⟨f2, h, Or.inl rfl⟩
  · rw [hc] at h
    simp only [objects, ht, SchedThread.locals, List.append_nil] at h
    have hperm : (front ++ [back]).Perm s.functions_ := hpop ▸ H.pop_heap_perm _
    exact ⟨f2, hperm.mem_iff.mp (List.mem_append_left _ h), Or.inl rfl⟩
  · rw [hc] at h ⊢
    simp only [objects, SchedThread.locals] at h
    have hperm : (front ++ [back]).Perm s.functions_ := hpop ▸ H.pop_heap_perm _
    rcases List.mem_append.mp h with h | h
    · exact ⟨f2, hperm.mem_iff.mp (List.mem_append_left _ h), Or.inl rfl⟩
    · have : f2 = s.advanced back now := by simpa using h
      subst this
      exact ⟨back, hperm.mem_iff.mp (by simp), Or.inr ⟨rfl, hv, hd, hr, rfl⟩⟩
  · rw [hc] at h
    simp only [objects, ht, SchedThread.locals, List.append_nil] at h
    have hperm : (front ++ [back]).Perm s.functions_ := hpop ▸ H.pop_heap_perm _
    exact ⟨f2, hperm.mem_iff.mp ((H.push_heap_perm _).mem_iff.mp h), Or.inl rfl⟩

theorem resume_objects (H : HeapAlgo) (s : TimerScheduler) (hwf : WF s) (f2 : RepeatFunc)
    (h : f2 ∈ (s.runOneFunctionResume H).objects) : f2 ∈ s.objects := by
  by_cases hT : ∃ F, s.thread_ = .inCallback F
  swap
  · rw [resume_idle H s (fun F h => hT ⟨F, h⟩)] at h; exact h
  obtain ⟨F, ht⟩ := hT
  rcases resume_cases H s hwf F ht with ⟨_, hc⟩ | ⟨_, _, hc⟩ | ⟨_, _, hc⟩
  · rw [hc] at h
    simp only [objects, SchedThread.locals, List.append_nil] at h
    exact s.mem_objects_of_mem f2 h
  · rw [hc] at h
    simp only [objects, SchedThread.locals, List.append_nil] at h
    exact s.mem_objects_of_mem f2 h
  · rw [hc] at h
    simp only [objects, SchedThread.locals, List.append_nil] at h
    have hperm : (if s.running_ then H.push_heap (s.functions_ ++ [F])
        else s.functions_ ++ [F]).Perm (s.functions_ ++ [F]) := by
      split
      · exact H.push_heap_perm _
      · exact List.Perm.refl _
    have := hperm.mem_iff.mp h
    simpa [objects, ht, SchedThread.locals] using this

theorem addFunction_eq (H : HeapAlgo) (s : TimerScheduler) (cb : Option Nat)
    (interval : Int) (nameID : String) (startDelay : Int) (now : Int) (addr : Nat) :
    (interval < 0 ∧
      s.addFunction H cb interval nameID startDelay now addr = (some .intervalNegative, s)) ∨
    (0 ≤ interval ∧ s.addFunction H cb interval nameID startDelay now addr =
      s.addFunctionToHeapChecked H cb interval nameID startDelay false now addr) := by
  by_cases h : interval < 0
  · left; exact ⟨h, by simp [addFunction, ConstIntervalFunctor, h]⟩
  · right; exact ⟨Int.not_lt.mp h, by simp [addFunction, ConstIntervalFunctor, h]⟩

theorem addFunctionOnce_eq (H : HeapAlgo) (s : TimerScheduler) (cb : Option Nat)
    (nameID : String) (startDelay : Int) (now : Int) (addr : Nat) :
    s.addFunctionOnce H cb nameID startDelay now addr =
      s.addFunctionToHeapChecked H cb 0 nameID startDelay true now addr := by
  simp [addFunctionOnce, ConstIntervalFunctor]

end TimerScheduler

namespace World

theorem added_checked (H : HeapAlgo) (w : World) (cb : Option Nat) (fn : Int)
    (nameID : String) (startDelay : Int) (once : Bool) :
    (∃ e, (w.sched.addFunctionToHeapChecked H cb fn nameID startDelay once w.clock
        w.nextAddr).1 = some e ∧
      w.added (w.sched.addFunctionToHeapChecked H cb fn nameID startDelay once w.clock
        w.nextAddr) = w) ∨
    (∃ g l, (w.sched.addFunctionToHeapChecked H cb fn nameID startDelay once w.clock
        w.nextAddr).1 = none ∧
      g.addr = w.nextAddr ∧ g.name = nameID ∧ g.cb = cb ∧ cb.isSome = true ∧
      g.startDelay = startDelay ∧ 0 ≤ startDelay ∧ g.interval = fn ∧ g.runOnce = once ∧
      g.nextRunTime =
        (if w.sched.running_ then wrap64 (w.clock + nanoseconds startDelay) else 0) ∧
      l.Perm (w.sched.functions_ ++ [g]) ∧
      (w.sched.running_ = false → l = w.sched.functions_ ++ [g]) ∧
      w.sched.findValid nameID = none ∧ w.sched.currentNamed nameID = none ∧
      w.added (w.sched.addFunctionToHeapChecked H cb fn nameID startDelay once w.clock
        w.nextAddr) = w.withTask g l) := by
  cases hr : (w.sched.addFunctionToHeapChecked H cb fn nameID startDelay once w.clock
      w.nextAddr).1 with
  | some e =>
    left
    refine ⟨e, rfl, ?_⟩
    have h2 := TimerScheduler.addChecked_error H w.sched cb fn nameID startDelay once
      w.clock w.nextAddr e hr
    simp only [added, hr, h2]
  | none =>
    right
    obtain ⟨hcb, hd, hfv, hcn, g, l, ha, hn, hc, hsd, hro, hi, hnx, hl, hl2, heq⟩ :=
      TimerScheduler.addChecked_ok H w.sched cb fn nameID startDelay once w.clock w.nextAddr hr
    refine ⟨g, l, rfl, ha, hn, hc, hcb, hsd, hd, hi, hro, hnx, hl, hl2, hfv, hcn, ?_⟩
    simp only [added, hr, heq, withTask, ha, hn]

/-- A registration event either throws and changes nothing, or adds one new
valid task at the next address. -/
theorem step_add (H : HeapAlgo) (w : World) (e : Event) (cb : Option Nat) (interval : Int)
    (nameID : String) (startDelay : Int) (once : Bool)
    (he : isAdd e cb interval nameID startDelay once) :
    w.step H e = w ∨
    ∃ g l, g.addr = w.nextAddr ∧ g.name = nameID ∧ g.cb = cb ∧ cb.isSome = true ∧
      g.startDelay = startDelay ∧ 0 ≤ startDelay ∧ g.interval = interval ∧ 0 ≤ interval ∧
      g.runOnce = once ∧
      g.nextRunTime =
        (if w.sched.running_ then wrap64 (w.clock + nanoseconds startDelay) else 0) ∧
      l.Perm (w.sched.functions_ ++ [g]) ∧
      (w.sched.running_ = false → l = w.sched.functions_ ++ [g]) ∧
      w.sched.findValid nameID = none ∧ w.sched.currentNamed nameID = none ∧
      w.step H e = w.withTask g l := by
  rcases he with ⟨rfl, rfl⟩ | ⟨rfl, rfl, rfl⟩
  · rcases TimerScheduler.addFunction_eq H w.sched cb interval nameID startDelay w.clock
      w.nextAddr with ⟨_, h⟩ | ⟨hi, h⟩
    · left
      simp only [step, h, added]
    · simp only [step, h]
      rcases added_checked H w cb interval nameID startDelay false with ⟨_, _, h2⟩ |
        ⟨g, l, _, h1, h2, h3, h4, h5, h6, h7, h8, h9, h10, h11, h12, h13, h14⟩
      · left; exact h2
      · right
        exact ⟨g, l, h1, h2, h3, h4, h5, h6, h7, hi, h8, h9, h10, h11, h12, h13, h14⟩
  · simp only [step, TimerScheduler.addFunctionOnce_eq]
    rcases added_checked H w cb 0 nameID startDelay true with ⟨_, _, h2⟩ |
      ⟨g, l, _, h1, h2, h3, h4, h5, h6, h7, h8, h9, h10, h11, h12, h13, h14⟩
    · left; exact h2
    · right
      exact ⟨g, l, h1, h2, h3, h4, h5, h6, h7, le_refl _, h8, h9, h10, h11, h12, h13, h14⟩

/-- What a pass of the loop does to the world: either it invokes a due valid
task `back` of `functions_`, or it records no invocation. -/
theorem step_loop (H : HeapAlgo) (w : World) (ht : w.sched.thread_ = .atLoop) :
    (w.step H .loop = { w with sched := (w.sched.runIteration H w.clock).2 } ∧
      ∀ F, (w.sched.runIteration H w.clock).2.thread_ ≠ .inCallback F) ∨
    ∃ front back, w.sched.running_ = true ∧
      H.pop_heap w.sched.functions_ = front ++ [back] ∧
      back.isValid = true ∧ wrap64 (back.nextRunTime - w.clock) < 0 ∧
      w.step H .loop = { w with
        sched := { w.sched with
          functions_ := front
          currentFunction_ := some back.addr
          thread_ := .inCallback (w.sched.advanced back w.clock) }
        calls := w.callOf back :: w.calls } := by
  rcases TimerScheduler.runIteration_cases H w.sched w.clock with ⟨_, hc⟩ | ⟨_, _, hc⟩ |
      ⟨front, back, hr, hpop, ⟨_, hc⟩ | ⟨hv, hd, hc⟩ | ⟨_, _, hc⟩⟩
  · left
    refine ⟨by simp only [step, ht, hc], ?_⟩
    rw [hc]; intro F h; cases h
  · left
    refine ⟨by simp only [step, ht, hc], ?_⟩
    rw [hc]; intro F h
    have h2 : w.sched.thread_ = .inCallback F := h
    rw [ht] at h2; cases h2
  · left
    refine ⟨by simp only [step, ht, hc], ?_⟩
    rw [hc]; intro F h
    have h2 : w.sched.thread_ = .inCallback F := h
    rw [ht] at h2; cases h2
  · right
    refine ⟨front, back, hr, hpop, hv, hd, ?_⟩
    simp only [step, ht, hc, callOf]
  · left
    refine ⟨by simp only [step, ht, hc], ?_⟩
    rw [hc]; intro F h
    have h2 : w.sched.thread_ = .inCallback F := h
    rw [ht] at h2; cases h2

theorem step_loop_idle (H : HeapAlgo) (w : World) (ht : w.sched.thread_ ≠ .atLoop) :
    w.step H .loop = w := by
  simp only [step]

theorem inv_init : Inv init := by
  refine ⟨TimerScheduler.wf_init, ?_, ?_, ?_⟩
  · intro f hf; simp [init, TimerScheduler.init, TimerScheduler.objects, SchedThread.locals] at hf
  · intro f hf; simp [init, TimerScheduler.init, TimerScheduler.objects, SchedThread.locals] at hf
  · intro h; simp [init, TimerScheduler.init] at h

theorem step_start (H : HeapAlgo) (w : World) :
    w.step H .start = w ∨
    (w.sched.running_ = false ∧ w.sched.thread_ = .notJoinable ∧
      w.step H .start = { w with
        sched := { w.sched with
          functions_ :=
            H.make_heap (w.sched.functions_.map (fun f => f.resetNextRunTime w.clock))
          thread_ := .atLoop
          running_ := true }
        activations := w.sched.functions_.map (fun f => (f.addr, w.clock)) ++ w.activations }) := by
  by_cases hr : w.sched.running_ = true
  · left; simp only [step, TimerScheduler.start_running H w.sched w.clock hr]
  have hr2 : w.sched.running_ = false := by simpa using hr
  by_cases ht : w.sched.thread_ = .notJoinable
  · right
    refine ⟨hr2, ht, ?_⟩
    simp only [step, TimerScheduler.start_stopped H w.sched w.clock hr2 ht]
  · left; simp only [step, TimerScheduler.start_terminates H w.sched w.clock hr2 ht]

theorem step_join (H : HeapAlgo) (w : World) :
    w.step H .join = w ∨
    (w.sched.thread_ = .returned ∧
      w.step H .join = { w with sched := { w.sched with thread_ := .notJoinable } }) := by
  cases hj : w.sched.join .otherThread with
  | joined s2 =>
    right
    obtain ⟨ht, rfl⟩ := TimerScheduler.join_some w.sched s2 hj
    exact ⟨ht, by simp only [step, hj]⟩
  | waits => left; simp only [step, hj]
  | systemError => left; simp only [step, hj]

theorem step_nextAddr (H : HeapAlgo) (w : World) (e : Event) :
    w.nextAddr ≤ (w.step H e).nextAddr := by
  cases e with
  | tick d => exact le_refl _
  | start => rcases step_start H w with h | ⟨_, _, h⟩ <;> rw [h]
  | shutdown => exact le_refl _
  | join => rcases step_join H w with h | ⟨_, h⟩ <;> rw [h]
  | setSteady b => exact le_refl _
  | addFunction cb interval nameID startDelay =>
    rcases step_add H w _ cb interval nameID startDelay false (Or.inl ⟨rfl, rfl⟩) with
      h | ⟨g, l, _, _, _, _, _, _, _, _, _, _, _, _, _, _, h⟩ <;> rw [h]
    exact Nat.le_succ _
  | addFunctionOnce cb nameID startDelay =>
    rcases step_add H w _ cb 0 nameID startDelay true (Or.inr ⟨rfl, rfl, rfl⟩) with
      h | ⟨g, l, _, _, _, _, _, _, _, _, _, _, _, _, _, _, h⟩ <;> rw [h]
    exact Nat.le_succ _
  | cancelFunction n => exact le_refl _
  | cancelFunctionAndWait n => exact le_refl _
  | loop =>
    by_cases ht : w.sched.thread_ = .atLoop
    · rcases step_loop H w ht with ⟨h, _⟩ | ⟨_, _, _, _, _, _, h⟩ <;> rw [h]
    · rw [step_loop_idle H w ht]
  | callbackEnds => exact le_refl _

theorem step_loop_sched (H : HeapAlgo) (w : World) (ht : w.sched.thread_ = .atLoop) :
    (w.step H .loop).sched = (w.sched.runIteration H w.clock).2 := by
  simp only [step, ht]
  split <;> simp_all

/-- Every object after a step is an object from before the step, or the one
new task of a successful registration. -/
theorem step_objects (H : HeapAlgo) (w : World) (e : Event) (hinv : Inv w)
    (f2 : RepeatFunc) (h : f2 ∈ (w.step H e).sched.objects) :
    (∃ f1 ∈ w.sched.objects, f2.sameTask f1) ∨
    (f2.addr = w.nextAddr ∧ (w.step H e).nextAddr = w.nextAddr + 1 ∧
      0 ≤ f2.interval ∧ 0 ≤ f2.startDelay ∧ f2.isValid = true) := by
  have hadd : ∀ cb interval nameID startDelay once,
      isAdd e cb interval nameID startDelay once →
      (∃ f1 ∈ w.sched.objects, f2.sameTask f1) ∨
      (f2.addr = w.nextAddr ∧ (w.step H e).nextAddr = w.nextAddr + 1 ∧
        0 ≤ f2.interval ∧ 0 ≤ f2.startDelay ∧ f2.isValid = true) := by
    intro cb interval nameID startDelay once he
    rcases step_add H w e cb interval nameID startDelay once he with
      h1 | ⟨g, l, ha, _, hc, hcb, hsd, hd, hi, hi2, _, _, hl, _, _, _, h1⟩
    · rw [h1] at h; exact Or.inl ⟨f2, h, f2.sameTask_refl⟩
    · rw [h1] at h ⊢
      have h' : f2 ∈ l ++ w.sched.thread_.locals := h
      rcases List.mem_append.mp h' with h2 | h2
      · rcases List.mem_append.mp (hl.mem_iff.mp h2) with h3 | h3
        · exact Or.inl ⟨f2, w.sched.mem_objects_of_mem f2 h3, f2.sameTask_refl⟩
        · have : f2 = g := by simpa using h3
          subst this
          refine Or.inr ⟨ha, rfl, hi ▸ hi2, hsd ▸ hd, ?_⟩
          simp [RepeatFunc.isValid, hc, hcb]
      · exact Or.inl ⟨f2, List.mem_append_right _ h2, f2.sameTask_refl⟩
  cases e with
  | tick d => exact Or.inl ⟨f2, h, f2.sameTask_refl⟩
  | start =>
    rcases step_start H w with h1 | ⟨hr, ht, h1⟩
    · rw [h1] at h; exact Or.inl ⟨f2, h, f2.sameTask_refl⟩
    · rw [h1] at h
      obtain ⟨f1, hf1, hs, _⟩ := TimerScheduler.start_objects H w.sched w.clock hr f2 h
      exact Or.inl ⟨f1, w.sched.mem_objects_of_mem f1 hf1, hs⟩
  | shutdown =>
    have h2 : f2 ∈ w.sched.objects := by
      have h3 : f2 ∈ w.sched.shutdown.2.objects := h
      by_cases hr : w.sched.running_ = true
      · rw [TimerScheduler.shutdown_running _ hr] at h3; exact h3
      · rw [TimerScheduler.shutdown_stopped _ (by simpa using hr)] at h3; exact h3
    exact Or.inl ⟨f2, h2, f2.sameTask_refl⟩
  | join =>
    rcases step_join H w with h1 | ⟨ht, h1⟩
    · rw [h1] at h; exact Or.inl ⟨f2, h, f2.sameTask_refl⟩
    · rw [h1] at h
      have h2 : f2 ∈ w.sched.objects := by
        simpa [TimerScheduler.objects, ht, SchedThread.locals] using h
      exact Or.inl ⟨f2, h2, f2.sameTask_refl⟩
  | setSteady b => exact Or.inl ⟨f2, h, f2.sameTask_refl⟩
  | addFunction cb interval nameID startDelay =>
    exact hadd cb interval nameID startDelay false (Or.inl ⟨rfl, rfl⟩)
  | addFunctionOnce cb nameID startDelay =>
    exact hadd cb 0 nameID startDelay true (Or.inr ⟨rfl, rfl, rfl⟩)
  | cancelFunction n =>
    obtain ⟨f1, hf1, h3⟩ := TimerScheduler.cancel_objects w.sched n f2 h
    rcases h3 with rfl | rfl
    · exact Or.inl ⟨f2, hf1, f2.sameTask_refl⟩
    · exact Or.inl ⟨f1, hf1, TimerScheduler.sameTask_cancel f1⟩
  | cancelFunctionAndWait n =>
    obtain ⟨f1, hf1, h3⟩ := TimerScheduler.cancel_objects w.sched n f2 h
    rcases h3 with rfl | rfl
    · exact Or.inl ⟨f2, hf1, f2.sameTask_refl⟩
    · exact Or.inl ⟨f1, hf1, TimerScheduler.sameTask_cancel f1⟩
  | loop =>
    by_cases ht : w.sched.thread_ = .atLoop
    · rw [step_loop_sched H w ht] at h
      have h2 := h
      obtain ⟨f1, hf1, h3⟩ := TimerScheduler.runIteration_objects H w.sched w.clock ht f2 h2
      rcases h3 with rfl | ⟨rfl, _⟩
      · exact Or.inl ⟨f2, w.sched.mem_objects_of_mem f2 hf1, f2.sameTask_refl⟩
      · exact Or.inl ⟨f1, w.sched.mem_objects_of_mem f1 hf1,
          TimerScheduler.sameTask_advanced _ _ _⟩
    · rw [step_loop_idle H w ht] at h
      exact Or.inl ⟨f2, h, f2.sameTask_refl⟩
  | callbackEnds =>
    exact Or.inl ⟨f2, TimerScheduler.resume_objects H w.sched hinv.wf f2 h, f2.sameTask_refl⟩

theorem step_wf (H : HeapAlgo) (w : World) (e : Event) (hinv : Inv w) :
    (w.step H e).sched.WF := by
  have hadd : ∀ cb interval nameID startDelay once,
      isAdd e cb interval nameID startDelay once → (w.step H e).sched.WF := by
    intro cb interval nameID startDelay once he
    rcases step_add H w e cb interval nameID startDelay once he with
      h1 | ⟨g, l, ha, hn, hc, hcb, _, _, _, _, _, _, hl, _, hfv, hcn, h1⟩
    · rw [h1]; exact hinv.wf
    · rw [h1]
      have hv : g.isValid = true := by simp [RepeatFunc.isValid, hc, hcb]
      have hfresh : ∀ f ∈ w.sched.objects, f.addr ≠ g.addr := by
        intro f hf heq
        have := hinv.addr_lt f hf
        omega
      exact (TimerScheduler.wf_add_core w.sched hinv.wf g hfresh hv (hn ▸ hfv)
        (hn ▸ hcn)).perm _ l hl
  cases e with
  | tick d => exact hinv.wf
  | start =>
    rcases step_start H w with h1 | ⟨hr, ht, h1⟩
    · rw [h1]; exact hinv.wf
    · rw [h1]
      exact TimerScheduler.wf_start H w.sched hinv.wf ht w.clock
  | shutdown => exact TimerScheduler.wf_shutdown w.sched hinv.wf
  | join =>
    cases hj : w.sched.join .otherThread with
    | joined s2 => simp only [step, hj]; exact TimerScheduler.wf_join w.sched s2 hinv.wf hj
    | waits => simp only [step, hj]; exact hinv.wf
    | systemError => simp only [step, hj]; exact hinv.wf
  | setSteady b => exact TimerScheduler.wf_setSteady w.sched hinv.wf b
  | addFunction cb interval nameID startDelay =>
    exact hadd cb interval nameID startDelay false (Or.inl ⟨rfl, rfl⟩)
  | addFunctionOnce cb nameID startDelay =>
    exact hadd cb 0 nameID startDelay true (Or.inr ⟨rfl, rfl, rfl⟩)
  | cancelFunction n => exact TimerScheduler.wf_cancelFunction w.sched hinv.wf n
  | cancelFunctionAndWait n => exact TimerScheduler.wf_cancelFunction w.sched hinv.wf n
  | loop =>
    by_cases ht : w.sched.thread_ = .atLoop
    · rw [step_loop_sched H w ht]
      exact TimerScheduler.wf_runIteration H w.sched hinv.wf ht w.clock
    · rw [step_loop_idle H w ht]; exact hinv.wf
  | callbackEnds => exact TimerScheduler.wf_resume H w.sched hinv.wf

/-- How a step changes the running flag and the thread. -/
theorem step_thread_running (H : HeapAlgo) (w : World) (e : Event) (hinv : Inv w)
    (hr : (w.step H e).sched.running_ = true) :
    (w.step H e).sched.thread_ ≠ .notJoinable ∧ (w.step H e).sched.thread_ ≠ .returned := by
  have hadd : ∀ cb interval nameID startDelay once,
      isAdd e cb interval nameID startDelay once →
      (w.step H e).sched.thread_ ≠ .notJoinable ∧ (w.step H e).sched.thread_ ≠ .returned := by
    intro cb interval nameID startDelay once he
    rcases step_add H w e cb interval nameID startDelay once he with
      h1 | ⟨g, l, _, _, _, _, _, _, _, _, _, _, _, _, _, _, h1⟩
    · rw [h1] at hr ⊢; exact hinv.thread_running hr
    · rw [h1] at hr ⊢; exact hinv.thread_running hr
  cases e with
  | tick d => exact hinv.thread_running hr
  | start =>
    rcases step_start H w with h1 | ⟨_, _, h1⟩
    · rw [h1] at hr ⊢; exact hinv.thread_running hr
    · rw [h1]; exact ⟨nofun, nofun⟩
  | shutdown =>
    have hr2 : w.sched.shutdown.2.running_ = true := hr
    by_cases hr3 : w.sched.running_ = true
    · rw [TimerScheduler.shutdown_running _ hr3] at hr2; cases hr2
    · rw [TimerScheduler.shutdown_stopped _ (by simpa using hr3)] at hr2
      exact absurd hr2 hr3
  | join =>
    rcases step_join H w with h1 | ⟨ht, h1⟩
    · rw [h1] at hr ⊢; exact hinv.thread_running hr
    · rw [h1] at hr
      exact absurd ht (hinv.thread_running hr).2
  | setSteady b => exact hinv.thread_running hr
  | addFunction cb interval nameID startDelay =>
    exact hadd cb interval nameID startDelay false (Or.inl ⟨rfl, rfl⟩)
  | addFunctionOnce cb nameID startDelay =>
    exact hadd cb 0 nameID startDelay true (Or.inr ⟨rfl, rfl, rfl⟩)
  | cancelFunction n =>
    obtain ⟨h1, h2, _⟩ := TimerScheduler.cancel_thread_kind w.sched n
    have hr2 : w.sched.running_ = true := h2 ▸ hr
    have := hinv.thread_running hr2
    show (w.sched.cancelFunctionStale n).2.thread_ ≠ _ ∧ (w.sched.cancelFunctionStale n).2.thread_ ≠ _
    rcases h1 with h1 | ⟨F1, _, h1⟩
    · rw [h1]; exact this
    · rw [h1]; exact ⟨nofun, nofun⟩
  | cancelFunctionAndWait n =>
    obtain ⟨h1, h2, _⟩ := TimerScheduler.cancel_thread_kind w.sched n
    have hr2 : w.sched.running_ = true := h2 ▸ hr
    have := hinv.thread_running hr2
    show (w.sched.cancelFunctionStale n).2.thread_ ≠ _ ∧ (w.sched.cancelFunctionStale n).2.thread_ ≠ _
    rcases h1 with h1 | ⟨F1, _, h1⟩
    · rw [h1]; exact this
    · rw [h1]; exact ⟨nofun, nofun⟩
  | loop =>
    by_cases ht : w.sched.thread_ = .atLoop
    · rw [step_loop_sched H w ht] at hr ⊢
      have hkeep : w.sched.thread_ ≠ .notJoinable ∧ w.sched.thread_ ≠ .returned := by
        rw [ht]; exact ⟨nofun, nofun⟩
      rcases TimerScheduler.runIteration_cases H w.sched w.clock with ⟨hr2, hc⟩ | ⟨_, _, hc⟩ |
        ⟨front, back, _, _, ⟨_, hc⟩ | ⟨_, _, hc⟩ | ⟨_, _, hc⟩⟩
      · rw [hc] at hr
        exact absurd (hr2 ▸ hr : false = true) (by simp)
      · rw [hc]; exact hkeep
      · rw [hc]; exact hkeep
      · rw [hc]; exact ⟨nofun, nofun⟩
      · rw [hc]; exact hkeep
    · rw [step_loop_idle H w ht] at hr ⊢; exact hinv.thread_running hr
  | callbackEnds =>
    by_cases hT : ∃ F, w.sched.thread_ = .inCallback F
    swap
    · have := TimerScheduler.resume_idle H w.sched (fun F h => hT ⟨F, h⟩)
      simp only [step, this] at hr ⊢
      exact hinv.thread_running hr
    obtain ⟨F, ht⟩ := hT
    show (w.sched.runOneFunctionResume H).thread_ ≠ _ ∧ (w.sched.runOneFunctionResume H).thread_ ≠ _
    rcases TimerScheduler.resume_cases H w.sched hinv.wf F ht with
      ⟨_, hc⟩ | ⟨_, _, hc⟩ | ⟨_, _, hc⟩ <;>
    · rw [hc]; exact ⟨nofun, nofun⟩

theorem inv_step (H : HeapAlgo) (w : World) (e : Event) (hinv : Inv w) :
    Inv (w.step H e) := by
  refine ⟨step_wf H w e hinv, ?_, ?_, step_thread_running H w e hinv⟩
  · intro f2 h2
    rcases step_objects H w e hinv f2 h2 with ⟨f1, hf1, hs⟩ | ⟨ha, hn, _⟩
    · have := hinv.addr_lt f1 hf1
      have := step_nextAddr H w e
      rw [hs.1]; omega
    · omega
  · intro f2 h2
    rcases step_objects H w e hinv f2 h2 with ⟨f1, hf1, hs⟩ | ⟨_, _, hi, hd, _⟩
    · have := hinv.nonneg f1 hf1
      rw [hs.2.2.2.1, hs.2.2.1]; exact this
    · exact ⟨hi, hd⟩

theorem inv_exec (H : HeapAlgo) (w : World) (es : List Event) (hinv : Inv w) :
    Inv (w.exec H es) := by
  induction es generalizing w with
  | nil => exact hinv
  | cons e es ih => exact ih (w.step H e) (inv_step H w e hinv)

theorem exec_cons (H : HeapAlgo) (w : World) (e : Event) (es : List Event) :
    w.exec H (e :: es) = (w.step H e).exec H es := rfl

theorem exec_append (H : HeapAlgo) (w : World) (es1 es2 : List Event) :
    w.exec H (es1 ++ es2) = (w.exec H es1).exec H es2 := by
  simp [exec, List.foldl_append]

end World

theorem Reachable.inv {H : HeapAlgo} {w : World} (h : Reachable H w) : w.Inv := by
  induction h with
  | init => exact World.inv_init
  | step w e _ ih => exact World.inv_step H w e ih

theorem Reachable.after (H : HeapAlgo) (w : World) (es : List Event) (h : Reachable H w) :
    Reachable H (w.exec H es) := by
  induction es generalizing w with
  | nil => exact h
  | cons e es ih => exact ih (w.step H e) (Reachable.step w e h)

namespace TimerScheduler

theorem findValid_isSome_iff (s : TimerScheduler) (n : String) :
    (s.findValid n).isSome = true ↔
      ∃ p f, s.functionsMap_.find n = some p ∧ s.deref p = some f ∧ f.isValid = true := by
  constructor
  · intro h
    cases hf : s.findValid n with
    | none => rw [hf] at h; cases h
    | some f =>
      obtain ⟨h1, h2, h3⟩ := s.findValid_some n f hf
      exact ⟨f.addr, f, h1, h2, h3⟩
  · rintro ⟨p, f, h1, h2, h3⟩
    rw [s.findValid_of n p f h1 h2 h3]; rfl

theorem currentNamed_isSome_iff (s : TimerScheduler) (n : String) :
    (s.currentNamed n).isSome = true ↔
      ∃ p f, s.currentFunction_ = some p ∧ s.deref p = some f ∧ f.name = n := by
  constructor
  · intro h
    cases hf : s.currentNamed n with
    | none => rw [hf] at h; cases h
    | some f =>
      obtain ⟨h1, h2, h3⟩ := s.currentNamed_some n f hf
      exact ⟨f.addr, f, h1, h2, h3⟩
  · rintro ⟨p, f, h1, h2, h3⟩
    rw [s.currentNamed_of n p f h1 h2 h3]; rfl

/-- The exception `addFunctionToHeapChecked` throws, test by test. -/
theorem addChecked_result (H : HeapAlgo) (s : TimerScheduler) (cb : Option Nat) (fn : Int)
    (nameID : String) (startDelay : Int) (runOnce : Bool) (now : Int) (addr : Nat) :
    (s.addFunctionToHeapChecked H cb fn nameID startDelay runOnce now addr).1 =
      if cb.isNone then some .functionNotSet
      else if startDelay < 0 then some .startDelayNegative
      else if (s.findValid nameID).isSome then some (.alreadyExists nameID)
      else if (s.currentNamed nameID).isSome then some (.alreadyExists nameID)
      else none := by
  unfold addFunctionToHeapChecked
  by_cases h1 : cb.isNone = true
  · simp [h1]
  by_cases h2 : startDelay < 0
  · simp [h1, h2]
  by_cases h3 : (s.findValid nameID).isSome = true
  · simp [h1, h2, h3]
  by_cases h4 : (s.currentNamed nameID).isSome = true
  · simp [h1, h2, h3, h4]
  rw [if_neg h1, if_neg h2, if_neg h3, if_neg h4, if_neg h1, if_neg h2, if_neg h3, if_neg h4]
  dsimp only
  split <;> rfl

/-- After a cancellation that found its task, the name is held neither by
the map nor by the current function. -/
theorem cancel_frees (s : TimerScheduler) (hwf : WF s) (n : String)
    (h : (s.cancelFunctionStale n).1 = true) :
    (s.cancelFunctionStale n).2.findValid n = none ∧
    (s.cancelFunctionStale n).2.currentNamed n = none := by
  cases h1 : s.currentNamed n with
  | some F =>
    obtain ⟨_, _, hn⟩ := s.currentNamed_some n F h1
    rw [cancel_current s n F h1]
    constructor
    · simp only [findValid, hn]
      have : FunctionMap.find (FunctionMap.erase s.functionsMap_ n) n = none :=
        FunctionMap.find_erase_self _ _
      simp only [this]
    · simp only [currentNamed]
  | none =>
    cases h2 : s.findValid n with
    | none => rw [cancel_none s n h1 h2] at h; cases h
    | some f =>
      obtain ⟨_, hn⟩ := hwf.findValid_mem s n f h1 h2
      have hres := cancel_idle s n f h1 h2
      constructor
      · rw [hres]
        have : FunctionMap.find (FunctionMap.erase s.functionsMap_ f.name) n = none := by
          rw [hn]; exact FunctionMap.find_erase_self _ _
        simp only [findValid, mutate, this]
      · cases h3 : (s.cancelFunctionStale n).2.currentNamed n with
        | none => rfl
        | some x =>
          exfalso
          obtain ⟨hc, hd, hxn⟩ := (s.cancelFunctionStale n).2.currentNamed_some n x h3
          obtain ⟨hxm, _⟩ := (s.cancelFunctionStale n).2.deref_mem x.addr x hd
          obtain ⟨f1, hf1, h4⟩ := cancel_objects s n x hxm
          have hc2 : s.currentFunction_ = some x.addr := by
            rw [hres] at hc; exact hc
          have ha : f1.addr = x.addr := by rcases h4 with rfl | rfl <;> rfl
          have hnm : f1.name = n := by rcases h4 with rfl | rfl <;> exact hxn
          have := s.currentNamed_of n x.addr f1 hc2 (ha ▸ s.deref_of_mem hwf.nodup f1 hf1) hnm
          rw [h1] at this
          cases this

/-- A registration with a non-empty callback, a non-negative interval and a
non-negative start delay succeeds when the name is held neither by the map
nor by the current function. -/
theorem addFunction_ok_of_free (H : HeapAlgo) (s : TimerScheduler) (c : Nat) (interval : Int)
    (nameID : String) (startDelay : Int) (now : Int) (addr : Nat)
    (hi : 0 ≤ interval) (hd : 0 ≤ startDelay)
    (h1 : s.findValid nameID = none) (h2 : s.currentNamed nameID = none) :
    (s.addFunction H (some c) interval nameID startDelay now addr).1 = none := by
  rcases addFunction_eq H s (some c) interval nameID startDelay now addr with ⟨hi2, _⟩ | ⟨_, h⟩
  · omega
  · rw [h, addChecked_result, h1, h2]
    have : ¬ startDelay < 0 := by omega
    simp [this]

theorem runIteration_map (H : HeapAlgo) (s : TimerScheduler) (now : Int) :
    (s.runIteration H now).2.functionsMap_ = s.functionsMap_ := by
  rcases runIteration_cases H s now with ⟨_, hc⟩ | ⟨_, _, hc⟩ |
      ⟨front, back, _, _, ⟨_, hc⟩ | ⟨_, _, hc⟩ | ⟨_, _, hc⟩⟩ <;> rw [hc]

/-- Under the invariant, a name the map holds cannot be registered again. -/
theorem WF.held (s : TimerScheduler) (hwf : WF s) (n : String) (a : Nat)
    (h : s.functionsMap_.find n = some a) :
    (s.findValid n).isSome = true ∨ (s.currentNamed n).isSome = true := by
  rcases hwf.map_sound n a (FunctionMap.mem_of_find _ _ _ h) with
    ⟨f, hf, ha, _, hv⟩ | ⟨F, ht, hc, ha, hn⟩
  · left
    have hd := s.deref_of_mem hwf.nodup f (s.mem_objects_of_mem f hf)
    rw [ha] at hd
    rw [s.findValid_of n a f h hd hv]; rfl
  · right
    have hd := s.deref_of_mem hwf.nodup F (s.mem_objects_of_thread F ht)
    rw [ha] at hd
    rw [s.currentNamed_of n a F hc hd hn]; rfl

theorem addChecked_duplicate (H : HeapAlgo) (s : TimerScheduler) (cb : Option Nat) (fn : Int)
    (nameID : String) (startDelay : Int) (runOnce : Bool) (now : Int) (addr : Nat)
    (h : (s.findValid nameID).isSome = true ∨ (s.currentNamed nameID).isSome = true) :
    (s.addFunctionToHeapChecked H cb fn nameID startDelay runOnce now addr).1.isSome = true ∧
    (cb.isSome = true → 0 ≤ startDelay →
      (s.addFunctionToHeapChecked H cb fn nameID startDelay runOnce now addr).1 =
        some (.alreadyExists nameID)) := by
  rw [addChecked_result]
  constructor
  · split
    · rfl
    · split
      · rfl
      · split
        · rfl
        · split
          · rfl
          · rename_i h3 h4
            rcases h with h | h
            · exact absurd h h3
            · exact absurd h h4
  · intro hcb hd
    have h1 : cb.isNone = false := by cases cb <;> simp_all
    have h2 : ¬ startDelay < 0 := by omega
    rcases h with h | h
    · simp [h1, h2, h]
    · by_cases h3 : (s.findValid nameID).isSome = true
      · simp [h1, h2, h3]
      · simp [h1, h2, h3, h]

end TimerScheduler

namespace World

theorem rejects_of_held (H : HeapAlgo) (w : World) (hinv : Inv w) (n : String) (a : Nat)
    (h : w.sched.functionsMap_.find n = some a) : RejectsName H n w.sched := by
  intro cb interval startDelay now addr
  have hheld := hinv.wf.held w.sched n a h
  have hOnce := TimerScheduler.addChecked_duplicate H w.sched cb 0 n startDelay true now addr hheld
  rw [TimerScheduler.addFunctionOnce_eq]
  refine ⟨?_, hOnce.1, ?_, hOnce.2⟩
  · rcases TimerScheduler.addFunction_eq H w.sched cb interval n startDelay now addr with
      ⟨_, h2⟩ | ⟨_, h2⟩
    · rw [h2]; rfl
    · rw [h2]
      exact (TimerScheduler.addChecked_duplicate H w.sched cb interval n startDelay false now
        addr hheld).1
  · intro hcb hi hd
    rcases TimerScheduler.addFunction_eq H w.sched cb interval n startDelay now addr with
      ⟨hi2, _⟩ | ⟨_, h2⟩
    · omega
    · rw [h2]
      exact (TimerScheduler.addChecked_duplicate H w.sched cb interval n startDelay false now
        addr hheld).2 hcb hd

theorem held_step (H : HeapAlgo) (w : World) (hinv : Inv w) (n : String) (a : Nat)
    (e : Event) (h : w.sched.functionsMap_.find n = some a)
    (hk : keepsName n a w e = true) :
    (w.step H e).sched.functionsMap_.find n = some a := by
  have hadd : ∀ cb interval nameID startDelay once,
      isAdd e cb interval nameID startDelay once →
      (w.step H e).sched.functionsMap_.find n = some a := by
    intro cb interval nameID startDelay once he
    rcases step_add H w e cb interval nameID startDelay once he with
      h1 | ⟨g, l, _, hn, _, _, _, _, _, _, _, _, _, _, hfv, hcn, h1⟩
    · rw [h1]; exact h
    · rw [h1]
      have hne : n ≠ g.name := by
        intro heq
        rw [hn] at heq
        subst heq
        rcases hinv.wf.held w.sched n a h with h2 | h2
        · rw [hfv] at h2; cases h2
        · rw [hcn] at h2; cases h2
      show FunctionMap.find (FunctionMap.assign w.sched.functionsMap_ g.name g.addr) n = _
      rw [FunctionMap.find_assign_ne _ _ _ _ hne]
      exact h
  have hcancel : ∀ m, m ≠ n → (w.sched.cancelFunctionStale m).2.functionsMap_.find n = some a := by
    intro m hm
    cases h1 : w.sched.currentNamed m with
    | some F =>
      obtain ⟨_, _, hn⟩ := w.sched.currentNamed_some m F h1
      rw [TimerScheduler.cancel_current _ m F h1]
      show FunctionMap.find (FunctionMap.erase w.sched.functionsMap_ F.name) n = _
      rw [FunctionMap.find_erase_ne _ _ _ (by rw [hn]; exact hm.symm)]
      exact h
    | none =>
      cases h2 : w.sched.findValid m with
      | none => rw [TimerScheduler.cancel_none _ m h1 h2]; exact h
      | some f =>
        obtain ⟨_, hn⟩ := hinv.wf.findValid_mem w.sched m f h1 h2
        rw [TimerScheduler.cancel_idle _ m f h1 h2]
        show FunctionMap.find (FunctionMap.erase w.sched.functionsMap_ f.name) n = _
        rw [FunctionMap.find_erase_ne _ _ _ (by rw [hn]; exact hm.symm)]
        exact h
  cases e with
  | tick d => exact h
  | start => rcases step_start H w with h1 | ⟨_, _, h1⟩ <;> rw [h1] <;> exact h
  | shutdown =>
    show w.sched.shutdown.2.functionsMap_.find n = some a
    by_cases hr : w.sched.running_ = true
    · rw [TimerScheduler.shutdown_running _ hr]; exact h
    · rw [TimerScheduler.shutdown_stopped _ (by simpa using hr)]; exact h
  | join => rcases step_join H w with h1 | ⟨_, h1⟩ <;> rw [h1] <;> exact h
  | setSteady b => exact h
  | addFunction cb interval nameID startDelay =>
    exact hadd cb interval nameID startDelay false (Or.inl ⟨rfl, rfl⟩)
  | addFunctionOnce cb nameID startDelay =>
    exact hadd cb 0 nameID startDelay true (Or.inr ⟨rfl, rfl, rfl⟩)
  | cancelFunction m => exact hcancel m (by simpa [keepsName] using hk)
  | cancelFunctionAndWait m => exact hcancel m (by simpa [keepsName] using hk)
  | loop =>
    by_cases ht : w.sched.thread_ = .atLoop
    · rw [step_loop_sched H w ht, TimerScheduler.runIteration_map]; exact h
    · rw [step_loop_idle H w ht]; exact h
  | callbackEnds =>
    show (w.sched.runOneFunctionResume H).functionsMap_.find n = some a
    by_cases hT : ∃ F, w.sched.thread_ = .inCallback F
    swap
    · rw [TimerScheduler.resume_idle H w.sched (fun F h => hT ⟨F, h⟩)]; exact h
    obtain ⟨F, ht⟩ := hT
    rcases TimerScheduler.resume_cases H w.sched hinv.wf F ht with
      ⟨_, hc⟩ | ⟨hcur, hro, hc⟩ | ⟨_, _, hc⟩
    · rw [hc]; exact h
    · rw [hc]
      obtain ⟨F2, ht2, _, _, hfind⟩ := hinv.wf.current F.addr hcur
      rw [ht] at ht2
      cases ht2
      have hne : n ≠ F.name := by
        intro heq
        rw [← heq, h] at hfind
        have ha : a = F.addr := Option.some.inj hfind
        simp [keepsName, ht, ha, hro] at hk
      show FunctionMap.find (FunctionMap.erase w.sched.functionsMap_ F.name) n = _
      rw [FunctionMap.find_erase_ne _ _ _ hne]
      exact h
    · rw [hc]; exact h

theorem held_exec (H : HeapAlgo) (w : World) (hinv : Inv w) (n : String) (a : Nat)
    (es : List Event) (h : w.sched.functionsMap_.find n = some a)
    (hk : keepsNameAlong H n a w es = true) :
    (w.exec H es).sched.functionsMap_.find n = some a := by
  induction es generalizing w with
  | nil => exact h
  | cons e es ih =>
    simp only [keepsNameAlong, Bool.and_eq_true] at hk
    exact ih (w.step H e) (inv_step H w e hinv) (held_step H w hinv n a e h hk.1) hk.2

/-- A successful registration event puts the name into the map, at the
address the allocator hands out. -/
theorem held_of_added (H : HeapAlgo) (w : World) (e : Event) (cb : Option Nat)
    (interval : Int) (nameID : String) (startDelay : Int) (once : Bool)
    (he : isAdd e cb interval nameID startDelay once) (hne : w.step H e ≠ w) :
    (w.step H e).sched.functionsMap_.find nameID = some w.nextAddr := by
  rcases step_add H w e cb interval nameID startDelay once he with
    h1 | ⟨g, l, ha, hn, _, _, _, _, _, _, _, _, _, _, _, _, h1⟩
  · exact absurd h1 hne
  · rw [h1, ← ha, ← hn]
    exact FunctionMap.find_assign_self _ _ _

theorem added_sched (w : World) (r : Option InvalidArgument × TimerScheduler) :
    (w.added r).sched = r.2 := by
  unfold added
  split <;> rfl

theorem step_addFunction_ne (H : HeapAlgo) (w : World) (cb : Option Nat) (interval : Int)
    (n : String) (startDelay : Int)
    (h : (w.sched.addFunction H cb interval n startDelay w.clock w.nextAddr).1 = none) :
    w.step H (.addFunction cb interval n startDelay) ≠ w := by
  intro heq
  have : (w.step H (.addFunction cb interval n startDelay)).nextAddr = w.nextAddr + 1 := by
    simp only [step, added, h]
  rw [heq] at this
  omega

theorem step_addFunctionOnce_ne (H : HeapAlgo) (w : World) (cb : Option Nat)
    (n : String) (startDelay : Int)
    (h : (w.sched.addFunctionOnce H cb n startDelay w.clock w.nextAddr).1 = none) :
    w.step H (.addFunctionOnce cb n startDelay) ≠ w := by
  intro heq
  have : (w.step H (.addFunctionOnce cb n startDelay)).nextAddr = w.nextAddr + 1 := by
    simp only [step, added, h]
  rw [heq] at this
  omega

/-- Only a pass of the loop that finds a due valid task records an
invocation. -/
theorem step_calls (H : HeapAlgo) (w : World) (e : Event) :
    (w.step H e).calls = w.calls ∨
    (e = .loop ∧ w.sched.thread_ = .atLoop ∧ w.sched.running_ = true ∧
      ∃ front back, H.pop_heap w.sched.functions_ = front ++ [back] ∧
        back ∈ w.sched.functions_ ∧
        back.isValid = true ∧ wrap64 (back.nextRunTime - w.clock) < 0 ∧
        (w.step H e).calls = w.callOf back :: w.calls ∧
        (w.step H e).sched.thread_ = .inCallback (w.sched.advanced back w.clock) ∧
        (w.step H e).sched.functions_ = front) := by
  cases e with
  | tick d => exact Or.inl rfl
  | start => rcases step_start H w with h | ⟨_, _, h⟩ <;> rw [h] <;> exact Or.inl rfl
  | shutdown => exact Or.inl rfl
  | join => rcases step_join H w with h | ⟨_, h⟩ <;> rw [h] <;> exact Or.inl rfl
  | setSteady b => exact Or.inl rfl
  | addFunction cb interval nameID startDelay =>
    rcases step_add H w _ cb interval nameID startDelay false (Or.inl ⟨rfl, rfl⟩) with
      h | ⟨g, l, _, _, _, _, _, _, _, _, _, _, _, _, _, _, h⟩ <;> rw [h] <;> exact Or.inl rfl
  | addFunctionOnce cb nameID startDelay =>
    rcases step_add H w _ cb 0 nameID startDelay true (Or.inr ⟨rfl, rfl, rfl⟩) with
      h | ⟨g, l, _, _, _, _, _, _, _, _, _, _, _, _, _, _, h⟩ <;> rw [h] <;> exact Or.inl rfl
  | cancelFunction n => exact Or.inl rfl
  | cancelFunctionAndWait n => exact Or.inl rfl
  | loop =>
    by_cases ht : w.sched.thread_ = .atLoop
    · rcases step_loop H w ht with ⟨h, _⟩ | ⟨front, back, hr, hpop, hv, hd, h⟩
      · rw [h]; exact Or.inl rfl
      · right
        have hperm : (front ++ [back]).Perm w.sched.functions_ := hpop ▸ H.pop_heap_perm _
        refine ⟨rfl, ht, hr, front, back, hpop, hperm.mem_iff.mp (by simp), hv, hd, ?_, ?_, ?_⟩
          <;> rw [h]
    · rw [step_loop_idle H w ht]; exact Or.inl rfl
  | callbackEnds => exact Or.inl rfl

theorem step_clock (H : HeapAlgo) (w : World) (e : Event) :
    w.clock ≤ (w.step H e).clock := by
  cases e with
  | tick d =>
    show w.clock ≤ (if w.clock + d ≤ INT64_MAX then w.clock + d else w.clock)
    split_ifs <;> omega
  | start => rcases step_start H w with h | ⟨_, _, h⟩ <;> rw [h]
  | shutdown => exact le_refl _
  | join => rcases step_join H w with h | ⟨_, h⟩ <;> rw [h]
  | setSteady b => exact le_refl _
  | addFunction cb interval nameID startDelay =>
    rcases step_add H w _ cb interval nameID startDelay false (Or.inl ⟨rfl, rfl⟩) with
      h | ⟨g, l, _, _, _, _, _, _, _, _, _, _, _, _, _, _, h⟩
    · rw [h]
    · rw [h]; exact le_refl _
  | addFunctionOnce cb nameID startDelay =>
    rcases step_add H w _ cb 0 nameID startDelay true (Or.inr ⟨rfl, rfl, rfl⟩) with
      h | ⟨g, l, _, _, _, _, _, _, _, _, _, _, _, _, _, _, h⟩
    · rw [h]
    · rw [h]; exact le_refl _
  | cancelFunction n => exact le_refl _
  | cancelFunctionAndWait n => exact le_refl _
  | loop =>
    by_cases ht : w.sched.thread_ = .atLoop
    · rcases step_loop H w ht with ⟨h, _⟩ | ⟨_, _, _, _, _, _, h⟩ <;> rw [h]
    · rw [step_loop_idle H w ht]
  | callbackEnds => exact le_refl _

theorem Evolves.refl (H : HeapAlgo) (w : World) (e : Event) (f : RepeatFunc) :
    Evolves H w e f f :=
  ⟨f.sameTask_refl, Or.inl rfl⟩

/-- Every object after a step evolves from an object from before the step,
or is the new task of a successful registration, valid, with the requested
non-negative interval and delay, activated at once when the scheduler runs. -/
theorem step_objects_time (H : HeapAlgo) (w : World) (e : Event) (hinv : Inv w)
    (f2 : RepeatFunc) (h : f2 ∈ (w.step H e).sched.objects) :
    (∃ f1 ∈ w.sched.objects, Evolves H w e f2 f1) ∨
    (f2.addr = w.nextAddr ∧ f2.isValid = true ∧
      f2.nextRunTime =
        (if w.sched.running_ then wrap64 (w.clock + nanoseconds f2.startDelay) else 0) ∧
      ∃ cb interval nameID startDelay once, isAdd e cb interval nameID startDelay once ∧
        f2.cb = cb ∧ f2.interval = interval ∧ f2.name = nameID ∧
        f2.startDelay = startDelay ∧ f2.runOnce = once ∧ w.step H e ≠ w) := by
  have hadd : ∀ cb interval nameID startDelay once,
      isAdd e cb interval nameID startDelay once →
      (∃ f1 ∈ w.sched.objects, Evolves H w e f2 f1) ∨
      (f2.addr = w.nextAddr ∧ f2.isValid = true ∧
        f2.nextRunTime =
        (if w.sched.running_ then wrap64 (w.clock + nanoseconds f2.startDelay) else 0) ∧
        ∃ cb interval nameID startDelay once, isAdd e cb interval nameID startDelay once ∧
          f2.cb = cb ∧ f2.interval = interval ∧ f2.name = nameID ∧
          f2.startDelay = startDelay ∧ f2.runOnce = once ∧ w.step H e ≠ w) := by
    intro cb interval nameID startDelay once he
    rcases step_add H w e cb interval nameID startDelay once he with
      h1 | ⟨g, l, ha, hn, hc, hcb, hsd, hd, hi, hi2, hro, hnx, hl, _, _, _, h1⟩
    · rw [h1] at h; exact Or.inl ⟨f2, h, Evolves.refl H w e f2⟩
    · have hne : w.step H e ≠ w := by
        intro heq
        have : (w.step H e).nextAddr = w.nextAddr + 1 := by rw [h1]; rfl
        rw [heq] at this
        omega
      rw [h1] at h
      have h' : f2 ∈ l ++ w.sched.thread_.locals := h
      rcases List.mem_append.mp h' with h2 | h2
      · rcases List.mem_append.mp (hl.mem_iff.mp h2) with h3 | h3
        · exact Or.inl ⟨f2, w.sched.mem_objects_of_mem f2 h3, Evolves.refl H w e f2⟩
        · have : f2 = g := by simpa using h3
          subst this
          refine Or.inr ⟨ha, ?_, ?_, cb, interval, nameID, startDelay, once, he, hc, hi, hn,
            hsd, hro, hne⟩
          · simp [RepeatFunc.isValid, hc, hcb]
          · rw [hnx, hsd]
      · exact Or.inl ⟨f2, List.mem_append_right _ h2, Evolves.refl H w e f2⟩
  cases e with
  | tick d => exact Or.inl ⟨f2, h, Evolves.refl H w _ f2⟩
  | start =>
    rcases step_start H w with h1 | ⟨hr, ht, h1⟩
    · rw [h1] at h; exact Or.inl ⟨f2, h, Evolves.refl H w _ f2⟩
    · rw [h1] at h
      obtain ⟨f1, hf1, hs, h3⟩ := TimerScheduler.start_objects H w.sched w.clock hr f2 h
      refine Or.inl ⟨f1, w.sched.mem_objects_of_mem f1 hf1, hs, ?_⟩
      rcases h3 with rfl | ⟨_, rfl⟩
      · exact Or.inl rfl
      · exact Or.inr (Or.inl ⟨rfl, hr, rfl⟩)
  | shutdown =>
    have h2 : f2 ∈ w.sched.objects := by
      have h3 : f2 ∈ w.sched.shutdown.2.objects := h
      by_cases hr : w.sched.running_ = true
      · rw [TimerScheduler.shutdown_running _ hr] at h3; exact h3
      · rw [TimerScheduler.shutdown_stopped _ (by simpa using hr)] at h3; exact h3
    exact Or.inl ⟨f2, h2, Evolves.refl H w _ f2⟩
  | join =>
    rcases step_join H w with h1 | ⟨ht, h1⟩
    · rw [h1] at h; exact Or.inl ⟨f2, h, Evolves.refl H w _ f2⟩
    · rw [h1] at h
      have h2 : f2 ∈ w.sched.objects := by
        simpa [TimerScheduler.objects, ht, SchedThread.locals] using h
      exact Or.inl ⟨f2, h2, Evolves.refl H w _ f2⟩
  | setSteady b => exact Or.inl ⟨f2, h, Evolves.refl H w _ f2⟩
  | addFunction cb interval nameID startDelay =>
    exact hadd cb interval nameID startDelay false (Or.inl ⟨rfl, rfl⟩)
  | addFunctionOnce cb nameID startDelay =>
    exact hadd cb 0 nameID startDelay true (Or.inr ⟨rfl, rfl, rfl⟩)
  | cancelFunction n =>
    obtain ⟨f1, hf1, h3⟩ := TimerScheduler.cancel_objects w.sched n f2 h
    rcases h3 with rfl | rfl
    · exact Or.inl ⟨f2, hf1, Evolves.refl H w _ f2⟩
    · exact Or.inl ⟨f1, hf1, TimerScheduler.sameTask_cancel f1, Or.inl rfl⟩
  | cancelFunctionAndWait n =>
    obtain ⟨f1, hf1, h3⟩ := TimerScheduler.cancel_objects w.sched n f2 h
    rcases h3 with rfl | rfl
    · exact Or.inl ⟨f2, hf1, Evolves.refl H w _ f2⟩
    · exact Or.inl ⟨f1, hf1, TimerScheduler.sameTask_cancel f1, Or.inl rfl⟩
  | loop =>
    by_cases ht : w.sched.thread_ = .atLoop
    · have hs := step_loop_sched H w ht
      rw [hs] at h
      obtain ⟨f1, hf1, h3⟩ := TimerScheduler.runIteration_objects H w.sched w.clock ht f2 h
      rcases h3 with rfl | ⟨rfl, _, hd, hr, hthr⟩
      · exact Or.inl ⟨f2, w.sched.mem_objects_of_mem f2 hf1, Evolves.refl H w _ f2⟩
      · exact Or.inl ⟨f1, w.sched.mem_objects_of_mem f1 hf1,
          TimerScheduler.sameTask_advanced _ _ _,
          Or.inr (Or.inr ⟨rfl, hr, hd, rfl, by rw [hs]; exact hthr⟩)⟩
    · rw [step_loop_idle H w ht] at h
      exact Or.inl ⟨f2, h, Evolves.refl H w _ f2⟩
  | callbackEnds =>
    exact Or.inl ⟨f2, TimerScheduler.resume_objects H w.sched hinv.wf f2 h,
      Evolves.refl H w _ f2⟩

theorem callsSince_eq (w0 w1 : World) (new : List Call) (h : w1.calls = new ++ w0.calls) :
    callsSince w0 w1 = new := by
  simp [callsSince, h]

theorem calls_step (H : HeapAlgo) (w : World) (e : Event) :
    ∃ new, (w.step H e).calls = new ++ w.calls := by
  rcases step_calls H w e with h | ⟨_, _, _, _, back, _, _, _, _, h, _⟩
  · exact ⟨[], h⟩
  · exact ⟨[w.callOf back], h⟩

theorem calls_exec (H : HeapAlgo) (w : World) (es : List Event) :
    ∃ new, (w.exec H es).calls = new ++ w.calls := by
  induction es generalizing w with
  | nil => exact ⟨[], rfl⟩
  | cons e es ih =>
    obtain ⟨new1, h1⟩ := calls_step H w e
    obtain ⟨new2, h2⟩ := ih (w.step H e)
    exact ⟨new2 ++ new1, by rw [exec_cons, h2, h1, List.append_assoc]⟩

theorem dead_step (H : HeapAlgo) (w : World) (e : Event) (hinv : Inv w) (a : Nat)
    (hd : Dead a w) :
    Dead a (w.step H e) ∧
    ∃ new, (w.step H e).calls = new ++ w.calls ∧ ∀ c ∈ new, c.func.addr ≠ a := by
  refine ⟨⟨lt_of_lt_of_le hd.1 (step_nextAddr H w e), ?_⟩, ?_⟩
  · intro f2 hf2 ha
    rcases step_objects H w e hinv f2 hf2 with ⟨f1, hf1, hs⟩ | ⟨hna, _⟩
    · have := hd.2 f1 hf1 (hs.1 ▸ ha)
      rcases hs.2.2.2.2.2 with h | h
      · rw [h, this]
      · exact h
    · have := hd.1
      omega
  · rcases step_calls H w e with h | ⟨_, _, _, _, back, _, hb, hv, _, h, _⟩
    · exact ⟨[], h, fun c hc => by cases hc⟩
    · refine ⟨[w.callOf back], h, ?_⟩
      intro c hc
      have : c = w.callOf back := by simpa using hc
      subst this
      intro ha
      have := hd.2 back (w.sched.mem_objects_of_mem back hb) ha
      simp [RepeatFunc.isValid, this] at hv

theorem dead_exec (H : HeapAlgo) (w : World) (es : List Event) (hinv : Inv w) (a : Nat)
    (hd : Dead a w) :
    Dead a (w.exec H es) ∧
    ∃ new, (w.exec H es).calls = new ++ w.calls ∧ ∀ c ∈ new, c.func.addr ≠ a := by
  induction es generalizing w with
  | nil => exact ⟨hd, [], rfl, fun c hc => by cases hc⟩
  | cons e es ih =>
    obtain ⟨hd1, new1, h1, hn1⟩ := dead_step H w e hinv a hd
    obtain ⟨hd2, new2, h2, hn2⟩ := ih (w.step H e) (inv_step H w e hinv) hd1
    refine ⟨hd2, new2 ++ new1, by rw [exec_cons, h2, h1, List.append_assoc], ?_⟩
    intro c hc
    rcases List.mem_append.mp hc with h | h
    · exact hn2 c h
    · exact hn1 c h

theorem cancelling_of_cancel (H : HeapAlgo) (w : World) (hinv : Inv w) (n : String)
    (F : RepeatFunc) (h : w.sched.currentNamed n = some F) :
    Cancelling F.addr (w.step H (.cancelFunction n)) := by
  obtain ⟨hc, hd, _⟩ := w.sched.currentNamed_some n F h
  obtain ⟨F2, ht, _, _, _, hd2⟩ := hinv.wf.current_deref w.sched F.addr hc
  rw [hd] at hd2
  cases hd2
  have hs : (w.step H (.cancelFunction n)).sched = (w.sched.cancelFunctionStale n).2 := rfl
  unfold Cancelling
  rw [hs, TimerScheduler.cancel_current _ n F h]
  exact ⟨hinv.addr_lt F (w.sched.mem_objects_of_thread F ht), rfl, rfl, F, ht, rfl⟩

theorem cancelling_step (H : HeapAlgo) (w : World) (e : Event) (a : Nat)
    (hc : Cancelling a w) (he : e ≠ .callbackEnds) :
    Cancelling a (w.step H e) ∧ (w.step H e).calls = w.calls := by
  obtain ⟨hlt, hcur, hflag, F, ht, ha⟩ := hc
  have hadd : ∀ cb interval nameID startDelay once,
      isAdd e cb interval nameID startDelay once →
      Cancelling a (w.step H e) ∧ (w.step H e).calls = w.calls := by
    intro cb interval nameID startDelay once he
    rcases step_add H w e cb interval nameID startDelay once he with
      h1 | ⟨g, l, _, _, _, _, _, _, _, _, _, _, _, _, _, _, h1⟩
    · rw [h1]; exact ⟨⟨hlt, hcur, hflag, F, ht, ha⟩, rfl⟩
    · rw [h1]; exact ⟨⟨Nat.lt_succ_of_lt hlt, hcur, hflag, F, ht, ha⟩, rfl⟩
  have hcancel : ∀ m, Cancelling a { w with sched := (w.sched.cancelFunctionStale m).2 } := by
    intro m
    have h1 : w.sched.currentNamed m = none := by simp [TimerScheduler.currentNamed, hcur]
    cases h2 : w.sched.findValid m with
    | none =>
      rw [TimerScheduler.cancel_none _ m h1 h2]
      exact ⟨hlt, hcur, hflag, F, ht, ha⟩
    | some f =>
      obtain ⟨hk, _, _⟩ := TimerScheduler.cancel_thread_kind w.sched m
      refine ⟨hlt, ?_, ?_, ?_⟩
      · show (w.sched.cancelFunctionStale m).2.currentFunction_ = none
        rw [TimerScheduler.cancel_idle _ m f h1 h2]; exact hcur
      · show (w.sched.cancelFunctionStale m).2.cancellingCurrentFunction_ = true
        rw [TimerScheduler.cancel_idle _ m f h1 h2]; exact hflag
      · show ∃ F, (w.sched.cancelFunctionStale m).2.thread_ = .inCallback F ∧ F.addr = a
        rcases hk with hk | ⟨F1, ht1, hk⟩
        · exact ⟨F, hk.trans ht, ha⟩
        · rw [ht] at ht1
          cases ht1
          exact ⟨F.cancel, hk, ha⟩
  cases e with
  | tick d => exact ⟨⟨hlt, hcur, hflag, F, ht, ha⟩, rfl⟩
  | start =>
    rcases step_start H w with h1 | ⟨_, ht2, _⟩
    · rw [h1]; exact ⟨⟨hlt, hcur, hflag, F, ht, ha⟩, rfl⟩
    · rw [ht] at ht2; cases ht2
  | shutdown =>
    refine ⟨⟨hlt, ?_, ?_, F, ?_, ha⟩, rfl⟩
    · show w.sched.shutdown.2.currentFunction_ = none
      unfold TimerScheduler.shutdown; split <;> exact hcur
    · show w.sched.shutdown.2.cancellingCurrentFunction_ = true
      unfold TimerScheduler.shutdown; split <;> exact hflag
    · show w.sched.shutdown.2.thread_ = _
      unfold TimerScheduler.shutdown; split <;> exact ht
  | join =>
    rcases step_join H w with h1 | ⟨ht2, _⟩
    · rw [h1]; exact ⟨⟨hlt, hcur, hflag, F, ht, ha⟩, rfl⟩
    · rw [ht] at ht2; cases ht2
  | setSteady b => exact ⟨⟨hlt, hcur, hflag, F, ht, ha⟩, rfl⟩
  | addFunction cb interval nameID startDelay =>
    exact hadd cb interval nameID startDelay false (Or.inl ⟨rfl, rfl⟩)
  | addFunctionOnce cb nameID startDelay =>
    exact hadd cb 0 nameID startDelay true (Or.inr ⟨rfl, rfl, rfl⟩)
  | cancelFunction m => exact ⟨hcancel m, rfl⟩
  | cancelFunctionAndWait m => exact ⟨hcancel m, rfl⟩
  | loop =>
    rw [step_loop_idle H w (by rw [ht]; nofun)]
    exact ⟨⟨hlt, hcur, hflag, F, ht, ha⟩, rfl⟩
  | callbackEnds => exact absurd rfl he

theorem cancelling_exec (H : HeapAlgo) (w : World) (es : List Event) (a : Nat)
    (hc : Cancelling a w) (hes : ∀ e ∈ es, e ≠ .callbackEnds) :
    Cancelling a (w.exec H es) ∧ (w.exec H es).calls = w.calls := by
  induction es generalizing w with
  | nil => exact ⟨hc, rfl⟩
  | cons e es ih =>
    obtain ⟨h1, h2⟩ := cancelling_step H w e a hc (hes e (List.mem_cons_self _ _))
    obtain ⟨h3, h4⟩ := ih (w.step H e) h1 (fun e2 he2 => hes e2 (List.mem_cons_of_mem _ he2))
    exact ⟨h3, by rw [exec_cons, h4, h2]⟩

/-- When the callback of a task cancelled in flight ends, the task is
dropped: `functions_` stays as it is, the flag `cancellingCurrentFunction_`
is cleared, and the task is dead. -/
theorem cancelling_end (H : HeapAlgo) (w : World) (hinv : Inv w) (a : Nat)
    (hc : Cancelling a w) :
    Dead a (w.step H .callbackEnds) ∧
    (w.step H .callbackEnds).sched.functions_ = w.sched.functions_ ∧
    (w.step H .callbackEnds).sched.cancellingCurrentFunction_ = false ∧
    (w.step H .callbackEnds).sched.thread_ = .atLoop ∧
    (∀ f ∈ (w.step H .callbackEnds).sched.objects, f.addr ≠ a) ∧
    (w.step H .callbackEnds).calls = w.calls := by
  obtain ⟨hlt, hcur, _, F, ht, ha⟩ := hc
  have hs : (w.step H .callbackEnds).sched = w.sched.runOneFunctionResume H := rfl
  have hres : w.sched.runOneFunctionResume H =
      { w.sched with cancellingCurrentFunction_ := false, thread_ := .atLoop } := by
    rcases TimerScheduler.resume_cases H w.sched hinv.wf F ht with
      ⟨_, h⟩ | ⟨h2, _⟩ | ⟨h2, _⟩
    · exact h
    · rw [hcur] at h2; cases h2
    · rw [hcur] at h2; cases h2
  have hobj : ∀ f ∈ (w.step H .callbackEnds).sched.objects, f.addr ≠ a := by
    intro f hf
    rw [hs, hres] at hf
    have hf2 : f ∈ w.sched.functions_ := by
      simpa [TimerScheduler.objects, SchedThread.locals] using hf
    rw [← ha]
    exact hinv.wf.thread_not_mem w.sched F ht f hf2
  refine ⟨⟨hlt, fun f hf hfa => absurd hfa (hobj f hf)⟩, ?_, ?_, ?_, hobj, rfl⟩
  · rw [hs, hres]
  · rw [hs, hres]
  · rw [hs, hres]

end World

namespace TimerScheduler

theorem runIteration_running (H : HeapAlgo) (s : TimerScheduler) (now : Int) :
    (s.runIteration H now).2.running_ = s.running_ ∧
    (s.runIteration H now).2.steady_ = s.steady_ := by
  rcases runIteration_cases H s now with ⟨_, hc⟩ | ⟨_, _, hc⟩ |
      ⟨front, back, _, _, ⟨_, hc⟩ | ⟨_, _, hc⟩ | ⟨_, _, hc⟩⟩ <;> rw [hc] <;> exact ⟨rfl, rfl⟩

theorem resume_running (H : HeapAlgo) (s : TimerScheduler) (hwf : WF s) :
    (s.runOneFunctionResume H).running_ = s.running_ := by
  by_cases hT : ∃ F, s.thread_ = .inCallback F
  swap
  · rw [resume_idle H s (fun F h => hT ⟨F, h⟩)]
  obtain ⟨F, ht⟩ := hT
  rcases resume_cases H s hwf F ht with ⟨_, hc⟩ | ⟨_, _, hc⟩ | ⟨_, _, hc⟩ <;> rw [hc]

/-- A due task whose next run time is a time point not before the epoch is a
task whose next run time has passed. -/
theorem due_lt (next now : Int) (h0 : 0 ≤ next) (h1 : next ≤ INT64_MAX) (h2 : 0 ≤ now)
    (h3 : now ≤ INT64_MAX) (hd : wrap64 (next - now) < 0) : next < now := by
  unfold INT64_MAX at h1 h3
  unfold wrap64 at hd
  omega

theorem advanced_range (s : TimerScheduler) (f : RepeatFunc) (now : Int) :
    (s.advanced f now).nextRunTime ≤ INT64_MAX := by
  unfold advanced
  split
  · exact (wrap64_range _).2
  · exact (wrap64_range _).2

/-- The next run time a due task gets, when the sum is a time point. -/
theorem advanced_time (s : TimerScheduler) (f : RepeatFunc) (now : Int)
    (hi : 0 ≤ f.interval) :
    (s.steady_ = true → 0 ≤ f.nextRunTime →
      f.nextRunTime + f.interval * 1000 ≤ INT64_MAX →
      (s.advanced f now).nextRunTime = f.nextRunTime + f.interval * 1000) ∧
    (s.steady_ = false → 0 ≤ now → now + f.interval * 1000 ≤ INT64_MAX →
      (s.advanced f now).nextRunTime = now + f.interval * 1000) := by
  constructor
  · intro hs h0 h
    unfold advanced
    rw [if_pos hs]
    exact wrap64_add_nanoseconds _ _ h0 hi h
  · intro hs h0 h
    unfold advanced
    rw [if_neg (by simp [hs])]
    exact wrap64_add_nanoseconds _ _ h0 hi h

end TimerScheduler

namespace World

/-- A step other than `start()` does not set the running flag. -/
theorem step_running (H : HeapAlgo) (w : World) (e : Event) (hinv : Inv w)
    (he : e ≠ .start) (hr : (w.step H e).sched.running_ = true) :
    w.sched.running_ = true := by
  cases e with
  | tick d => exact hr
  | start => exact absurd rfl he
  | shutdown =>
    have hr2 : w.sched.shutdown.2.running_ = true := hr
    by_cases hr3 : w.sched.running_ = true
    · exact hr3
    · rw [TimerScheduler.shutdown_stopped _ (by simpa using hr3)] at hr2; exact hr2
  | join => rcases step_join H w with h | ⟨_, h⟩ <;> rw [h] at hr <;> exact hr
  | setSteady b => exact hr
  | addFunction cb interval nameID startDelay =>
    rcases step_add H w _ cb interval nameID startDelay false (Or.inl ⟨rfl, rfl⟩) with
      h | ⟨g, l, _, _, _, _, _, _, _, _, _, _, _, _, _, _, h⟩ <;> rw [h] at hr <;> exact hr
  | addFunctionOnce cb nameID startDelay =>
    rcases step_add H w _ cb 0 nameID startDelay true (Or.inr ⟨rfl, rfl, rfl⟩) with
      h | ⟨g, l, _, _, _, _, _, _, _, _, _, _, _, _, _, _, h⟩ <;> rw [h] at hr <;> exact hr
  | cancelFunction n =>
    exact (TimerScheduler.cancel_thread_kind w.sched n).2.1 ▸ hr
  | cancelFunctionAndWait n =>
    exact (TimerScheduler.cancel_thread_kind w.sched n).2.1 ▸ hr
  | loop =>
    by_cases ht : w.sched.thread_ = .atLoop
    · rw [step_loop_sched H w ht, (TimerScheduler.runIteration_running H _ _).1] at hr
      exact hr
    · rw [step_loop_idle H w ht] at hr; exact hr
  | callbackEnds =>
    have hr2 : (w.sched.runOneFunctionResume H).running_ = true := hr
    rw [TimerScheduler.resume_running H _ hinv.wf] at hr2
    exact hr2

/-- Only a `start()` that takes effect and a registration on a running
scheduler write the activation history. -/
theorem step_activations (H : HeapAlgo) (w : World) (e : Event) :
    (w.step H e).activations = w.activations ∨
    (e = .start ∧ w.sched.running_ = false ∧ w.sched.thread_ = .notJoinable ∧
      (w.step H e).activations =
        w.sched.functions_.map (fun f => (f.addr, w.clock)) ++ w.activations ∧
      (w.step H e).sched.functions_ =
        H.make_heap (w.sched.functions_.map (fun f => f.resetNextRunTime w.clock)) ∧
      (w.step H e).sched.thread_ = .atLoop) ∨
    (w.sched.running_ = true ∧ w.step H e ≠ w ∧
      (∃ cb interval nameID startDelay once, isAdd e cb interval nameID startDelay once) ∧
      (w.step H e).activations = (w.nextAddr, w.clock) :: w.activations) := by
  have hadd : ∀ cb interval nameID startDelay once,
      isAdd e cb interval nameID startDelay once →
      (w.step H e).activations = w.activations ∨
      (w.sched.running_ = true ∧ w.step H e ≠ w ∧
        (∃ cb interval nameID startDelay once, isAdd e cb interval nameID startDelay once) ∧
        (w.step H e).activations = (w.nextAddr, w.clock) :: w.activations) := by
    intro cb interval nameID startDelay once he
    rcases step_add H w e cb interval nameID startDelay once he with
      h1 | ⟨g, l, _, _, _, _, _, _, _, _, _, _, _, _, _, _, h1⟩
    · rw [h1]; exact Or.inl rfl
    · by_cases hr : w.sched.running_ = true
      · right
        refine ⟨hr, ?_, ⟨cb, interval, nameID, startDelay, once, he⟩, ?_⟩
        · intro heq
          have : (w.step H e).nextAddr = w.nextAddr + 1 := by rw [h1]; rfl
          rw [heq] at this
          omega
        · rw [h1]; simp [withTask, hr]
      · left; rw [h1]; simp [withTask, hr]
  cases e with
  | tick d => exact Or.inl rfl
  | start =>
    rcases step_start H w with h | ⟨hr, ht, h⟩
    · rw [h]; exact Or.inl rfl
    · right; left
      refine ⟨rfl, hr, ht, ?_, ?_, ?_⟩ <;> rw [h]
  | shutdown => exact Or.inl rfl
  | join => rcases step_join H w with h | ⟨_, h⟩ <;> rw [h] <;> exact Or.inl rfl
  | setSteady b => exact Or.inl rfl
  | addFunction cb interval nameID startDelay =>
    rcases hadd cb interval nameID startDelay false (Or.inl ⟨rfl, rfl⟩) with h | h
    · exact Or.inl h
    · exact Or.inr (Or.inr h)
  | addFunctionOnce cb nameID startDelay =>
    rcases hadd cb 0 nameID startDelay true (Or.inr ⟨rfl, rfl, rfl⟩) with h | h
    · exact Or.inl h
    · exact Or.inr (Or.inr h)
  | cancelFunction n => exact Or.inl rfl
  | cancelFunctionAndWait n => exact Or.inl rfl
  | loop =>
    by_cases ht : w.sched.thread_ = .atLoop
    · rcases step_loop H w ht with ⟨h, _⟩ | ⟨_, _, _, _, _, _, h⟩ <;> rw [h] <;> exact Or.inl rfl
    · rw [step_loop_idle H w ht]; exact Or.inl rfl
  | callbackEnds => exact Or.inl rfl

theorem lookup_map_addr (l : List RepeatFunc) (t : Int) (rest : List (Nat × Int))
    (f : RepeatFunc) (hf : f ∈ l) :
    List.lookup f.addr (l.map (fun g => (g.addr, t)) ++ rest) = some t := by
  induction l with
  | nil => cases hf
  | cons x xs ih =>
    by_cases hx : f.addr = x.addr
    · simp [List.lookup_cons, hx]
    · have hne : (f.addr == x.addr) = false := by simpa using hx
      rcases List.mem_cons.mp hf with rfl | h
      · exact absurd rfl hx
      · simp only [List.map_cons, List.cons_append, List.lookup_cons, hne]
        exact ih h

theorem lookup_mem (a : Nat) (t : Int) (l : List (Nat × Int))
    (h : List.lookup a l = some t) : (a, t) ∈ l := by
  induction l with
  | nil => simp at h
  | cons x xs ih =>
    obtain ⟨k, v⟩ := x
    by_cases hk : a = k
    · subst hk
      simp only [List.lookup_cons, beq_self_eq_true, Option.some.injEq] at h
      subst h
      exact List.mem_cons_self _ _
    · have hne : (a == k) = false := by simpa using hk
      rw [List.lookup_cons, hne] at h
      exact List.mem_cons_of_mem _ (ih h)

theorem timeInv_init : TimeInv init :=
  ⟨by decide, fun f hf => by simp [init, TimerScheduler.init, TimerScheduler.objects,
      SchedThread.locals] at hf, fun p hp => by simp [init] at hp,
    fun h => by simp [init, TimerScheduler.init] at h, fun c hc => by simp [init] at hc⟩

theorem step_clock_range (H : HeapAlgo) (w : World) (e : Event)
    (h : 0 ≤ w.clock ∧ w.clock ≤ INT64_MAX) :
    0 ≤ (w.step H e).clock ∧ (w.step H e).clock ≤ INT64_MAX := by
  refine ⟨le_trans h.1 (step_clock H w e), ?_⟩
  cases e with
  | tick d =>
    show (if w.clock + d ≤ INT64_MAX then w.clock + d else w.clock) ≤ INT64_MAX
    split_ifs with h1
    · exact h1
    · exact h.2
  | start => rcases step_start H w with h1 | ⟨_, _, h1⟩ <;> rw [h1] <;> exact h.2
  | shutdown => exact h.2
  | join => rcases step_join H w with h1 | ⟨_, h1⟩ <;> rw [h1] <;> exact h.2
  | setSteady b => exact h.2
  | addFunction cb interval nameID startDelay =>
    rcases step_add H w _ cb interval nameID startDelay false (Or.inl ⟨rfl, rfl⟩) with
      h1 | ⟨g, l, _, _, _, _, _, _, _, _, _, _, _, _, _, _, h1⟩ <;> rw [h1] <;> exact h.2
  | addFunctionOnce cb nameID startDelay =>
    rcases step_add H w _ cb 0 nameID startDelay true (Or.inr ⟨rfl, rfl, rfl⟩) with
      h1 | ⟨g, l, _, _, _, _, _, _, _, _, _, _, _, _, _, _, h1⟩ <;> rw [h1] <;> exact h.2
  | cancelFunction n => exact h.2
  | cancelFunctionAndWait n => exact h.2
  | loop =>
    by_cases ht : w.sched.thread_ = .atLoop
    · rcases step_loop H w ht with ⟨h1, _⟩ | ⟨_, _, _, _, _, _, h1⟩ <;> rw [h1] <;> exact h.2
    · rw [step_loop_idle H w ht]; exact h.2
  | callbackEnds => exact h.2

/-- Once the start delay of a task has elapsed since its activation, or is
still ahead of its next run time, it stays so when the task is found due. -/
theorem elapsed_of_due (w : World) (ht : TimeInv w) (f : RepeatFunc)
    (hf : f ∈ w.sched.objects) (hD : 0 ≤ f.startDelay) (t : Int) (h0 : 0 ≤ t)
    (h : t + f.startDelay * 1000 ≤ f.nextRunTime ∨ t + f.startDelay * 1000 < w.clock)
    (hdue : wrap64 (f.nextRunTime - w.clock) < 0) : t + f.startDelay * 1000 < w.clock := by
  rcases h with h | h
  · have := TimerScheduler.due_lt f.nextRunTime w.clock (by omega) (ht.range f hf) ht.clock.1
      ht.clock.2 hdue
    omega
  · exact h

theorem timeInv_step (H : HeapAlgo) (w : World) (e : Event) (hinv : Inv w)
    (ht : TimeInv w) : TimeInv (w.step H e) := by
  have hclk := step_clock H w e
  refine ⟨step_clock_range H w e ht.clock, ?_, ?_, ?_, ?_⟩
  · intro f2 hf2
    rcases step_objects_time H w e hinv f2 hf2 with ⟨f1, hf1, hs, htime⟩ | ⟨_, _, hnx, _⟩
    · rcases htime with htime | ⟨_, _, htime⟩ | ⟨_, _, _, rfl, _⟩
      · rw [htime]; exact ht.range f1 hf1
      · rw [htime]; exact (wrap64_range _).2
      · exact TimerScheduler.advanced_range _ _ _
    · rw [hnx]
      split
      · exact (wrap64_range _).2
      · decide
  · intro p hp
    rcases step_activations H w e with hact | ⟨_, _, _, hact, _, _⟩ | ⟨_, _, _, hact⟩
    · rw [hact] at hp; exact ht.epoch p hp
    · rw [hact] at hp
      rcases List.mem_append.mp hp with h | h
      · obtain ⟨g, _, rfl⟩ := List.mem_map.mp h
        exact ht.clock.1
      · exact ht.epoch p h
    · rw [hact] at hp
      rcases List.mem_cons.mp hp with rfl | h
      · exact ht.clock.1
      · exact ht.epoch p h
  · intro hr f2 hf2
    rcases step_activations H w e with hact | ⟨rfl, hr0, hthr, hact, hfun, hthr2⟩ |
        ⟨hr0, hne, hexadd, hact⟩
    · -- the history is unchanged
      rcases step_objects_time H w e hinv f2 hf2 with ⟨f1, hf1, hs, htime⟩ |
          ⟨ha, _, _, cb, interval, nameID, startDelay, once, he, _, _, _, _, _, hne⟩
      · rcases htime with htime | ⟨rfl, hr1, htime⟩ | ⟨_, hr1, hdue, rfl, _⟩
        · by_cases hst : e = .start
          · subst hst
            rcases step_start H w with h | ⟨hr1, _, h⟩
            · rw [h] at hr
              obtain ⟨t, h1, h2⟩ := ht.activated hr f1 hf1
              refine ⟨t, by rw [hact, hs.1]; exact h1, ?_⟩
              rw [hs.2.2.1, htime]
              intro h3
              rcases h2 h3 with h4 | h4
              · exact Or.inl h4
              · exact Or.inr (lt_of_lt_of_le h4 hclk)
            · exfalso
              have : (w.step H .start).activations =
                  w.sched.functions_.map (fun f => (f.addr, w.clock)) ++ w.activations := by
                rw [h]
              rw [hact] at this
              have hlen := congrArg List.length this
              simp only [List.length_append, List.length_map] at hlen
              have hf0 : w.sched.functions_ = [] := List.length_eq_zero.mp (by omega)
              have hcur : w.sched.thread_.locals = [] := by
                rw [‹w.sched.thread_ = .notJoinable›]; rfl
              simp [TimerScheduler.objects, hf0, hcur] at hf1
          · obtain ⟨t, h1, h2⟩ := ht.activated (step_running H w e hinv hst hr) f1 hf1
            refine ⟨t, by rw [hact, hs.1]; exact h1, ?_⟩
            rw [hs.2.2.1, htime]
            intro h3
            rcases h2 h3 with h4 | h4
            · exact Or.inl h4
            · exact Or.inr (lt_of_lt_of_le h4 hclk)
        · -- a start that takes effect changes the history
          exfalso
          rcases step_start H w with h | ⟨_, hthr, h⟩
          · have hr2 : (w.step H .start).sched.running_ = true := hr
            rw [h, hr1] at hr2; cases hr2
          · have : (w.step H .start).activations =
                w.sched.functions_.map (fun f => (f.addr, w.clock)) ++ w.activations := by
              rw [h]
            rw [hact] at this
            have hlen := congrArg List.length this
            simp only [List.length_append, List.length_map] at hlen
            have hf0 : w.sched.functions_ = [] := List.length_eq_zero.mp (by omega)
            have hcur : w.sched.thread_.locals = [] := by rw [hthr]; rfl
            simp [TimerScheduler.objects, hf0, hcur] at hf1
        · obtain ⟨t, h1, h2⟩ := ht.activated hr1 f1 hf1
          refine ⟨t, by rw [hact, TimerScheduler.advanced_addr]; exact h1, ?_⟩
          rw [TimerScheduler.advanced_startDelay]
          intro h3
          have h4 := elapsed_of_due w ht f1 hf1 (hinv.nonneg f1 hf1).2 t
            (ht.epoch _ (lookup_mem _ _ _ h1)) (h2 h3) hdue
          exact Or.inr (lt_of_lt_of_le h4 hclk)
      · -- a new task on a stopped scheduler: the flag is not set afterwards
        exfalso
        have hst : e ≠ .start := by
          rcases he with ⟨rfl, _⟩ | ⟨rfl, _⟩ <;> nofun
        have hr1 := step_running H w e hinv hst hr
        rcases step_add H w e cb interval nameID startDelay once he with
          h1 | ⟨g, l, _, _, _, _, _, _, _, _, _, _, _, _, _, _, h1⟩
        · exact hne h1
        · have : (w.step H e).activations = (w.nextAddr, w.clock) :: w.activations := by
            rw [h1]; simp [withTask, hr1]
          rw [hact] at this
          have hlen := congrArg List.length this
          simp at hlen
    · -- start takes effect: every task is reset and activated now
      rw [hact]
      have hobj : f2 ∈ (w.step H .start).sched.functions_ := by
        have : f2 ∈ (w.step H .start).sched.functions_ ++
            (w.step H .start).sched.thread_.locals := hf2
        rw [hthr2] at this
        simpa [SchedThread.locals] using this
      rw [hfun] at hobj
      obtain ⟨f1, hf1, rfl⟩ := List.mem_map.mp ((H.make_heap_perm _).mem_iff.mp hobj)
      refine ⟨w.clock, lookup_map_addr _ _ _ f1 hf1, fun h3 => Or.inl ?_⟩
      have hD := (hinv.nonneg f1 (w.sched.mem_objects_of_mem f1 hf1)).2
      show w.clock + f1.startDelay * 1000 ≤ wrap64 (w.clock + nanoseconds f1.startDelay)
      rw [wrap64_add_nanoseconds _ _ ht.clock.1 hD h3]
    · -- a registration on a running scheduler
      rw [hact]
      rcases step_objects_time H w e hinv f2 hf2 with ⟨f1, hf1, hs, htime⟩ |
          ⟨ha, _, hnx, _, _, _, _, _, _, _, _, _, hsd, _, _⟩
      · have hlt := hinv.addr_lt f1 hf1
        have hne2 : (f2.addr == w.nextAddr) = false := by
          rw [hs.1]; simpa using (by omega : f1.addr ≠ w.nextAddr)
        obtain ⟨t, h1, h2⟩ := ht.activated hr0 f1 hf1
        rcases htime with htime | ⟨_, hr1, _⟩ | ⟨he1, _, _, _, _⟩
        · refine ⟨t, ?_, ?_⟩
          · rw [List.lookup_cons, hne2, hs.1]; exact h1
          · rw [hs.2.2.1, htime]
            intro h3
            rcases h2 h3 with h4 | h4
            · exact Or.inl h4
            · exact Or.inr (lt_of_lt_of_le h4 hclk)
        · rw [hr0] at hr1; cases hr1
        · obtain ⟨_, _, _, _, _, he⟩ := hexadd
          rw [he1] at he
          rcases he with ⟨he, _⟩ | ⟨he, _⟩ <;> cases he
      · refine ⟨w.clock, by rw [ha]; simp, fun h3 => Or.inl ?_⟩
        have hD : 0 ≤ f2.startDelay :=
          (inv_step H w e hinv).nonneg f2 hf2 |>.2
        rw [hnx, if_pos hr0, wrap64_add_nanoseconds _ _ ht.clock.1 hD h3]
  · intro c hc
    rcases step_calls H w e with h | ⟨_, _, hr, _, back, _, hb, _, hd, h, _⟩
    · rw [h] at hc; exact ht.calls c hc
    · rw [h] at hc
      rcases List.mem_cons.mp hc with rfl | hc2
      · have hbo := w.sched.mem_objects_of_mem back hb
        obtain ⟨t, h1, h2⟩ := ht.activated hr back hbo
        refine ⟨t, h1, fun h3 => ?_⟩
        exact elapsed_of_due w ht back hbo (hinv.nonneg back hbo).2 t
          (ht.epoch _ (lookup_mem _ _ _ h1)) (h2 h3) hd
      · exact ht.calls c hc2

end World

theorem Reachable.timeInv {H : HeapAlgo} {w : World} (h : Reachable H w) : w.TimeInv := by
  induction h with
  | init => exact World.timeInv_init
  | step w e hw ih => exact World.timeInv_step H w e hw.inv ih

theorem RepeatFunc.sameTask_trans (f3 f2 f1 : RepeatFunc) (h32 : f3.sameTask f2)
    (h21 : f2.sameTask f1) : f3.sameTask f1 := by
  obtain ⟨a1, a2, a3, a4, a5, a6⟩ := h32
  obtain ⟨b1, b2, b3, b4, b5, b6⟩ := h21
  refine ⟨a1.trans b1, a2.trans b2, a3.trans b3, a4.trans b4, a5.trans b5, ?_⟩
  rcases a6 with h | h
  · rcases b6 with h2 | h2
    · exact Or.inl (h.trans h2)
    · exact Or.inr (h.trans h2)
  · exact Or.inr h

namespace World

/-- Every task of `functions_` after a step was in `functions_` before, or is
the new task of a registration, or is the periodic current function that the
end of its callback puts back. -/
theorem step_functions (H : HeapAlgo) (w : World) (e : Event) (hinv : Inv w)
    (f2 : RepeatFunc) (h : f2 ∈ (w.step H e).sched.functions_) :
    (∃ f1 ∈ w.sched.functions_, f2.sameTask f1) ∨
    f2.addr = w.nextAddr ∨
    (e = .callbackEnds ∧ w.sched.thread_ = .inCallback f2 ∧
      w.sched.currentFunction_ = some f2.addr ∧ f2.runOnce = false) := by
  have hadd : ∀ cb interval nameID startDelay once,
      isAdd e cb interval nameID startDelay once →
      (∃ f1 ∈ w.sched.functions_, f2.sameTask f1) ∨ f2.addr = w.nextAddr ∨
      (e = .callbackEnds ∧ w.sched.thread_ = .inCallback f2 ∧
        w.sched.currentFunction_ = some f2.addr ∧ f2.runOnce = false) := by
    intro cb interval nameID startDelay once he
    rcases step_add H w e cb interval nameID startDelay once he with
      h1 | ⟨g, l, ha, _, _, _, _, _, _, _, _, _, hl, _, _, _, h1⟩
    · rw [h1] at h; exact Or.inl ⟨f2, h, f2.sameTask_refl⟩
    · rw [h1] at h
      have h' : f2 ∈ l := h
      rcases List.mem_append.mp (hl.mem_iff.mp h') with h3 | h3
      · exact Or.inl ⟨f2, h3, f2.sameTask_refl⟩
      · have : f2 = g := by simpa using h3
        subst this
        exact Or.inr (Or.inl ha)
  have hcancel : ∀ m, f2 ∈ (w.sched.cancelFunctionStale m).2.functions_ →
      ∃ f1 ∈ w.sched.functions_, f2.sameTask f1 := by
    intro m hm
    obtain ⟨f1, hf1, h3⟩ := TimerScheduler.cancel_functions w.sched m f2 hm
    rcases h3 with rfl | rfl
    · exact ⟨f2, hf1, f2.sameTask_refl⟩
    · exact ⟨f1, hf1, TimerScheduler.sameTask_cancel f1⟩
  cases e with
  | tick d => exact Or.inl ⟨f2, h, f2.sameTask_refl⟩
  | start =>
    rcases step_start H w with h1 | ⟨_, _, h1⟩
    · rw [h1] at h; exact Or.inl ⟨f2, h, f2.sameTask_refl⟩
    · rw [h1] at h
      obtain ⟨f1, hf1, rfl⟩ := List.mem_map.mp ((H.make_heap_perm _).mem_iff.mp h)
      exact Or.inl ⟨f1, hf1, rfl, rfl, rfl, rfl, rfl, Or.inl rfl⟩
  | shutdown =>
    have h3 : f2 ∈ w.sched.shutdown.2.functions_ := h
    have h2 : f2 ∈ w.sched.functions_ := by
      by_cases hr : w.sched.running_ = true
      · rw [TimerScheduler.shutdown_running _ hr] at h3; exact h3
      · rw [TimerScheduler.shutdown_stopped _ (by simpa using hr)] at h3; exact h3
    exact Or.inl ⟨f2, h2, f2.sameTask_refl⟩
  | join =>
    rcases step_join H w with h1 | ⟨_, h1⟩ <;> rw [h1] at h <;>
      exact Or.inl ⟨f2, h, f2.sameTask_refl⟩
  | setSteady b => exact Or.inl ⟨f2, h, f2.sameTask_refl⟩
  | addFunction cb interval nameID startDelay =>
    exact hadd cb interval nameID startDelay false (Or.inl ⟨rfl, rfl⟩)
  | addFunctionOnce cb nameID startDelay =>
    exact hadd cb 0 nameID startDelay true (Or.inr ⟨rfl, rfl, rfl⟩)
  | cancelFunction m => exact Or.inl (hcancel m h)
  | cancelFunctionAndWait m => exact Or.inl (hcancel m h)
  | loop =>
    by_cases ht : w.sched.thread_ = .atLoop
    · rw [step_loop_sched H w ht] at h
      left
      refine ⟨f2, ?_, f2.sameTask_refl⟩
      rcases TimerScheduler.runIteration_cases H w.sched w.clock with ⟨_, hc⟩ | ⟨_, _, hc⟩ |
        ⟨front, back, _, hpop, ⟨_, hc⟩ | ⟨_, _, hc⟩ | ⟨_, _, hc⟩⟩
      · rw [hc] at h; exact h
      · rw [hc] at h; exact h
      · rw [hc] at h
        exact (hpop ▸ H.pop_heap_perm w.sched.functions_).mem_iff.mp (List.mem_append_left _ h)
      · rw [hc] at h
        exact (hpop ▸ H.pop_heap_perm w.sched.functions_).mem_iff.mp (List.mem_append_left _ h)
      · rw [hc] at h
        exact (hpop ▸ H.pop_heap_perm w.sched.functions_).mem_iff.mp
          ((H.push_heap_perm _).mem_iff.mp h)
    · rw [step_loop_idle H w ht] at h
      exact Or.inl ⟨f2, h, f2.sameTask_refl⟩
  | callbackEnds =>
    have h2 : f2 ∈ (w.sched.runOneFunctionResume H).functions_ := h
    by_cases hT : ∃ F, w.sched.thread_ = .inCallback F
    swap
    · rw [TimerScheduler.resume_idle H w.sched (fun F h => hT ⟨F, h⟩)] at h2
      exact Or.inl ⟨f2, h2, f2.sameTask_refl⟩
    obtain ⟨F, ht⟩ := hT
    rcases TimerScheduler.resume_cases H w.sched hinv.wf F ht with
      ⟨_, hc⟩ | ⟨_, _, hc⟩ | ⟨hcur, hro, hc⟩
    · rw [hc] at h2; exact Or.inl ⟨f2, h2, f2.sameTask_refl⟩
    · rw [hc] at h2; exact Or.inl ⟨f2, h2, f2.sameTask_refl⟩
    · rw [hc] at h2
      have hperm : (if w.sched.running_ then H.push_heap (w.sched.functions_ ++ [F])
          else w.sched.functions_ ++ [F]).Perm (w.sched.functions_ ++ [F]) := by
        split
        · exact H.push_heap_perm _
        · exact List.Perm.refl _
      rcases List.mem_append.mp (hperm.mem_iff.mp h2) with h3 | h3
      · exact Or.inl ⟨f2, h3, f2.sameTask_refl⟩
      · have : f2 = F := by simpa using h3
        subst this
        exact Or.inr (Or.inr ⟨rfl, ht, hcur, hro⟩)

theorem oneShot_step (H : HeapAlgo) (w : World) (e : Event) (hinv : Inv w)
    (g : RepeatFunc) (hg : g.runOnce = true) (old : List Call) (h : OneShot g old w) :
    OneShot g old (w.step H e) := by
  obtain ⟨hlt, hobj, new, hnew, hsame, hcount⟩ := h
  have hobj2 : ∀ f ∈ (w.step H e).sched.objects, f.addr = g.addr → f.sameTask g := by
    intro f2 hf2 ha
    rcases step_objects H w e hinv f2 hf2 with ⟨f1, hf1, hs⟩ | ⟨hna, _⟩
    · exact f2.sameTask_trans f1 g hs (hobj f1 hf1 (hs.1 ▸ ha))
    · omega
  have hfun2 : (∀ f ∈ w.sched.functions_, f.addr ≠ g.addr) →
      ∀ f ∈ (w.step H e).sched.functions_, f.addr ≠ g.addr := by
    intro hno f2 hf2 ha
    rcases step_functions H w e hinv f2 hf2 with ⟨f1, hf1, hs⟩ | hna | ⟨_, ht, _, hro⟩
    · exact hno f1 hf1 (hs.1 ▸ ha)
    · omega
    · have := (hobj f2 (w.sched.mem_objects_of_thread f2 ht) ha).2.2.2.2.1
      rw [this, hg] at hro
      cases hro
  refine ⟨lt_of_lt_of_le hlt (step_nextAddr H w e), hobj2, ?_⟩
  rcases step_calls H w e with hc | ⟨_, hthr, _, front, back, hpop, hb, hv, _, hc, _, hfr⟩
  · refine ⟨new, by rw [hc, hnew], hsame, ?_⟩
    rcases hcount with h0 | ⟨h1, hno⟩
    · exact Or.inl h0
    · exact Or.inr ⟨h1, hfun2 hno⟩
  · refine ⟨w.callOf back :: new, by rw [hc, hnew]; rfl, ?_, ?_⟩
    · intro c hcm ha
      rcases List.mem_cons.mp hcm with rfl | hcm
      · exact ⟨hobj back (w.sched.mem_objects_of_mem back hb) ha, hv⟩
      · exact hsame c hcm ha
    · by_cases hba : back.addr = g.addr
      · right
        rcases hcount with h0 | ⟨_, hno⟩
        · constructor
          · simp [invocations, callOf, hba] at h0 ⊢
            simpa [List.countP_eq_zero] using h0
          · rw [hfr]
            intro f hf ha
            have hnd := hinv.wf.nodup
            have hperm : (front ++ [back]).Perm w.sched.functions_ :=
              hpop ▸ H.pop_heap_perm _
            have hnd2 : ((front ++ [back]).map (fun f => f.addr)).Nodup := by
              refine ((hperm.map _).nodup_iff).mpr ?_
              simp only [TimerScheduler.objects, List.map_append] at hnd
              exact (List.nodup_append.mp hnd).1
            rw [List.map_append, List.nodup_append] at hnd2
            exact hnd2.2.2 (List.mem_map_of_mem _ hf) (by simp [ha, hba])
        · exact absurd hba (hno back hb)
      · have hcnt : invocations g.addr (w.callOf back :: new) = invocations g.addr new := by
          simp [invocations, callOf, hba]
        rw [hcnt]
        rcases hcount with h0 | ⟨h1, hno⟩
        · exact Or.inl h0
        · exact Or.inr ⟨h1, hfun2 hno⟩

theorem oneShot_exec (H : HeapAlgo) (w : World) (es : List Event) (hinv : Inv w)
    (g : RepeatFunc) (hg : g.runOnce = true) (old : List Call) (h : OneShot g old w) :
    OneShot g old (w.exec H es) := by
  induction es generalizing w with
  | nil => exact h
  | cons e es ih =>
    exact ih (w.step H e) (inv_step H w e hinv) (oneShot_step H w e hinv g hg old h)

/-- A successful `addFunctionOnce` creates a task that runs once only and has
not been invoked. -/
theorem oneShot_of_added (H : HeapAlgo) (w : World) (hinv : Inv w) (cb : Option Nat)
    (n : String) (d : Int)
    (hok : (w.sched.addFunctionOnce H cb n d w.clock w.nextAddr).1 = none) :
    ∃ g, g.addr = w.nextAddr ∧ g.name = n ∧ g.cb = cb ∧ g.startDelay = d ∧
      g.runOnce = true ∧ OneShot g w.calls (w.step H (.addFunctionOnce cb n d)) := by
  rcases step_add H w _ cb 0 n d true (Or.inr ⟨rfl, rfl, rfl⟩) with
    h1 | ⟨g, l, ha, hn, hc, _, hsd, _, _, _, hro, _, hl, _, _, _, h1⟩
  · exact absurd h1 (step_addFunctionOnce_ne H w cb n d hok)
  · refine ⟨g, ha, hn, hc, hsd, hro, ?_⟩
    rw [h1]
    refine ⟨by show g.addr < w.nextAddr + 1; omega, ?_, [], rfl, ?_, Or.inl rfl⟩
    swap
    · intro c hc; cases hc
    intro f hf hfa
    have hf' : f ∈ l ++ w.sched.thread_.locals := hf
    rcases List.mem_append.mp hf' with h2 | h2
    · rcases List.mem_append.mp (hl.mem_iff.mp h2) with h3 | h3
      · have := hinv.addr_lt f (w.sched.mem_objects_of_mem f h3)
        omega
      · have : f = g := by simpa using h3
        rw [this]; exact g.sameTask_refl
    · have := hinv.addr_lt f (List.mem_append_right _ h2)
      omega

/-- When the callback of a task that runs once only ends, the task is gone:
no live object, no map entry and no current function; and unless the task was
cancelled in flight, its name is free. -/
theorem oneShot_end (H : HeapAlgo) (w : World) (hinv : Inv w) (g : RepeatFunc)
    (hg : g.runOnce = true) (old : List Call) (h : OneShot g old w) (F : RepeatFunc)
    (ht : w.sched.thread_ = .inCallback F) (ha : F.addr = g.addr) :
    (∀ f ∈ (w.step H .callbackEnds).sched.objects, f.addr ≠ g.addr) ∧
    (∀ k p, (k, p) ∈ (w.step H .callbackEnds).sched.functionsMap_ → p ≠ g.addr) ∧
    (w.step H .callbackEnds).sched.currentFunction_ = none ∧
    (w.sched.currentFunction_ ≠ none →
      (w.step H .callbackEnds).sched.findValid g.name = none ∧
      (w.step H .callbackEnds).sched.currentNamed g.name = none) := by
  have hs : (w.step H .callbackEnds).sched = w.sched.runOneFunctionResume H := rfl
  have hF := h.objects F (w.sched.mem_objects_of_thread F ht) ha
  have hnot : ∀ f ∈ w.sched.functions_, f.addr ≠ g.addr := by
    intro f hf
    rw [← ha]
    exact hinv.wf.thread_not_mem w.sched F ht f hf
  rw [hs]
  rcases TimerScheduler.resume_cases H w.sched hinv.wf F ht with
    ⟨hcur, hc⟩ | ⟨hcur, _, hc⟩ | ⟨_, hro, hc⟩
  · rw [hc]
    refine ⟨?_, ?_, hcur, fun hne => absurd hcur hne⟩
    · intro f hf
      exact hnot f (by simpa [TimerScheduler.objects, SchedThread.locals] using hf)
    · intro k p hm hp
      rcases hinv.wf.map_sound k p hm with ⟨f, hf, hfa, _⟩ | ⟨_, _, hc2, _⟩
      · exact hnot f hf (hfa.trans hp)
      · rw [hcur] at hc2; cases hc2
  · rw [hc]
    refine ⟨?_, ?_, rfl, fun _ => ⟨?_, ?_⟩⟩
    · intro f hf
      exact hnot f (by simpa [TimerScheduler.objects, SchedThread.locals] using hf)
    · intro k p hm hp
      obtain ⟨hm1, hne⟩ : (k, p) ∈ w.sched.functionsMap_ ∧ k ≠ _ :=
        (FunctionMap.mem_erase _ _ _).mp hm
      rcases hinv.wf.map_sound k p hm1 with ⟨f, hf, hfa, _⟩ | ⟨F2, ht2, _, _, hn2⟩
      · exact hnot f hf (hfa.trans hp)
      · rw [ht] at ht2
        cases ht2
        exact hne hn2.symm
    · have : FunctionMap.find (FunctionMap.erase w.sched.functionsMap_ F.name) g.name =
          none := by
        rw [← hF.2.1]; exact FunctionMap.find_erase_self _ _
      simp only [TimerScheduler.findValid, this]
    · simp only [TimerScheduler.currentNamed]
  · rw [hF.2.2.2.2.1, hg] at hro
    cases hro

theorem invocationsUntil_le (a : Nat) (tmax : Int) (cs : List Call) :
    invocationsUntil a tmax cs ≤ invocations a cs := by
  unfold invocationsUntil invocations
  apply List.countP_mono_left
  intro c _ h
  simp only [Bool.and_eq_true] at h
  exact h.1

/-- In a spaced history, `m` invocations up to the time `t0 + elapsed` need
`elapsed` to exceed `m - 1` intervals, when the interval can be added to
`t0 + elapsed` within the range of the time points. -/
theorem spaced_count (a : Nat) (t0 T elapsed : Int) (hT : 0 ≤ T)
    (hrep : t0 + elapsed + T * 1000 ≤ INT64_MAX) (cs : List Call)
    (hs : spaced a t0 T cs) :
    invocationsUntil a (t0 + elapsed) cs = 0 ∨
    ((invocationsUntil a (t0 + elapsed) cs : Int) - 1) * (T * 1000) < elapsed := by
  induction cs with
  | nil => left; rfl
  | cons c rest ih =>
    obtain ⟨h1, h2⟩ := hs
    by_cases hc : (c.func.addr == a && decide (c.now ≤ t0 + elapsed)) = true
    · right
      have hcnt : invocationsUntil a (t0 + elapsed) (c :: rest) =
          invocationsUntil a (t0 + elapsed) rest + 1 := by
        simp only [invocationsUntil, List.countP_cons, hc, if_true]
      rw [hcnt]
      simp only [Bool.and_eq_true, beq_iff_eq, decide_eq_true_eq] at hc
      have h3 := h1 hc.1 (by omega)
      have h4 : (invocationsUntil a (t0 + elapsed) rest : Int) ≤ (invocations a rest : Int) :=
        Int.ofNat_le.mpr (invocationsUntil_le a _ rest)
      have hT2 : 0 ≤ T * 1000 := by omega
      have h5 : (invocationsUntil a (t0 + elapsed) rest : Int) * (T * 1000) ≤
          (invocations a rest : Int) * (T * 1000) := Int.mul_le_mul_of_nonneg_right h4 hT2
      push_cast
      have h6 : ((invocationsUntil a (t0 + elapsed) rest : Int) + 1 - 1) * (T * 1000) =
          (invocationsUntil a (t0 + elapsed) rest : Int) * (T * 1000) := by ring
      rw [h6]
      omega
    · have hcnt : invocationsUntil a (t0 + elapsed) (c :: rest) =
          invocationsUntil a (t0 + elapsed) rest := by
        simp only [invocationsUntil, List.countP_cons, hc]
        simp
      rw [hcnt]
      exact ih h2

/-- The bound in the form of the specification: at most
`ceil(elapsed / T) + 1` invocations (in fact at most `ceil(elapsed / T)`). -/
theorem ceil_bound (m : Nat) (T elapsed : Int) (hT : 0 < T) (he : 0 ≤ elapsed)
    (h : m = 0 ∨ ((m : Int) - 1) * T < elapsed) :
    (m : Int) ≤ ⌈(elapsed : ℚ) / (T : ℚ)⌉ + 1 := by
  have hTq : (0 : ℚ) < (T : ℚ) := by exact_mod_cast hT
  have hnn : (0 : ℤ) ≤ ⌈(elapsed : ℚ) / (T : ℚ)⌉ := by
    apply Int.ceil_nonneg
    apply div_nonneg
    · exact_mod_cast he
    · exact le_of_lt hTq
  rcases h with h | h
  · subst h
    simp only [Nat.cast_zero]
    omega
  · have h2 : (((m : Int) - 1 : Int) : ℚ) < (elapsed : ℚ) / (T : ℚ) := by
      rw [lt_div_iff₀ hTq]
      exact_mod_cast h
    have h3 : (m : Int) - 1 < ⌈(elapsed : ℚ) / (T : ℚ)⌉ := Int.lt_ceil.mpr h2
    omega

/-- A step other than `shutdown()` keeps a running scheduler running. -/
theorem step_stays_running (H : HeapAlgo) (w : World) (e : Event) (hinv : Inv w)
    (he : e ≠ .shutdown) (hr : w.sched.running_ = true) :
    (w.step H e).sched.running_ = true := by
  cases e with
  | tick d => exact hr
  | start => rcases step_start H w with h | ⟨hr2, _, _⟩
             · rw [h]; exact hr
             · rw [hr] at hr2; cases hr2
  | shutdown => exact absurd rfl he
  | join => rcases step_join H w with h | ⟨_, h⟩ <;> rw [h] <;> exact hr
  | setSteady b => exact hr
  | addFunction cb interval nameID startDelay =>
    rcases step_add H w _ cb interval nameID startDelay false (Or.inl ⟨rfl, rfl⟩) with
      h | ⟨g, l, _, _, _, _, _, _, _, _, _, _, _, _, _, _, h⟩ <;> rw [h] <;> exact hr
  | addFunctionOnce cb nameID startDelay =>
    rcases step_add H w _ cb 0 nameID startDelay true (Or.inr ⟨rfl, rfl, rfl⟩) with
      h | ⟨g, l, _, _, _, _, _, _, _, _, _, _, _, _, _, _, h⟩ <;> rw [h] <;> exact hr
  | cancelFunction n =>
    exact (TimerScheduler.cancel_thread_kind w.sched n).2.1.trans hr
  | cancelFunctionAndWait n =>
    exact (TimerScheduler.cancel_thread_kind w.sched n).2.1.trans hr
  | loop =>
    by_cases ht : w.sched.thread_ = .atLoop
    · rw [step_loop_sched H w ht, (TimerScheduler.runIteration_running H _ _).1]
      exact hr
    · rw [step_loop_idle H w ht]; exact hr
  | callbackEnds =>
    show (w.sched.runOneFunctionResume H).running_ = true
    rw [TimerScheduler.resume_running H _ hinv.wf]
    exact hr

theorem paced_step (H : HeapAlgo) (w : World) (e : Event) (hinv : Inv w) (hti : TimeInv w)
    (a : Nat) (t0 T : Int) (old : List Call) (h : Paced a t0 T old w)
    (he : e ≠ .shutdown) : Paced a t0 T old (w.step H e) := by
  obtain ⟨hr, hlt, h0, new, hnew, hsp, hobj⟩ := h
  have hclk := step_clock H w e
  refine ⟨step_stays_running H w e hinv he hr, lt_of_lt_of_le hlt (step_nextAddr H w e), h0,
    ?_⟩
  rcases step_calls H w e with hc | ⟨rfl, hthr, _, front, back, hpop, hb, _, hd, hc, hthr2, hfr⟩
  · refine ⟨new, by rw [hc, hnew], hsp, ?_⟩
    intro f2 hf2 ha
    rcases step_objects_time H w e hinv f2 hf2 with ⟨f1, hf1, hs, htime⟩ | ⟨hna, _⟩
    · obtain ⟨hi, hn⟩ := hobj f1 hf1 (hs.1 ▸ ha)
      rcases htime with htime | ⟨_, hr1, _⟩ | ⟨rfl, _, _, _, hthr3⟩
      · exact ⟨hs.2.2.2.1.trans hi, fun h3 => by rw [htime]; exact hn (by omega)⟩
      · rw [hr] at hr1; cases hr1
      · -- a loop that invoked the task would have changed the history
        by_cases ht : w.sched.thread_ = .atLoop
        · exfalso
          rcases step_loop H w ht with ⟨_, hno⟩ | ⟨_, back, _, _, _, _, h2⟩
          · rw [step_loop_sched H w ht] at hthr3
            exact hno f2 hthr3
          · have hlen := congrArg List.length hc
            rw [h2] at hlen
            simp at hlen
        · have hf2w : f2 ∈ w.sched.objects := by
            rw [step_loop_idle H w ht] at hf2; exact hf2
          rw [step_loop_idle H w ht]
          exact hobj f2 hf2w ha
    · omega
  · have hclk2 : (w.step H .loop).clock = w.clock := by
      rcases step_loop H w hthr with ⟨h1, _⟩ | ⟨_, _, _, _, _, _, h1⟩ <;> rw [h1]
    have hnd : ((front ++ [back]).map (fun f => f.addr)).Nodup := by
      have hperm : (front ++ [back]).Perm w.sched.functions_ := hpop ▸ H.pop_heap_perm _
      refine ((hperm.map _).nodup_iff).mpr ?_
      have := hinv.wf.nodup
      simp only [TimerScheduler.objects, List.map_append] at this
      exact (List.nodup_append.mp this).1
    have hfront : ∀ f ∈ front, f ∈ w.sched.functions_ ∧ f.addr ≠ back.addr := by
      intro f hf
      have hperm : (front ++ [back]).Perm w.sched.functions_ := hpop ▸ H.pop_heap_perm _
      refine ⟨hperm.mem_iff.mp (List.mem_append_left _ hf), ?_⟩
      rw [List.map_append, List.nodup_append] at hnd
      intro heq
      exact hnd.2.2 (List.mem_map_of_mem _ hf) (by simp [heq])
    have hbo := w.sched.mem_objects_of_mem back hb
    have hcnt0 : 0 ≤ (invocations a new : Int) * (T * 1000) → True := fun _ => trivial
    refine ⟨w.callOf back :: new, by rw [hc, hnew]; rfl, ⟨?_, hsp⟩, ?_⟩
    · intro hba hrep
      obtain ⟨hi, hn⟩ := hobj back hbo hba
      have hn2 := hn hrep
      have hT : 0 ≤ T := hi ▸ (hinv.nonneg back hbo).1
      have hk : 0 ≤ (invocations a new : Int) * (T * 1000) :=
        Int.mul_nonneg (Int.ofNat_nonneg _) (by omega)
      have := TimerScheduler.due_lt back.nextRunTime w.clock (by omega) (hti.range back hbo)
        hti.clock.1 hti.clock.2 hd
      show t0 + (invocations a new : Int) * (T * 1000) < w.clock
      omega
    · intro f2 hf2 ha
      have hf2' : f2 ∈ (w.step H .loop).sched.functions_ ++
          (w.step H .loop).sched.thread_.locals := hf2
      rw [hfr, hthr2] at hf2'
      rw [hclk2]
      rcases List.mem_append.mp hf2' with h3 | h3
      · obtain ⟨h4, h5⟩ := hfront f2 h3
        have hba : ¬ back.addr = a := fun h6 => h5 (ha.trans h6.symm)
        have hcnt : invocations a (w.callOf back :: new) = invocations a new := by
          simp [invocations, callOf, hba]
        rw [hcnt]
        exact hobj f2 (w.sched.mem_objects_of_mem f2 h4) ha
      · have h4 : f2 = w.sched.advanced back w.clock := by
          simpa [SchedThread.locals] using h3
        subst h4
        have hba : back.addr = a := by rw [← ha, TimerScheduler.advanced_addr]
        obtain ⟨hi, hn⟩ := hobj back hbo hba
        have hcnt : invocations a (w.callOf back :: new) = invocations a new + 1 := by
          simp [invocations, callOf, hba]
        rw [hcnt, TimerScheduler.advanced_interval]
        refine ⟨hi, fun hrep => ?_⟩
        have hn2 := hn hrep
        have hT : 0 ≤ T := hi ▸ (hinv.nonneg back hbo).1
        have hk : 0 ≤ (invocations a new : Int) * (T * 1000) :=
          Int.mul_nonneg (Int.ofNat_nonneg _) (by omega)
        have hlt2 := TimerScheduler.due_lt back.nextRunTime w.clock (by omega)
          (hti.range back hbo) hti.clock.1 hti.clock.2 hd
        have hadv := TimerScheduler.advanced_time w.sched back w.clock (hinv.nonneg back hbo).1
        rw [hi] at hadv
        push_cast
        have : ((invocations a new : Int) + 1) * (T * 1000) =
            (invocations a new : Int) * (T * 1000) + T * 1000 := by
          ring
        rw [this]
        cases hst : w.sched.steady_ with
        | true =>
          rw [hadv.1 hst (by omega) (by omega)]
          omega
        | false =>
          rw [hadv.2 hst hti.clock.1 hrep]
          omega

theorem paced_exec (H : HeapAlgo) (w : World) (es : List Event) (hinv : Inv w)
    (hti : TimeInv w) (a : Nat) (t0 T : Int) (old : List Call) (h : Paced a t0 T old w)
    (hes : ∀ e ∈ es, e ≠ .shutdown) : Paced a t0 T old (w.exec H es) := by
  induction es generalizing w with
  | nil => exact h
  | cons e es ih =>
    exact ih (w.step H e) (inv_step H w e hinv) (timeInv_step H w e hinv hti)
      (paced_step H w e hinv hti a t0 T old h (hes e (List.mem_cons_self _ _)))
      (fun e2 he2 => hes e2 (List.mem_cons_of_mem _ he2))

/-- A `start()` that takes effect begins the run of every task without start
delay at the current time. -/
theorem paced_of_start (H : HeapAlgo) (w : World) (hinv : Inv w) (hti : TimeInv w)
    (f : RepeatFunc)
    (hf : f ∈ w.sched.functions_) (hstop : w.sched.running_ = false)
    (hthr : w.sched.thread_ = .notJoinable) (hd : f.startDelay = 0) :
    Paced f.addr w.clock f.interval w.calls (w.step H .start) := by
  rcases step_start H w with h | ⟨_, _, h⟩
  · exfalso
    have h1 : (w.step H .start).sched.running_ = true := by
      simp only [step, TimerScheduler.start_stopped H w.sched w.clock hstop hthr]
    rw [h, hstop] at h1
    cases h1
  · rw [h]
    refine ⟨rfl, hinv.addr_lt f (w.sched.mem_objects_of_mem f hf), hti.clock.1, [], rfl,
      trivial, ?_⟩
    intro f2 hf2 ha
    have hf2' : f2 ∈ H.make_heap (w.sched.functions_.map
        (fun f => f.resetNextRunTime w.clock)) := by
      simpa [TimerScheduler.objects, SchedThread.locals] using hf2
    obtain ⟨f1, hf1, rfl⟩ := List.mem_map.mp ((H.make_heap_perm _).mem_iff.mp hf2')
    have heq : f1 = f :=
      TimerScheduler.eq_of_addr_eq w.sched.objects hinv.wf.nodup f1 f
        (w.sched.mem_objects_of_mem f1 hf1) (w.sched.mem_objects_of_mem f hf) ha
    subst heq
    refine ⟨rfl, fun _ => ?_⟩
    show w.clock + ((invocations f1.addr [] : Nat) : Int) * (f1.interval * 1000) ≤
      wrap64 (w.clock + nanoseconds f1.startDelay)
    rw [hd]
    have h1 : nanoseconds 0 = 0 := by decide
    rw [h1, wrap64_eq _ (by have := hti.clock.1; unfold INT64_MIN; omega)
      (by have := hti.clock.2; omega)]
    simp [invocations]

/-- Under the invariant, a name the map does not hold is free: a registration
with valid arguments succeeds. -/
theorem free_of_not_held (H : HeapAlgo) (w : World) (hinv : Inv w) (n : String)
    (h : w.sched.functionsMap_.find n = none) (c : Nat) (interval d now : Int) (addr : Nat)
    (hi : 0 ≤ interval) (hd : 0 ≤ d) :
    (w.sched.addFunction H (some c) interval n d now addr).1 = none := by
  apply TimerScheduler.addFunction_ok_of_free H _ c interval n d now addr hi hd
  · simp [TimerScheduler.findValid, h]
  · cases hc : w.sched.currentNamed n with
    | none => rfl
    | some F =>
      exfalso
      obtain ⟨h1, _, h3⟩ := w.sched.currentNamed_some n F hc
      obtain ⟨F2, _, _, _, hfind, hd2⟩ := hinv.wf.current_deref w.sched F.addr h1
      have hF : F2 = F := by
        have := (w.sched.currentNamed_some n F hc).2.1
        rw [this] at hd2
        exact (Option.some.inj hd2).symm
      rw [hF, h3, h] at hfind
      cases hfind

/-- A name the map does not hold stays out of the map until it is
registered. -/
theorem not_held_step (H : HeapAlgo) (w : World) (e : Event) (hinv : Inv w) (n : String)
    (h : w.sched.functionsMap_.find n = none) (he : registers n e = false) :
    (w.step H e).sched.functionsMap_.find n = none := by
  have herase : ∀ k, FunctionMap.find (FunctionMap.erase w.sched.functionsMap_ k) n = none := by
    intro k
    by_cases hk : n = k
    · rw [hk]; exact FunctionMap.find_erase_self _ _
    · rw [FunctionMap.find_erase_ne _ _ _ hk]; exact h
  have hadd : ∀ cb interval nameID startDelay once,
      isAdd e cb interval nameID startDelay once → nameID ≠ n →
      (w.step H e).sched.functionsMap_.find n = none := by
    intro cb interval nameID startDelay once he2 hne
    rcases step_add H w e cb interval nameID startDelay once he2 with
      h1 | ⟨g, l, _, hn, _, _, _, _, _, _, _, _, _, _, _, _, h1⟩
    · rw [h1]; exact h
    · rw [h1]
      show FunctionMap.find (FunctionMap.assign w.sched.functionsMap_ g.name g.addr) n = _
      rw [FunctionMap.find_assign_ne _ _ _ _ (by rw [hn]; exact fun h2 => hne h2.symm)]
      exact h
  have hcancel : ∀ m, (w.sched.cancelFunctionStale m).2.functionsMap_.find n = none := by
    intro m
    cases h1 : w.sched.currentNamed m with
    | some F => rw [TimerScheduler.cancel_current _ m F h1]; exact herase _
    | none =>
      cases h2 : w.sched.findValid m with
      | none => rw [TimerScheduler.cancel_none _ m h1 h2]; exact h
      | some f => rw [TimerScheduler.cancel_idle _ m f h1 h2]; exact herase _
  cases e with
  | tick d => exact h
  | start => rcases step_start H w with h1 | ⟨_, _, h1⟩ <;> rw [h1] <;> exact h
  | shutdown =>
    show w.sched.shutdown.2.functionsMap_.find n = none
    unfold TimerScheduler.shutdown; split <;> exact h
  | join => rcases step_join H w with h1 | ⟨_, h1⟩ <;> rw [h1] <;> exact h
  | setSteady b => exact h
  | addFunction cb interval nameID startDelay =>
    exact hadd cb interval nameID startDelay false (Or.inl ⟨rfl, rfl⟩)
      (by simpa [registers] using he)
  | addFunctionOnce cb nameID startDelay =>
    exact hadd cb 0 nameID startDelay true (Or.inr ⟨rfl, rfl, rfl⟩)
      (by simpa [registers] using he)
  | cancelFunction m => exact hcancel m
  | cancelFunctionAndWait m => exact hcancel m
  | loop =>
    by_cases ht : w.sched.thread_ = .atLoop
    · rw [step_loop_sched H w ht, TimerScheduler.runIteration_map]; exact h
    · rw [step_loop_idle H w ht]; exact h
  | callbackEnds =>
    show (w.sched.runOneFunctionResume H).functionsMap_.find n = none
    by_cases hT : ∃ F, w.sched.thread_ = .inCallback F
    swap
    · rw [TimerScheduler.resume_idle H w.sched (fun F h => hT ⟨F, h⟩)]; exact h
    obtain ⟨F, ht⟩ := hT
    rcases TimerScheduler.resume_cases H w.sched hinv.wf F ht with
      ⟨_, hc⟩ | ⟨_, _, hc⟩ | ⟨_, _, hc⟩
    · rw [hc]; exact h
    · rw [hc]; exact herase _
    · rw [hc]; exact h

theorem not_held_exec (H : HeapAlgo) (w : World) (es : List Event) (hinv : Inv w) (n : String)
    (h : w.sched.functionsMap_.find n = none) (hes : ∀ e ∈ es, registers n e = false) :
    (w.exec H es).sched.functionsMap_.find n = none := by
  induction es generalizing w with
  | nil => exact h
  | cons e es ih =>
    exact ih (w.step H e) (inv_step H w e hinv)
      (not_held_step H w e hinv n h (hes e (List.mem_cons_self _ _)))
      (fun e2 he2 => hes e2 (List.mem_cons_of_mem _ he2))

/-- A cancellation that found its task takes the name out of the map. -/
theorem not_held_of_cancel (w : World) (hinv : Inv w) (n : String)
    (h : (w.sched.cancelFunctionStale n).1 = true) :
    (w.sched.cancelFunctionStale n).2.functionsMap_.find n = none := by
  cases h1 : w.sched.currentNamed n with
  | some F =>
    obtain ⟨_, _, hn⟩ := w.sched.currentNamed_some n F h1
    rw [TimerScheduler.cancel_current _ n F h1, ← hn]
    exact FunctionMap.find_erase_self _ _
  | none =>
    cases h2 : w.sched.findValid n with
    | none => rw [TimerScheduler.cancel_none _ n h1 h2] at h; cases h
    | some f =>
      obtain ⟨_, hn⟩ := hinv.wf.findValid_mem w.sched n f h1 h2
      rw [TimerScheduler.cancel_idle _ n f h1 h2, ← hn]
      exact FunctionMap.find_erase_self _ _

end World

theorem isHeap_nil : IsHeap [] := by
  intro i hi
  simp at hi

theorem isHeap_iff_times (l : List RepeatFunc) :
    IsHeap l ↔ ∀ i, i < l.length →
      (l.map (fun f => f.nextRunTime)).getD ((i - 1) / 2) 0 ≤
        (l.map (fun f => f.nextRunTime)).getD i 0 := by
  constructor
  · intro h i hi
    have h1 := h i hi
    have hp : (i - 1) / 2 < l.length := by omega
    simp only [RunTimeOrder, RepeatFunc.getNextRunTime, decide_eq_false_iff_not, gt_iff_lt,
      not_lt, List.get_eq_getElem] at h1
    rw [List.getD_eq_getElem _ _ (by simpa using hp), List.getD_eq_getElem _ _ (by simpa using hi)]
    simpa using h1
  · intro h i hi
    have h1 := h i hi
    have hp : (i - 1) / 2 < l.length := by omega
    rw [List.getD_eq_getElem _ _ (by simpa using hp),
      List.getD_eq_getElem _ _ (by simpa using hi)] at h1
    simp only [RunTimeOrder, RepeatFunc.getNextRunTime, decide_eq_false_iff_not, gt_iff_lt,
      not_lt, List.get_eq_getElem]
    simpa using h1

theorem isHeap_of_times (l1 l2 : List RepeatFunc)
    (hmap : l2.map (fun f => f.nextRunTime) = l1.map (fun f => f.nextRunTime))
    (h : IsHeap l1) : IsHeap l2 := by
  rw [isHeap_iff_times] at h ⊢
  have hlen : l2.length = l1.length := by
    simpa using congrArg List.length hmap
  intro i hi
  rw [hmap]
  exact h i (hlen ▸ hi)

theorem IsHeap.head_le (l : List RepeatFunc) (h : IsHeap l) (x : RepeatFunc)
    (hx : l.head? = some x) : ∀ f ∈ l, x.nextRunTime ≤ f.nextRunTime := by
  rw [isHeap_iff_times] at h
  have key : ∀ n i, i ≤ n → i < l.length →
      (l.map (fun f => f.nextRunTime)).getD 0 0 ≤ (l.map (fun f => f.nextRunTime)).getD i 0 := by
    intro n
    induction n with
    | zero =>
      intro i hi _
      have : i = 0 := by omega
      subst this
      exact le_refl _
    | succ n ih =>
      intro i hi hlt
      by_cases h0 : i = 0
      · subst h0
        exact le_refl _
      · have h1 := h i hlt
        have h2 := ih ((i - 1) / 2) (by omega) (by omega)
        exact le_trans h2 h1
  intro f hf
  obtain ⟨i, hi, rfl⟩ := List.getElem_of_mem hf
  have hk := key i i (le_refl _) hi
  cases l with
  | nil => simp at hi
  | cons y ys =>
    simp only [List.head?_cons, Option.some.injEq] at hx
    subst hx
    have hi2 : i < (List.map (fun f => f.nextRunTime) (y :: ys)).length := by
      rw [List.length_map]
      exact hi
    rw [List.getD_eq_getElem _ _ hi2, List.getElem_map] at hk
    simpa using hk
namespace TimerScheduler

theorem addChecked_heap (H : HeapAlgo) (s : TimerScheduler) (cb : Option Nat) (fn : Int)
    (nameID : String) (startDelay : Int) (runOnce : Bool) (now : Int) (addr : Nat)
    (hh : s.running_ = true → IsHeap s.functions_) :
    (s.addFunctionToHeapChecked H cb fn nameID startDelay runOnce now addr).2.running_ = true →
      IsHeap (s.addFunctionToHeapChecked H cb fn nameID startDelay runOnce now addr).2.functions_ := by
  unfold addFunctionToHeapChecked
  split_ifs with h1 h2 h3 h4
  · exact hh
  · exact hh
  · exact hh
  · exact hh
  · dsimp only
    by_cases hrun : s.running_ = true
    · rw [if_pos hrun]
      intro _
      apply H.push_heap_heap
      rw [List.dropLast_concat]
      exact hh hrun
    · rw [if_neg hrun]
      intro hr
      exact absurd hr hrun

theorem add_heap (H : HeapAlgo) (s : TimerScheduler) (cb : Option Nat) (interval : Int)
    (nameID : String) (startDelay : Int) (now : Int) (addr : Nat)
    (hh : s.running_ = true → IsHeap s.functions_) :
    ((s.addFunction H cb interval nameID startDelay now addr).2.running_ = true →
      IsHeap (s.addFunction H cb interval nameID startDelay now addr).2.functions_) ∧
    ((s.addFunctionOnce H cb nameID startDelay now addr).2.running_ = true →
      IsHeap (s.addFunctionOnce H cb nameID startDelay now addr).2.functions_) := by
  constructor
  · rcases addFunction_eq H s cb interval nameID startDelay now addr with ⟨_, h⟩ | ⟨_, h⟩
    · rw [h]
      exact hh
    · rw [h]
      exact addChecked_heap H s cb interval nameID startDelay false now addr hh
  · rw [addFunctionOnce_eq]
    exact addChecked_heap H s cb 0 nameID startDelay true now addr hh

theorem mutate_times (s : TimerScheduler) (p : Nat) :
    (s.mutate p RepeatFunc.cancel).functions_.map (fun f => f.nextRunTime) =
      s.functions_.map (fun f => f.nextRunTime) := by
  simp only [mutate, List.map_map]
  apply List.map_congr_left
  intro f _
  simp only [Function.comp]
  split_ifs <;> rfl

theorem cancel_times (s : TimerScheduler) (n : String) :
    (s.cancelFunctionStale n).2.functions_.map (fun f => f.nextRunTime) =
      s.functions_.map (fun f => f.nextRunTime) := by
  cases hc : s.currentNamed n with
  | some F => rw [cancel_current s n F hc]
  | none =>
    cases hf : s.findValid n with
    | some f =>
      rw [cancel_idle s n f hc hf]
      exact mutate_times _ _
    | none => rw [cancel_none s n hc hf]

theorem runIteration_heap (H : HeapAlgo) (s : TimerScheduler) (now : Int)
    (hh : s.running_ = true → IsHeap s.functions_) :
    (s.runIteration H now).2.running_ = true → IsHeap (s.runIteration H now).2.functions_ := by
  rcases runIteration_cases H s now with ⟨hr, h⟩ | ⟨hr, _, h⟩ | ⟨front, back, hr, hpop, h⟩
  · rw [h]
    intro h2
    exact hh h2
  · rw [h]
    exact hh
  · have hfront : IsHeap front := by
      have := H.pop_heap_heap s.functions_ (hh hr)
      rw [hpop, List.dropLast_concat] at this
      exact this
    rcases h with ⟨_, h⟩ | ⟨_, _, h⟩ | ⟨_, _, h⟩
    · rw [h]
      intro _
      exact hfront
    · rw [h]
      intro _
      exact hfront
    · rw [h]
      intro _
      apply H.push_heap_heap
      rw [List.dropLast_concat]
      exact hfront

theorem resume_heap (H : HeapAlgo) (s : TimerScheduler) (hwf : WF s)
    (hh : s.running_ = true → IsHeap s.functions_) :
    (s.runOneFunctionResume H).running_ = true → IsHeap (s.runOneFunctionResume H).functions_ := by
  by_cases ht : ∃ F, s.thread_ = .inCallback F
  · obtain ⟨F, ht⟩ := ht
    rcases resume_cases H s hwf F ht with ⟨_, h⟩ | ⟨_, _, h⟩ | ⟨_, _, h⟩
    · rw [h]
      exact hh
    · rw [h]
      exact hh
    · rw [h]
      intro hr
      have hr2 : s.running_ = true := hr
      show IsHeap (if s.running_ then H.push_heap (s.functions_ ++ [F]) else s.functions_ ++ [F])
      rw [if_pos hr2]
      apply H.push_heap_heap
      rw [List.dropLast_concat]
      exact hh hr2
  · rw [resume_idle H s (fun F hF => ht ⟨F, hF⟩)]
    exact hh

end TimerScheduler

namespace World

theorem step_heap (H : HeapAlgo) (w : World) (e : Event) (hinv : Inv w)
    (hh : w.sched.running_ = true → IsHeap w.sched.functions_) :
    (w.step H e).sched.running_ = true → IsHeap (w.step H e).sched.functions_ := by
  cases e with
  | tick d => exact hh
  | start =>
    rcases step_start H w with h | ⟨_, _, h⟩
    · rw [h]
      exact hh
    · rw [h]
      intro _
      exact H.make_heap_heap _
  | shutdown =>
    intro hr
    exfalso
    have hr2 : w.sched.shutdown.2.running_ = true := hr
    by_cases hrun : w.sched.running_ = true
    · rw [TimerScheduler.shutdown_running _ hrun] at hr2
      exact Bool.noConfusion hr2
    · have hrun2 : w.sched.running_ = false := by simpa using hrun
      rw [TimerScheduler.shutdown_stopped _ hrun2] at hr2
      exact hrun hr2
  | join =>
    rcases step_join H w with h | ⟨_, h⟩
    · rw [h]
      exact hh
    · rw [h]
      exact hh
  | setSteady b => exact hh
  | addFunction cb interval nameID startDelay =>
    show (w.added _).sched.running_ = true → IsHeap (w.added _).sched.functions_
    rw [added_sched]
    exact (TimerScheduler.add_heap H w.sched cb interval nameID startDelay w.clock w.nextAddr hh).1
  | addFunctionOnce cb nameID startDelay =>
    show (w.added _).sched.running_ = true → IsHeap (w.added _).sched.functions_
    rw [added_sched]
    exact (TimerScheduler.add_heap H w.sched cb 0 nameID startDelay w.clock w.nextAddr hh).2
  | cancelFunction n =>
    intro hr
    have hr2 : (w.sched.cancelFunctionStale n).2.running_ = true := hr
    rw [(TimerScheduler.cancel_thread_kind w.sched n).2.1] at hr2
    exact isHeap_of_times _ _ (TimerScheduler.cancel_times w.sched n) (hh hr2)
  | cancelFunctionAndWait n =>
    intro hr
    have hr2 : (w.sched.cancelFunctionStale n).2.running_ = true := hr
    rw [(TimerScheduler.cancel_thread_kind w.sched n).2.1] at hr2
    exact isHeap_of_times _ _ (TimerScheduler.cancel_times w.sched n) (hh hr2)
  | loop =>
    by_cases ht : w.sched.thread_ = .atLoop
    · rw [step_loop_sched H w ht]
      exact TimerScheduler.runIteration_heap H w.sched w.clock hh
    · rw [step_loop_idle H w ht]
      exact hh
  | callbackEnds => exact TimerScheduler.resume_heap H w.sched hinv.wf hh

end World

theorem Reachable.heap {H : HeapAlgo} {w : World} (h : Reachable H w) :
    w.sched.running_ = true → IsHeap w.sched.functions_ := by
  induction h with
  | init => intro hr; exact Bool.noConfusion hr
  | step w e _ ih => exact World.step_heap H w e (Reachable.inv ‹_›) ih

namespace TimerScheduler

theorem currentTask_some (s : TimerScheduler) (hwf : WF s) (F : RepeatFunc) :
    s.currentTask = some F ↔ s.thread_ = .inCallback F ∧ s.currentFunction_ = some F.addr := by
  unfold currentTask
  constructor
  · intro h
    cases hc : s.currentFunction_ with
    | none => rw [hc] at h; exact Option.noConfusion h
    | some p =>
      rw [hc] at h
      obtain ⟨F2, ht, ha, _, _, hd⟩ := WF.current_deref s hwf p hc
      dsimp only at h
      rw [hd] at h
      have : F2 = F := Option.some.inj h
      subst this
      exact ⟨ht, by rw [ha]⟩
  · rintro ⟨ht, hc⟩
    rw [hc]
    obtain ⟨F2, ht2, _, _, _, hd⟩ := WF.current_deref s hwf F.addr hc
    rw [ht] at ht2
    have : F = F2 := SchedThread.inCallback.inj ht2
    subst this
    exact hd

end TimerScheduler

namespace World

/-- While a callback runs, an event other than its end leaves the task with
the thread, and changes the next run time of no task of `functions_`: each is
a task that was there, or a newly registered one. -/
theorem inflight_step (H : HeapAlgo) (w : World) (e : Event) (F : RepeatFunc)
    (ht : w.sched.thread_ = .inCallback F) (he : e ≠ .callbackEnds) :
    ∃ F2, (w.step H e).sched.thread_ = .inCallback F2 ∧ F2.sameTask F ∧
      F2.nextRunTime = F.nextRunTime ∧
      ∀ f2 ∈ (w.step H e).sched.functions_,
        (∃ f1 ∈ w.sched.functions_, f2.sameTask f1 ∧ f2.nextRunTime = f1.nextRunTime) ∨
        w.nextAddr ≤ f2.addr := by
  have hsame : ∀ w2 : World, w2.sched.thread_ = w.sched.thread_ →
      w2.sched.functions_ = w.sched.functions_ →
      ∃ F2, w2.sched.thread_ = .inCallback F2 ∧ F2.sameTask F ∧
        F2.nextRunTime = F.nextRunTime ∧
        ∀ f2 ∈ w2.sched.functions_,
          (∃ f1 ∈ w.sched.functions_, f2.sameTask f1 ∧ f2.nextRunTime = f1.nextRunTime) ∨
          w.nextAddr ≤ f2.addr := by
    intro w2 h1 h2
    refine ⟨F, by rw [h1, ht], F.sameTask_refl, rfl, ?_⟩
    intro f2 hf2
    rw [h2] at hf2
    exact Or.inl ⟨f2, hf2, f2.sameTask_refl, rfl⟩
  have hcancel : ∀ n, ∃ F2, (w.sched.cancelFunctionStale n).2.thread_ = .inCallback F2 ∧
      F2.sameTask F ∧ F2.nextRunTime = F.nextRunTime ∧
      ∀ f2 ∈ (w.sched.cancelFunctionStale n).2.functions_,
        (∃ f1 ∈ w.sched.functions_, f2.sameTask f1 ∧ f2.nextRunTime = f1.nextRunTime) ∨
        w.nextAddr ≤ f2.addr := by
    intro n
    have hfun : ∀ f2 ∈ (w.sched.cancelFunctionStale n).2.functions_,
        (∃ f1 ∈ w.sched.functions_, f2.sameTask f1 ∧ f2.nextRunTime = f1.nextRunTime) ∨
        w.nextAddr ≤ f2.addr := by
      intro f2 hf2
      obtain ⟨f1, hf1, h | h⟩ := TimerScheduler.cancel_functions w.sched n f2 hf2
      · subst h
        exact Or.inl ⟨f2, hf1, f2.sameTask_refl, rfl⟩
      · subst h
        exact Or.inl ⟨f1, hf1, TimerScheduler.sameTask_cancel f1, rfl⟩
    rcases (TimerScheduler.cancel_thread_kind w.sched n).1 with h | ⟨F1, h1, h2⟩
    · exact ⟨F, by rw [h, ht], F.sameTask_refl, rfl, hfun⟩
    · rw [ht] at h1
      have : F = F1 := SchedThread.inCallback.inj h1
      subst this
      exact ⟨F.cancel, h2, TimerScheduler.sameTask_cancel F, rfl, hfun⟩
  have hadd : ∀ e2 cb interval nameID startDelay once,
      isAdd e2 cb interval nameID startDelay once →
      ∃ F2, (w.step H e2).sched.thread_ = .inCallback F2 ∧ F2.sameTask F ∧
        F2.nextRunTime = F.nextRunTime ∧
        ∀ f2 ∈ (w.step H e2).sched.functions_,
          (∃ f1 ∈ w.sched.functions_, f2.sameTask f1 ∧ f2.nextRunTime = f1.nextRunTime) ∨
          w.nextAddr ≤ f2.addr := by
    intro e2 cb interval nameID startDelay once hadd
    rcases step_add H w e2 cb interval nameID startDelay once hadd with h |
      ⟨g, l, hga, _, _, _, _, _, _, _, _, _, hl, _, _, _, h⟩
    · rw [h]
      exact hsame w rfl rfl
    · rw [h]
      refine ⟨F, ht, F.sameTask_refl, rfl, ?_⟩
      intro f2 hf2
      have hf2l : f2 ∈ l := hf2
      have := hl.mem_iff.mp hf2l
      rcases List.mem_append.mp this with h3 | h3
      · exact Or.inl ⟨f2, h3, f2.sameTask_refl, rfl⟩
      · have : f2 = g := by simpa using h3
        subst this
        exact Or.inr (by omega)
  cases e with
  | tick d => exact hsame _ rfl rfl
  | start =>
    rcases step_start H w with h | ⟨_, h2, _⟩
    · rw [h]
      exact hsame w rfl rfl
    · rw [ht] at h2
      exact SchedThread.noConfusion h2
  | shutdown =>
    by_cases hrun : w.sched.running_ = true
    · apply hsame
      · show w.sched.shutdown.2.thread_ = _
        rw [TimerScheduler.shutdown_running _ hrun]
      · show w.sched.shutdown.2.functions_ = _
        rw [TimerScheduler.shutdown_running _ hrun]
    · have hrun2 : w.sched.running_ = false := by simpa using hrun
      apply hsame
      · show w.sched.shutdown.2.thread_ = _
        rw [TimerScheduler.shutdown_stopped _ hrun2]
      · show w.sched.shutdown.2.functions_ = _
        rw [TimerScheduler.shutdown_stopped _ hrun2]
  | join =>
    rcases step_join H w with h | ⟨h2, _⟩
    · rw [h]
      exact hsame w rfl rfl
    · rw [ht] at h2
      exact SchedThread.noConfusion h2
  | setSteady b => exact hsame _ rfl rfl
  | addFunction cb interval nameID startDelay =>
    exact hadd _ cb interval nameID startDelay false (Or.inl ⟨rfl, rfl⟩)
  | addFunctionOnce cb nameID startDelay =>
    exact hadd _ cb 0 nameID startDelay true (Or.inr ⟨rfl, rfl, rfl⟩)
  | cancelFunction n => exact hcancel n
  | cancelFunctionAndWait n => exact hcancel n
  | loop =>
    rw [step_loop_idle H w (by rw [ht]; exact SchedThread.noConfusion)]
    exact hsame w rfl rfl
  | callbackEnds => exact absurd rfl he

theorem inflight_exec (H : HeapAlgo) (w : World) (es : List Event)
    (F : RepeatFunc) (ht : w.sched.thread_ = .inCallback F)
    (hes : ∀ e ∈ es, e ≠ .callbackEnds) :
    ∃ F2, (w.exec H es).sched.thread_ = .inCallback F2 ∧ F2.sameTask F ∧
      F2.nextRunTime = F.nextRunTime ∧
      ∀ f2 ∈ (w.exec H es).sched.functions_,
        (∃ f1 ∈ w.sched.functions_, f2.sameTask f1 ∧ f2.nextRunTime = f1.nextRunTime) ∨
        w.nextAddr ≤ f2.addr := by
  induction es generalizing w F with
  | nil =>
    exact ⟨F, ht, F.sameTask_refl, rfl,
      fun f2 hf2 => Or.inl ⟨f2, hf2, f2.sameTask_refl, rfl⟩⟩
  | cons e es ih =>
    obtain ⟨F1, ht1, hs1, hn1, hf1⟩ :=
      inflight_step H w e F ht (hes e (List.mem_cons_self _ _))
    obtain ⟨F2, ht2, hs2, hn2, hf2⟩ := ih (w.step H e) F1 ht1
      (fun e2 he2 => hes e2 (List.mem_cons_of_mem _ he2))
    rw [exec_cons]
    refine ⟨F2, ht2, RepeatFunc.sameTask_trans _ _ _ hs2 hs1, by rw [hn2, hn1], ?_⟩
    intro f2 hmem
    have hmono := step_nextAddr H w e
    rcases hf2 f2 hmem with ⟨g, hg, hsg, hng⟩ | h
    · rcases hf1 g hg with ⟨g0, hg0, hsg0, hng0⟩ | h
      · exact Or.inl ⟨g0, hg0, RepeatFunc.sameTask_trans _ _ _ hsg hsg0, by rw [hng, hng0]⟩
      · exact Or.inr (by rw [hsg.1]; exact h)
    · exact Or.inr (by omega)

end World

namespace TimerScheduler

theorem pop_concat_inj (front front2 : List RepeatFunc) (back back2 : RepeatFunc)
    (h : front ++ [back] = front2 ++ [back2]) : front = front2 ∧ back = back2 := by
  have := List.append_inj' h rfl
  exact ⟨this.1, by simpa using this.2⟩

/-- The pass of the loop on a running scheduler whose popped task is `back`,
by the validity of `back` and the sign of `back.nextRunTime - now`. -/
theorem runIteration_popped (H : HeapAlgo) (s : TimerScheduler) (now : Int)
    (front : List RepeatFunc) (back : RepeatFunc) (hr : s.running_ = true)
    (hpop : H.pop_heap s.functions_ = front ++ [back]) :
    (back.isValid = false →
      s.runIteration H now = (.dropped back, { s with functions_ := front })) ∧
    (back.isValid = true → wrap64 (back.nextRunTime - now) < 0 →
      s.runIteration H now = (.invoked back, { s with
        functions_ := front
        currentFunction_ := some back.addr
        thread_ := .inCallback (s.advanced back now) })) ∧
    (back.isValid = true → 0 ≤ wrap64 (back.nextRunTime - now) →
      s.runIteration H now = (.sleep (wrap64 (back.nextRunTime - now)), { s with
        functions_ := H.push_heap (front ++ [back]) })) := by
  rcases runIteration_cases H s now with ⟨hr2, _⟩ | ⟨_, he, _⟩ | ⟨front2, back2, _, hpop2, h⟩
  · rw [hr] at hr2
    exact Bool.noConfusion hr2
  · exfalso
    have hp := (H.pop_heap_perm s.functions_).length_eq
    rw [hpop, he] at hp
    simp at hp
  · rw [hpop] at hpop2
    obtain ⟨h1, h2⟩ := pop_concat_inj _ _ _ _ hpop2
    subst h1
    subst h2
    rcases h with ⟨hv, h⟩ | ⟨hv, hd, h⟩ | ⟨hv, hd, h⟩
    · refine ⟨fun _ => h, fun hv2 => ?_, fun hv2 => ?_⟩
      · rw [hv] at hv2
        exact Bool.noConfusion hv2
      · rw [hv] at hv2
        exact Bool.noConfusion hv2
    · refine ⟨fun hv2 => ?_, fun _ _ => h, fun _ hd2 => ?_⟩
      · rw [hv] at hv2
        exact Bool.noConfusion hv2
      · omega
    · refine ⟨fun hv2 => ?_, fun _ hd2 => ?_, fun _ _ => h⟩
      · rw [hv] at hv2
        exact Bool.noConfusion hv2
      · omega

theorem popped_min (H : HeapAlgo) (l front : List RepeatFunc) (back : RepeatFunc)
    (hh : IsHeap l) (hpop : H.pop_heap l = front ++ [back]) :
    l.head? = some back ∧ (∀ f ∈ l, back.nextRunTime ≤ f.nextRunTime) ∧
    l.Perm (back :: front) := by
  have hb := H.pop_heap_back l
  rw [hpop, List.getLast?_concat] at hb
  refine ⟨hb.symm, IsHeap.head_le l hh back hb.symm, ?_⟩
  have hp := H.pop_heap_perm l
  rw [hpop] at hp
  exact hp.symm.trans (List.perm_append_comm.trans (List.Perm.refl _))

end TimerScheduler

namespace World

/-- The step of the execution for a pass of the loop at the loop head. -/
theorem step_loop_popped (H : HeapAlgo) (w : World) (ht : w.sched.thread_ = .atLoop)
    (front : List RepeatFunc) (back : RepeatFunc) (hr : w.sched.running_ = true)
    (hpop : H.pop_heap w.sched.functions_ = front ++ [back]) :
    (back.isValid = false →
      w.step H .loop = { w with sched := { w.sched with functions_ := front } }) ∧
    (back.isValid = true → wrap64 (back.nextRunTime - w.clock) < 0 →
      w.step H .loop = { w with
        sched := { w.sched with
          functions_ := front
          currentFunction_ := some back.addr
          thread_ := .inCallback (w.sched.advanced back w.clock) }
        calls := w.callOf back :: w.calls }) ∧
    (back.isValid = true → 0 ≤ wrap64 (back.nextRunTime - w.clock) →
      w.step H .loop = { w with
        sched := { w.sched with functions_ := H.push_heap (front ++ [back]) } }) := by
  obtain ⟨h1, h2, h3⟩ := TimerScheduler.runIteration_popped H w.sched w.clock front back hr hpop
  refine ⟨fun hv => ?_, fun hv hd => ?_, fun hv hd => ?_⟩
  · simp only [step, ht, h1 hv]
  · simp only [step, ht, h2 hv hd, callOf]
  · simp only [step, ht, h3 hv hd]

end World

namespace TimerScheduler

theorem advanced_nextRunTime (s : TimerScheduler) (back : RepeatFunc) (now : Int) :
    (s.advanced back now).nextRunTime =
      if s.steady_ then wrap64 (back.nextRunTime + nanoseconds back.interval)
      else wrap64 (now + nanoseconds back.interval) := by
  unfold advanced
  split_ifs <;> rfl

theorem resume_mem (H : HeapAlgo) (s : TimerScheduler) (hwf : WF s) (F : RepeatFunc)
    (ht : s.thread_ = .inCallback F) (hc : s.currentFunction_ ≠ none)
    (hper : F.runOnce = false) (f : RepeatFunc) :
    f ∈ (s.runOneFunctionResume H).functions_ ↔ f ∈ s.functions_ ∨ f = F := by
  rcases resume_cases H s hwf F ht with ⟨h, _⟩ | ⟨_, h, _⟩ | ⟨_, _, h⟩
  · exact absurd h hc
  · rw [hper] at h
    exact Bool.noConfusion h
  · rw [h]
    show f ∈ (if s.running_ then H.push_heap (s.functions_ ++ [F]) else s.functions_ ++ [F]) ↔ _
    split_ifs
    · rw [(H.push_heap_perm _).mem_iff]
      simp
    · simp

end TimerScheduler

namespace TimerScheduler

theorem resume_steady (H : HeapAlgo) (s : TimerScheduler) (hwf : WF s) :
    (s.runOneFunctionResume H).steady_ = s.steady_ := by
  by_cases ht : ∃ F, s.thread_ = .inCallback F
  · obtain ⟨F, ht⟩ := ht
    rcases resume_cases H s hwf F ht with ⟨_, h⟩ | ⟨_, _, h⟩ | ⟨_, _, h⟩ <;> rw [h]
  · rw [resume_idle H s (fun F hF => ht ⟨F, hF⟩)]

end TimerScheduler

namespace World

theorem step_steady (H : HeapAlgo) (w : World) (e : Event) (hinv : Inv w)
    (he : e ≠ .setSteady false) (hs : w.sched.steady_ = true) :
    (w.step H e).sched.steady_ = true := by
  cases e with
  | tick d => exact hs
  | start =>
    rcases step_start H w with h | ⟨_, _, h⟩ <;> rw [h] <;> exact hs
  | shutdown =>
    show w.sched.shutdown.2.steady_ = true
    by_cases hrun : w.sched.running_ = true
    · rw [TimerScheduler.shutdown_running _ hrun]
      exact hs
    · have hrun2 : w.sched.running_ = false := by simpa using hrun
      rw [TimerScheduler.shutdown_stopped _ hrun2]
      exact hs
  | join => rcases step_join H w with h | ⟨_, h⟩ <;> rw [h] <;> exact hs
  | setSteady b =>
    cases b with
    | false => exact absurd rfl he
    | true => rfl
  | addFunction cb interval nameID startDelay =>
    rcases step_add H w _ cb interval nameID startDelay false (Or.inl ⟨rfl, rfl⟩) with
      h | ⟨g, l, _, _, _, _, _, _, _, _, _, _, _, _, _, _, h⟩ <;> rw [h] <;> exact hs
  | addFunctionOnce cb nameID startDelay =>
    rcases step_add H w _ cb 0 nameID startDelay true (Or.inr ⟨rfl, rfl, rfl⟩) with
      h | ⟨g, l, _, _, _, _, _, _, _, _, _, _, _, _, _, _, h⟩ <;> rw [h] <;> exact hs
  | cancelFunction n =>
    exact (TimerScheduler.cancel_thread_kind w.sched n).2.2.trans hs
  | cancelFunctionAndWait n =>
    exact (TimerScheduler.cancel_thread_kind w.sched n).2.2.trans hs
  | loop =>
    by_cases ht : w.sched.thread_ = .atLoop
    · rw [step_loop_sched H w ht, (TimerScheduler.runIteration_running H _ _).2]
      exact hs
    · rw [step_loop_idle H w ht]
      exact hs
  | callbackEnds =>
    show (w.sched.runOneFunctionResume H).steady_ = true
    rw [TimerScheduler.resume_steady H _ hinv.wf]
    exact hs

/-- Only `setSteady` changes the policy. -/
theorem step_steady_keep (H : HeapAlgo) (w : World) (e : Event) (hinv : Inv w)
    (he : ∀ b, e ≠ .setSteady b) : (w.step H e).sched.steady_ = w.sched.steady_ := by
  cases e with
  | tick d => rfl
  | start =>
    rcases step_start H w with h | ⟨_, _, h⟩ <;> rw [h]
  | shutdown =>
    show w.sched.shutdown.2.steady_ = _
    by_cases hrun : w.sched.running_ = true
    · rw [TimerScheduler.shutdown_running _ hrun]
    · have hrun2 : w.sched.running_ = false := by simpa using hrun
      rw [TimerScheduler.shutdown_stopped _ hrun2]
  | join => rcases step_join H w with h | ⟨_, h⟩ <;> rw [h]
  | setSteady b => exact absurd rfl (he b)
  | addFunction cb interval nameID startDelay =>
    rcases step_add H w _ cb interval nameID startDelay false (Or.inl ⟨rfl, rfl⟩) with
      h | ⟨g, l, _, _, _, _, _, _, _, _, _, _, _, _, _, _, h⟩
    · rw [h]
    · rw [h]; rfl
  | addFunctionOnce cb nameID startDelay =>
    rcases step_add H w _ cb 0 nameID startDelay true (Or.inr ⟨rfl, rfl, rfl⟩) with
      h | ⟨g, l, _, _, _, _, _, _, _, _, _, _, _, _, _, _, h⟩
    · rw [h]
    · rw [h]; rfl
  | cancelFunction n =>
    exact (TimerScheduler.cancel_thread_kind w.sched n).2.2
  | cancelFunctionAndWait n =>
    exact (TimerScheduler.cancel_thread_kind w.sched n).2.2
  | loop =>
    by_cases ht : w.sched.thread_ = .atLoop
    · rw [step_loop_sched H w ht, (TimerScheduler.runIteration_running H _ _).2]
    · rw [step_loop_idle H w ht]
  | callbackEnds =>
    show (w.sched.runOneFunctionResume H).steady_ = _
    rw [TimerScheduler.resume_steady H _ hinv.wf]

theorem exec_steady_keep (H : HeapAlgo) (w : World) (es : List Event) (hinv : Inv w)
    (hes : ∀ e ∈ es, ∀ b, e ≠ .setSteady b) :
    (w.exec H es).sched.steady_ = w.sched.steady_ := by
  induction es generalizing w with
  | nil => rfl
  | cons e es ih =>
    rw [exec_cons, ih (w.step H e) (inv_step H w e hinv)
      (fun e2 he2 => hes e2 (List.mem_cons_of_mem _ he2))]
    exact step_steady_keep H w e hinv (hes e (List.mem_cons_self _ _))

theorem steadyPaced_step (H : HeapAlgo) (w : World) (e : Event) (hinv : Inv w)
    (a : Nat) (t0 D T : Int) (old : List Call) (h : SteadyPaced a t0 D T old w)
    (he : e ≠ .setSteady false) (hstart : e = .start → w.sched.running_ = true) :
    SteadyPaced a t0 D T old (w.step H e) := by
  obtain ⟨hs, hlt, new, hnew, hobj⟩ := h
  refine ⟨step_steady H w e hinv he hs, lt_of_lt_of_le hlt (step_nextAddr H w e), ?_⟩
  rcases step_calls H w e with hc | ⟨rfl, hthr, _, front, back, hpop, hb, _, hd, hc, hthr2, hfr⟩
  · refine ⟨new, by rw [hc, hnew], ?_⟩
    intro f2 hf2 ha
    rcases step_objects_time H w e hinv f2 hf2 with ⟨f1, hf1, hsame, htime⟩ | ⟨hna, _⟩
    · obtain ⟨hi, hdl, hn⟩ := hobj f1 hf1 (hsame.1 ▸ ha)
      rcases htime with htime | ⟨he2, hr1, _⟩ | ⟨rfl, _, _, _, hthr3⟩
      · exact ⟨hsame.2.2.2.1.trans hi, hsame.2.2.1.trans hdl, by rw [htime]; exact hn⟩
      · rw [hstart he2] at hr1
        exact Bool.noConfusion hr1
      · -- a pass that invoked the task would have changed the history
        by_cases ht : w.sched.thread_ = .atLoop
        · exfalso
          rcases step_loop H w ht with ⟨_, hno⟩ | ⟨_, back, _, _, _, _, h2⟩
          · rw [step_loop_sched H w ht] at hthr3
            exact hno f2 hthr3
          · have hlen := congrArg List.length hc
            rw [h2] at hlen
            simp at hlen
        · have hf2w : f2 ∈ w.sched.objects := by
            rw [step_loop_idle H w ht] at hf2
            exact hf2
          exact hobj f2 hf2w ha
    · omega
  · have hnd : ((front ++ [back]).map (fun f => f.addr)).Nodup := by
      have hperm : (front ++ [back]).Perm w.sched.functions_ := hpop ▸ H.pop_heap_perm _
      refine ((hperm.map _).nodup_iff).mpr ?_
      have := hinv.wf.nodup
      simp only [TimerScheduler.objects, List.map_append] at this
      exact (List.nodup_append.mp this).1
    have hfront : ∀ f ∈ front, f ∈ w.sched.functions_ ∧ f.addr ≠ back.addr := by
      intro f hf
      have hperm : (front ++ [back]).Perm w.sched.functions_ := hpop ▸ H.pop_heap_perm _
      refine ⟨hperm.mem_iff.mp (List.mem_append_left _ hf), ?_⟩
      rw [List.map_append, List.nodup_append] at hnd
      intro heq
      exact hnd.2.2 (List.mem_map_of_mem _ hf) (by simp [heq])
    have hbo := w.sched.mem_objects_of_mem back hb
    refine ⟨w.callOf back :: new, by rw [hc, hnew]; rfl, ?_⟩
    intro f2 hf2 ha
    have hf2' : f2 ∈ (w.step H .loop).sched.functions_ ++
        (w.step H .loop).sched.thread_.locals := hf2
    rw [hfr, hthr2] at hf2'
    rcases List.mem_append.mp hf2' with h3 | h3
    · obtain ⟨h4, h5⟩ := hfront f2 h3
      have hba : ¬ back.addr = a := fun h6 => h5 (ha.trans h6.symm)
      have hcnt : invocations a (w.callOf back :: new) = invocations a new := by
        simp [invocations, callOf, hba]
      rw [hcnt]
      exact hobj f2 (w.sched.mem_objects_of_mem f2 h4) ha
    · have h4 : f2 = w.sched.advanced back w.clock := by
        simpa [SchedThread.locals] using h3
      subst h4
      have hba : back.addr = a := by rw [← ha, TimerScheduler.advanced_addr]
      obtain ⟨hi, hdl, hn⟩ := hobj back hbo hba
      have hcnt : invocations a (w.callOf back :: new) = invocations a new + 1 := by
        simp [invocations, callOf, hba]
      rw [hcnt, TimerScheduler.advanced_interval, TimerScheduler.advanced_startDelay,
        TimerScheduler.advanced_nextRunTime, if_pos hs, hn, hi]
      refine ⟨rfl, hdl, ?_⟩
      push_cast
      have h5 : t0 + D * 1000 + ((invocations a new : Int) + 1) * (T * 1000) =
          t0 + D * 1000 + (invocations a new : Int) * (T * 1000) + T * 1000 := by ring
      rw [h5]
      exact wrap64_step _ _

/-- The invariant along events none of which switches the policy off, when
none is a `start()`. -/
theorem steadyPaced_exec (H : HeapAlgo) (w : World) (es : List Event) (hinv : Inv w)
    (a : Nat) (t0 D T : Int) (old : List Call) (h : SteadyPaced a t0 D T old w)
    (hes : ∀ e ∈ es, e ≠ .setSteady false) (hno : ∀ e ∈ es, e ≠ .start) :
    SteadyPaced a t0 D T old (w.exec H es) := by
  induction es generalizing w with
  | nil => exact h
  | cons e es ih =>
    exact ih (w.step H e) (inv_step H w e hinv)
      (steadyPaced_step H w e hinv a t0 D T old h (hes e (List.mem_cons_self _ _))
        (fun he => absurd he (hno e (List.mem_cons_self _ _))))
      (fun e2 he2 => hes e2 (List.mem_cons_of_mem _ he2))
      (fun e2 he2 => hno e2 (List.mem_cons_of_mem _ he2))

/-- The invariant along events none of which switches the policy off, when the
scheduler runs and none is a `shutdown()`. -/
theorem steadyPaced_exec_running (H : HeapAlgo) (w : World) (es : List Event) (hinv : Inv w)
    (a : Nat) (t0 D T : Int) (old : List Call) (h : SteadyPaced a t0 D T old w)
    (hr : w.sched.running_ = true)
    (hes : ∀ e ∈ es, e ≠ .setSteady false) (hno : ∀ e ∈ es, e ≠ .shutdown) :
    SteadyPaced a t0 D T old (w.exec H es) := by
  induction es generalizing w with
  | nil => exact h
  | cons e es ih =>
    exact ih (w.step H e) (inv_step H w e hinv)
      (steadyPaced_step H w e hinv a t0 D T old h (hes e (List.mem_cons_self _ _))
        (fun _ => hr))
      (step_stays_running H w e hinv (hno e (List.mem_cons_self _ _)) hr)
      (fun e2 he2 => hes e2 (List.mem_cons_of_mem _ he2))
      (fun e2 he2 => hno e2 (List.mem_cons_of_mem _ he2))

/-- An activation establishes the invariant, leaves the scheduler running and
the task registered under its name. -/
theorem steadyPaced_of_activation (H : HeapAlgo) (w : World) (hinv : Inv w) (e : Event)
    (a : Nat) (n : String) (T D : Int) (hs : w.sched.steady_ = true)
    (hact : activates H w e a n T D) :
    SteadyPaced a w.clock D T w.calls (w.step H e) ∧
    (w.step H e).sched.running_ = true ∧
    (w.step H e).sched.functionsMap_.find n = some a := by
  rcases hact with ⟨rfl, hstop, hthr, f, hf, rfl, rfl, hv, rfl, rfl⟩ |
    ⟨cb, rfl, hrun, rfl, hok⟩
  · rcases step_start H w with h | ⟨_, _, h⟩
    · exfalso
      have h1 : (w.step H .start).sched.running_ = true := by
        simp only [step, TimerScheduler.start_stopped H w.sched w.clock hstop hthr]
      rw [h, hstop] at h1
      exact Bool.noConfusion h1
    · rw [h]
      refine ⟨⟨hs, hinv.addr_lt f (w.sched.mem_objects_of_mem f hf), [], rfl, ?_⟩, rfl,
        hinv.wf.map_complete f hf hv⟩
      intro f2 hf2 ha
      have hf2' : f2 ∈ H.make_heap (w.sched.functions_.map
          (fun f => f.resetNextRunTime w.clock)) := by
        simpa [TimerScheduler.objects, SchedThread.locals] using hf2
      obtain ⟨f1, hf1, rfl⟩ := List.mem_map.mp ((H.make_heap_perm _).mem_iff.mp hf2')
      have heq : f1 = f :=
        TimerScheduler.eq_of_addr_eq w.sched.objects hinv.wf.nodup f1 f
          (w.sched.mem_objects_of_mem f1 hf1) (w.sched.mem_objects_of_mem f hf) ha
      subst heq
      refine ⟨rfl, rfl, ?_⟩
      show wrap64 (w.clock + nanoseconds f1.startDelay) =
        wrap64 (w.clock + f1.startDelay * 1000 +
          ((invocations f1.addr [] : Nat) : Int) * (f1.interval * 1000))
      simp only [invocations, List.countP_nil, Nat.cast_zero, zero_mul, add_zero]
      exact wrap64_add_wrap64 _ _
  · have hne := step_addFunction_ne H w cb T n D hok
    have hheld := held_of_added H w _ cb T n D false (Or.inl ⟨rfl, rfl⟩) hne
    rcases step_add H w _ cb T n D false (Or.inl ⟨rfl, rfl⟩) with
      h | ⟨g, l, hga, _, _, _, hgd, _, hgi, _, _, hgt, hl, _, _, _, h⟩
    · exact absurd h hne
    · refine ⟨?_, ?_, hheld⟩
      · rw [h]
        refine ⟨hs, Nat.lt_succ_self _, [], rfl, ?_⟩
        intro f2 hf2 ha
        have hf2' : f2 ∈ l ++ w.sched.thread_.locals := hf2
        have hold : ∀ f ∈ w.sched.objects, f.addr ≠ w.nextAddr := by
          intro f hf heq
          have := hinv.addr_lt f hf
          omega
        rcases List.mem_append.mp hf2' with h3 | h3
        · rcases List.mem_append.mp (hl.mem_iff.mp h3) with h4 | h4
          · exact absurd ha (hold f2 (w.sched.mem_objects_of_mem f2 h4))
          · have : f2 = g := by simpa using h4
            subst this
            refine ⟨hgi, hgd, ?_⟩
            rw [hgt, if_pos hrun]
            simp only [invocations, List.countP_nil, Nat.cast_zero, zero_mul, add_zero]
            exact wrap64_add_wrap64 _ _
        · exact absurd ha (hold f2 (List.mem_append_right _ h3))
      · rw [h]
        exact hrun

end World

theorem vecGet_eq (v : List Int) (k : Int) (h0 : 0 ≤ k) (h1 : k < v.length) :
    vecGet v k = some (valAt v k) := by
  unfold vecGet valAt
  have h2 : k.toNat < v.length := by omega
  rw [if_pos h0, List.getD_eq_getElem?_getD, List.getElem?_eq_getElem h2]
  rfl

theorem vecSet_eq (v : List Int) (k x : Int) (h0 : 0 ≤ k) (h1 : k < v.length) :
    vecSet v k x = some (v.set k.toNat x) := by
  unfold vecSet
  rw [if_pos ⟨h0, h1⟩]

theorem valAt_set (v : List Int) (k k2 x : Int) (h0 : 0 ≤ k) (h2 : 0 ≤ k2)
    (h1 : k < v.length) :
    valAt (v.set k.toNat x) k2 = if k2 = k then x else valAt v k2 := by
  unfold valAt
  rw [List.getD_eq_getElem?_getD, List.getElem?_set, List.getD_eq_getElem?_getD]
  have h3 : k.toNat < v.length := by omega
  by_cases hk : k2 = k
  · subst hk
    simp [h3]
  · have : ¬ k.toNat = k2.toNat := by omega
    rw [if_neg this, if_neg hk]

theorem set_valAt_self (v : List Int) (k : Int) (h0 : 0 ≤ k) (h1 : k < v.length) :
    v.set k.toNat (valAt v k) = v := by
  apply List.ext_getElem?
  intro n
  rw [List.getElem?_set]
  have h3 : k.toNat < v.length := by omega
  by_cases hn : k.toNat = n
  · subst hn
    rw [if_pos rfl, if_pos h3]
    unfold valAt
    rw [List.getD_eq_getElem?_getD, List.getElem?_eq_getElem h3]
    rfl
  · rw [if_neg hn]

theorem perm_cons_set (xs : List Int) (j : Nat) (a b : Int) (h : j < xs.length) :
    (a :: xs.set j b).Perm (b :: xs.set j a) := by
  induction xs generalizing j with
  | nil => simp at h
  | cons y ys ih =>
    cases j with
    | zero => exact List.Perm.swap _ _ _
    | succ k =>
      have hk : k < ys.length := by simpa using h
      have h1 : (a :: y :: ys.set k b).Perm (y :: a :: ys.set k b) := List.Perm.swap _ _ _
      have h2 : (y :: a :: ys.set k b).Perm (y :: b :: ys.set k a) := (ih k hk).cons y
      have h3 : (y :: b :: ys.set k a).Perm (b :: y :: ys.set k a) := List.Perm.swap _ _ _
      exact h1.trans (h2.trans h3)

theorem perm_set_set (l : List Int) (i j : Nat) (a b : Int) (hi : i < l.length)
    (hj : j < l.length) (hne : i ≠ j) :
    ((l.set i a).set j b).Perm ((l.set i b).set j a) := by
  induction l generalizing i j with
  | nil => simp at hi
  | cons x xs ih =>
    cases i with
    | zero =>
      cases j with
      | zero => exact absurd rfl hne
      | succ j2 => exact perm_cons_set xs j2 a b (by simpa using hj)
    | succ i2 =>
      cases j with
      | zero => exact perm_cons_set xs i2 b a (by simpa using hi)
      | succ j2 =>
        exact (ih i2 j2 (by simpa using hi) (by simpa using hj) (by omega)).cons x

/-- Moving the hole: the vector with the element at `b` copied to `a` and `p`
put at `b` is a rearrangement of the vector with `p` put at `a`. -/
theorem hole_move (v : List Int) (a b p : Int) (ha0 : 0 ≤ a) (ha : a < v.length)
    (hb0 : 0 ≤ b) (hb : b < v.length) :
    ((v.set a.toNat (valAt v b)).set b.toNat p).Perm (v.set a.toNat p) := by
  by_cases hab : a = b
  · subst hab
    rw [List.set_set]
  · have h1 := perm_set_set v a.toNat b.toNat (valAt v b) p (by omega) (by omega) (by omega)
    have h2 : (v.set a.toNat p).set b.toNat (valAt v b) = v.set a.toNat p := by
      have h3 : valAt (v.set a.toNat p) b = valAt v b := by
        rw [valAt_set v a b p ha0 hb0 ha, if_neg (fun h => hab h.symm)]
      rw [← h3]
      exact set_valAt_self _ b hb0 (by rw [List.length_set]; exact hb)
    rw [h2] at h1
    exact h1

theorem scanDown_spec (v : List Int) (pivot i : Int) (hi0 : 0 ≤ i) :
    ∀ (fuel : Nat) (j : Int), i ≤ j → j < v.length → (j - i).toNat < fuel →
      ∃ j1, scanDown v pivot i fuel j = some j1 ∧ i ≤ j1 ∧ j1 ≤ j ∧
        (∀ k, j1 < k → k ≤ j → pivot ≤ valAt v k) ∧ (i < j1 → valAt v j1 < pivot) := by
  intro fuel
  induction fuel with
  | zero =>
    intro j _ _ hf
    omega
  | succ fuel ih =>
    intro j hij hj hf
    simp only [scanDown]
    by_cases hlt : i < j
    · rw [if_pos hlt, vecGet_eq v j (by omega) hj]
      dsimp only
      by_cases hge : valAt v j ≥ pivot
      · rw [if_pos hge]
        obtain ⟨j1, h1, h2, h3, h4, h5⟩ := ih (j - 1) (by omega) (by omega) (by omega)
        refine ⟨j1, h1, h2, by omega, ?_, h5⟩
        intro k hk1 hk2
        by_cases hkj : k = j
        · subst hkj
          exact hge
        · exact h4 k hk1 (by omega)
      · rw [if_neg hge]
        exact ⟨j, rfl, hij, le_refl _, fun k hk1 hk2 => by omega, fun _ => by omega⟩
    · rw [if_neg hlt]
      exact ⟨j, rfl, hij, le_refl _, fun k hk1 hk2 => by omega, fun h => absurd h hlt⟩

theorem scanUp_spec (v : List Int) (pivot j : Int) (hj : j < v.length) :
    ∀ (fuel : Nat) (i : Int), 0 ≤ i → i ≤ j → (j - i).toNat < fuel →
      ∃ i1, scanUp v pivot j fuel i = some i1 ∧ i ≤ i1 ∧ i1 ≤ j ∧
        (∀ k, i ≤ k → k < i1 → valAt v k ≤ pivot) ∧ (i1 < j → pivot < valAt v i1) := by
  intro fuel
  induction fuel with
  | zero =>
    intro i _ _ hf
    omega
  | succ fuel ih =>
    intro i hi0 hij hf
    simp only [scanUp]
    by_cases hlt : i < j
    · rw [if_pos hlt, vecGet_eq v i hi0 (by omega)]
      dsimp only
      by_cases hle : valAt v i ≤ pivot
      · rw [if_pos hle]
        obtain ⟨i1, h1, h2, h3, h4, h5⟩ := ih (i + 1) (by omega) (by omega) (by omega)
        refine ⟨i1, h1, by omega, h3, ?_, h5⟩
        intro k hk1 hk2
        by_cases hki : k = i
        · subst hki
          exact hle
        · exact h4 k (by omega) hk2
      · rw [if_neg hle]
        exact ⟨i, rfl, le_refl _, hij, fun k hk1 hk2 => by omega, fun _ => by omega⟩
    · rw [if_neg hlt]
      exact ⟨i, rfl, le_refl _, hij, fun k hk1 hk2 => by omega, fun h => absurd h hlt⟩

theorem partitionLoop_spec (v0 : List Int) (l r pivot : Int) (hl : 0 ≤ l)
    (hr : r < v0.length) :
    ∀ (fuel : Nat) (v : List Int) (i j : Int), PartInv v0 l r pivot v i j →
      (j - i).toNat < fuel →
      ∃ v1 i1, partitionLoop pivot fuel v i j = some (v1, i1) ∧
        PartInv v0 l r pivot v1 i1 i1 := by
  intro fuel
  induction fuel with
  | zero =>
    intro v i j _ hf
    omega
  | succ fuel ih =>
    intro v i j hinv hf
    have hlen := hinv.len
    have hlo := hinv.lo
    have hmid := hinv.mid
    have hhi := hinv.hi
    simp only [partitionLoop]
    by_cases hlt : i < j
    · rw [if_pos hlt]
      obtain ⟨j1, hd1, hd2, hd3, hd4, hd5⟩ :=
        scanDown_spec v pivot i (by omega) (fuel + 1) j hmid (by omega) hf
      rw [hd1]
      dsimp only
      rw [vecGet_eq v j1 (by omega) (by omega)]
      dsimp only
      rw [vecSet_eq v i _ (by omega) (by omega)]
      dsimp only
      have hlen1 : (v.set i.toNat (valAt v j1)).length = v.length := List.length_set _ _ _
      have hv1 : ∀ k, 0 ≤ k → valAt (v.set i.toNat (valAt v j1)) k =
          if k = i then valAt v j1 else valAt v k :=
        fun k hk => valAt_set v i k _ (by omega) hk (by omega)
      obtain ⟨i1, hu1, hu2, hu3, hu4, hu5⟩ :=
        scanUp_spec (v.set i.toNat (valAt v j1)) pivot j1 (by omega) (fuel + 1) i
          (by omega) hd2 (by omega)
      rw [hu1]
      dsimp only
      rw [vecGet_eq _ i1 (by omega) (by omega)]
      dsimp only
      rw [vecSet_eq _ j1 _ (by omega) (by omega)]
      dsimp only
      have hv2 : ∀ k, 0 ≤ k →
          valAt ((v.set i.toNat (valAt v j1)).set j1.toNat
            (valAt (v.set i.toNat (valAt v j1)) i1)) k =
          if k = j1 then valAt (v.set i.toNat (valAt v j1)) i1
          else valAt (v.set i.toNat (valAt v j1)) k :=
        fun k hk => valAt_set _ j1 k _ (by omega) hk (by omega)
      have hprog : ¬ (j1 = j ∧ i1 = i) := by
        rintro ⟨h1, h2⟩
        subst h1
        subst h2
        have h3 := hd5 hlt
        have h4 := hu5 hlt
        rw [hv1 i1 (by omega), if_pos rfl] at h4
        omega
      have horig1 : ∀ k, l ≤ k → k ≤ r →
          ∃ k2, l ≤ k2 ∧ k2 ≤ r ∧ valAt (v.set i.toNat (valAt v j1)) k = valAt v0 k2 := by
        intro k hk1 hk2
        rw [hv1 k (by omega)]
        by_cases hki : k = i
        · rw [if_pos hki]
          exact hinv.origin j1 (by omega) (by omega)
        · rw [if_neg hki]
          exact hinv.origin k hk1 hk2
      apply ih _ i1 j1 _ (by omega)
      refine ⟨by rw [List.length_set, hlen1, hlen], by omega, hu3, by omega, ?_, ?_, ?_, ?_, ?_⟩
      · have p1 := hole_move (v.set i.toNat (valAt v j1)) j1 i1 pivot (by omega) (by omega)
          (by omega) (by omega)
        have p2 := hole_move v i j1 pivot (by omega) (by omega) (by omega) (by omega)
        exact p1.trans (p2.trans hinv.perm)
      · intro k hk1 hk2
        rw [hv2 k (by omega), if_neg (by omega)]
        by_cases hki : k < i
        · rw [hv1 k (by omega), if_neg (by omega)]
          exact hinv.left k hk1 hki
        · exact hu4 k (by omega) hk2
      · intro k hk1 hk2
        rw [hv2 k (by omega), if_neg (by omega), hv1 k (by omega), if_neg (by omega)]
        by_cases hkj : k ≤ j
        · exact hd4 k hk1 hkj
        · exact hinv.right k (by omega) hk2
      · intro k hk0 hk
        rw [hv2 k hk0, if_neg (by omega), hv1 k hk0, if_neg (by omega)]
        exact hinv.outside k hk0 hk
      · intro k hk1 hk2
        rw [hv2 k (by omega)]
        by_cases hkj : k = j1
        · rw [if_pos hkj]
          exact horig1 i1 (by omega) (by omega)
        · rw [if_neg hkj]
          exact horig1 k hk1 hk2
    · rw [if_neg hlt]
      have hij : j = i := by omega
      subst hij
      exact ⟨v, j, rfl, hinv⟩

theorem intOf_eq (x n : Int) (h1 : -1 ≤ x) (h2 : x ≤ n) (hn : n ≤ INT_MAX) :
    intOf x = some x := by
  unfold intOf INT_MIN
  unfold INT_MAX at *
  rw [if_pos ⟨by omega, by omega⟩]

theorem sortedSeg_refl (v : List Int) (l r : Int) (h : l ≥ r) : SortedSeg v l r v := by
  refine ⟨rfl, List.Perm.refl _, fun _ _ _ => rfl, fun k h1 h2 => ⟨k, h1, h2, rfl⟩, ?_⟩
  intro a b h1 h2 h3
  have : a = b := by omega
  subst this
  exact le_refl _

theorem partInv_init (v : List Int) (l r : Int) (hl : 0 ≤ l) (hlr : l < r)
    (hr : r < v.length) : PartInv v l r (valAt v l) v l r := by
  refine ⟨rfl, le_refl _, by omega, le_refl _, ?_, fun k h1 h2 => by omega,
    fun k h1 h2 => by omega, fun _ _ _ => rfl, fun k h1 h2 => ⟨k, h1, h2, rfl⟩⟩
  rw [set_valAt_self v l hl (by omega)]

/-- The vector after the loop `while (i < j)` and the assignment
`v[i] = pivot`. -/
theorem partitioned (v0 : List Int) (l r pivot : Int) (hl : 0 ≤ l) (hr : r < v0.length)
    (hp : pivot = valAt v0 l) (hlr : l ≤ r)
    (v1 : List Int) (i : Int) (hinv : PartInv v0 l r pivot v1 i i) :
    (v1.set i.toNat pivot).length = v0.length ∧
    (v1.set i.toNat pivot).Perm v0 ∧
    valAt (v1.set i.toNat pivot) i = pivot ∧
    (∀ k, l ≤ k → k < i → valAt (v1.set i.toNat pivot) k ≤ pivot) ∧
    (∀ k, i < k → k ≤ r → pivot ≤ valAt (v1.set i.toNat pivot) k) ∧
    (∀ k, 0 ≤ k → (k < l ∨ r < k) → valAt (v1.set i.toNat pivot) k = valAt v0 k) ∧
    (∀ k, l ≤ k → k ≤ r →
      ∃ k2, l ≤ k2 ∧ k2 ≤ r ∧ valAt (v1.set i.toNat pivot) k = valAt v0 k2) := by
  have hlen := hinv.len
  have hlo := hinv.lo
  have hhi := hinv.hi
  have hv : ∀ k, 0 ≤ k → valAt (v1.set i.toNat pivot) k =
      if k = i then pivot else valAt v1 k :=
    fun k hk => valAt_set v1 i k pivot (by omega) hk (by omega)
  refine ⟨by rw [List.length_set, hlen], hinv.perm, ?_, ?_, ?_, ?_, ?_⟩
  · rw [hv i (by omega), if_pos rfl]
  · intro k h1 h2
    rw [hv k (by omega), if_neg (by omega)]
    exact hinv.left k h1 h2
  · intro k h1 h2
    rw [hv k (by omega), if_neg (by omega)]
    exact hinv.right k h1 h2
  · intro k h0 h1
    rw [hv k h0, if_neg (by omega)]
    exact hinv.outside k h0 h1
  · intro k h1 h2
    rw [hv k (by omega)]
    by_cases hk : k = i
    · rw [if_pos hk]
      exact ⟨l, le_refl _, hlr, hp⟩
    · rw [if_neg hk]
      exact hinv.origin k h1 h2

/-- Two sorted parts around the pivot make a sorted segment. -/
theorem sortedSeg_join (v0 v2 v3 v4 : List Int) (l r i pivot : Int) (hl : 0 ≤ l)
    (hli : l ≤ i) (hir : i ≤ r)
    (hlen : v2.length = v0.length) (hperm : v2.Perm v0)
    (hat : valAt v2 i = pivot)
    (hleft : ∀ k, l ≤ k → k < i → valAt v2 k ≤ pivot)
    (hright : ∀ k, i < k → k ≤ r → pivot ≤ valAt v2 k)
    (hout : ∀ k, 0 ≤ k → (k < l ∨ r < k) → valAt v2 k = valAt v0 k)
    (horig : ∀ k, l ≤ k → k ≤ r → ∃ k2, l ≤ k2 ∧ k2 ≤ r ∧ valAt v2 k = valAt v0 k2)
    (h3 : SortedSeg v2 l (i - 1) v3) (h4 : SortedSeg v3 (i + 1) r v4) :
    SortedSeg v0 l r v4 := by
  have e43 : ∀ k, 0 ≤ k → k ≤ i → valAt v4 k = valAt v3 k :=
    fun k h0 hk => h4.outside k h0 (Or.inl (by omega))
  have e32 : ∀ k, i ≤ k → valAt v3 k = valAt v2 k :=
    fun k hk => h3.outside k (by omega) (Or.inr (by omega))
  have hle : ∀ k, l ≤ k → k ≤ i → valAt v4 k ≤ pivot := by
    intro k h1 h2
    rw [e43 k (by omega) h2]
    by_cases hk : k = i
    · subst hk
      rw [e32 k (le_refl _), hat]
    · obtain ⟨k2, a1, a2, a3⟩ := h3.origin k h1 (by omega)
      rw [a3]
      exact hleft k2 a1 (by omega)
  have hge : ∀ k, i ≤ k → k ≤ r → pivot ≤ valAt v4 k := by
    intro k h1 h2
    by_cases hk : k = i
    · subst hk
      rw [e43 k (by omega) (le_refl _), e32 k (le_refl _), hat]
    · obtain ⟨k2, a1, a2, a3⟩ := h4.origin k (by omega) h2
      rw [a3, e32 k2 (by omega)]
      exact hright k2 (by omega) a2
  refine ⟨by rw [h4.len, h3.len, hlen], h4.perm.trans (h3.perm.trans hperm), ?_, ?_, ?_⟩
  · intro k h0 hk
    rw [h4.outside k h0 (by omega), h3.outside k h0 (by omega)]
    exact hout k h0 hk
  · intro k h1 h2
    by_cases hk : k ≤ i
    · rw [e43 k (by omega) hk]
      by_cases hki : k = i
      · subst hki
        rw [e32 k (le_refl _)]
        exact horig k h1 h2
      · obtain ⟨k2, a1, a2, a3⟩ := h3.origin k h1 (by omega)
        rw [a3]
        exact horig k2 a1 (by omega)
    · obtain ⟨k2, a1, a2, a3⟩ := h4.origin k (by omega) h2
      rw [a3, e32 k2 (by omega)]
      exact horig k2 (by omega) a2
  · intro a b h1 h2 h5
    by_cases hb : b < i
    · rw [e43 a (by omega) (by omega), e43 b (by omega) (by omega)]
      exact h3.sorted a b h1 h2 (by omega)
    · by_cases ha : i < a
      · exact h4.sorted a b (by omega) h2 h5
      · exact le_trans (hle a h1 (by omega)) (hge b (by omega) h5)

theorem quickSort_spec :
    ∀ (fuel : Nat) (v : List Int) (l r : Int), 0 ≤ l → r < v.length →
      (v.length : Int) ≤ INT_MAX → (r - l + 1).toNat < fuel →
      ∃ v2, quickSort fuel v l r = some v2 ∧ SortedSeg v l r v2 := by
  intro fuel
  induction fuel with
  | zero =>
    intro v l r _ _ _ hf
    omega
  | succ fuel ih =>
    intro v l r hl hr hn hf
    simp only [quickSort]
    by_cases hge : l ≥ r
    · rw [if_pos hge]
      exact ⟨v, rfl, sortedSeg_refl v l r hge⟩
    · rw [if_neg hge, vecGet_eq v l hl (by omega)]
      dsimp only
      obtain ⟨v1, i, hp, hinv⟩ := partitionLoop_spec v l r (valAt v l) hl hr (fuel + 1) v l r
        (partInv_init v l r hl (by omega) hr) (by omega)
      rw [hp]
      dsimp only
      have hlo := hinv.lo
      have hhi := hinv.hi
      have hlen := hinv.len
      rw [vecSet_eq v1 i _ (by omega) (by omega)]
      dsimp only
      obtain ⟨p1, p2, p3, p4, p5, p6, p7⟩ :=
        partitioned v l r (valAt v l) hl hr rfl (by omega) v1 i hinv
      rw [intOf_eq (i - 1) v.length (by omega) (by omega) hn]
      dsimp only
      obtain ⟨v3, hq3, hs3⟩ := ih (v1.set i.toNat (valAt v l)) l (i - 1) hl (by omega)
        (by rw [p1]; exact hn) (by omega)
      rw [hq3]
      dsimp only
      rw [intOf_eq (i + 1) v.length (by omega) (by omega) hn]
      dsimp only
      obtain ⟨v4, hq4, hs4⟩ := ih v3 (i + 1) r (by omega) (by rw [hs3.len, p1]; exact hr)
        (by rw [hs3.len, p1]; exact hn) (by omega)
      exact ⟨v4, hq4, sortedSeg_join v _ v3 v4 l r i (valAt v l) hl hlo hhi p1 p2 p3 p4 p5
        p6 p7 hs3 hs4⟩

theorem sorted_of_valAt (v : List Int)
    (h : ∀ a b : Int, 0 ≤ a → a ≤ b → b ≤ (v.length : Int) - 1 → valAt v a ≤ valAt v b) :
    v.Sorted (· ≤ ·) := by
  unfold List.Sorted
  rw [List.pairwise_iff_getElem]
  intro i j hi hj hij
  have := h (i : Int) (j : Int) (by omega) (by omega) (by omega)
  unfold valAt at this
  simp only [Int.toNat_ofNat, List.getD_eq_getElem?_getD, List.getElem?_eq_getElem hi,
    List.getElem?_eq_getElem hj, Option.getD_some] at this
  exact this

theorem option_cases {α : Type} (o : Option α) : o = none ∨ ∃ x, o = some x := by
  cases o with
  | none => exact Or.inl rfl
  | some x => exact Or.inr ⟨x, rfl⟩

theorem valAt_cons_replicate (x : Int) (m : Nat) (k : Int) (h1 : 1 ≤ k) :
    valAt (x :: List.replicate m 0) k = 0 := by
  unfold valAt
  obtain ⟨n, hn⟩ : ∃ n : Nat, k.toNat = n + 1 := ⟨k.toNat - 1, by omega⟩
  rw [hn, List.getD_eq_getElem?_getD, List.getElem?_cons_succ, List.getElem?_replicate]
  split_ifs <;> rfl

/-- On a range whose elements are all at most the pivot, the upward scan runs
to its end. -/
theorem scanUp_all_le (v : List Int) (pivot j : Int) (hj : j < v.length) :
    ∀ (fuel : Nat) (i i1 : Int), 0 ≤ i → i ≤ j →
      (∀ k, i ≤ k → k < j → valAt v k ≤ pivot) →
      scanUp v pivot j fuel i = some i1 → i1 = j := by
  intro fuel
  induction fuel with
  | zero =>
    intro i i1 _ _ _ h
    exact Option.noConfusion h
  | succ fuel ih =>
    intro i i1 hi0 hij hall h
    simp only [scanUp] at h
    by_cases hlt : i < j
    · rw [if_pos hlt, vecGet_eq v i hi0 (by omega)] at h
      dsimp only at h
      rw [if_pos (hall i (le_refl _) hlt)] at h
      exact ih (i + 1) i1 (by omega) (by omega) (fun k h1 h2 => hall k (by omega) h2) h
    · rw [if_neg hlt] at h
      have := Option.some.inj h
      omega

theorem partitionLoop_done (pivot : Int) (fuel : Nat) (v v1 : List Int) (i i1 : Int)
    (h : partitionLoop pivot fuel v i i = some (v1, i1)) : i1 = i := by
  cases fuel with
  | zero => exact Option.noConfusion h
  | succ fuel =>
    simp only [partitionLoop] at h
    rw [if_neg (lt_irrefl i)] at h
    exact (Prod.mk.inj (Option.some.inj h)).2.symm

/-- With the largest element in front, the loop ends at the last index. -/
theorem partitionLoop_max_first (m : Nat) (hm : 1 ≤ m) (fuel : Nat) (v1 : List Int)
    (i : Int)
    (h : partitionLoop 1 fuel (1 :: List.replicate m 0) 0 m = some (v1, i)) : i = m := by
  cases fuel with
  | zero => exact Option.noConfusion h
  | succ fuel =>
    have hlen : ((1 :: List.replicate m 0 : List Int).length : Int) = m + 1 := by
      rw [List.length_cons, List.length_replicate]
      push_cast
      rfl
    have hlt : (0 : Int) < m := by omega
    have hdown : scanDown (1 :: List.replicate m 0) 1 0 (fuel + 1) m = some (m : Int) := by
      simp only [scanDown]
      rw [if_pos hlt, vecGet_eq _ (m : Int) (by omega) (by omega)]
      dsimp only
      rw [valAt_cons_replicate 1 m m (by omega)]
      rfl
    simp only [partitionLoop] at h
    rw [if_pos hlt, hdown] at h
    dsimp only at h
    rw [vecGet_eq _ (m : Int) (by omega) (by omega)] at h
    dsimp only at h
    rw [vecSet_eq _ 0 _ (le_refl _) (by omega), valAt_cons_replicate 1 m m (by omega)] at h
    dsimp only at h
    have hset : (1 :: List.replicate m (0 : Int)).set (0 : Int).toNat 0 =
        0 :: List.replicate m 0 := rfl
    rw [hset] at h
    have hlen1 : ((0 :: List.replicate m 0 : List Int).length : Int) = m + 1 := by
      rw [List.length_cons, List.length_replicate]
      push_cast
      rfl
    cases hup : scanUp (0 :: List.replicate m 0) 1 m (fuel + 1) 0 with
    | none =>
      rw [hup] at h
      exact Option.noConfusion h
    | some i1 =>
      rw [hup] at h
      dsimp only at h
      have hi1 : i1 = m := by
        refine scanUp_all_le _ 1 m (by omega) (fuel + 1) 0 i1 (le_refl _) (by omega) ?_ hup
        intro k hk1 hk2
        by_cases hk : k = 0
        · subst hk
          have h0 : valAt (0 :: List.replicate m 0) 0 = 0 := rfl
          rw [h0]
          decide
        · rw [valAt_cons_replicate 0 m k (by omega)]
          decide
      subst hi1
      rw [vecGet_eq _ (m : Int) (by omega) (by omega)] at h
      dsimp only at h
      rw [vecSet_eq _ (m : Int) _ (by omega) (by omega)] at h
      dsimp only at h
      exact partitionLoop_done _ _ _ _ _ _ h

/-- With the largest element in front of a vector whose last index is
`INT_MAX`, the expression `i + 1` overflows: no amount of fuel gives a
result. -/
theorem quickSort_max_first (m : Nat) (r : Int) (hr : r = m) (hm : 1 ≤ m)
    (hov : INT_MAX < r + 1) (fuel : Nat) :
    quickSort fuel (1 :: List.replicate m 0) 0 r = none := by
  cases fuel with
  | zero => rfl
  | succ fuel =>
    have hlen : ((1 :: List.replicate m 0 : List Int).length : Int) = m + 1 := by
      rw [List.length_cons, List.length_replicate]
      push_cast
      rfl
    simp only [quickSort]
    rw [if_neg (by omega), vecGet_eq _ 0 (le_refl _) (by omega)]
    dsimp only
    have hp : valAt (1 :: List.replicate m 0) 0 = 1 := rfl
    rw [hp]
    rcases option_cases (partitionLoop 1 (fuel + 1) (1 :: List.replicate m 0) 0 r) with
      hpl | ⟨⟨v1, i⟩, hpl⟩
    · rw [hpl]
    · have hi : i = r := by
        rw [hr] at hpl ⊢
        exact partitionLoop_max_first m hm (fuel + 1) v1 i hpl
      subst hi
      rw [hpl]
      dsimp only
      rcases option_cases (vecSet v1 i 1) with h2 | ⟨v2, h2⟩
      · rw [h2]
      · rw [h2]
        dsimp only
        rcases option_cases (intOf (i - 1)) with h3 | ⟨r1, h3⟩
        · rw [h3]
        · rw [h3]
          dsimp only
          rcases option_cases (quickSort fuel v2 0 r1) with h4 | ⟨v3, h4⟩
          · rw [h4]
          · rw [h4]
            dsimp only
            have hnone : intOf (i + 1) = none := by
              unfold intOf
              rw [if_neg (by omega)]
            rw [hnone]

/-! ## Properties of the specification -/

/-- C1: `addFunction` throws `std::invalid_argument` exactly when the callback
is empty, or the interval is negative, or the start delay is negative, or the
map holds a valid task under the name, or the current function has the name.
In every other case it returns normally and the scheduler holds a task with
that name, callback, interval, start delay and `runOnce = false`, registered
in the map under the name. -/
theorem addFunction_contract (H : HeapAlgo) (s : TimerScheduler) (cb : Option Nat)
    (interval : Int) (nameID : String) (startDelay : Int) (now : Int) (addr : Nat) :
    ((s.addFunction H cb interval nameID startDelay now addr).1.isSome = true ↔
      (cb = none ∨ interval < 0 ∨ startDelay < 0 ∨
        (∃ p f, s.functionsMap_.find nameID = some p ∧ s.deref p = some f ∧
          f.isValid = true) ∨
        (∃ p f, s.currentFunction_ = some p ∧ s.deref p = some f ∧ f.name = nameID))) ∧
    ((∀ f ∈ s.objects, f.addr ≠ addr) →
      (s.addFunction H cb interval nameID startDelay now addr).1 = none →
      ∃ f ∈ (s.addFunction H cb interval nameID startDelay now addr).2.functions_,
        (s.addFunction H cb interval nameID startDelay now addr).2.functionsMap_.find nameID =
          some addr ∧
        (s.addFunction H cb interval nameID startDelay now addr).2.deref addr = some f ∧
        f.name = nameID ∧ f.cb = cb ∧ f.interval = interval ∧ f.startDelay = startDelay ∧
        f.runOnce = false) := by
  rw [← TimerScheduler.findValid_isSome_iff, ← TimerScheduler.currentNamed_isSome_iff]
  rcases TimerScheduler.addFunction_eq H s cb interval nameID startDelay now addr with
    ⟨hi, h⟩ | ⟨hi, h⟩
  · rw [h]
    exact ⟨⟨fun _ => Or.inr (Or.inl hi), fun _ => rfl⟩, fun _ hn => by cases hn⟩
  · rw [h]
    constructor
    · rw [TimerScheduler.addChecked_result]
      cases cb with
      | none => simp
      | some c =>
        by_cases h2 : startDelay < 0
        · simp [h2]
        by_cases h3 : (s.findValid nameID).isSome = true
        · simp [h2, h3]
        by_cases h4 : (s.currentNamed nameID).isSome = true
        · simp [h2, h3, h4]
        simp only [Option.isNone_some, Bool.false_eq_true, if_false, h2, h3, h4]
        constructor
        · intro hh; cases hh
        · rintro (hh | hh | hh | hh | hh)
          · cases hh
          · omega
          · cases hh
          · cases hh
          · cases hh
    · intro hfresh hok
      obtain ⟨_, _, _, _, g, l, ha, hn, hc, hsd, hro, hint, _, hl, _, heq⟩ :=
        TimerScheduler.addChecked_ok H s cb interval nameID startDelay false now addr hok
      rw [heq]
      have hg : g ∈ l := hl.mem_iff.mpr (by simp)
      refine ⟨g, hg, FunctionMap.find_assign_self _ _ _, ?_, hn, hc, hint, hsd, hro⟩
      generalize hs2 : TimerScheduler.mk s.thread_ s.running_ l
        (s.functionsMap_.assign nameID addr) s.currentFunction_ s.steady_
        s.cancellingCurrentFunction_ = s2
      have hobj : s2.objects = l ++ s.thread_.locals := by rw [← hs2]; rfl
      cases hd : s2.deref addr with
      | none =>
        have := (TimerScheduler.deref_eq_none _ _).mp hd g
          (by rw [hobj]; exact List.mem_append_left _ hg)
        exact absurd ha this
      | some x =>
        obtain ⟨hx, hxa⟩ := TimerScheduler.deref_mem _ _ _ hd
        have hx2 : x ∈ l ++ s.thread_.locals := hobj ▸ hx
        rcases List.mem_append.mp hx2 with hx3 | hx3
        · rcases List.mem_append.mp (hl.mem_iff.mp hx3) with hx4 | hx4
          · exact absurd hxa (hfresh x (s.mem_objects_of_mem x hx4))
          · have : x = g := by simpa using hx4
            rw [this]
        · exact absurd hxa (hfresh x (List.mem_append_right _ hx3))

theorem addFunction_contract_witness :
    (∀ f ∈ TimerScheduler.init.objects, f.addr ≠ 0) ∧
    (TimerScheduler.init.addFunction sortingHeap (some 7) 100 "tick" 5 0 0).1 = none ∧
    ∃ f ∈ (TimerScheduler.init.addFunction sortingHeap (some 7) 100 "tick" 5 0 0).2.functions_,
      (TimerScheduler.init.addFunction sortingHeap (some 7) 100 "tick" 5 0
        0).2.functionsMap_.find "tick" = some 0 ∧
      (TimerScheduler.init.addFunction sortingHeap (some 7) 100 "tick" 5 0 0).2.deref 0 =
        some f ∧
      f.name = "tick" ∧ f.cb = some 7 ∧ f.interval = 100 ∧ f.startDelay = 5 ∧
      f.runOnce = false :=
  ⟨by decide, by decide,
    (addFunction_contract sortingHeap TimerScheduler.init (some 7) 100 "tick" 5 0 0).2
      (by decide) (by decide)⟩

/-- C2: once `addFunction` or `addFunctionOnce` with the name `n` has
succeeded in a reachable state, every later `addFunction` and
`addFunctionOnce` with the name `n` throws (the duplicate-name exception when
its other arguments are valid), after any sequence of events - `start`,
`shutdown`, passes of the loop, callbacks ending, operations on other names -
that contains no cancellation of `n` and not the end of the callback of the
task when it runs once only. -/
theorem duplicate_name_rejected (H : HeapAlgo) (w : World) (hw : Reachable H w) (n : String)
    (es : List Event) :
    (∀ cb interval startDelay,
      (w.sched.addFunction H cb interval n startDelay w.clock w.nextAddr).1 = none →
      keepsNameAlong H n w.nextAddr (w.step H (.addFunction cb interval n startDelay)) es =
        true →
      RejectsName H n ((w.step H (.addFunction cb interval n startDelay)).exec H es).sched) ∧
    (∀ cb startDelay,
      (w.sched.addFunctionOnce H cb n startDelay w.clock w.nextAddr).1 = none →
      keepsNameAlong H n w.nextAddr (w.step H (.addFunctionOnce cb n startDelay)) es = true →
      RejectsName H n ((w.step H (.addFunctionOnce cb n startDelay)).exec H es).sched) := by
  constructor
  · intro cb interval startDelay hok hk
    have h1 := World.held_of_added H w _ cb interval n startDelay false (Or.inl ⟨rfl, rfl⟩)
      (World.step_addFunction_ne H w cb interval n startDelay hok)
    have hinv := World.inv_step H w (.addFunction cb interval n startDelay) hw.inv
    exact World.rejects_of_held H _ (World.inv_exec H _ es hinv) n w.nextAddr
      (World.held_exec H _ hinv n w.nextAddr es h1 hk)
  · intro cb startDelay hok hk
    have h1 := World.held_of_added H w _ cb 0 n startDelay true (Or.inr ⟨rfl, rfl, rfl⟩)
      (World.step_addFunctionOnce_ne H w cb n startDelay hok)
    have hinv := World.inv_step H w (.addFunctionOnce cb n startDelay) hw.inv
    exact World.rejects_of_held H _ (World.inv_exec H _ es hinv) n w.nextAddr
      (World.held_exec H _ hinv n w.nextAddr es h1 hk)

theorem duplicate_name_rejected_witness :
    (World.init.sched.addFunction sortingHeap (some 7) 100 "tick" 0 0 0).1 = none ∧
    keepsNameAlong sortingHeap "tick" 0
      (World.init.step sortingHeap (.addFunction (some 7) 100 "tick" 0)) busyRun = true ∧
    RejectsName sortingHeap "tick"
      ((World.init.step sortingHeap (.addFunction (some 7) 100 "tick" 0)).exec sortingHeap
        busyRun).sched :=
  ⟨by decide, by decide,
    (duplicate_name_rejected sortingHeap World.init Reachable.init "tick" busyRun).1
      (some 7) 100 0 (by decide) (by decide)⟩

/-- C3: a `cancelFunction(n)` or `cancelFunctionAndWait(n)` that returns true in
a reachable state has cancelled the task that is being executed, and then an
`addFunction` with the name `n`, a non-empty callback, a non-negative interval
and a non-negative start delay succeeds when it follows immediately, and also
after any further events that do not register `n`. When the task named `n`
waits in the heap instead, the call does not get as far as returning true: it
erases the node of the map and then reads `it->second` through the iterator to
the erased node, which is undefined behaviour. -/
theorem name_reusable_after_cancel (H : HeapAlgo) (w : World) (hw : Reachable H w)
    (n : String) :
    (∀ s2, w.sched.cancelFunction n = some (true, s2) →
      w.sched.cancelFunctionAndWait n = some (true, s2) ∧
      (w.sched.currentNamed n).isSome = true ∧
      (w.step H (.cancelFunction n)).sched = s2 ∧
      (w.step H (.cancelFunctionAndWait n)).sched = s2 ∧
      ∀ (c : Nat) (interval startDelay now : Int) (addr : Nat), 0 ≤ interval →
        0 ≤ startDelay →
        (s2.addFunction H (some c) interval n startDelay now addr).1 = none ∧
        ∀ es : List Event, (∀ e ∈ es, registers n e = false) →
          (((w.step H (.cancelFunction n)).exec H es).sched.addFunction H (some c) interval n
            startDelay now addr).1 = none) ∧
    (w.sched.currentNamed n = none → (w.sched.findValid n).isSome = true →
      w.sched.cancelFunction n = none ∧ w.sched.cancelFunctionAndWait n = none) := by
  constructor
  · intro s2 h
    cases h1 : w.sched.currentNamed n with
    | none =>
      exfalso
      cases h2 : w.sched.findValid n with
      | none =>
        rw [TimerScheduler.cancelFunction_absent _ n h1 h2] at h
        simp at h
      | some f =>
        rw [TimerScheduler.cancelFunction_idle _ n f h1 h2
          (hw.inv.wf.findValid_mem w.sched n f h1 h2).2] at h
        cases h
    | some F =>
      have hst := TimerScheduler.cancel_current _ n F h1
      rw [TimerScheduler.cancelFunction_current _ n F h1] at h
      have hs2 : (w.sched.cancelFunctionStale n).2 = s2 := by
        rw [hst]
        simpa using h
      have hret : (w.sched.cancelFunctionStale n).1 = true := by rw [hst]
      refine ⟨?_, rfl, hs2, hs2, ?_⟩
      · rw [TimerScheduler.cancelFunctionAndWait_same,
          TimerScheduler.cancelFunction_current _ n F h1]
        exact h
      · intro c interval startDelay now addr hi hd
        have h0 : (w.step H (.cancelFunction n)).sched.functionsMap_.find n = none :=
          World.not_held_of_cancel w hw.inv n hret
        have hinv1 := World.inv_step H w (.cancelFunction n) hw.inv
        have h3 := World.free_of_not_held H _ hinv1 n h0 c interval startDelay now addr hi hd
        refine ⟨?_, ?_⟩
        · rw [← hs2]
          exact h3
        · intro es hes
          exact World.free_of_not_held H _ (World.inv_exec H _ es hinv1) n
            (World.not_held_exec H _ es hinv1 n h0 hes) c interval startDelay now addr hi hd
  · intro h1 h2
    cases h3 : w.sched.findValid n with
    | none => rw [h3] at h2; cases h2
    | some f =>
      have hn := (hw.inv.wf.findValid_mem w.sched n f h1 h3).2
      exact ⟨TimerScheduler.cancelFunction_idle _ n f h1 h3 hn,
        TimerScheduler.cancelFunction_idle _ n f h1 h3 hn⟩

theorem name_reusable_after_cancel_witness :
    (idleWorld.sched.currentNamed "tick" = none ∧
      (idleWorld.sched.findValid "tick").isSome = true ∧
      idleWorld.sched.cancelFunction "tick" = none ∧
      idleWorld.sched.cancelFunctionAndWait "tick" = none) ∧
    (busyWorld.sched.cancelFunction "tick" =
        some (true, (busyWorld.step sortingHeap (.cancelFunction "tick")).sched) ∧
      ((busyWorld.step sortingHeap (.cancelFunction "tick")).sched.addFunction sortingHeap
        (some 8) 50 "tick" 0 1000 1).1 = none ∧
      (((busyWorld.step sortingHeap (.cancelFunction "tick")).exec sortingHeap
        [.tick 3000, .callbackEnds]).sched.addFunction sortingHeap (some 8) 50 "tick" 0 1000
          1).1 = none) :=
  ⟨⟨by decide, by decide,
      (name_reusable_after_cancel sortingHeap idleWorld
        (Reachable.after sortingHeap _ _ Reachable.init) "tick").2 (by decide) (by decide)⟩,
    ⟨by decide,
      (((name_reusable_after_cancel sortingHeap busyWorld
        (Reachable.after sortingHeap _ _ Reachable.init) "tick").1 _ (by decide)).2.2.2.2
          8 50 0 1000 1 (by decide) (by decide)).1,
      (((name_reusable_after_cancel sortingHeap busyWorld
        (Reachable.after sortingHeap _ _ Reachable.init) "tick").1
          (busyWorld.step sortingHeap (.cancelFunction "tick")).sched (by decide)).2.2.2.2
          8 50 0 1000 1 (by decide) (by decide)).2 [.tick 3000, .callbackEnds] (by decide)⟩⟩

/-- C4: in every reachable state `cancelFunction(n)` returns true if and only
if the current function is named `n`, and a second `cancelFunction(n)`
directly after it returns false. It returns false, changing nothing, if and
only if the current function is not named `n` and the map holds no valid task
under `n`. In the remaining case - the current function is not named `n` and
the map holds a valid task under `n` - it does not return true: its behaviour
is undefined, as it reads `it->second` through the iterator to the node it has
just erased. -/
theorem cancelFunction_result (H : HeapAlgo) (w : World) (hw : Reachable H w) (n : String) :
    ((∃ s2, w.sched.cancelFunction n = some (true, s2)) ↔
      ∃ p f, w.sched.currentFunction_ = some p ∧ w.sched.deref p = some f ∧ f.name = n) ∧
    (w.sched.cancelFunction n = some (false, w.sched) ↔
      (¬ ∃ p f, w.sched.currentFunction_ = some p ∧ w.sched.deref p = some f ∧ f.name = n) ∧
      ¬ ∃ p f, w.sched.functionsMap_.find n = some p ∧ w.sched.deref p = some f ∧
          f.isValid = true) ∧
    (w.sched.cancelFunction n = none ↔
      (¬ ∃ p f, w.sched.currentFunction_ = some p ∧ w.sched.deref p = some f ∧ f.name = n) ∧
      ∃ p f, w.sched.functionsMap_.find n = some p ∧ w.sched.deref p = some f ∧
          f.isValid = true) ∧
    (∀ s2, w.sched.cancelFunction n = some (true, s2) →
      (w.step H (.cancelFunction n)).sched = s2 ∧
      s2.cancelFunction n = some (false, s2)) := by
  rw [← TimerScheduler.findValid_isSome_iff, ← TimerScheduler.currentNamed_isSome_iff]
  cases h1 : w.sched.currentNamed n with
  | some F =>
    have hst := TimerScheduler.cancel_current _ n F h1
    have hret : (w.sched.cancelFunctionStale n).1 = true := by rw [hst]
    rw [TimerScheduler.cancelFunction_current _ n F h1]
    refine ⟨by simp, by simp, by simp, ?_⟩
    intro s2 h
    have hs2 : (w.sched.cancelFunctionStale n).2 = s2 := by
      rw [hst]
      simpa using h
    obtain ⟨h3, h4⟩ := TimerScheduler.cancel_frees w.sched hw.inv.wf n hret
    rw [hs2] at h3 h4
    exact ⟨hs2, TimerScheduler.cancelFunction_absent _ n h4 h3⟩
  | none =>
    cases h2 : w.sched.findValid n with
    | some f =>
      rw [TimerScheduler.cancelFunction_idle _ n f h1 h2
        (hw.inv.wf.findValid_mem w.sched n f h1 h2).2]
      refine ⟨by simp, by simp, by simp, ?_⟩
      intro s2 h
      cases h
    | none =>
      rw [TimerScheduler.cancelFunction_absent _ n h1 h2]
      refine ⟨by simp, by simp, by simp, ?_⟩
      intro s2 h
      simp at h

theorem cancelFunction_result_witness :
    ((∃ p f, idleWorld.sched.functionsMap_.find "tick" = some p ∧
        idleWorld.sched.deref p = some f ∧ f.isValid = true) ∧
      idleWorld.sched.currentFunction_ = none ∧
      idleWorld.sched.cancelFunction "tick" = none) ∧
    (busyWorld.sched.cancelFunction "tick" =
        some (true, (busyWorld.step sortingHeap (.cancelFunction "tick")).sched) ∧
      (busyWorld.step sortingHeap (.cancelFunction "tick")).sched.cancelFunction "tick" =
        some (false, (busyWorld.step sortingHeap (.cancelFunction "tick")).sched)) :=
  ⟨⟨⟨0, tickQueued, by decide, by decide, by decide⟩, by decide,
      (cancelFunction_result sortingHeap idleWorld
        (Reachable.after sortingHeap _ _ Reachable.init) "tick").2.2.1.mpr
        ⟨fun ⟨_, _, h, _⟩ => Option.noConfusion ((by decide :
            idleWorld.sched.currentFunction_ = none).symm.trans h),
          ⟨0, tickQueued, by decide, by decide, by decide⟩⟩⟩,
    ⟨by decide,
      ((cancelFunction_result sortingHeap busyWorld
        (Reachable.after sortingHeap _ _ Reachable.init) "tick").2.2.2 _ (by decide)).2⟩⟩

/-- C8 (as the spec has it, refuted): the lifecycle calls can raise. After
"tick" is added, the scheduler started and the locked block of a `shutdown()`
executed, the scheduler is stopped while `thread_` is still joinable: a
`start()` then assigns a new thread to `thread_` and the program terminates
instead of the call returning true. And a `shutdown()` called from the callback
of "tick" finds the scheduler running, clears the flag and then joins its own
thread: `join()` throws `std::system_error`. -/
theorem lifecycle_raises :
    ((World.init.exec sortingHeap
        [.addFunction (some 7) 100 "tick" 0, .start, .shutdown]).sched.running_ = false ∧
      (World.init.exec sortingHeap
        [.addFunction (some 7) 100 "tick" 0, .start, .shutdown]).sched.start sortingHeap 0 =
          none) ∧
    (busyWorld.sched.thread_ = .inCallback tickInFlight ∧
      busyWorld.sched.shutdown.1 = true ∧
      busyWorld.sched.shutdown.2.join .schedulerThread = .systemError) :=
  ⟨⟨by decide, by decide⟩, by decide, by decide, by decide⟩

/-- C8 (amended): `start()` returns false and changes nothing when the
scheduler is running. When it is stopped and `thread_` is not joinable (no
thread was started, or a `shutdown()` has joined it), `start()` returns true
and leaves the scheduler running, so that a second `start()` returns false;
when it is stopped and `thread_` is still joinable, `start()` terminates the
program. The locked block of `shutdown()` yields true exactly when the
scheduler was running, and then leaves it stopped, so that a second
`shutdown()` returns false; it yields false and changes nothing when the
scheduler was stopped. A `shutdown()` that yields true then joins the thread:
when the thread is at the loop, it leaves `run()` in its next pass and the
`join()` of another thread returns, after which `thread_` is not joinable,
`shutdown()` returns false and `start()` returns true again; when the call is
made from a callback, on the scheduler thread itself, `join()` throws
`std::system_error`. In a reachable state the `join()` of another thread never
throws. -/
theorem lifecycle_results (H : HeapAlgo) (s : TimerScheduler) (now now2 : Int) :
    (s.running_ = true → s.start H now = some (false, s)) ∧
    (s.running_ = false → s.thread_ = .notJoinable →
      ∃ s2, s.start H now = some (true, s2) ∧ s2.running_ = true ∧
        s2.start H now2 = some (false, s2)) ∧
    (s.running_ = false → s.thread_ ≠ .notJoinable → s.start H now = none) ∧
    (s.shutdown.1 = s.running_) ∧
    (s.running_ = true →
      s.shutdown.2.running_ = false ∧ s.shutdown.2.shutdown = (false, s.shutdown.2)) ∧
    (s.running_ = false → s.shutdown.2 = s) ∧
    (s.running_ = true → s.thread_ = .atLoop →
      (s.shutdown.2.runIteration H now).1 = .exit ∧
      ∃ s3, (s.shutdown.2.runIteration H now).2.join .otherThread = .joined s3 ∧
        s3.thread_ = .notJoinable ∧ s3.shutdown = (false, s3) ∧
        ∃ s4, s3.start H now2 = some (true, s4) ∧ s4.running_ = true) ∧
    (∀ F, s.thread_ = .inCallback F →
      s.shutdown.2.join .schedulerThread = .systemError ∧
      s.shutdown.2.join .otherThread = .waits) ∧
    (∀ w : World, Reachable H w → w.sched.running_ = true →
      w.sched.shutdown.2.join .otherThread ≠ .systemError) := by
  refine ⟨fun hr => TimerScheduler.start_running H s now hr, ?_,
    fun hr ht => TimerScheduler.start_terminates H s now hr ht, ?_, ?_, ?_, ?_, ?_, ?_⟩
  · intro hr ht
    refine ⟨_, TimerScheduler.start_stopped H s now hr ht, rfl, ?_⟩
    exact TimerScheduler.start_running H _ now2 rfl
  · cases hr : s.running_ with
    | true => rw [TimerScheduler.shutdown_running s hr]
    | false => rw [TimerScheduler.shutdown_stopped s hr]
  · intro hr
    rw [TimerScheduler.shutdown_running s hr]
    exact ⟨rfl, TimerScheduler.shutdown_stopped _ rfl⟩
  · intro hr
    rw [TimerScheduler.shutdown_stopped s hr]
  · intro hr ht
    rw [TimerScheduler.shutdown_running s hr]
    have hit : ({ s with running_ := false } : TimerScheduler).runIteration H now =
        (.exit, { s with running_ := false, thread_ := .returned }) := by
      simp [TimerScheduler.runIteration]
    rw [hit]
    refine ⟨rfl, { s with running_ := false, thread_ := .notJoinable }, rfl, rfl,
      TimerScheduler.shutdown_stopped _ rfl, _,
      TimerScheduler.start_stopped H _ now2 rfl rfl, rfl⟩
  · intro F ht
    cases hr : s.running_ with
    | true =>
      rw [TimerScheduler.shutdown_running s hr]
      simp [TimerScheduler.join, ht]
    | false =>
      rw [TimerScheduler.shutdown_stopped s hr]
      simp [TimerScheduler.join, ht]
  · intro w hw hr
    rw [TimerScheduler.shutdown_running _ hr]
    have hnj := (hw.inv.thread_running hr).1
    cases ht : w.sched.thread_ with
    | notJoinable => exact absurd ht hnj
    | atLoop => simp [TimerScheduler.join, ht]
    | inCallback F => simp [TimerScheduler.join, ht]
    | returned => simp [TimerScheduler.join, ht]

theorem lifecycle_results_witness :
    (∃ s2, TimerScheduler.init.start sortingHeap 0 = some (true, s2) ∧ s2.running_ = true ∧
      s2.start sortingHeap 5000 = some (false, s2)) ∧
    ((idleWorld.sched.shutdown.2.runIteration sortingHeap 0).1 = .exit ∧
      ∃ s3, (idleWorld.sched.shutdown.2.runIteration sortingHeap 0).2.join .otherThread =
          .joined s3 ∧
        s3.thread_ = .notJoinable ∧ s3.shutdown = (false, s3) ∧
        ∃ s4, s3.start sortingHeap 5000 = some (true, s4) ∧ s4.running_ = true) ∧
    (idleWorld.sched.shutdown.1 = true ∧
      idleWorld.sched.shutdown.2.shutdown = (false, idleWorld.sched.shutdown.2)) :=
  ⟨(lifecycle_results sortingHeap TimerScheduler.init 0 5000).2.1 (by decide) (by decide),
    (lifecycle_results sortingHeap idleWorld.sched 0 5000).2.2.2.2.2.2.1 (by decide)
      (by decide),
    by decide, ((lifecycle_results sortingHeap idleWorld.sched 0 5000).2.2.2.2.1
      (by decide)).2⟩

/-- C5: in a reachable state in which the valid task `f` named `n` waits in the
heap (it is registered and is not the current function), `cancelFunction(n)`
and `cancelFunctionAndWait(n)` do not cancel it with a defined result: after
`functionsMap_.erase(it->second->name)` they call `it->second->cancel()` through the
iterator to the erased node, which is undefined behaviour. In the state the
erase leaves - the last one the call reaches with defined behaviour - the
task is still in `functions_` with its callback, and a pass of the loop that
pops it when it is due invokes it. -/
theorem cancelled_idle_task_never_runs (H : HeapAlgo) (w : World) (hw : Reachable H w)
    (n : String) (f : RepeatFunc) (hidle : w.sched.currentNamed n = none)
    (hf : w.sched.findValid n = some f) :
    (w.sched.cancelFunction n = none ∧ w.sched.cancelFunctionAndWait n = none) ∧
    (f ∈ w.sched.functions_ ∧ f.name = n ∧ f.isValid = true ∧
      w.sched.functionsMap_.find n = some f.addr) ∧
    (f ∈ (w.sched.cancelFunctionErased f).functions_ ∧
      (w.sched.cancelFunctionErased f).functionsMap_.find n = none ∧
      ∀ now front, w.sched.running_ = true →
        H.pop_heap w.sched.functions_ = front ++ [f] → wrap64 (f.nextRunTime - now) < 0 →
        ((w.sched.cancelFunctionErased f).runIteration H now).1 = .invoked f) := by
  obtain ⟨hfm, hfn⟩ := hw.inv.wf.findValid_mem w.sched n f hidle hf
  obtain ⟨hfind, _, hv⟩ := w.sched.findValid_some n f hf
  subst hfn
  refine ⟨⟨TimerScheduler.cancelFunction_idle _ _ f hidle hf rfl,
    TimerScheduler.cancelFunction_idle _ _ f hidle hf rfl⟩, ⟨hfm, rfl, hv, hfind⟩, hfm,
    FunctionMap.find_erase_self _ _, ?_⟩
  intro now front hr hpop hd
  rw [(TimerScheduler.runIteration_popped H (w.sched.cancelFunctionErased f) now front f hr
    hpop).2.1 hv hd]

theorem cancelled_idle_task_never_runs_witness :
    (idleWorld.sched.currentNamed "tick" = none ∧
      idleWorld.sched.findValid "tick" = some tickQueued ∧
      idleWorld.sched.running_ = true ∧
      sortingHeap.pop_heap idleWorld.sched.functions_ = [] ++ [tickQueued]) ∧
    idleWorld.sched.cancelFunction "tick" = none ∧
    ((idleWorld.sched.cancelFunctionErased tickQueued).runIteration sortingHeap 1000).1 =
      .invoked tickQueued :=
  ⟨⟨by decide, by decide, by decide, by decide⟩,
    (cancelled_idle_task_never_runs sortingHeap idleWorld
      (Reachable.after sortingHeap _ _ Reachable.init) "tick" tickQueued (by decide)
      (by decide)).1.1,
    (cancelled_idle_task_never_runs sortingHeap idleWorld
      (Reachable.after sortingHeap _ _ Reachable.init) "tick" tickQueued (by decide)
      (by decide)).2.2.2.2 1000 [] (by decide) (by decide) (by decide)⟩

/-- C6: when the task named `n` is the current function of a reachable state
and is cancelled by `cancelFunction(n)` or `cancelFunctionAndWait(n)`, both
return true (with defined behaviour, leaving the state the event leads to); as
long as its callback has not ended the flag
`cancellingCurrentFunction_` stays set, so the wait in `cancelFunctionAndWait`
is not over; when the callback ends, `runOneFunction` leaves `functions_` as
it is (the task is not put back), clears the flag, and no live object is the
task any more; and the task is never invoked again, whatever events follow. -/
theorem cancelled_running_task_never_recurs (H : HeapAlgo) (w : World) (hw : Reachable H w)
    (n : String) (F : RepeatFunc) (hcur : w.sched.currentNamed n = some F)
    (e0 : Event) (he0 : e0 = .cancelFunction n ∨ e0 = .cancelFunctionAndWait n)
    (es1 : List Event) (hes1 : ∀ e ∈ es1, e ≠ .callbackEnds) (es2 : List Event) :
    (w.sched.cancelFunction n = some (true, (w.step H e0).sched) ∧
      w.sched.cancelFunctionAndWait n = some (true, (w.step H e0).sched)) ∧
    (((w.step H e0).exec H es1).sched.waitOver = false ∧
      (∃ F2, ((w.step H e0).exec H es1).sched.thread_ = .inCallback F2 ∧ F2.addr = F.addr) ∧
      ((w.step H e0).exec H es1).calls = w.calls) ∧
    ((((w.step H e0).exec H es1).step H .callbackEnds).sched.functions_ =
        ((w.step H e0).exec H es1).sched.functions_ ∧
      (((w.step H e0).exec H es1).step H .callbackEnds).sched.waitOver = true ∧
      (∀ f ∈ (((w.step H e0).exec H es1).step H .callbackEnds).sched.objects,
        f.addr ≠ F.addr)) ∧
    (∀ c ∈ World.callsSince w
        ((((w.step H e0).exec H es1).step H .callbackEnds).exec H es2),
      c.func.addr ≠ F.addr) := by
  have hstep : w.step H e0 = w.step H (.cancelFunction n) := by
    rcases he0 with rfl | rfl <;> rfl
  rw [hstep]
  have hret : w.sched.cancelFunction n =
      some (true, (w.step H (.cancelFunction n)).sched) := by
    rw [TimerScheduler.cancelFunction_current _ n F hcur]
    show _ = some (true, (w.sched.cancelFunctionStale n).2)
    rw [TimerScheduler.cancel_current _ n F hcur]
  have hinv1 := World.inv_step H w (.cancelFunction n) hw.inv
  have hc1 := World.cancelling_of_cancel H w hw.inv n F hcur
  obtain ⟨hc2, hcalls2⟩ := World.cancelling_exec H _ es1 F.addr hc1 hes1
  have hinv2 := World.inv_exec H _ es1 hinv1
  obtain ⟨hd3, hfun3, hflag3, _, hobj3, hcalls3⟩ := World.cancelling_end H _ hinv2 F.addr hc2
  have hinv3 := World.inv_step H _ .callbackEnds hinv2
  obtain ⟨_, new, hnew, hne⟩ := World.dead_exec H _ es2 hinv3 F.addr hd3
  refine ⟨⟨hret, hret⟩, ⟨?_, hc2.2.2.2, hcalls2⟩, ⟨hfun3, ?_, hobj3⟩, ?_⟩
  · simp [TimerScheduler.waitOver, hc2.2.2.1]
  · simp [TimerScheduler.waitOver, hflag3]
  · have hc0 : (w.step H (.cancelFunction n)).calls = w.calls := rfl
    rw [hcalls3, hcalls2, hc0] at hnew
    rw [World.callsSince_eq w _ new hnew]
    exact hne

theorem cancelled_running_task_never_recurs_witness :
    busyWorld.sched.currentNamed "tick" =
      some tickInFlight ∧
    (∀ e ∈ duringCallbackRun, e ≠ .callbackEnds) ∧
    (World.callsSince busyWorld
      ((((busyWorld.step sortingHeap (.cancelFunctionAndWait "tick")).exec sortingHeap
        duringCallbackRun).step sortingHeap .callbackEnds).exec sortingHeap
          afterCallbackRun)).length = 2 ∧
    (((busyWorld.step sortingHeap (.cancelFunctionAndWait "tick")).exec sortingHeap
        duringCallbackRun).sched.waitOver = false ∧
      (((busyWorld.step sortingHeap (.cancelFunctionAndWait "tick")).exec sortingHeap
        duringCallbackRun).step sortingHeap .callbackEnds).sched.waitOver = true) ∧
    (∀ c ∈ World.callsSince busyWorld
        ((((busyWorld.step sortingHeap (.cancelFunctionAndWait "tick")).exec sortingHeap
          duringCallbackRun).step sortingHeap .callbackEnds).exec sortingHeap
            afterCallbackRun),
      c.func.addr ≠ 0) :=
  ⟨by decide, by decide, by decide,
    ⟨(cancelled_running_task_never_recurs sortingHeap busyWorld
        (Reachable.after sortingHeap _ _ Reachable.init) "tick" tickInFlight (by decide)
        (.cancelFunctionAndWait "tick") (Or.inr rfl) duringCallbackRun (by decide)
        afterCallbackRun).2.1.1,
     (cancelled_running_task_never_recurs sortingHeap busyWorld
        (Reachable.after sortingHeap _ _ Reachable.init) "tick" tickInFlight (by decide)
        (.cancelFunctionAndWait "tick") (Or.inr rfl) duringCallbackRun (by decide)
        afterCallbackRun).2.2.1.2.1⟩,
    (cancelled_running_task_never_recurs sortingHeap busyWorld
      (Reachable.after sortingHeap _ _ Reachable.init) "tick" tickInFlight (by decide)
      (.cancelFunctionAndWait "tick") (Or.inr rfl) duringCallbackRun (by decide)
      afterCallbackRun).2.2.2⟩

/-- C7 (as the spec has it, refuted): a one-shot task with a start delay of
9223372036854776 microseconds, activated by a `start()` at the epoch, is
invoked by the pass of the loop that follows at once, at the time 0: the sum
of the activation time and the delay, in nanoseconds, is beyond the range of
the 64-bit time points. And the name of a one-shot task is not free after its
callback has ended when the task was cancelled during the callback and the
name registered anew: the registration of "once" is refused. -/
theorem oneShot_fires_early :
    ((World.init.exec sortingHeap longDelayOnceRun).calls.map
        (fun c => (c.func.name, c.func.startDelay, c.activatedAt, c.now)) =
      [("once", 9223372036854776, some 0, 0)]) ∧
    ((World.init.exec sortingHeap recycledNameRun).sched.thread_ =
        .inCallback { cb := some 7, interval := 0, nextRunTime := 1000, name := "once",
                      startDelay := 0, runOnce := true, addr := 0 } ∧
      ((World.init.exec sortingHeap recycledNameRun).step sortingHeap
        .callbackEnds).sched.currentFunction_ = none ∧
      (((World.init.exec sortingHeap recycledNameRun).step sortingHeap
        .callbackEnds).sched.addFunction sortingHeap (some 9) 100 "once" 0 2000 2).1 =
          some (.alreadyExists "once")) :=
  ⟨by decide, by decide, by decide, by decide⟩

/-- C7 (amended): a task added in a reachable state by a successful
`addFunctionOnce(cb, n, D)` is invoked at most once, whatever events follow;
an invocation of it runs the callback `cb` and, when its last activation time
plus `D` (in nanoseconds) is within the range of the time points, happens
after that time; and when the callback of its invocation ends, no live object
(in `functions_` or with the thread) and no map entry is the task, the current
function is empty, and the name `n` can be registered again if the task was
not cancelled during the invocation or, more generally, if the map holds no
other task under `n` by then. -/
theorem oneShot_fires_once (H : HeapAlgo) (w : World) (hw : Reachable H w)
    (cb : Option Nat) (n : String) (d : Int)
    (hok : (w.sched.addFunctionOnce H cb n d w.clock w.nextAddr).1 = none)
    (es : List Event) :
    World.invocations w.nextAddr
      (World.callsSince w ((w.step H (.addFunctionOnce cb n d)).exec H es)) ≤ 1 ∧
    (∀ c ∈ World.callsSince w ((w.step H (.addFunctionOnce cb n d)).exec H es),
      c.func.addr = w.nextAddr →
      c.func.name = n ∧ c.func.cb = cb ∧ c.func.runOnce = true ∧
      ∃ t, c.activatedAt = some t ∧ (t + d * 1000 ≤ INT64_MAX → t + d * 1000 < c.now)) ∧
    (∀ F, ((w.step H (.addFunctionOnce cb n d)).exec H es).sched.thread_ = .inCallback F →
      F.addr = w.nextAddr →
      (∀ f ∈ (((w.step H (.addFunctionOnce cb n d)).exec H es).step H
          .callbackEnds).sched.objects, f.addr ≠ w.nextAddr) ∧
      (∀ k p, (k, p) ∈ (((w.step H (.addFunctionOnce cb n d)).exec H es).step H
          .callbackEnds).sched.functionsMap_ → p ≠ w.nextAddr) ∧
      (((w.step H (.addFunctionOnce cb n d)).exec H es).step H
          .callbackEnds).sched.currentFunction_ = none ∧
      (((w.step H (.addFunctionOnce cb n d)).exec H es).sched.currentFunction_ ≠ none ∨
          (((w.step H (.addFunctionOnce cb n d)).exec H es).step H
            .callbackEnds).sched.functionsMap_.find n = none →
        ∀ (c : Nat) (interval d2 now : Int) (addr : Nat), 0 ≤ interval → 0 ≤ d2 →
          ((((w.step H (.addFunctionOnce cb n d)).exec H es).step H
            .callbackEnds).sched.addFunction H (some c) interval n d2 now addr).1 = none)) := by
  obtain ⟨g, ha, hn, hc, hsd, hro, h1⟩ := World.oneShot_of_added H w hw.inv cb n d hok
  have hinv1 := World.inv_step H w (.addFunctionOnce cb n d) hw.inv
  have h2 := World.oneShot_exec H _ es hinv1 g hro w.calls h1
  have hinv2 := World.inv_exec H _ es hinv1
  have hreach : Reachable H ((w.step H (.addFunctionOnce cb n d)).exec H es) :=
    Reachable.after H _ es (Reachable.step w _ hw)
  obtain ⟨new, hnew, hsame, hcount⟩ := h2.history
  rw [World.callsSince_eq w _ new hnew, ← ha]
  refine ⟨?_, ?_, ?_⟩
  · rcases hcount with h0 | ⟨h0, _⟩ <;> omega
  · intro c hcm hca
    obtain ⟨hs, hv⟩ := hsame c hcm hca
    have hmem : c ∈ ((w.step H (.addFunctionOnce cb n d)).exec H es).calls := by
      rw [hnew]; exact List.mem_append_left _ hcm
    obtain ⟨t, ht1, ht2⟩ := hreach.timeInv.calls c hmem
    refine ⟨hs.2.1.trans hn, ?_, hs.2.2.2.2.1.trans hro, t, ht1, ?_⟩
    · rcases hs.2.2.2.2.2 with h | h
      · exact h.trans hc
      · simp [RepeatFunc.isValid, h] at hv
    · rw [hs.2.2.1, hsd] at ht2
      exact ht2
  · intro F ht hFa
    obtain ⟨e1, e2, e3, e4⟩ := World.oneShot_end H _ hinv2 g hro w.calls h2 F ht hFa
    refine ⟨e1, e2, e3, ?_⟩
    intro hne c interval d2 now addr hi hd
    rcases hne with hne | hne
    · obtain ⟨f1, f2⟩ := e4 hne
      rw [hn] at f1 f2
      exact TimerScheduler.addFunction_ok_of_free H _ c interval n d2 now addr hi hd f1 f2
    · exact World.free_of_not_held H _ (World.inv_step H _ .callbackEnds hinv2) n hne c
        interval d2 now addr hi hd

theorem oneShot_fires_once_witness :
    (World.init.sched.addFunctionOnce sortingHeap (some 7) "incrementOnce" 100
      World.init.clock World.init.nextAddr).1 = none ∧
    ((World.init.step sortingHeap (.addFunctionOnce (some 7) "incrementOnce" 100)).exec
      sortingHeap singleRunBefore).sched.thread_ = .inCallback onceInFlight ∧
    onceInFlight.addr = World.init.nextAddr ∧
    World.invocations World.init.nextAddr (World.callsSince World.init
      ((World.init.step sortingHeap (.addFunctionOnce (some 7) "incrementOnce" 100)).exec
        sortingHeap singleRunAfter)) = 1 ∧
    World.invocations World.init.nextAddr (World.callsSince World.init
      ((World.init.step sortingHeap (.addFunctionOnce (some 7) "incrementOnce" 100)).exec
        sortingHeap singleRunAfter)) ≤ 1 ∧
    (((World.init.step sortingHeap (.addFunctionOnce (some 7) "incrementOnce" 100)).exec
        sortingHeap singleRunBefore).step sortingHeap .callbackEnds).sched.currentFunction_ =
      none ∧
    ((((World.init.step sortingHeap (.addFunctionOnce (some 7) "incrementOnce" 100)).exec
        sortingHeap singleRunBefore).step sortingHeap .callbackEnds).sched.addFunction
          sortingHeap (some 8) 10 "incrementOnce" 0 200000 1).1 = none :=
  ⟨by decide, by decide, by decide, by decide,
    (oneShot_fires_once sortingHeap World.init Reachable.init (some 7) "incrementOnce" 100
      (by decide) singleRunAfter).1,
    ((oneShot_fires_once sortingHeap World.init Reachable.init (some 7) "incrementOnce" 100
      (by decide) singleRunBefore).2.2 onceInFlight (by decide) (by decide)).2.2.1,
    ((oneShot_fires_once sortingHeap World.init Reachable.init (some 7) "incrementOnce" 100
      (by decide) singleRunBefore).2.2 onceInFlight (by decide) (by decide)).2.2.2
      (Or.inl (by decide)) 8 10 0 200000 1 (by decide) (by decide)⟩

/-- C9 (as the spec has it, refuted): the task "tick" with a start delay of
9223372036854776 microseconds, activated by a `start()` at the epoch, is
invoked by the pass of the loop that follows at once, at the time 0, long
before the delay has elapsed: the sum of the activation time and the delay, in
nanoseconds, is beyond the range of the 64-bit time points. -/
theorem startDelay_not_honoured :
    (World.init.exec sortingHeap longDelayRun).calls.map
        (fun c => (c.func.name, c.func.startDelay, c.activatedAt, c.now)) =
      [("tick", 9223372036854776, some 0, 0)] ∧
    ¬ (0 + 9223372036854776 * 1000 ≤ (0 : Int)) ∧
    INT64_MAX < 0 + 9223372036854776 * 1000 :=
  ⟨by decide, by decide, by decide⟩

/-- C9 (amended): the start delay is honoured whenever the activation time
plus the start delay is a time point. For every invocation in a reachable
state, the task had been activated before - by the last `start()` that
returned true while it was registered, or by its `addFunction` on a running
scheduler, whichever came last - and when that activation time plus the start
delay of the task (in nanoseconds) does not exceed `INT64_MAX`, the loop time
of the invocation is later than it. -/
theorem startDelay_honoured (H : HeapAlgo) (w : World) (hw : Reachable H w)
    (c : Call) (hc : c ∈ w.calls) :
    ∃ t, c.activatedAt = some t ∧
      (t + c.func.startDelay * 1000 ≤ INT64_MAX →
        t + c.func.startDelay * 1000 ≤ c.now ∧ t + c.func.startDelay * 1000 < c.now) := by
  obtain ⟨t, h1, h2⟩ := hw.timeInv.calls c hc
  exact ⟨t, h1, fun h3 => ⟨le_of_lt (h2 h3), h2 h3⟩⟩

theorem startDelay_honoured_witness :
    (fourthTaskCall ∈ (World.init.exec sortingHeap multipleFunctionsRun).calls ∧
      fourthTaskCall.activatedAt = some 151000 ∧
      151000 + fourthTaskCall.func.startDelay * 1000 ≤ INT64_MAX) ∧
    ∃ t, fourthTaskCall.activatedAt = some t ∧
      (t + fourthTaskCall.func.startDelay * 1000 ≤ INT64_MAX →
        t + fourthTaskCall.func.startDelay * 1000 ≤ fourthTaskCall.now ∧
        t + fourthTaskCall.func.startDelay * 1000 < fourthTaskCall.now) :=
  ⟨⟨by decide, by decide, by decide⟩,
    startDelay_honoured sortingHeap (World.init.exec sortingHeap multipleFunctionsRun)
      (Reachable.after sortingHeap _ _ Reachable.init) fourthTaskCall (by decide)⟩

/-- C10 (as the spec has it, refuted): the task "tick" with an interval of
9223372036854776 microseconds and no start delay is started at the epoch; one
microsecond later four passes of the loop invoke it four times, where the
bound `ceil(elapsed / T) + 1` is 2: the next run time the task gets, the time
of the pass plus the interval in nanoseconds, is beyond the range of the
64-bit time points and comes out as a time long past. -/
theorem invocations_exceed_bound :
    (((World.init.exec sortingHeap [.addFunction (some 7) longSpan "tick" 0, .start]).exec
        sortingHeap longIntervalRun).calls.map (fun c => (c.func.name, c.now)) =
      [("tick", 1000), ("tick", 1000), ("tick", 1000), ("tick", 1000)]) ∧
    World.invocationsUntil 0 (0 + 1000)
      (World.callsSince (World.init.exec sortingHeap [.addFunction (some 7) longSpan "tick" 0])
        ((World.init.exec sortingHeap [.addFunction (some 7) longSpan "tick" 0, .start]).exec
          sortingHeap longIntervalRun)) = 4 ∧
    ⌈((1000 : Int) : ℚ) / ((longSpan * 1000 : Int) : ℚ)⌉ + 1 = 2 := by
  refine ⟨by decide, by decide, ?_⟩
  have h : ⌈((1000 : Int) : ℚ) / ((longSpan * 1000 : Int) : ℚ)⌉ = 1 := by
    rw [Int.ceil_eq_iff]
    unfold longSpan
    constructor <;> norm_num
  rw [h]
  rfl

/-- C10 (amended): let a task with an interval of `T` microseconds and no
start delay be registered on a stopped scheduler in a reachable state, and let
`start()` take effect at the time `t0`. Whatever events follow without a
`shutdown()`, in strict mode and in steady mode, if `t0 + elapsed` plus the
interval (in nanoseconds) does not exceed `INT64_MAX`, the number `m` of
invocations of the task at loop times up to `t0 + elapsed` satisfies `m = 0`
or `(m - 1) * T < elapsed`, with `T` and `elapsed` in nanoseconds; hence, for
`T > 0`, it is at most `ceil(elapsed / T) + 1`. -/
theorem invocations_upper_bound (H : HeapAlgo) (w : World) (hw : Reachable H w)
    (f : RepeatFunc) (hf : f ∈ w.sched.functions_) (hstop : w.sched.running_ = false)
    (hthr : w.sched.thread_ = .notJoinable) (hd : f.startDelay = 0)
    (es : List Event) (hes : ∀ e ∈ es, e ≠ .shutdown) (elapsed : Int) (he : 0 ≤ elapsed)
    (hrep : w.clock + elapsed + f.interval * 1000 ≤ INT64_MAX) :
    w.sched.start H w.clock = some (true, (w.step H .start).sched) ∧
    (World.invocationsUntil f.addr (w.clock + elapsed)
        (World.callsSince w ((w.step H .start).exec H es)) = 0 ∨
      ((World.invocationsUntil f.addr (w.clock + elapsed)
        (World.callsSince w ((w.step H .start).exec H es)) : Int) - 1) * (f.interval * 1000) <
          elapsed) ∧
    (0 < f.interval →
      (World.invocationsUntil f.addr (w.clock + elapsed)
        (World.callsSince w ((w.step H .start).exec H es)) : Int) ≤
          ⌈(elapsed : ℚ) / ((f.interval * 1000 : Int) : ℚ)⌉ + 1) := by
  have h1 := World.paced_of_start H w hw.inv hw.timeInv f hf hstop hthr hd
  have h2 := World.paced_exec H _ es (World.inv_step H w .start hw.inv)
    (World.timeInv_step H w .start hw.inv hw.timeInv) f.addr w.clock
    f.interval w.calls h1 hes
  obtain ⟨new, hnew, hsp, _⟩ := h2.history
  rw [World.callsSince_eq w _ new hnew]
  have hT := (hw.inv.nonneg f (w.sched.mem_objects_of_mem f hf)).1
  have h3 := World.spaced_count f.addr w.clock f.interval elapsed hT hrep new hsp
  refine ⟨?_, h3, ?_⟩
  · rw [TimerScheduler.start_stopped H _ _ hstop hthr]
    simp only [World.step, TimerScheduler.start_stopped H _ _ hstop hthr]
  · intro hpos
    exact World.ceil_bound _ (f.interval * 1000) elapsed (by omega) he h3

theorem invocations_upper_bound_witness :
    (incrementTask ∈ singleFunctionWorld.sched.functions_ ∧
      singleFunctionWorld.sched.steady_ = false ∧
      (∀ e ∈ singleFunctionRun, e ≠ .shutdown) ∧
      World.invocationsUntil incrementTask.addr (singleFunctionWorld.clock + 350000)
        (World.callsSince singleFunctionWorld
          ((singleFunctionWorld.step sortingHeap .start).exec sortingHeap
            singleFunctionRun)) = 4 ∧
      (World.invocationsUntil incrementTask.addr (singleFunctionWorld.clock + 350000)
        (World.callsSince singleFunctionWorld
          ((singleFunctionWorld.step sortingHeap .start).exec sortingHeap
            singleFunctionRun)) : Int) ≤
        ⌈((350000 : Int) : ℚ) / ((incrementTask.interval * 1000 : Int) : ℚ)⌉ + 1) ∧
    (incrementTask ∈ steadyFunctionWorld.sched.functions_ ∧
      steadyFunctionWorld.sched.steady_ = true ∧
      (World.invocationsUntil incrementTask.addr (steadyFunctionWorld.clock + 350000)
        (World.callsSince steadyFunctionWorld
          ((steadyFunctionWorld.step sortingHeap .start).exec sortingHeap
            singleFunctionRun)) : Int) ≤
        ⌈((350000 : Int) : ℚ) / ((incrementTask.interval * 1000 : Int) : ℚ)⌉ + 1) :=
  ⟨⟨by decide, by decide, by decide, by decide,
      (invocations_upper_bound sortingHeap singleFunctionWorld
        (Reachable.after sortingHeap _ _ Reachable.init) incrementTask (by decide)
        (by decide) (by decide) (by decide) singleFunctionRun (by decide) 350000
        (by decide) (by decide)).2.2 (by decide)⟩,
    ⟨by decide, by decide,
      (invocations_upper_bound sortingHeap steadyFunctionWorld
        (Reachable.after sortingHeap _ _ Reachable.init) incrementTask (by decide)
        (by decide) (by decide) (by decide) singleFunctionRun (by decide) 350000
        (by decide) (by decide)).2.2 (by decide)⟩⟩

/-- C11 (as the spec has it, refuted): with the due task "tick" at the back of
`functions_`, a callback that throws an object whose type is not derived from
`std::exception` is not caught: the exception leaves `runOneFunction`, whereas
the call with a callback that returns normally yields a state. -/
theorem foreign_exception_escapes :
    dueWorld.sched.functions_.getLast? = some tickQueued ∧
    tickQueued.isValid = true ∧
    dueWorld.sched.runOneFunction sortingHeap dueWorld.clock .threwOther id = none ∧
    (dueWorld.sched.runOneFunction sortingHeap dueWorld.clock .returned id).isSome = true ∧
    dueWorld.sched.runOneFunction sortingHeap dueWorld.clock .threwOther id ≠
      dueWorld.sched.runOneFunction sortingHeap dueWorld.clock .returned id :=
  ⟨by decide, by decide, by decide, by decide, by decide⟩

/-- C11 (amended): a callback that fails with a `std::exception` never crashes
the scheduler or skips the rescheduling logic. Whatever the state, the time
and the actions of the other threads during the call, the exception does not
leave `runOneFunction`, and the scheduler afterwards is the one it would be
had the callback returned normally. An exception leaves `runOneFunction`
exactly when a callback was invoked and threw an object of another type. -/
theorem std_exception_contained (H : HeapAlgo) (s : TimerScheduler) (now : Int)
    (during : TimerScheduler → TimerScheduler) :
    (s.runOneFunction H now .threwStdException during).isSome = true ∧
    s.runOneFunction H now .threwStdException during =
      s.runOneFunction H now .returned during ∧
    (s.runOneFunction H now .returned during =
      match s.functions_.getLast? with
      | none => some s
      | some func =>
        if func.isValid then some ((during (s.runOneFunctionInvoke now)).runOneFunctionResume H)
        else some (s.runOneFunctionInvoke now)) ∧
    (∀ outcome, s.runOneFunction H now outcome during = none ↔
      outcome = .threwOther ∧ ∃ func, s.functions_.getLast? = some func ∧ func.isValid = true) := by
  unfold TimerScheduler.runOneFunction
  cases hl : s.functions_.getLast? with
  | none => simp
  | some func =>
    have hv : func.isValid = !func.cb.isNone := by
      unfold RepeatFunc.isValid
      cases func.cb <;> rfl
    by_cases hcb : func.cb.isNone = true
    · simp [hcb, hv, CallOutcome.reachesLock]
    · simp only [Bool.not_eq_true] at hcb
      refine ⟨?_, ?_, ?_, ?_⟩
      · simp [hcb, CallOutcome.reachesLock]
      · simp [hcb, CallOutcome.reachesLock]
      · simp [hcb, hv, CallOutcome.reachesLock]
      · intro outcome
        cases outcome <;> simp [hcb, hv, CallOutcome.reachesLock]

/-- C12 (as the spec has it, refuted): the task "tick" is registered with a
start delay of 9223372036854776 microseconds; after the `start()` at the time
0, which returns true, its `nextRunTime` is -9223372036854775616 and not
`now + startDelay`, which is 9223372036854776000 nanoseconds and beyond the
range of the 64-bit time points. -/
theorem start_reset_overflows :
    ∃ s2, (World.init.exec sortingHeap
        [.addFunction (some 7) 100 "tick" longSpan]).sched.start sortingHeap 0 =
          some (true, s2) ∧
      s2.functions_.map (fun f => (f.startDelay, f.nextRunTime)) =
        [(9223372036854776, -9223372036854775616)] ∧
      (0 : Int) + 9223372036854776 * 1000 ≠ -9223372036854775616 :=
  ⟨_, rfl, by decide, by decide⟩

/-- C12 (amended): a `start()` that returns true at the time `now` resets all
tasks and rebuilds the heap. Every task of `functions_` afterwards has as
`nextRunTime` the sum of `now` and its start delay in nanoseconds, reduced to
the 64-bit range, which is `now + startDelay` itself whenever that sum does
not exceed `INT64_MAX` (`now` not being before the epoch);
`functions_` is a rearrangement of the sequence before the call with every
task reset (the same objects, nothing but `nextRunTime` changed, the old value
being ignored); it is a heap for `RunTimeOrder`; and the scheduler is
running. -/
theorem start_resets_and_heapifies (H : HeapAlgo) (s s2 : TimerScheduler) (now : Int)
    (h : s.start H now = some (true, s2)) :
    (∀ t ∈ s2.functions_,
      t.nextRunTime = wrap64 (now + nanoseconds t.startDelay) ∧
      (0 ≤ now → 0 ≤ t.startDelay → now + t.startDelay * 1000 ≤ INT64_MAX →
        t.nextRunTime = now + t.startDelay * 1000)) ∧
    s2.functions_.Perm
      (s.functions_.map
        (fun f => { f with nextRunTime := wrap64 (now + nanoseconds f.startDelay) })) ∧
    (s2.functions_.map (fun f => f.addr)).Perm (s.functions_.map (fun f => f.addr)) ∧
    IsHeap s2.functions_ ∧
    (∀ i, ∀ hi : i < s2.functions_.length,
      (s2.functions_.get ⟨(i - 1) / 2, by omega⟩).nextRunTime ≤
        (s2.functions_.get ⟨i, hi⟩).nextRunTime) ∧
    s2.running_ = true ∧ s.running_ = false ∧ s.thread_ = .notJoinable := by
  have hr : s.running_ = false := by
    by_cases hrun : s.running_ = true
    · rw [TimerScheduler.start_running H s now hrun] at h
      simp at h
    · simpa using hrun
  have hthr : s.thread_ = .notJoinable := by
    by_cases ht : s.thread_ = .notJoinable
    · exact ht
    · rw [TimerScheduler.start_terminates H s now hr ht] at h
      cases h
  rw [TimerScheduler.start_stopped H s now hr hthr] at h
  have hs2 : s2 = { s with
      functions_ := H.make_heap (s.functions_.map (fun f => f.resetNextRunTime now))
      thread_ := .atLoop
      running_ := true } := by
    simpa using h.symm
  subst hs2
  have hperm := H.make_heap_perm (s.functions_.map (fun f => f.resetNextRunTime now))
  have hheap := H.make_heap_heap (s.functions_.map (fun f => f.resetNextRunTime now))
  refine ⟨?_, hperm, ?_, hheap, ?_, rfl, hr, hthr⟩
  · intro t ht
    have ht2 : t ∈ H.make_heap (s.functions_.map (fun f => f.resetNextRunTime now)) := ht
    obtain ⟨f, _, rfl⟩ := List.mem_map.mp (hperm.mem_iff.mp ht2)
    refine ⟨rfl, fun h0 hd hrep => ?_⟩
    exact wrap64_add_nanoseconds _ _ h0 hd hrep
  · have := hperm.map (fun f => f.addr)
    rw [List.map_map] at this
    exact this
  · intro i hi
    have := hheap i hi
    simpa [RunTimeOrder, RepeatFunc.getNextRunTime] using this

theorem start_resets_and_heapifies_witness :
    stoppedWorld.sched.functions_.map (fun f => f.nextRunTime) = [51000, 121000] ∧
    (∃ s2, stoppedWorld.sched.start sortingHeap 521000 = some (true, s2) ∧
      s2.functions_.map (fun f => f.nextRunTime) = [531000, 541000]) ∧
    ∀ s2, stoppedWorld.sched.start sortingHeap 521000 = some (true, s2) →
      IsHeap s2.functions_ :=
  ⟨by decide, ⟨_, rfl, by decide⟩,
    fun s2 h => (start_resets_and_heapifies sortingHeap stoppedWorld.sched s2 521000
      h).2.2.2.1⟩

/-- C13 (as the spec has it, refuted): the task "tick" with an interval of
9223372036854776 microseconds is started at the epoch and executed one
microsecond later. In steady mode its `nextRunTime` after the execution is
-9223372036854775616, not the previous `nextRunTime` (0) plus the interval; in
strict mode it is -9223372036854774616, not `now` (1000) plus the interval:
both sums, in nanoseconds, are beyond the range of the 64-bit time points. -/
theorem policy_sum_overflows :
    ((World.init.exec sortingHeap
        [.setSteady true, .addFunction (some 7) longSpan "tick" 0, .start, .tick 1000, .loop,
         .callbackEnds]).sched.functions_.map (fun f => (f.interval, f.nextRunTime)) =
      [(9223372036854776, -9223372036854775616)]) ∧
    ((World.init.exec sortingHeap
        [.setSteady false, .addFunction (some 7) longSpan "tick" 0, .start, .tick 1000, .loop,
         .callbackEnds]).sched.functions_.map (fun f => (f.interval, f.nextRunTime)) =
      [(9223372036854776, -9223372036854774616)]) ∧
    (0 : Int) + 9223372036854776 * 1000 ≠ -9223372036854775616 ∧
    (1000 : Int) + 9223372036854776 * 1000 ≠ -9223372036854774616 :=
  ⟨by decide, by decide, by decide, by decide⟩

/-- C13 (amended): `setSteady` selects the rescheduling policy. Let
`setSteady(b)` be called in a reachable state and let any events follow that
are no `setSteady`, up to a pass of the loop that executes the periodic task
`back` at the time `now` (the reading of the clock of that pass, before the
callback is called); let any events happen while the callback runs, and let
the task not be cancelled meanwhile. When the callback has ended, the task is
back in `functions_` with `nextRunTime` equal to its previous `nextRunTime`
plus its interval if `b` is true, and to `now` plus its interval if `b` is
false, the sum being taken in nanoseconds and reduced to the 64-bit range: it
is the exact sum whenever that does not exceed `INT64_MAX`. No other task's
`nextRunTime` changed: the pass leaves the rest of the heap as it is, and
every other task of `functions_` at the end is one of these with the same
`nextRunTime`, or was registered meanwhile. And as long as `setSteady` has
never been called, the policy is the strict one. -/
theorem steady_selects_policy (H : HeapAlgo) (w0 : World) (hw0 : Reachable H w0) (b : Bool)
    (es0 : List Event) (hes0 : ∀ e ∈ es0, ∀ b2, e ≠ .setSteady b2)
    (w : World) (hw : w = (w0.step H (.setSteady b)).exec H es0)
    (ht : w.sched.thread_ = .atLoop) (front : List RepeatFunc) (back : RepeatFunc)
    (hr : w.sched.running_ = true)
    (hpop : H.pop_heap w.sched.functions_ = front ++ [back])
    (hv : back.isValid = true) (hd : wrap64 (back.getNextRunTime - w.clock) < 0)
    (hper : back.runOnce = false)
    (es : List Event) (hes : ∀ e ∈ es, e ≠ .callbackEnds)
    (hnc : ((w.step H .loop).exec H es).sched.currentFunction_ ≠ none) :
    (w0.step H (.setSteady b)).sched = w0.sched.setSteady b ∧
    w.sched.steady_ = b ∧
    (w.step H .loop).calls = w.callOf back :: w.calls ∧
    (w.step H .loop).sched.functions_ = front ∧
    (∃ F ∈ (((w.step H .loop).exec H es).step H .callbackEnds).sched.functions_,
      F.sameTask back ∧
      F.getNextRunTime =
        (if b then wrap64 (back.getNextRunTime + nanoseconds back.interval)
         else wrap64 (w.clock + nanoseconds back.interval)) ∧
      (b = true → 0 ≤ back.getNextRunTime →
        back.getNextRunTime + back.interval * 1000 ≤ INT64_MAX →
        F.getNextRunTime = back.getNextRunTime + back.interval * 1000) ∧
      (b = false → w.clock + back.interval * 1000 ≤ INT64_MAX →
        F.getNextRunTime = w.clock + back.interval * 1000)) ∧
    (∀ f2 ∈ (((w.step H .loop).exec H es).step H .callbackEnds).sched.functions_,
      f2.addr ≠ back.addr →
      (∃ f1 ∈ front, f2.sameTask f1 ∧ f2.getNextRunTime = f1.getNextRunTime) ∨
      w.nextAddr ≤ f2.addr) ∧
    (∀ es1 : List Event, (∀ e ∈ es1, ∀ b2, e ≠ .setSteady b2) →
      (World.init.exec H es1).sched.steady_ = false) := by
  have hreach : Reachable H w := by
    rw [hw]
    exact Reachable.after H _ es0 (Reachable.step w0 _ hw0)
  have hsteady : w.sched.steady_ = b := by
    rw [hw, World.exec_steady_keep H _ es0 (World.inv_step H w0 _ hw0.inv) hes0]
    rfl
  have hstep := (World.step_loop_popped H w ht front back hr hpop).2.1 hv hd
  have hinv1 : (w.step H .loop).Inv := World.inv_step H w .loop hreach.inv
  have ht1 : (w.step H .loop).sched.thread_ = .inCallback (w.sched.advanced back w.clock) := by
    rw [hstep]
  have hf1 : (w.step H .loop).sched.functions_ = front := by rw [hstep]
  have hn1 : (w.step H .loop).nextAddr = w.nextAddr := by rw [hstep]
  obtain ⟨F2, ht2, hs2, hn2, hfun2⟩ := World.inflight_exec H _ es _ ht1 hes
  have hinv2 := World.inv_exec H _ es hinv1
  have hper2 : F2.runOnce = false := by
    rw [hs2.2.2.2.2.1, TimerScheduler.advanced_runOnce]
    exact hper
  have hmem := TimerScheduler.resume_mem H _ hinv2.wf F2 ht2 hnc hper2
  have hsame : F2.sameTask back :=
    RepeatFunc.sameTask_trans _ _ _ hs2 (TimerScheduler.sameTask_advanced _ _ _)
  have hbo : back ∈ w.sched.objects := by
    apply w.sched.mem_objects_of_mem
    have hperm : (front ++ [back]).Perm w.sched.functions_ := hpop ▸ H.pop_heap_perm _
    exact hperm.mem_iff.mp (by simp)
  have hnext : F2.nextRunTime =
      (if b then wrap64 (back.getNextRunTime + nanoseconds back.interval)
       else wrap64 (w.clock + nanoseconds back.interval)) := by
    rw [hn2, TimerScheduler.advanced_nextRunTime, hsteady]
    rfl
  refine ⟨rfl, hsteady, by rw [hstep], hf1,
    ⟨F2, (hmem F2).mpr (Or.inr rfl), hsame, hnext, ?_, ?_⟩, ?_, ?_⟩
  · intro hb h0 hrep
    show F2.nextRunTime = _
    rw [hnext, hb, if_pos rfl]
    exact wrap64_add_nanoseconds _ _ h0 (hreach.inv.nonneg back hbo).1 hrep
  · intro hb hrep
    show F2.nextRunTime = _
    rw [hnext, hb]
    exact wrap64_add_nanoseconds _ _ hreach.timeInv.clock.1 (hreach.inv.nonneg back hbo).1
      hrep
  · intro f2 hf2 hne
    rcases (hmem f2).mp hf2 with h | h
    · rw [hf1, hn1] at hfun2
      exact hfun2 f2 h
    · rw [h, hsame.1] at hne
      exact absurd rfl hne
  · intro es1 hes1
    rw [World.exec_steady_keep H _ es1 World.inv_init hes1]
    rfl

theorem steady_selects_policy_witness :
    (∃ F ∈ (((dueWorld.step sortingHeap .loop).exec sortingHeap duringTickRun).step
        sortingHeap .callbackEnds).sched.functions_,
      F.sameTask tickQueued ∧
      F.getNextRunTime =
        (if false then wrap64 (tickQueued.getNextRunTime + nanoseconds tickQueued.interval)
         else wrap64 (dueWorld.clock + nanoseconds tickQueued.interval)) ∧
      (false = true → 0 ≤ tickQueued.getNextRunTime →
        tickQueued.getNextRunTime + tickQueued.interval * 1000 ≤ INT64_MAX →
        F.getNextRunTime = tickQueued.getNextRunTime + tickQueued.interval * 1000) ∧
      (false = false → dueWorld.clock + tickQueued.interval * 1000 ≤ INT64_MAX →
        F.getNextRunTime = dueWorld.clock + tickQueued.interval * 1000)) ∧
    (∃ F ∈ (((steadyDueWorld.step sortingHeap .loop).exec sortingHeap duringTickRun).step
        sortingHeap .callbackEnds).sched.functions_,
      F.sameTask tickQueued ∧
      F.getNextRunTime =
        (if true then wrap64 (tickQueued.getNextRunTime + nanoseconds tickQueued.interval)
         else wrap64 (steadyDueWorld.clock + nanoseconds tickQueued.interval)) ∧
      (true = true → 0 ≤ tickQueued.getNextRunTime →
        tickQueued.getNextRunTime + tickQueued.interval * 1000 ≤ INT64_MAX →
        F.getNextRunTime = tickQueued.getNextRunTime + tickQueued.interval * 1000) ∧
      (true = false → steadyDueWorld.clock + tickQueued.interval * 1000 ≤ INT64_MAX →
        F.getNextRunTime = steadyDueWorld.clock + tickQueued.interval * 1000)) ∧
    (dueWorld.clock + tickQueued.interval * 1000 = 101000 ∧
      tickQueued.getNextRunTime + tickQueued.interval * 1000 = 100000) :=
  ⟨(steady_selects_policy sortingHeap
      (World.init.exec sortingHeap [.addFunction (some 7) 100 "tick" 0])
      (Reachable.after sortingHeap _ _ Reachable.init) false [.start, .tick 1000]
      (by decide) dueWorld (by decide) (by decide) [] tickQueued (by decide)
      (by decide) (by decide) (by decide) (by decide) duringTickRun (by decide)
      (by decide)).2.2.2.2.1,
    (steady_selects_policy sortingHeap
      (World.init.exec sortingHeap [.addFunction (some 7) 100 "tick" 0])
      (Reachable.after sortingHeap _ _ Reachable.init) true [.start, .tick 11000]
      (by decide) steadyDueWorld (by decide) (by decide) [] tickQueued (by decide)
      (by decide) (by decide) (by decide) (by decide) duringTickRun (by decide)
      (by decide)).2.2.2.2.1,
    by decide, by decide⟩

/-- C14 (as the spec has it, refuted): in the state `idleWorld` the popped
task "tick" is valid and `sleepTime = nextRunTime - now` is 0, yet the pass of
the loop does not execute it: it pushes the task back and waits. (The
difference is the one the source computes, a 64-bit number of nanoseconds.) -/
theorem due_now_not_executed :
    idleWorld.sched.thread_ = .atLoop ∧
    sortingHeap.pop_heap idleWorld.sched.functions_ = [] ++ [tickQueued] ∧
    tickQueued.isValid = true ∧
    wrap64 (tickQueued.getNextRunTime - idleWorld.clock) ≤ 0 ∧
    (idleWorld.sched.runIteration sortingHeap idleWorld.clock).1 = .sleep 0 ∧
    (idleWorld.step sortingHeap .loop).calls = idleWorld.calls ∧
    (idleWorld.step sortingHeap .loop).sched.thread_ = .atLoop :=
  ⟨by decide, by decide, by decide, by decide, by decide, by decide, by decide⟩

/-- C14 (amended): consider a pass of the loop on a running scheduler whose
popped task `back` is valid, and let `sleepTime = back.nextRunTime - now`, as
the source computes it (a 64-bit number of nanoseconds). If
`sleepTime < 0` the task is executed in that pass: it becomes the current
function, is handed to the thread with its next run time advanced, and the
invocation is recorded. Otherwise (`0 ≤ sleepTime`) the pass pushes the task
back unchanged, `functions_` being rearranged only, and executes nothing: no
invocation is recorded and nothing else in the state changes. -/
theorem due_task_executed (H : HeapAlgo) (w : World) (ht : w.sched.thread_ = .atLoop)
    (front : List RepeatFunc) (back : RepeatFunc) (hr : w.sched.running_ = true)
    (hpop : H.pop_heap w.sched.functions_ = front ++ [back]) (hv : back.isValid = true) :
    (wrap64 (back.getNextRunTime - w.clock) < 0 →
      (w.sched.runIteration H w.clock).1 = .invoked back ∧
      w.step H .loop = { w with
        sched := { w.sched with
          functions_ := front
          currentFunction_ := some back.addr
          thread_ := .inCallback (w.sched.advanced back w.clock) }
        calls := w.callOf back :: w.calls }) ∧
    (0 ≤ wrap64 (back.getNextRunTime - w.clock) →
      (w.sched.runIteration H w.clock).1 = .sleep (wrap64 (back.getNextRunTime - w.clock)) ∧
      w.step H .loop = { w with
        sched := { w.sched with functions_ := H.push_heap (front ++ [back]) } } ∧
      (H.push_heap (front ++ [back])).Perm w.sched.functions_ ∧
      back ∈ H.push_heap (front ++ [back]) ∧
      (w.step H .loop).calls = w.calls ∧
      (w.step H .loop).sched.thread_ = .atLoop) := by
  obtain ⟨_, h2, h3⟩ := TimerScheduler.runIteration_popped H w.sched w.clock front back hr hpop
  obtain ⟨_, s2, s3⟩ := World.step_loop_popped H w ht front back hr hpop
  constructor
  · intro hd
    exact ⟨by rw [h2 hv hd], s2 hv hd⟩
  · intro hd
    have hperm : (H.push_heap (front ++ [back])).Perm w.sched.functions_ := by
      have h := H.pop_heap_perm w.sched.functions_
      rw [hpop] at h
      exact (H.push_heap_perm (front ++ [back])).trans h
    refine ⟨by rw [h3 hv hd]; rfl, s3 hv hd, hperm, ?_, by rw [s3 hv hd], ?_⟩
    · exact (H.push_heap_perm (front ++ [back])).mem_iff.mpr (by simp)
    · rw [s3 hv hd]
      exact ht

theorem due_task_executed_witness :
    ((dueWorld.sched.runIteration sortingHeap dueWorld.clock).1 = .invoked tickQueued ∧
      dueWorld.step sortingHeap .loop = busyWorld) ∧
    (idleWorld.sched.runIteration sortingHeap idleWorld.clock).1 = .sleep 0 :=
  ⟨(due_task_executed sortingHeap dueWorld (by decide) [] tickQueued (by decide) (by decide)
      (by decide)).1 (by decide),
    ((due_task_executed sortingHeap idleWorld (by decide) [] tickQueued (by decide) (by decide)
      (by decide)).2 (by decide)).1⟩

/-- C15: heap order. In every reachable state in which the scheduler is
running, `functions_` is a heap for `RunTimeOrder`: the next run time of every
element is at least that of its parent, the element at index `(i - 1) / 2`. -/
theorem heap_order_invariant (H : HeapAlgo) (w : World) (hw : Reachable H w)
    (hr : w.sched.running_ = true) :
    IsHeap w.sched.functions_ ∧
    ∀ i, ∀ hi : i < w.sched.functions_.length,
      (w.sched.functions_.get ⟨(i - 1) / 2, by omega⟩).getNextRunTime ≤
        (w.sched.functions_.get ⟨i, hi⟩).getNextRunTime := by
  have hheap := hw.heap hr
  refine ⟨hheap, ?_⟩
  intro i hi
  have := hheap i hi
  simpa [RunTimeOrder] using this

theorem heap_order_invariant_witness :
    (World.init.exec sortingHeap multipleFunctionsRun).sched.functions_.length = 3 ∧
    IsHeap (World.init.exec sortingHeap multipleFunctionsRun).sched.functions_ :=
  ⟨by decide,
    (heap_order_invariant sortingHeap (World.init.exec sortingHeap multipleFunctionsRun)
      (Reachable.after sortingHeap _ _ Reachable.init) (by decide)).1⟩

/-- C16: name uniqueness is not kept by a cancellation of a task that waits in
the heap. In a reachable state in which the valid task `f` named `n` waits in
the heap, `cancelFunction(n)` erases the entry of `n` from the map and then
calls `cancel()` through the iterator to the erased node, which is undefined
behaviour. In the state the erase leaves, the last one the call reaches with
defined behaviour, `f` is still valid, and an `addFunction` with the name `n`
and valid arguments succeeds: `functions_` then holds two different valid
tasks named `n`. -/
theorem valid_names_unique (H : HeapAlgo) (w : World) (hw : Reachable H w) (n : String)
    (f : RepeatFunc) (hidle : w.sched.currentNamed n = none)
    (hf : w.sched.findValid n = some f)
    (c : Nat) (interval startDelay now : Int) (addr : Nat) (hi : 0 ≤ interval)
    (hd : 0 ≤ startDelay) (hfresh : ∀ g ∈ w.sched.objects, g.addr ≠ addr) :
    w.sched.cancelFunction n = none ∧
    ((w.sched.cancelFunctionErased f).addFunction H (some c) interval n startDelay now
      addr).1 = none ∧
    ∃ g, g ≠ f ∧ f.isValid = true ∧ g.isValid = true ∧ f.name = n ∧ g.name = n ∧
      f ∈ ((w.sched.cancelFunctionErased f).addFunction H (some c) interval n startDelay now
        addr).2.functions_ ∧
      g ∈ ((w.sched.cancelFunctionErased f).addFunction H (some c) interval n startDelay now
        addr).2.functions_ := by
  obtain ⟨hfm, hfn⟩ := hw.inv.wf.findValid_mem w.sched n f hidle hf
  obtain ⟨_, _, hv⟩ := w.sched.findValid_some n f hf
  subst hfn
  have h1 : (w.sched.cancelFunctionErased f).findValid f.name = none := by
    simp only [TimerScheduler.findValid, TimerScheduler.cancelFunctionErased,
      FunctionMap.find_erase_self]
  have h2 : (w.sched.cancelFunctionErased f).currentNamed f.name = none := hidle
  have hok := TimerScheduler.addFunction_ok_of_free H (w.sched.cancelFunctionErased f)
    c interval f.name startDelay now addr hi hd h1 h2
  refine ⟨TimerScheduler.cancelFunction_idle _ _ f hidle hf rfl, hok, ?_⟩
  rcases TimerScheduler.addFunction_eq H (w.sched.cancelFunctionErased f)
    (some c) interval f.name startDelay now addr with ⟨hi2, _⟩ | ⟨_, heq⟩
  · omega
  · rw [heq] at hok ⊢
    obtain ⟨_, _, _, _, g, l, ha, hn, hc, _, _, _, _, hl, _, hres⟩ :=
      TimerScheduler.addChecked_ok H _ (some c) interval f.name startDelay false now addr hok
    rw [hres]
    refine ⟨g, ?_, hv, ?_, rfl, hn, ?_, ?_⟩
    · intro hgf
      exact hfresh f (w.sched.mem_objects_of_mem f hfm) (hgf ▸ ha)
    · simp [RepeatFunc.isValid, hc]
    · exact hl.mem_iff.mpr (List.mem_append_left _ hfm)
    · exact hl.mem_iff.mpr (List.mem_append_right _ (List.mem_singleton_self g))

theorem valid_names_unique_witness :
    (idleWorld.sched.currentNamed "tick" = none ∧
      idleWorld.sched.findValid "tick" = some tickQueued) ∧
    idleWorld.sched.cancelFunction "tick" = none ∧
    ((idleWorld.sched.cancelFunctionErased tickQueued).addFunction sortingHeap (some 8) 50
      "tick" 0 0 1).2.functions_.map
        (fun g => (g.name, g.isValid, g.addr)) = [("tick", true, 0), ("tick", true, 1)] ∧
    ∃ g, g ≠ tickQueued ∧ tickQueued.isValid = true ∧ g.isValid = true ∧
      tickQueued.name = "tick" ∧ g.name = "tick" ∧
      tickQueued ∈ ((idleWorld.sched.cancelFunctionErased tickQueued).addFunction sortingHeap
        (some 8) 50 "tick" 0 0 1).2.functions_ ∧
      g ∈ ((idleWorld.sched.cancelFunctionErased tickQueued).addFunction sortingHeap
        (some 8) 50 "tick" 0 0 1).2.functions_ :=
  ⟨⟨by decide, by decide⟩, by decide, by decide,
    (valid_names_unique sortingHeap idleWorld (Reachable.after sortingHeap _ _ Reachable.init)
      "tick" tickQueued (by decide) (by decide) 8 50 0 0 1 (by decide) (by decide)
      (by decide)).2.2⟩

/-- C17: earliest due first. In every reachable state with the thread at the
loop head: when the pass of the loop executes a task (records an invocation),
that task was the first element of the heap `functions_` and its next run time
is at most that of every task in it; and when the popped task is invalid
(cancelled while it waited), the pass removes exactly that task - it was a
minimum as well - and changes nothing else: no invocation is recorded. -/
theorem earliest_due_first (H : HeapAlgo) (w : World) (hw : Reachable H w)
    (ht : w.sched.thread_ = .atLoop) :
    (∀ c, (w.step H .loop).calls = c :: w.calls →
      w.sched.functions_.head? = some c.func ∧
      (∀ f ∈ w.sched.functions_, c.func.getNextRunTime ≤ f.getNextRunTime) ∧
      w.sched.functions_.Perm (c.func :: (w.step H .loop).sched.functions_)) ∧
    (∀ front back, w.sched.running_ = true →
      H.pop_heap w.sched.functions_ = front ++ [back] → back.isValid = false →
      w.sched.functions_.head? = some back ∧
      (∀ f ∈ w.sched.functions_, back.getNextRunTime ≤ f.getNextRunTime) ∧
      w.sched.functions_.Perm (back :: front) ∧
      (w.sched.runIteration H w.clock).1 = .dropped back ∧
      w.step H .loop = { w with sched := { w.sched with functions_ := front } }) := by
  constructor
  · intro c hc
    rcases World.step_calls H w .loop with h | ⟨_, _, hr, front, back, hpop, _, _, _, hcalls, _, hfun⟩
    · rw [h] at hc
      exact absurd hc.symm (List.cons_ne_self _ _)
    · rw [hcalls] at hc
      have hcb : c.func = back := by
        have := (List.cons.inj hc).1
        rw [← this]
        rfl
      rw [hcb, hfun]
      exact TimerScheduler.popped_min H _ front back (hw.heap hr) hpop
  · intro front back hr hpop hv
    obtain ⟨h1, h2, h3⟩ := TimerScheduler.popped_min H _ front back (hw.heap hr) hpop
    refine ⟨h1, h2, h3, ?_, (World.step_loop_popped H w ht front back hr hpop).1 hv⟩
    rw [(TimerScheduler.runIteration_popped H w.sched w.clock front back hr hpop).1 hv]

theorem earliest_due_first_witness :
    (cancelledWorld.sched.functions_.head? = some tickCancelled ∧
      (∀ f ∈ cancelledWorld.sched.functions_,
        tickCancelled.getNextRunTime ≤ f.getNextRunTime) ∧
      cancelledWorld.sched.functions_.Perm (tickCancelled :: [tockQueued]) ∧
      (cancelledWorld.sched.runIteration sortingHeap cancelledWorld.clock).1 =
        .dropped tickCancelled ∧
      cancelledWorld.step sortingHeap .loop =
        { cancelledWorld with
          sched := { cancelledWorld.sched with functions_ := [tockQueued] } }) ∧
    (dueWorld.step sortingHeap .loop).calls = [dueWorld.callOf tickQueued] ∧
    dueWorld.sched.functions_.head? = some tickQueued :=
  ⟨(earliest_due_first sortingHeap cancelledWorld
      (Reachable.after sortingHeap _ _ Reachable.init) (by decide)).2
      [tockQueued] tickCancelled (by decide) (by decide) (by decide),
    by decide,
    ((earliest_due_first sortingHeap dueWorld
      (Reachable.after sortingHeap _ _ Reachable.init) (by decide)).1
      (dueWorld.callOf tickQueued) (by decide)).1⟩

/-- C18 (as the spec has it, refuted): in the reachable state `busyWorld` the
current function is set, the task "tick" being executed, and the map still
has the entry of the name "tick", pointing to that task. -/
theorem current_task_still_registered :
    Reachable sortingHeap busyWorld ∧
    busyWorld.sched.currentTask = some tickInFlight ∧
    tickInFlight.name = "tick" ∧
    ¬ (busyWorld.sched.functionsMap_.find "tick" = none) ∧
    busyWorld.sched.functionsMap_.find "tick" = some tickInFlight.addr :=
  ⟨Reachable.after sortingHeap _ _ Reachable.init, by decide, rfl, by decide, by decide⟩

/-- C18 (amended): while a task is executed as the current function it is held
outside `functions_` but not outside the map. In every reachable state in
which the current function is set, the thread owns that task, `functions_`
does not contain it (nor any object at its address), and the map has the
entry of the task's name, pointing to the task. -/
theorem current_task_outside_heap (H : HeapAlgo) (w : World) (hw : Reachable H w)
    (F : RepeatFunc) (hcur : w.sched.currentTask = some F) :
    w.sched.thread_ = .inCallback F ∧
    F ∉ w.sched.functions_ ∧
    (∀ f ∈ w.sched.functions_, f.addr ≠ F.addr) ∧
    w.sched.functionsMap_.find F.name = some F.addr ∧
    (F.name, F.addr) ∈ w.sched.functionsMap_ := by
  have hwf := hw.inv.wf
  obtain ⟨ht, hc⟩ := (TimerScheduler.currentTask_some _ hwf F).mp hcur
  obtain ⟨F2, ht2, _, _, hm, _⟩ := TimerScheduler.WF.current_deref _ hwf F.addr hc
  rw [ht] at ht2
  have : F = F2 := SchedThread.inCallback.inj ht2
  subst this
  have hnot := TimerScheduler.WF.thread_not_mem _ hwf F ht
  exact ⟨ht, fun hmem => hnot F hmem rfl, hnot, hm, FunctionMap.mem_of_find _ _ _ hm⟩

theorem current_task_outside_heap_witness :
    busyWorld.sched.currentTask = some tickInFlight ∧
    tickInFlight ∉ busyWorld.sched.functions_ ∧
    busyWorld.sched.functionsMap_.find "tick" = some 0 :=
  ⟨by decide,
    (current_task_outside_heap sortingHeap busyWorld
      (Reachable.after sortingHeap _ _ Reachable.init) tickInFlight (by decide)).2.1,
    (current_task_outside_heap sortingHeap busyWorld
      (Reachable.after sortingHeap _ _ Reachable.init) tickInFlight (by decide)).2.2.2.1⟩

/-- C19: registry consistency is not kept by a cancellation of a task that
waits in the heap. In a reachable state in which the valid task `f` named `n`
waits in the heap, the map holds the entry of `n`, pointing to `f`;
`cancelFunction(n)` and `cancelFunctionAndWait(n)` erase that entry and then
call `cancel()` through the iterator to the erased node, which is undefined
behaviour. In the state the erase leaves, the last one the call reaches with
defined behaviour, `f` is a valid task of `functions_` that has no map entry
under its name, and no map entry points to it. -/
theorem registry_consistent (H : HeapAlgo) (w : World) (hw : Reachable H w) (n : String)
    (f : RepeatFunc) (hidle : w.sched.currentNamed n = none)
    (hf : w.sched.findValid n = some f) :
    ((n, f.addr) ∈ w.sched.functionsMap_ ∧ w.sched.functionsMap_.find f.name = some f.addr) ∧
    (w.sched.cancelFunction n = none ∧ w.sched.cancelFunctionAndWait n = none) ∧
    (f ∈ (w.sched.cancelFunctionErased f).functions_ ∧
      f.isValid = true ∧
      (w.sched.cancelFunctionErased f).functionsMap_.find f.name = none ∧
      ∀ k p, (k, p) ∈ (w.sched.cancelFunctionErased f).functionsMap_ → p ≠ f.addr) := by
  obtain ⟨hfm, hfn⟩ := hw.inv.wf.findValid_mem w.sched n f hidle hf
  obtain ⟨hfind, _, hv⟩ := w.sched.findValid_some n f hf
  subst hfn
  refine ⟨⟨FunctionMap.mem_of_find _ _ _ hfind, hfind⟩,
    ⟨TimerScheduler.cancelFunction_idle _ _ f hidle hf rfl,
      TimerScheduler.cancelFunction_idle _ _ f hidle hf rfl⟩, hfm, hv, ?_, ?_⟩
  · exact FunctionMap.find_erase_self _ _
  · intro k p hm hp
    obtain ⟨hm1, hne⟩ : (k, p) ∈ w.sched.functionsMap_ ∧ k ≠ f.name :=
      (FunctionMap.mem_erase _ _ _).mp hm
    rcases hw.inv.wf.map_sound k p hm1 with ⟨g, hg, hga, hgn, _⟩ | ⟨F, ht, hc, _, hFn⟩
    · have hgf : g = f :=
        TimerScheduler.eq_of_addr_eq _ hw.inv.wf.nodup g f
          (w.sched.mem_objects_of_mem g hg) (w.sched.mem_objects_of_mem f hfm)
          (hga.trans hp)
      rw [hgf] at hgn
      exact hne hgn.symm
    · have hFm := w.sched.mem_objects_of_thread F ht
      obtain ⟨F2, ht2, hF2a, _, _, _⟩ := TimerScheduler.WF.current_deref _ hw.inv.wf p hc
      rw [ht] at ht2
      have hFF : F = F2 := SchedThread.inCallback.inj ht2
      have hFf : F = f :=
        TimerScheduler.eq_of_addr_eq _ hw.inv.wf.nodup F f hFm
          (w.sched.mem_objects_of_mem f hfm) (by rw [hFF, hF2a]; exact hp)
      exact hw.inv.wf.thread_not_mem w.sched F ht f hfm (by rw [hFf])

theorem registry_consistent_witness :
    (idleWorld.sched.currentNamed "tick" = none ∧
      idleWorld.sched.findValid "tick" = some tickQueued ∧
      idleWorld.sched.functionsMap_ = [("tick", 0)]) ∧
    idleWorld.sched.cancelFunction "tick" = none ∧
    tickQueued ∈ (idleWorld.sched.cancelFunctionErased tickQueued).functions_ ∧
    tickQueued.isValid = true ∧
    (idleWorld.sched.cancelFunctionErased tickQueued).functionsMap_.find tickQueued.name =
      none :=
  ⟨⟨by decide, by decide, by decide⟩,
    (registry_consistent sortingHeap idleWorld (Reachable.after sortingHeap _ _ Reachable.init)
      "tick" tickQueued (by decide) (by decide)).2.1.1,
    (registry_consistent sortingHeap idleWorld (Reachable.after sortingHeap _ _ Reachable.init)
      "tick" tickQueued (by decide) (by decide)).2.2.1,
    (registry_consistent sortingHeap idleWorld (Reachable.after sortingHeap _ _ Reachable.init)
      "tick" tickQueued (by decide) (by decide)).2.2.2.1,
    (registry_consistent sortingHeap idleWorld (Reachable.after sortingHeap _ _ Reachable.init)
      "tick" tickQueued (by decide) (by decide)).2.2.2.2.1⟩

/-- C20: a rejected registration is atomic. Whenever `addFunction` or
`addFunctionOnce` throws, the scheduler is exactly the one before the call
(`functions_` with every task in it, the map, the current function, the flags
and the thread); each of the five conditions - empty callback, negative
interval, negative start delay, name held by a valid task of the map, name of
the current function - makes the call throw; and the step of the execution
that makes the call leaves the whole state as it was. -/
theorem rejected_registration_atomic (H : HeapAlgo) (w : World) (cb : Option Nat)
    (interval : Int) (nameID : String) (startDelay : Int) (now : Int) (addr : Nat) :
    ((w.sched.addFunction H cb interval nameID startDelay now addr).1.isSome = true →
      (w.sched.addFunction H cb interval nameID startDelay now addr).2 = w.sched) ∧
    ((w.sched.addFunctionOnce H cb nameID startDelay now addr).1.isSome = true →
      (w.sched.addFunctionOnce H cb nameID startDelay now addr).2 = w.sched) ∧
    (cb.isNone = true ∨ interval < 0 ∨ startDelay < 0 ∨
        (w.sched.findValid nameID).isSome = true ∨ (w.sched.currentNamed nameID).isSome = true →
      (w.sched.addFunction H cb interval nameID startDelay now addr).1.isSome = true) ∧
    (cb.isNone = true ∨ startDelay < 0 ∨
        (w.sched.findValid nameID).isSome = true ∨ (w.sched.currentNamed nameID).isSome = true →
      (w.sched.addFunctionOnce H cb nameID startDelay now addr).1.isSome = true) ∧
    ((w.sched.addFunction H cb interval nameID startDelay w.clock w.nextAddr).1.isSome = true →
      w.step H (.addFunction cb interval nameID startDelay) = w) ∧
    ((w.sched.addFunctionOnce H cb nameID startDelay w.clock w.nextAddr).1.isSome = true →
      w.step H (.addFunctionOnce cb nameID startDelay) = w) := by
  have hchk : ∀ (fn : Int) (once : Bool) (t : Int) (a : Nat),
      (w.sched.addFunctionToHeapChecked H cb fn nameID startDelay once t a).1.isSome = true →
      (w.sched.addFunctionToHeapChecked H cb fn nameID startDelay once t a).2 = w.sched := by
    intro fn once t a h
    obtain ⟨e, he⟩ := Option.isSome_iff_exists.mp h
    exact TimerScheduler.addChecked_error H w.sched cb fn nameID startDelay once t a e he
  have hfail : ∀ (fn : Int) (once : Bool) (t : Int) (a : Nat),
      (cb.isNone = true ∨ startDelay < 0 ∨
        (w.sched.findValid nameID).isSome = true ∨ (w.sched.currentNamed nameID).isSome = true) →
      (w.sched.addFunctionToHeapChecked H cb fn nameID startDelay once t a).1.isSome = true := by
    intro fn once t a h
    rw [TimerScheduler.addChecked_result]
    split_ifs with h1 h2 h3 h4
    · rfl
    · rfl
    · rfl
    · rfl
    · rcases h with h | h | h | h
      · exact absurd h h1
      · exact absurd h h2
      · exact absurd h h3
      · exact absurd h h4
  have hadd : ∀ (t : Int) (a : Nat),
      (w.sched.addFunction H cb interval nameID startDelay t a).1.isSome = true →
      (w.sched.addFunction H cb interval nameID startDelay t a).2 = w.sched := by
    intro t a h
    rcases TimerScheduler.addFunction_eq H w.sched cb interval nameID startDelay t a with
      ⟨_, heq⟩ | ⟨_, heq⟩
    · rw [heq]
    · rw [heq] at h ⊢
      exact hchk interval false t a h
  have honce : ∀ (t : Int) (a : Nat),
      (w.sched.addFunctionOnce H cb nameID startDelay t a).1.isSome = true →
      (w.sched.addFunctionOnce H cb nameID startDelay t a).2 = w.sched := by
    intro t a h
    rw [TimerScheduler.addFunctionOnce_eq] at h ⊢
    exact hchk 0 true t a h
  have hstep : ∀ r : Option InvalidArgument × TimerScheduler,
      r.1.isSome = true → r.2 = w.sched → w.added r = w := by
    intro r h1 h2
    obtain ⟨e, he⟩ := Option.isSome_iff_exists.mp h1
    unfold World.added
    rw [he, h2]
  refine ⟨hadd now addr, honce now addr, ?_, ?_, ?_, ?_⟩
  · intro h
    rcases TimerScheduler.addFunction_eq H w.sched cb interval nameID startDelay now addr with
      ⟨_, heq⟩ | ⟨hi, heq⟩
    · rw [heq]
      rfl
    · rw [heq]
      apply hfail
      rcases h with h | h | h
      · exact Or.inl h
      · omega
      · exact Or.inr h
  · intro h
    rw [TimerScheduler.addFunctionOnce_eq]
    exact hfail 0 true now addr h
  · intro h
    exact hstep _ h (hadd _ _ h)
  · intro h
    exact hstep _ h (honce _ _ h)

theorem rejected_registration_atomic_witness :
    (busyWorld.sched.addFunction sortingHeap (some 8) 30 "tick" 0 5 9).1 =
      some (.alreadyExists "tick") ∧
    (busyWorld.sched.addFunction sortingHeap (some 8) 30 "tick" 0 5 9).2 = busyWorld.sched ∧
    (busyWorld.sched.addFunctionOnce sortingHeap none "tock" 0 5 9).2 = busyWorld.sched ∧
    busyWorld.step sortingHeap (.addFunction (some 8) (-1) "tock" 0) = busyWorld :=
  ⟨by decide,
    (rejected_registration_atomic sortingHeap busyWorld (some 8) 30 "tick" 0 5 9).1
      (by decide),
    (rejected_registration_atomic sortingHeap busyWorld none 0 "tock" 0 5 9).2.1 (by decide),
    (rejected_registration_atomic sortingHeap busyWorld (some 8) (-1) "tock" 0 5 9).2.2.2.2.1
      (by decide)⟩

/-- C21 (as the spec has it, refuted): in steady mode the task "tick" with an
interval of 9223372036854776 microseconds and no start delay is activated by
a `start()` at the epoch and invoked once, one microsecond later. Its
`nextRunTime` is then -9223372036854775616 and not `t0 + D + 1 * T`, which is
9223372036854776000 nanoseconds and beyond the range of the 64-bit time
points. -/
theorem steady_sum_overflows :
    (World.init.exec sortingHeap
      [.setSteady true, .addFunction (some 7) longSpan "tick" 0]).sched.steady_ = true ∧
    World.invocations 0 (World.callsSince
      (World.init.exec sortingHeap [.setSteady true, .addFunction (some 7) longSpan "tick" 0])
      (World.init.exec sortingHeap
        [.setSteady true, .addFunction (some 7) longSpan "tick" 0, .start, .tick 1000, .loop,
         .callbackEnds])) = 1 ∧
    ((World.init.exec sortingHeap
        [.setSteady true, .addFunction (some 7) longSpan "tick" 0, .start, .tick 1000, .loop,
         .callbackEnds]).sched.functions_.map
          (fun f => (f.addr, f.startDelay, f.interval, f.getNextRunTime)) =
      [(0, 0, 9223372036854776, -9223372036854775616)]) ∧
    (0 : Int) + 0 * 1000 + 1 * (9223372036854776 * 1000) ≠ -9223372036854775616 :=
  ⟨by decide, by decide, by decide, by decide⟩

/-- C21 (amended): steady mode has no drift within the range of the time
points. Let `steady_` be set in a reachable state in which the task at address
`a` with name `n`, interval `T` and start delay `D` (in microseconds) is
activated at the time `t0` (the clock of that state), by a `start()` that
takes effect or by a successful `addFunction` on a running scheduler, and let
any events follow that do not switch the policy off and contain no restart (no
`start()`, or no `shutdown()`). Then the task, wherever it is held, has as
`nextRunTime` the sum `t0 + D + k * T` in nanoseconds reduced to the 64-bit
range, where `k` is the number of its invocations since the activation,
whatever the times of these invocations were: `nextRunTime = t0 + D + k * T`
whenever that sum does not exceed `INT64_MAX`. And as long as the task is not
cancelled it is held, valid and under its name. -/
theorem steady_no_drift (H : HeapAlgo) (w : World) (hw : Reachable H w) (e0 : Event)
    (a : Nat) (n : String) (T D : Int) (hs : w.sched.steady_ = true)
    (hact : w.activates H e0 a n T D)
    (es : List Event) (hes : ∀ e ∈ es, e ≠ .setSteady false)
    (hno : (∀ e ∈ es, e ≠ .start) ∨ (∀ e ∈ es, e ≠ .shutdown)) :
    (∀ f ∈ ((w.step H e0).exec H es).sched.objects, f.addr = a →
      f.interval = T ∧ f.startDelay = D ∧
      f.getNextRunTime = wrap64 (w.clock + D * 1000 +
        (World.invocations a (World.callsSince w ((w.step H e0).exec H es)) : Int) *
          (T * 1000)) ∧
      (w.clock + D * 1000 +
        (World.invocations a (World.callsSince w ((w.step H e0).exec H es)) : Int) *
          (T * 1000) ≤ INT64_MAX →
        f.getNextRunTime = w.clock + D * 1000 +
          (World.invocations a (World.callsSince w ((w.step H e0).exec H es)) : Int) *
            (T * 1000))) ∧
    (keepsNameAlong H n a (w.step H e0) es = true →
      ∃ f ∈ ((w.step H e0).exec H es).sched.objects,
        f.addr = a ∧ f.name = n ∧ f.isValid = true) := by
  obtain ⟨h1, hrun, hheld⟩ := World.steadyPaced_of_activation H w hw.inv e0 a n T D hs hact
  have hinv1 := World.inv_step H w e0 hw.inv
  have h2 : World.SteadyPaced a w.clock D T w.calls ((w.step H e0).exec H es) := by
    rcases hno with hno | hno
    · exact World.steadyPaced_exec H _ es hinv1 a _ D T _ h1 hes hno
    · exact World.steadyPaced_exec_running H _ es hinv1 a _ D T _ h1 hrun hes hno
  have hinv2 := World.inv_exec H _ es hinv1
  constructor
  · obtain ⟨_, _, new, hnew, hobj⟩ := h2
    rw [World.callsSince_eq w _ new hnew]
    intro f hf ha
    obtain ⟨hi, hdl, hn⟩ := hobj f hf ha
    refine ⟨hi, hdl, hn, fun hrep => ?_⟩
    have hnn := hinv2.nonneg f hf
    rw [hi, hdl] at hnn
    have hk : 0 ≤ (World.invocations a new : Int) * (T * 1000) :=
      Int.mul_nonneg (Int.ofNat_nonneg _) (by omega)
    have h0 := hw.timeInv.clock.1
    show f.nextRunTime = _
    rw [hn]
    exact wrap64_eq _ (by unfold INT64_MIN; omega) hrep
  · intro hk
    have hfind := World.held_exec H _ hinv1 n a es hheld hk
    have hmem := FunctionMap.mem_of_find _ _ _ hfind
    rcases hinv2.wf.map_sound n a hmem with ⟨f, hf, ha, hn, hv⟩ | ⟨F, ht, hc, ha, hn⟩
    · exact ⟨f, TimerScheduler.mem_objects_of_mem _ f hf, ha, hn, hv⟩
    · obtain ⟨F2, ht2, _, hv2, _, _⟩ := TimerScheduler.WF.current_deref _ hinv2.wf a hc
      rw [ht] at ht2
      have : F = F2 := SchedThread.inCallback.inj ht2
      subst this
      exact ⟨F, TimerScheduler.mem_objects_of_thread _ F ht, ha, hn, hv2⟩

theorem steady_no_drift_witness :
    World.invocations 0 (World.callsSince steadyFunctionWorld
      ((steadyFunctionWorld.step sortingHeap .start).exec sortingHeap singleFunctionRun)) = 4 ∧
    (((steadyFunctionWorld.step sortingHeap .start).exec sortingHeap
      singleFunctionRun).calls.map (fun c => c.now)) = [304000, 203000, 101000, 1000] ∧
    (∃ f ∈ ((steadyFunctionWorld.step sortingHeap .start).exec sortingHeap
        singleFunctionRun).sched.objects,
      f.addr = 0 ∧ f.name = "increment" ∧ f.isValid = true) ∧
    (∀ f ∈ ((steadyFunctionWorld.step sortingHeap .start).exec sortingHeap
        singleFunctionRun).sched.objects, f.addr = 0 →
      f.interval = 100 ∧ f.startDelay = 0 ∧
      f.getNextRunTime = steadyFunctionWorld.clock + 0 * 1000 +
        (World.invocations 0 (World.callsSince steadyFunctionWorld
          ((steadyFunctionWorld.step sortingHeap .start).exec sortingHeap
            singleFunctionRun)) : Int) * (100 * 1000)) :=
  ⟨by decide, by decide,
    (steady_no_drift sortingHeap steadyFunctionWorld
      (Reachable.after sortingHeap _ _ Reachable.init) .start 0 "increment" 100 0 (by decide)
      (Or.inl ⟨rfl, by decide, by decide, incrementTask, by decide, rfl, rfl, by decide,
        rfl, rfl⟩)
      singleFunctionRun (by decide) (Or.inl (by decide))).2 (by decide),
    fun f hf ha =>
      ⟨((steady_no_drift sortingHeap steadyFunctionWorld
          (Reachable.after sortingHeap _ _ Reachable.init) .start 0 "increment" 100 0
          (by decide)
          (Or.inl ⟨rfl, by decide, by decide, incrementTask, by decide, rfl, rfl, by decide,
            rfl, rfl⟩)
          singleFunctionRun (by decide) (Or.inl (by decide))).1 f hf ha).1,
        ((steady_no_drift sortingHeap steadyFunctionWorld
          (Reachable.after sortingHeap _ _ Reachable.init) .start 0 "increment" 100 0
          (by decide)
          (Or.inl ⟨rfl, by decide, by decide, incrementTask, by decide, rfl, rfl, by decide,
            rfl, rfl⟩)
          singleFunctionRun (by decide) (Or.inl (by decide))).1 f hf ha).2.1,
        ((steady_no_drift sortingHeap steadyFunctionWorld
          (Reachable.after sortingHeap _ _ Reachable.init) .start 0 "increment" 100 0
          (by decide)
          (Or.inl ⟨rfl, by decide, by decide, incrementTask, by decide, rfl, rfl, by decide,
            rfl, rfl⟩)
          singleFunctionRun (by decide) (Or.inl (by decide))).1 f hf ha).2.2.2
          (by decide)⟩⟩

/-- C22 (as the spec has it, refuted): for the vector of length `2^31` with a
1 in front of zeros, `n - 1` is `INT_MAX`; the pivot ends at the last index
and the expression `i + 1` of the second recursive call overflows: the call
`quickSort(v, 0, n - 1)` yields no result, whatever the fuel. -/
theorem quickSort_overflow :
    ((1 :: List.replicate 2147483647 0 : List Int).length : Int) - 1 = INT_MAX ∧
    ¬ ∃ fuel v2, quickSort fuel (1 :: List.replicate 2147483647 0) 0 INT_MAX = some v2 := by
  constructor
  · rw [List.length_cons, List.length_replicate]
    rfl
  · rintro ⟨fuel, v2, h⟩
    have h2 := quickSort_max_first 2147483647 INT_MAX rfl (by decide) (by decide) fuel
    rw [h2] at h
    exact Option.noConfusion h

/-- C22 (amended): `quickSort` sorts every vector whose length `n` is at most
`INT_MAX`. With fuel above `n`, the call `quickSort(v, 0, n - 1)` returns (no
undefined behaviour, fuel not exhausted) and leaves a vector that is sorted in
non-decreasing order and a rearrangement of `v`; for `n = 0` the call, with
`r = -1`, leaves `v` as it is. -/
theorem quickSort_sorts (v : List Int) (fuel : Nat) (hn : (v.length : Int) ≤ INT_MAX)
    (hf : v.length < fuel) :
    (∃ v2, quickSort fuel v 0 ((v.length : Int) - 1) = some v2 ∧
      v2.Sorted (· ≤ ·) ∧ v2.Perm v) ∧
    (v.length = 0 → quickSort fuel v 0 (-1) = some v) := by
  constructor
  · obtain ⟨v2, h1, h2⟩ := quickSort_spec fuel v 0 ((v.length : Int) - 1) (le_refl _)
      (by omega) hn (by omega)
    exact ⟨v2, h1, sorted_of_valAt v2 (fun a b h3 h4 h5 =>
      h2.sorted a b h3 h4 (by rw [h2.len] at h5; exact h5)), h2.perm⟩
  · intro _
    cases fuel with
    | zero => omega
    | succ fuel =>
      simp only [quickSort]
      rw [if_pos (by omega)]

theorem quickSort_sorts_witness :
    quickSort 8 [3, 1, 2, 5, 4, 3, 3] 0 6 = some [1, 2, 3, 3, 3, 4, 5] ∧
    (∃ v2, quickSort 8 [3, 1, 2, 5, 4, 3, 3] 0
        ((([3, 1, 2, 5, 4, 3, 3] : List Int).length : Int) - 1) = some v2 ∧
      v2.Sorted (· ≤ ·) ∧ v2.Perm [3, 1, 2, 5, 4, 3, 3]) ∧
    quickSort 1 [] 0 (-1) = some [] :=
  ⟨by decide, (quickSort_sorts [3, 1, 2, 5, 4, 3, 3] 8 (by decide) (by decide)).1,
    (quickSort_sorts [] 1 (by decide) (by decide)).2 rfl⟩
